import Mathlib

/-! # Scene-graph entity system (`src/raylib/entity-system/entity.c`)

A shallow embedding of the entity hierarchy of `entity.c`: the intrusive sibling lists,
the two dirty bits, the lazily cached local and world matrices and the local/world
transform accessors.

* Pointers are `Option Nat`: `none` is `NULL`, `some i` is the address of slot `i` of the heap.
  A slot holds `some n` for an allocated `entity_t` and `none` once it has been released.
* Every operation returns an `Option`: `none` stands for a run that dereferences `NULL` or a
  released slot, or that exhausts the recursion fuel.
* Scalars are the elements of a linearly ordered field `K` (exact arithmetic).  The C math
  library and the two raymath routines built on case analyses of it are taken as a parameter
  `MathLib K`; the algebraic raymath routines are written out.
-/

set_option autoImplicit false

namespace EntitySystem

/-! ## raymath data types -/

/-- raylib `Vector3`. -/
structure Vector3 (K : Type) where
  x : K
  y : K
  z : K
deriving DecidableEq, Repr

/-- raylib `Quaternion` (a `Vector4`): `x y z` imaginary part, `w` real part. -/
structure Quaternion (K : Type) where
  x : K
  y : K
  z : K
  w : K
deriving DecidableEq, Repr

/-- raylib `Matrix`: 4x4, the fields in the declaration order of `raylib.h`
(`m0 m4 m8 m12 / m1 m5 m9 m13 / m2 m6 m10 m14 / m3 m7 m11 m15`); `m12 m13 m14` hold the
translation. -/
structure Matrix (K : Type) where
  m0 : K
  m4 : K
  m8 : K
  m12 : K
  m1 : K
  m5 : K
  m9 : K
  m13 : K
  m2 : K
  m6 : K
  m10 : K
  m14 : K
  m3 : K
  m7 : K
  m11 : K
  m15 : K
deriving DecidableEq, Repr

/-- The scalar routines of the C math library used by raymath and by `entity.c`
(`sqrtf`, `sinf`, `cosf`, `acosf`, `atan2f`), the constant `DEG2RAD`, and the two raymath
conversions `QuaternionFromMatrix` and `QuaternionFromEuler`.  They are external to the
repository and enter the model as parameters. -/
structure MathLib (K : Type) where
  sqrtf : K → K
  sinf : K → K
  cosf : K → K
  acosf : K → K
  atan2f : K → K → K
  DEG2RAD : K
  QuaternionFromMatrix : Matrix K → Quaternion K
  QuaternionFromEuler : K → K → K → Quaternion K

section raymath

variable {K : Type} [LinearOrderedField K]

/-- Modelled from the spec: raymath `Vector3Zero` (external math primitives). -/
def Vector3Zero : Vector3 K := ⟨0, 0, 0⟩

/-- Modelled from the spec: raymath `Vector3One` (external math primitives). -/
def Vector3One : Vector3 K := ⟨1, 1, 1⟩

/-- Modelled from the spec: raymath `Vector3Add` (external math primitives). -/
def Vector3Add (v1 v2 : Vector3 K) : Vector3 K := ⟨v1.x + v2.x, v1.y + v2.y, v1.z + v2.z⟩

/-- Modelled from the spec: raymath `Vector3Subtract` (external math primitives). -/
def Vector3Subtract (v1 v2 : Vector3 K) : Vector3 K := ⟨v1.x - v2.x, v1.y - v2.y, v1.z - v2.z⟩

/-- Modelled from the spec: raymath `Vector3Multiply`, the component-wise product
(external math primitives). -/
def Vector3Multiply (v1 v2 : Vector3 K) : Vector3 K := ⟨v1.x * v2.x, v1.y * v2.y, v1.z * v2.z⟩

/-- Modelled from the spec: raymath `Vector3Divide`, the component-wise quotient
(external math primitives). -/
def Vector3Divide (v1 v2 : Vector3 K) : Vector3 K := ⟨v1.x / v2.x, v1.y / v2.y, v1.z / v2.z⟩

/-- Modelled from the spec: raymath `Vector3Length` (external math primitives). -/
def Vector3Length (L : MathLib K) (v : Vector3 K) : K := L.sqrtf (v.x * v.x + v.y * v.y + v.z * v.z)

/-- Modelled from the spec: raymath `Vector3Transform`, the point `v` transformed by `mat`
(external math primitives). -/
def Vector3Transform (v : Vector3 K) (mat : Matrix K) : Vector3 K :=
  ⟨mat.m0 * v.x + mat.m4 * v.y + mat.m8 * v.z + mat.m12,
   mat.m1 * v.x + mat.m5 * v.y + mat.m9 * v.z + mat.m13,
   mat.m2 * v.x + mat.m6 * v.y + mat.m10 * v.z + mat.m14⟩

/-- Modelled from the spec: raymath `QuaternionIdentity` (external math primitives). -/
def QuaternionIdentity : Quaternion K := ⟨0, 0, 0, 1⟩

/-- Squared norm of a quaternion, `x*x + y*y + z*z + w*w`: the radicand of raymath
`QuaternionLength`. -/
def QuaternionLengthSqr (q : Quaternion K) : K := q.x * q.x + q.y * q.y + q.z * q.z + q.w * q.w

/-- Modelled from the spec: raymath `QuaternionLength` (external math primitives). -/
def QuaternionLength (L : MathLib K) (q : Quaternion K) : K := L.sqrtf (QuaternionLengthSqr q)

/-- Modelled from the spec: raymath `QuaternionNormalize`; a computed length of zero is replaced
by one before dividing (external math primitives). -/
def QuaternionNormalize (L : MathLib K) (q : Quaternion K) : Quaternion K :=
  let length := L.sqrtf (q.x * q.x + q.y * q.y + q.z * q.z + q.w * q.w)
  let length := if length = 0 then 1 else length
  let ilength := 1 / length
  ⟨q.x * ilength, q.y * ilength, q.z * ilength, q.w * ilength⟩

/-- Modelled from the spec: raymath `QuaternionInvert`; the conjugate divided by the squared
length, the input itself when that is zero (external math primitives). -/
def QuaternionInvert (L : MathLib K) (q : Quaternion K) : Quaternion K :=
  let length := QuaternionLength L q
  let lengthSq := length * length
  if lengthSq ≠ 0 then
    let i := 1 / lengthSq
    ⟨q.x * -i, q.y * -i, q.z * -i, q.w * i⟩
  else q

/-- Modelled from the spec: raymath `QuaternionMultiply`, the Hamilton product `q1 * q2`
(external math primitives). -/
def QuaternionMultiply (q1 q2 : Quaternion K) : Quaternion K :=
  ⟨q1.x * q2.w + q1.w * q2.x + q1.y * q2.z - q1.z * q2.y,
   q1.y * q2.w + q1.w * q2.y + q1.z * q2.x - q1.x * q2.z,
   q1.z * q2.w + q1.w * q2.z + q1.x * q2.y - q1.y * q2.x,
   q1.w * q2.w - q1.x * q2.x - q1.y * q2.y - q1.z * q2.z⟩

/-- Modelled from the spec: raymath `QuaternionToAxisAngle` (external math primitives).
Returns the pair `(axis, angle)` written through the two out-pointers. -/
def QuaternionToAxisAngle (L : MathLib K) (q : Quaternion K) : Vector3 K × K :=
  let q := if |q.w| > 1 then QuaternionNormalize L q else q
  let resAngle := 2 * L.acosf q.w
  let den := L.sqrtf (1 - q.w * q.w)
  if den > 1 / 10000 then (⟨q.x / den, q.y / den, q.z / den⟩, resAngle)
  else (⟨1, 0, 0⟩, resAngle)

/-- Modelled from the spec: raymath `MatrixIdentity` (external math primitives). -/
def MatrixIdentity : Matrix K :=
  { m0 := 1, m4 := 0, m8 := 0, m12 := 0,
    m1 := 0, m5 := 1, m9 := 0, m13 := 0,
    m2 := 0, m6 := 0, m10 := 1, m14 := 0,
    m3 := 0, m7 := 0, m11 := 0, m15 := 1 }

/-- Modelled from the spec: raymath `MatrixTranslate` (external math primitives). -/
def MatrixTranslate (x y z : K) : Matrix K :=
  { m0 := 1, m4 := 0, m8 := 0, m12 := x,
    m1 := 0, m5 := 1, m9 := 0, m13 := y,
    m2 := 0, m6 := 0, m10 := 1, m14 := z,
    m3 := 0, m7 := 0, m11 := 0, m15 := 1 }

/-- Modelled from the spec: raymath `MatrixScale` (external math primitives). -/
def MatrixScale (x y z : K) : Matrix K :=
  { m0 := x, m4 := 0, m8 := 0, m12 := 0,
    m1 := 0, m5 := y, m9 := 0, m13 := 0,
    m2 := 0, m6 := 0, m10 := z, m14 := 0,
    m3 := 0, m7 := 0, m11 := 0, m15 := 1 }

/-- Modelled from the spec: raymath `MatrixRotate`, the rotation by `angle` about `axis`,
the axis being normalized first unless its squared length is one or zero
(external math primitives). -/
def MatrixRotate (L : MathLib K) (axis : Vector3 K) (angle : K) : Matrix K :=
  let lengthSquared := axis.x * axis.x + axis.y * axis.y + axis.z * axis.z
  let ilength := if lengthSquared ≠ 1 ∧ lengthSquared ≠ 0 then 1 / L.sqrtf lengthSquared else 1
  let x := axis.x * ilength
  let y := axis.y * ilength
  let z := axis.z * ilength
  let sinres := L.sinf angle
  let cosres := L.cosf angle
  let t := 1 - cosres
  { m0 := x * x * t + cosres, m1 := y * x * t + z * sinres, m2 := z * x * t - y * sinres, m3 := 0,
    m4 := x * y * t - z * sinres, m5 := y * y * t + cosres, m6 := z * y * t + x * sinres, m7 := 0,
    m8 := x * z * t + y * sinres, m9 := y * z * t - x * sinres, m10 := z * z * t + cosres, m11 := 0,
    m12 := 0, m13 := 0, m14 := 0, m15 := 1 }

/-- Modelled from the spec: raymath `MatrixMultiply(left, right)` (external math primitives);
entry `4*i + j` of the result is the sum over `k` of `left[4*i + k] * right[4*k + j]`. -/
def MatrixMultiply (left right : Matrix K) : Matrix K :=
  { m0 := left.m0 * right.m0 + left.m1 * right.m4 + left.m2 * right.m8 + left.m3 * right.m12,
    m1 := left.m0 * right.m1 + left.m1 * right.m5 + left.m2 * right.m9 + left.m3 * right.m13,
    m2 := left.m0 * right.m2 + left.m1 * right.m6 + left.m2 * right.m10 + left.m3 * right.m14,
    m3 := left.m0 * right.m3 + left.m1 * right.m7 + left.m2 * right.m11 + left.m3 * right.m15,
    m4 := left.m4 * right.m0 + left.m5 * right.m4 + left.m6 * right.m8 + left.m7 * right.m12,
    m5 := left.m4 * right.m1 + left.m5 * right.m5 + left.m6 * right.m9 + left.m7 * right.m13,
    m6 := left.m4 * right.m2 + left.m5 * right.m6 + left.m6 * right.m10 + left.m7 * right.m14,
    m7 := left.m4 * right.m3 + left.m5 * right.m7 + left.m6 * right.m11 + left.m7 * right.m15,
    m8 := left.m8 * right.m0 + left.m9 * right.m4 + left.m10 * right.m8 + left.m11 * right.m12,
    m9 := left.m8 * right.m1 + left.m9 * right.m5 + left.m10 * right.m9 + left.m11 * right.m13,
    m10 := left.m8 * right.m2 + left.m9 * right.m6 + left.m10 * right.m10 + left.m11 * right.m14,
    m11 := left.m8 * right.m3 + left.m9 * right.m7 + left.m10 * right.m11 + left.m11 * right.m15,
    m12 := left.m12 * right.m0 + left.m13 * right.m4 + left.m14 * right.m8 + left.m15 * right.m12,
    m13 := left.m12 * right.m1 + left.m13 * right.m5 + left.m14 * right.m9 + left.m15 * right.m13,
    m14 := left.m12 * right.m2 + left.m13 * right.m6 + left.m14 * right.m10 + left.m15 * right.m14,
    m15 := left.m12 * right.m3 + left.m13 * right.m7 + left.m14 * right.m11 + left.m15 * right.m15 }

/-- Modelled from the spec: raymath `MatrixDeterminant` (external math primitives), written
with the twelve 2x2 minors that `MatrixInvert` uses. -/
def MatrixDeterminant (mat : Matrix K) : K :=
  let b00 := mat.m0 * mat.m5 - mat.m1 * mat.m4
  let b01 := mat.m0 * mat.m6 - mat.m2 * mat.m4
  let b02 := mat.m0 * mat.m7 - mat.m3 * mat.m4
  let b03 := mat.m1 * mat.m6 - mat.m2 * mat.m5
  let b04 := mat.m1 * mat.m7 - mat.m3 * mat.m5
  let b05 := mat.m2 * mat.m7 - mat.m3 * mat.m6
  let b06 := mat.m8 * mat.m13 - mat.m9 * mat.m12
  let b07 := mat.m8 * mat.m14 - mat.m10 * mat.m12
  let b08 := mat.m8 * mat.m15 - mat.m11 * mat.m12
  let b09 := mat.m9 * mat.m14 - mat.m10 * mat.m13
  let b10 := mat.m9 * mat.m15 - mat.m11 * mat.m13
  let b11 := mat.m10 * mat.m15 - mat.m11 * mat.m14
  b00 * b11 - b01 * b10 + b02 * b09 + b03 * b08 - b04 * b07 + b05 * b06

/-- Modelled from the spec: raymath `MatrixInvert`, the adjugate times the reciprocal of the
determinant (external math primitives). -/
def MatrixInvert (mat : Matrix K) : Matrix K :=
  let a00 := mat.m0
  let a01 := mat.m1
  let a02 := mat.m2
  let a03 := mat.m3
  let a10 := mat.m4
  let a11 := mat.m5
  let a12 := mat.m6
  let a13 := mat.m7
  let a20 := mat.m8
  let a21 := mat.m9
  let a22 := mat.m10
  let a23 := mat.m11
  let a30 := mat.m12
  let a31 := mat.m13
  let a32 := mat.m14
  let a33 := mat.m15
  let b00 := a00 * a11 - a01 * a10
  let b01 := a00 * a12 - a02 * a10
  let b02 := a00 * a13 - a03 * a10
  let b03 := a01 * a12 - a02 * a11
  let b04 := a01 * a13 - a03 * a11
  let b05 := a02 * a13 - a03 * a12
  let b06 := a20 * a31 - a21 * a30
  let b07 := a20 * a32 - a22 * a30
  let b08 := a20 * a33 - a23 * a30
  let b09 := a21 * a32 - a22 * a31
  let b10 := a21 * a33 - a23 * a31
  let b11 := a22 * a33 - a23 * a32
  let invDet := 1 / (b00 * b11 - b01 * b10 + b02 * b09 + b03 * b08 - b04 * b07 + b05 * b06)
  { m0 := (a11 * b11 - a12 * b10 + a13 * b09) * invDet,
    m1 := (-a01 * b11 + a02 * b10 - a03 * b09) * invDet,
    m2 := (a31 * b05 - a32 * b04 + a33 * b03) * invDet,
    m3 := (-a21 * b05 + a22 * b04 - a23 * b03) * invDet,
    m4 := (-a10 * b11 + a12 * b08 - a13 * b07) * invDet,
    m5 := (a00 * b11 - a02 * b08 + a03 * b07) * invDet,
    m6 := (-a30 * b05 + a32 * b02 - a33 * b01) * invDet,
    m7 := (a20 * b05 - a22 * b02 + a23 * b01) * invDet,
    m8 := (a10 * b10 - a11 * b08 + a13 * b06) * invDet,
    m9 := (-a00 * b10 + a01 * b08 - a03 * b06) * invDet,
    m10 := (a30 * b04 - a31 * b02 + a33 * b00) * invDet,
    m11 := (-a20 * b04 + a21 * b02 - a23 * b00) * invDet,
    m12 := (-a10 * b09 + a11 * b07 - a12 * b06) * invDet,
    m13 := (a00 * b09 - a01 * b07 + a02 * b06) * invDet,
    m14 := (-a30 * b03 + a31 * b01 - a32 * b00) * invDet,
    m15 := (a20 * b03 - a21 * b01 + a22 * b00) * invDet }

end raymath


/-! ## Data model of `entity.c` -/

/-- `tform_space_t`: the space selector of the transform accessors. -/
inductive tform_space_t where
  | TFORM_LOCAL
  | TFORM_WORLD
deriving DecidableEq, Repr

/-- `TFORM_DIRTY_LOCAL` of `tform_dirty_t`. -/
def TFORM_DIRTY_LOCAL : Nat := 1

/-- `TFORM_DIRTY_WORLD` of `tform_dirty_t`. -/
def TFORM_DIRTY_WORLD : Nat := 2

/-- The C operator `~` on a 32-bit flag word. -/
def bit_not (x : Nat) : Nat := 4294967295 - x

/-- `tform_t`: rotation, position, scale and the cached composed matrix. -/
structure tform_t (K : Type) where
  rot : Quaternion K
  pos : Vector3 K
  scale : Vector3 K
  mat : Matrix K
deriving DecidableEq, Repr

/-- `entity_t`.  The field `local` of the C struct is written `loc` (`local` is reserved);
`dirty` is the flag word of `tform_dirty_t` bits. -/
structure entity_t (K : Type) where
  parent : Option Nat
  children : Option Nat
  succ : Option Nat
  pred : Option Nat
  last_child : Option Nat
  visible : Bool
  enabled : Bool
  name : Option String
  dirty : Nat
  loc : tform_t K
  world : tform_t K
deriving DecidableEq, Repr

/-- The program state: the heap of entity slots and the two file-scope list pointers
`entity_orphans` and `entity_last_orphan`. -/
structure State (K : Type) where
  heap : List (Option (entity_t K))
  entity_orphans : Option Nat
  entity_last_orphan : Option Nat
deriving DecidableEq, Repr

section model

variable {K : Type} [LinearOrderedField K]

/-- The state at program start: nothing allocated, both list pointers `NULL`. -/
def State.init : State K := ⟨[], none, none⟩

/-- Dereference address `i`: the entity stored there, `none` for an address that was never
allocated or has been released. -/
def State.node (s : State K) (i : Nat) : Option (entity_t K) := (s.heap.get? i).join

/-- Overwrite the slot at address `i`. -/
def State.store (s : State K) (i : Nat) (n : entity_t K) : State K :=
  { s with heap := s.heap.set i (some n) }

/-- One assignment through a pointer, `i->field = ...`: read the entity at `i` and write back
`f` of it.  Fails when `i` is not allocated. -/
def State.modify (s : State K) (i : Nat) (f : entity_t K → entity_t K) : Option (State K) :=
  (s.node i).map (fun n => s.store i (f n))

/-- The assignment `entity_orphans = v`. -/
def State.set_orphans (s : State K) (v : Option Nat) : State K := { s with entity_orphans := v }

/-- The assignment `entity_last_orphan = v`. -/
def State.set_last_orphan (s : State K) (v : Option Nat) : State K :=
  { s with entity_last_orphan := v }

/-- The all-zero `tform_t`. -/
def tform_zero : tform_t K :=
  ⟨⟨0, 0, 0, 0⟩, ⟨0, 0, 0⟩, ⟨0, 0, 0⟩,
   ⟨0, 0, 0, 0, 0, 0, 0, 0, 0, 0, 0, 0, 0, 0, 0, 0⟩⟩

/-- raylib `MemAlloc` (a `calloc`): a fresh zero-filled slot at the end of the heap; returns the
new state and the address.  Allocation failure, on which `create_entity` exits, is not
modelled. -/
def MemAlloc (s : State K) : State K × Nat :=
  ({ s with heap := s.heap ++ [some ⟨none, none, none, none, none, false, false, none, 0,
      tform_zero, tform_zero⟩] }, s.heap.length)

/-- raylib `MemFree`: release the slot at address `i`; releasing an address that is not
allocated fails. -/
def MemFree (s : State K) (i : Nat) : Option (State K) :=
  (s.node i).map (fun _ => { s with heap := s.heap.set i none })

/-! ## Private functions -/

/-- `entity_insert` (entity.c:266). -/
def entity_insert (s : State K) : Option Nat → Option (State K)
  | none => some s
  | some e => do
    let s ← s.modify e (fun n => { n with succ := none })
    let n ← s.node e
    match n.parent with
    | some p => do
      let pn ← s.node p
      let s ← s.modify e (fun n => { n with pred := pn.last_child })
      let n ← s.node e
      let s ← (match n.pred with
        | some q => s.modify q (fun m => { m with succ := some e })
        | none => s.modify p (fun m => { m with children := some e }))
      s.modify p (fun m => { m with last_child := some e })
    | none => do
      let s ← s.modify e (fun n => { n with pred := s.entity_last_orphan })
      let n ← s.node e
      let s ← (match n.pred with
        | some q => s.modify q (fun m => { m with succ := some e })
        | none => some (s.set_orphans (some e)))
      some (s.set_last_orphan (some e))

/-- `entity_remove` (entity.c:281). -/
def entity_remove (s : State K) : Option Nat → Option (State K)
  | none => some s
  | some e => do
    let n ← s.node e
    let s ← (match n.parent with
      | some p => do
        let pn ← s.node p
        let s ← (if pn.children = some e then s.modify p (fun m => { m with children := n.succ })
          else some s)
        let pn ← s.node p
        let n ← s.node e
        if pn.last_child = some e then s.modify p (fun m => { m with last_child := n.pred })
        else some s
      | none => do
        let s := if s.entity_orphans = some e then s.set_orphans n.succ else s
        let n ← s.node e
        some (if s.entity_last_orphan = some e then s.set_last_orphan n.pred else s))
    let n ← s.node e
    let s ← (match n.succ with
      | some q => s.modify q (fun m => { m with pred := n.pred })
      | none => some s)
    let n ← s.node e
    match n.pred with
    | some q => s.modify q (fun m => { m with succ := n.succ })
    | none => some s

mutual
/-- `entity_invalidate_tform(e, TFORM_WORLD)` (entity.c:296-300).  The first argument is the
recursion fuel. -/
def entity_invalidate_tform_world : Nat → State K → Nat → Option (State K)
  | 0, _, _ => none
  | fuel + 1, s, e => do
    let n ← s.node e
    if n.dirty &&& TFORM_DIRTY_WORLD ≠ 0 then some s
    else do
      let s ← s.modify e (fun n => { n with dirty := n.dirty ||| TFORM_DIRTY_WORLD })
      let n ← s.node e
      entity_invalidate_tform_children fuel s n.children
/-- The loop `for (c = e->children; c; c = c->succ) entity_invalidate_tform(c, TFORM_WORLD)`
of `entity_invalidate_tform`, entered with `c`. -/
def entity_invalidate_tform_children : Nat → State K → Option Nat → Option (State K)
  | 0, _, _ => none
  | _ + 1, s, none => some s
  | fuel + 1, s, some c => do
    let s ← entity_invalidate_tform_world fuel s c
    let n ← s.node c
    entity_invalidate_tform_children fuel s n.succ
end

/-- `entity_invalidate_tform` (entity.c:295). -/
def entity_invalidate_tform (fuel : Nat) (s : State K) (e : Nat) :
    tform_space_t → Option (State K)
  | .TFORM_WORLD => entity_invalidate_tform_world fuel s e
  | .TFORM_LOCAL => do
    let s ← s.modify e (fun n => { n with dirty := n.dirty ||| TFORM_DIRTY_LOCAL })
    entity_invalidate_tform_world fuel s e

/-- The matrix that `entity_get_tform(e, TFORM_LOCAL)` composes from the local rotation, scale
and position (entity.c:335-341): `MatrixMultiply(MatrixMultiply(scl, rot), pos)`. -/
def tform_compose (L : MathLib K) (t : tform_t K) : Matrix K :=
  let aa := QuaternionToAxisAngle L t.rot
  let rot := MatrixRotate L aa.1 aa.2
  let scl := MatrixScale t.scale.x t.scale.y t.scale.z
  let pos := MatrixTranslate t.pos.x t.pos.y t.pos.z
  MatrixMultiply (MatrixMultiply scl rot) pos

/-- `entity_get_tform(e, TFORM_LOCAL)` (entity.c:330-345). -/
def entity_get_tform_local (L : MathLib K) (s : State K) (e : Nat) :
    Option (State K × Matrix K) := do
  let n ← s.node e
  if n.dirty &&& TFORM_DIRTY_LOCAL ≠ 0 then do
    let s ← s.modify e (fun n => { n with loc := { n.loc with mat := tform_compose L n.loc } })
    let s ← s.modify e (fun n => { n with dirty := n.dirty &&& bit_not TFORM_DIRTY_LOCAL })
    let n ← s.node e
    some (s, n.loc.mat)
  else some (s, n.loc.mat)

/-- `entity_get_tform(e, TFORM_WORLD)` (entity.c:323-328).  The first argument is the recursion
fuel; the two calls in the argument list of `MatrixMultiply` are taken left to right. -/
def entity_get_tform_world (L : MathLib K) : Nat → State K → Nat → Option (State K × Matrix K)
  | 0, _, _ => none
  | fuel + 1, s, e => do
    let n ← s.node e
    if n.dirty &&& TFORM_DIRTY_WORLD ≠ 0 then do
      let r ← (match n.parent with
        | some p => do
          let a ← entity_get_tform_local L s e
          let b ← entity_get_tform_world L fuel a.1 p
          some (b.1, MatrixMultiply a.2 b.2)
        | none => entity_get_tform_local L s e)
      let s ← r.1.modify e (fun n => { n with world := { n.world with mat := r.2 } })
      let s ← s.modify e (fun n => { n with dirty := n.dirty &&& bit_not TFORM_DIRTY_WORLD })
      let n ← s.node e
      some (s, n.world.mat)
    else some (s, n.world.mat)

/-- `entity_get_tform` (entity.c:322). -/
def entity_get_tform (L : MathLib K) (fuel : Nat) (s : State K) (e : Nat) :
    tform_space_t → Option (State K × Matrix K)
  | .TFORM_WORLD => entity_get_tform_world L fuel s e
  | .TFORM_LOCAL => entity_get_tform_local L s e

/-! ## Public functions -/

/-- `create_entity` (entity.c:111).  Returns the new state and the address of the new entity. -/
def create_entity (s : State K) : Option (State K × Nat) := do
  let a := MemAlloc s
  let s ← a.1.modify a.2 (fun n =>
    { n with
      parent := none, children := none, succ := none, pred := none, last_child := none,
      visible := true, enabled := true,
      loc := { n.loc with pos := Vector3Zero, scale := Vector3One, rot := QuaternionIdentity },
      dirty := TFORM_DIRTY_LOCAL ||| TFORM_DIRTY_WORLD })
  let s ← entity_insert s (some a.2)
  some (s, a.2)

/-- `copy_entity` (entity.c:134). -/
def copy_entity (s : State K) (e : Nat) : Option (State K × Nat) := do
  let r ← create_entity s
  let n ← r.1.node e
  let s ← r.1.modify r.2 (fun c =>
    { c with
      name := n.name, visible := n.visible, enabled := n.enabled,
      loc := { c.loc with pos := n.loc.pos, scale := n.loc.scale, rot := n.loc.rot },
      dirty := TFORM_DIRTY_LOCAL ||| TFORM_DIRTY_WORLD })
  some (s, r.2)

/-- The loop `while (e->children) { MemFree(e->children); e->children = NULL; }` of
`free_entity`.  The first argument is the iteration fuel. -/
def free_entity_loop : Nat → State K → Nat → Option (State K)
  | 0, _, _ => none
  | fuel + 1, s, e => do
    let n ← s.node e
    match n.children with
    | none => some s
    | some c => do
      let s ← MemFree s c
      let s ← s.modify e (fun n => { n with children := none })
      free_entity_loop fuel s e

/-- `free_entity` (entity.c:148). -/
def free_entity (fuel : Nat) (s : State K) (e : Nat) : Option (State K) := do
  let s ← free_entity_loop fuel s e
  entity_remove s (some e)

/-- `entity_set_parent` (entity.c:156). -/
def entity_set_parent (fuel : Nat) (s : State K) (e : Nat) (p : Option Nat) :
    Option (State K) := do
  let n ← s.node e
  if n.parent = p then some s
  else do
    let s ← entity_remove s (some e)
    let s ← s.modify e (fun n => { n with parent := p })
    let s ← entity_insert s (some e)
    entity_invalidate_tform fuel s e .TFORM_WORLD

/-- `entity_set_name` (entity.c:164). -/
def entity_set_name (s : State K) (e : Nat) ( name : Option String) : Option (State K) :=
  s.modify e (fun n => { n with name := name })

/-- `entity_set_visible` (entity.c:165). -/
def entity_set_visible (s : State K) (e : Nat) (visible : Bool) : Option (State K) :=
  s.modify e (fun n => { n with visible := visible })

/-- `entity_set_enabled` (entity.c:166). -/
def entity_set_enabled (s : State K) (e : Nat) (enabled : Bool) : Option (State K) :=
  s.modify e (fun n => { n with enabled := enabled })

/-- `entity_get_parent` (entity.c:167). -/
def entity_get_parent (s : State K) (e : Nat) : Option (Option Nat) :=
  (s.node e).map (fun n => n.parent)

/-- `entity_get_children` (entity.c:169). -/
def entity_get_children (s : State K) (e : Nat) : Option (Option Nat) :=
  (s.node e).map (fun n => n.children)

/-- `entity_get_successor` (entity.c:170). -/
def entity_get_successor (s : State K) (e : Nat) : Option (Option Nat) :=
  (s.node e).map (fun n => n.succ)

/-- `entity_get_position` (entity.c:200). -/
def entity_get_position (L : MathLib K) (fuel : Nat) (s : State K) (e : Nat) :
    tform_space_t → Option (State K × Vector3 K)
  | .TFORM_WORLD => do
    let r ← entity_get_tform L fuel s e .TFORM_WORLD
    some (r.1, ⟨r.2.m12, r.2.m13, r.2.m14⟩)
  | .TFORM_LOCAL => (s.node e).map (fun n => (s, n.loc.pos))

/-- `entity_get_scale(e, TFORM_WORLD)` (entity.c:211).  The first argument is the recursion
fuel. -/
def entity_get_scale_world : Nat → State K → Nat → Option (Vector3 K)
  | 0, _, _ => none
  | fuel + 1, s, e => do
    let n ← s.node e
    match n.parent with
    | some p => do
      let ps ← entity_get_scale_world fuel s p
      some (Vector3Multiply ps n.loc.scale)
    | none => some n.loc.scale

/-- `entity_get_scale` (entity.c:209). -/
def entity_get_scale (fuel : Nat) (s : State K) (e : Nat) : tform_space_t → Option (Vector3 K)
  | .TFORM_WORLD => entity_get_scale_world fuel s e
  | .TFORM_LOCAL => (s.node e).map (fun n => n.loc.scale)

/-- `entity_get_rotation(e, TFORM_WORLD)` (entity.c:219).  The first argument is the recursion
fuel. -/
def entity_get_rotation_world : Nat → State K → Nat → Option (Quaternion K)
  | 0, _, _ => none
  | fuel + 1, s, e => do
    let n ← s.node e
    match n.parent with
    | some p => do
      let pr ← entity_get_rotation_world fuel s p
      some (QuaternionMultiply pr n.loc.rot)
    | none => some n.loc.rot

/-- `entity_get_rotation` (entity.c:217). -/
def entity_get_rotation (fuel : Nat) (s : State K) (e : Nat) :
    tform_space_t → Option (Quaternion K)
  | .TFORM_WORLD => entity_get_rotation_world fuel s e
  | .TFORM_LOCAL => (s.node e).map (fun n => n.loc.rot)

/-- `entity_set_position(e, pos, TFORM_LOCAL)` (entity.c:177-178). -/
def entity_set_position_local (fuel : Nat) (s : State K) (e : Nat) (pos : Vector3 K) :
    Option (State K) := do
  let s ← s.modify e (fun n => { n with loc := { n.loc with pos := pos } })
  entity_invalidate_tform fuel s e .TFORM_LOCAL

/-- `entity_set_position` (entity.c:173). -/
def entity_set_position (L : MathLib K) (fuel : Nat) (s : State K) (e : Nat) (pos : Vector3 K) :
    tform_space_t → Option (State K)
  | .TFORM_LOCAL => entity_set_position_local fuel s e pos
  | .TFORM_WORLD => do
    let n ← s.node e
    let r ← (match n.parent with
      | some p => do
        let r ← entity_get_tform L fuel s p .TFORM_WORLD
        some (r.1, Vector3Transform pos (MatrixInvert r.2))
      | none => some (s, pos))
    entity_set_position_local fuel r.1 e r.2

/-- `entity_set_scale(e, scale, TFORM_LOCAL)` (entity.c:186-187). -/
def entity_set_scale_local (fuel : Nat) (s : State K) (e : Nat) (scale : Vector3 K) :
    Option (State K) := do
  let s ← s.modify e (fun n => { n with loc := { n.loc with scale := scale } })
  entity_invalidate_tform fuel s e .TFORM_LOCAL

/-- `entity_set_scale` (entity.c:182). -/
def entity_set_scale (fuel : Nat) (s : State K) (e : Nat) (scale : Vector3 K) :
    tform_space_t → Option (State K)
  | .TFORM_LOCAL => entity_set_scale_local fuel s e scale
  | .TFORM_WORLD => do
    let n ← s.node e
    let v ← (match n.parent with
      | some p => do
        let ps ← entity_get_scale fuel s p .TFORM_WORLD
        some (Vector3Divide scale ps)
      | none => some scale)
    entity_set_scale_local fuel s e v

/-- `entity_set_rotation(e, rot, TFORM_LOCAL)` (entity.c:195-196). -/
def entity_set_rotation_local (L : MathLib K) (fuel : Nat) (s : State K) (e : Nat)
    (rot : Quaternion K) : Option (State K) := do
  let s ← s.modify e (fun n => { n with loc := { n.loc with rot := QuaternionNormalize L rot } })
  entity_invalidate_tform fuel s e .TFORM_LOCAL

/-- `entity_set_rotation` (entity.c:191). -/
def entity_set_rotation (L : MathLib K) (fuel : Nat) (s : State K) (e : Nat)
    (rot : Quaternion K) : tform_space_t → Option (State K)
  | .TFORM_LOCAL => entity_set_rotation_local L fuel s e rot
  | .TFORM_WORLD => do
    let n ← s.node e
    let q ← (match n.parent with
      | some p => do
        let pr ← entity_get_rotation fuel s p .TFORM_WORLD
        some (QuaternionMultiply (QuaternionInvert L pr) rot)
      | none => some rot)
    entity_set_rotation_local L fuel s e q

/-- `entity_set_tform(e, mat, TFORM_LOCAL)` (entity.c:311-318). -/
def entity_set_tform_local (L : MathLib K) (fuel : Nat) (s : State K) (e : Nat)
    (mat : Matrix K) : Option (State K) := do
  let s ← s.modify e (fun n => { n with loc := { n.loc with pos := ⟨mat.m12, mat.m13, mat.m14⟩ } })
  let s ← s.modify e (fun n => { n with loc := { n.loc with rot := L.QuaternionFromMatrix mat } })
  let s ← s.modify e (fun n => { n with loc := { n.loc with scale :=
    ⟨Vector3Length L ⟨mat.m0, mat.m1, mat.m2⟩,
     Vector3Length L ⟨mat.m4, mat.m5, mat.m6⟩,
     Vector3Length L ⟨mat.m8, mat.m9, mat.m10⟩⟩ } })
  entity_invalidate_tform fuel s e .TFORM_LOCAL

/-- `entity_set_tform` (entity.c:307). -/
def entity_set_tform (L : MathLib K) (fuel : Nat) (s : State K) (e : Nat) (mat : Matrix K) :
    tform_space_t → Option (State K)
  | .TFORM_LOCAL => entity_set_tform_local L fuel s e mat
  | .TFORM_WORLD => do
    let n ← s.node e
    let r ← (match n.parent with
      | some p => do
        let r ← entity_get_tform L fuel s p .TFORM_WORLD
        some (r.1, MatrixMultiply mat (MatrixInvert r.2))
      | none => some (s, mat))
    entity_set_tform_local L fuel r.1 e r.2

/-- `turn_entity` (entity.c:230). -/
def turn_entity (L : MathLib K) (fuel : Nat) (s : State K) (e : Nat) (p y r : K) :
    tform_space_t → Option (State K)
  | .TFORM_WORLD => do
    let rot := L.QuaternionFromEuler (p * L.DEG2RAD) (y * L.DEG2RAD) (r * L.DEG2RAD)
    let q ← entity_get_rotation fuel s e .TFORM_WORLD
    entity_set_rotation L fuel s e (QuaternionMultiply rot q) .TFORM_WORLD
  | .TFORM_LOCAL => do
    let rot := L.QuaternionFromEuler (p * L.DEG2RAD) (y * L.DEG2RAD) (r * L.DEG2RAD)
    let q ← entity_get_rotation fuel s e .TFORM_LOCAL
    entity_set_rotation L fuel s e (QuaternionMultiply q rot) .TFORM_LOCAL

/-- `translate_entity` (entity.c:237). -/
def translate_entity (L : MathLib K) (fuel : Nat) (s : State K) (e : Nat) (x y z : K)
    (global : tform_space_t) : Option (State K) := do
  let r ← entity_get_position L fuel s e global
  entity_set_position L fuel r.1 e (Vector3Add r.2 ⟨x, y, z⟩) global

/-- `position_entity` (entity.c:242). -/
def position_entity (L : MathLib K) (fuel : Nat) (s : State K) (e : Nat) (x y z : K)
    (global : tform_space_t) : Option (State K) :=
  entity_set_position L fuel s e ⟨x, y, z⟩ global

/-- `scale_entity` (entity.c:247). -/
def scale_entity (fuel : Nat) (s : State K) (e : Nat) (x y z : K) (global : tform_space_t) :
    Option (State K) :=
  entity_set_scale fuel s e ⟨x, y, z⟩ global

/-- `rotate_entity` (entity.c:252). -/
def rotate_entity (L : MathLib K) (fuel : Nat) (s : State K) (e : Nat) (p y r : K)
    (global : tform_space_t) : Option (State K) :=
  entity_set_rotation L fuel s e
    (L.QuaternionFromEuler (p * L.DEG2RAD) (y * L.DEG2RAD) (r * L.DEG2RAD)) global

/-- `point_entity` (entity.c:257).  The two `entity_get_position` calls in the argument list of
`Vector3Subtract` are taken left to right. -/
def point_entity (L : MathLib K) (fuel : Nat) (s : State K) (e t : Nat) (roll : K) :
    Option (State K) := do
  let a ← entity_get_position L fuel s t .TFORM_WORLD
  let b ← entity_get_position L fuel a.1 e .TFORM_WORLD
  let v := Vector3Subtract a.2 b.2
  entity_set_rotation L fuel b.1 e
    (L.QuaternionFromEuler (-L.atan2f v.y (L.sqrtf (v.x * v.x + v.y * v.y)))
      (-L.atan2f v.x v.z) (roll * L.DEG2RAD)) .TFORM_WORLD

end model

end EntitySystem

namespace EntitySystem

section vocabulary

variable {K : Type} [LinearOrderedField K]

/-! ## Specification vocabulary -/

/-- The `TFORM_DIRTY_WORLD` bit of the entity is set. -/
def entity_t.wdirty (n : entity_t K) : Prop := n.dirty &&& TFORM_DIRTY_WORLD ≠ 0

/-- The `TFORM_DIRTY_LOCAL` bit of the entity is set. -/
def entity_t.ldirty (n : entity_t K) : Prop := n.dirty &&& TFORM_DIRTY_LOCAL ≠ 0

instance (n : entity_t K) : Decidable n.wdirty := by unfold entity_t.wdirty; infer_instance

instance (n : entity_t K) : Decidable n.ldirty := by unfold entity_t.ldirty; infer_instance

/-- The sibling list read from the pointer `h` by following `succ`, at most `fuel` steps. -/
def walk_succ (s : State K) : Nat → Option Nat → List Nat
  | 0, _ => []
  | _ + 1, none => []
  | fuel + 1, some a => a :: walk_succ s fuel ((s.node a).bind (fun n => n.succ))

/-- The head pointer of the sibling list of the children of `p`: `p->children`, or
`entity_orphans` when `p` is `NULL`. -/
def list_head (s : State K) : Option Nat → Option Nat
  | none => s.entity_orphans
  | some q => (s.node q).bind (fun n => n.children)

/-- The tail pointer of the sibling list of the children of `p`: `p->last_child`, or
`entity_last_orphan` when `p` is `NULL`. -/
def list_tail (s : State K) : Option Nat → Option Nat
  | none => s.entity_last_orphan
  | some q => (s.node q).bind (fun n => n.last_child)

/-- The sibling list of the children of `p` (the top-level list for `p = none`), read from its
head pointer by following `succ`. -/
def sibling_list (s : State K) (p : Option Nat) : List Nat :=
  walk_succ s s.heap.length (list_head s p)

/-- `Descendant s a d`: `d` is a proper descendant of `a`, following `parent` upwards from
`d`. -/
inductive Descendant (s : State K) (a : Nat) : Nat → Prop
  | child {d : Nat} {n : entity_t K} : s.node d = some n → n.parent = some a → Descendant s a d
  | step {d m : Nat} {n : entity_t K} :
      s.node d = some n → n.parent = some m → Descendant s a m → Descendant s a d

/-- The uncached world matrix of `e`: the product, in `MatrixMultiply` order, of the composed
local matrices from `e` up its ancestor chain, `local(e) * (local(parent e) * (... * local(root)))`.
The first argument bounds the length of the chain. -/
def tform_world_ref (L : MathLib K) : Nat → State K → Nat → Option (Matrix K)
  | 0, _, _ => none
  | fuel + 1, s, e => do
    let n ← s.node e
    match n.parent with
    | some p => do
      let w ← tform_world_ref L fuel s p
      some (MatrixMultiply (tform_compose L n.loc) w)
    | none => some (tform_compose L n.loc)

/-- The link fields of an `entity_t`. -/
structure links_t where
  parent : Option Nat
  children : Option Nat
  succ : Option Nat
  pred : Option Nat
  last_child : Option Nat

/-- The link fields of an entity. -/
def entity_t.links (n : entity_t K) : links_t :=
  ⟨n.parent, n.children, n.succ, n.pred, n.last_child⟩

/-- The link structure of a state: the link fields stored at every allocated address and the two
top-level list pointers. -/
structure Skel where
  lk : Nat → Option links_t
  orphans : Option Nat
  last_orphan : Option Nat

/-- The link structure of the state `s`. -/
def State.skel (s : State K) : Skel :=
  ⟨fun i => (s.node i).map entity_t.links, s.entity_orphans, s.entity_last_orphan⟩

/-- Head pointer of the sibling list owned by `p` in a link structure. -/
def Skel.head (k : Skel) : Option Nat → Option Nat
  | none => k.orphans
  | some q => (k.lk q).bind (fun n => n.children)

/-- Tail pointer of the sibling list owned by `p` in a link structure. -/
def Skel.tail (k : Skel) : Option Nat → Option Nat
  | none => k.last_orphan
  | some q => (k.lk q).bind (fun n => n.last_child)

/-- A list owner is `NULL` (the top level) or an allocated entity. -/
def Skel.valid (k : Skel) : Option Nat → Prop
  | none => True
  | some q => ∃ n, k.lk q = some n

/-- `DSeg k p prev h l nxt`: starting at pointer `h` the `succ` links run through exactly the
entities of `l`, in order, and end in `nxt`; every one of them is allocated, has parent `p`, and
its `pred` is the entity before it (`prev` for the first). -/
def DSeg (k : Skel) (p : Option Nat) : Option Nat → Option Nat → List Nat → Option Nat → Prop
  | _, h, [], nxt => h = nxt
  | prev, h, a :: l, nxt =>
    h = some a ∧ ∃ n, k.lk a = some n ∧ n.parent = p ∧ n.pred = prev ∧ DSeg k p (some a) n.succ l nxt

/-- The last entity of `l`, or `prev` when `l` is empty. -/
def lastOr : Option Nat → List Nat → Option Nat
  | prev, [] => prev
  | _, a :: l => lastOr (some a) l

/-- List integrity of a link structure with sibling lists `kids`, `kids p` being the list owned
by `p`, and with at most one entity `x` detached (allocated but held by no sibling list). -/
def WFk (k : Skel) (x : Option Nat) (kids : Option Nat → List Nat) : Prop :=
  (∀ p, k.valid p → DSeg k p none (k.head p) (kids p) none ∧ k.tail p = lastOr none (kids p)) ∧
  (∀ i n, k.lk i = some n → some i ≠ x → i ∈ kids n.parent ∧ k.valid n.parent) ∧
  (∀ p, (kids p).Nodup) ∧
  (∀ p i, i ∈ kids p → some i ≠ x ∧ k.valid p)

/-- List integrity of a link structure, with at most one entity `x` detached. -/
def WFx (k : Skel) (x : Option Nat) : Prop := ∃ kids, WFk k x kids

/-- The parent links are acyclic: some rank strictly decreases from child to parent. -/
def Acyclic (k : Skel) : Prop :=
  ∃ rank : Nat → Nat, ∀ i n q, k.lk i = some n → n.parent = some q → rank q < rank i

/-- The link structure after `entity_insert(e)`. -/
def Skel.insert (k : Skel) (e : Nat) : Skel :=
  let p := (k.lk e).bind (fun n => n.parent)
  let tl := k.tail p
  { lk := fun j => (k.lk j).map (fun m =>
      { parent := m.parent,
        children := if some j = p ∧ tl = none then some e else m.children,
        last_child := if some j = p then some e else m.last_child,
        succ := if j = e then none else if tl = some j then some e else m.succ,
        pred := if j = e then tl else m.pred }),
    orphans := if p = none ∧ tl = none then some e else k.orphans,
    last_orphan := if p = none then some e else k.last_orphan }

/-- The link structure after `entity_remove(e)` for an entity `e` with link fields `n`. -/
def Skel.remove (k : Skel) (e : Nat) (n : links_t) : Skel :=
  { lk := fun j => (k.lk j).map (fun m =>
      { parent := m.parent,
        children := if some j = n.parent ∧ m.children = some e then n.succ else m.children,
        last_child := if some j = n.parent ∧ m.last_child = some e then n.pred else m.last_child,
        succ := if n.pred = some j then n.succ else m.succ,
        pred := if n.succ = some j then n.pred else m.pred }),
    orphans := if n.parent = none ∧ k.orphans = some e then n.succ else k.orphans,
    last_orphan := if n.parent = none ∧ k.last_orphan = some e then n.pred else k.last_orphan }

/-- The link structure with the parent field of `e` set to `p`. -/
def Skel.set_parent (k : Skel) (e : Nat) (p : Option Nat) : Skel :=
  { k with lk := fun j => if j = e then (k.lk j).map (fun m => { m with parent := p }) else k.lk j }

/-- The link structure with a fresh entity at address `e`, all of its links `NULL`. -/
def Skel.alloc (k : Skel) (e : Nat) : Skel :=
  { k with lk := fun j => if j = e then some ⟨none, none, none, none, none⟩ else k.lk j }

/-- An entity with its link fields cleared: what `entity_insert` and `entity_remove` leave
untouched. -/
def entity_t.payload (n : entity_t K) : entity_t K :=
  { n with parent := none, children := none, succ := none, pred := none, last_child := none }

/-- `n'` is `n` up to the dirty word and the two cached matrices. -/
def entity_t.same_data (n n' : entity_t K) : Prop :=
  n' = { n with dirty := n'.dirty, loc := { n.loc with mat := n'.loc.mat },
                world := { n.world with mat := n'.world.mat } }

/-- `s'` has the same allocated addresses and list pointers as `s`, and every entity has the same
fields up to the dirty word and the two cached matrices. -/
def SameData (s s' : State K) : Prop :=
  s'.entity_orphans = s.entity_orphans ∧ s'.entity_last_orphan = s.entity_last_orphan ∧
  s'.heap.length = s.heap.length ∧
  ∀ j, (s.node j = none → s'.node j = none) ∧
       ∀ n, s.node j = some n → ∃ n', s'.node j = some n' ∧ n.same_data n'

/-- `s'` is `s` with the world-dirty bit set on some entities and nothing else changed. -/
def Marked (s s' : State K) : Prop :=
  s'.entity_orphans = s.entity_orphans ∧ s'.entity_last_orphan = s.entity_last_orphan ∧
  s'.heap.length = s.heap.length ∧
  ∀ j, (s.node j = none → s'.node j = none) ∧
       ∀ n, s.node j = some n →
         s'.node j = some n ∨ s'.node j = some { n with dirty := n.dirty ||| TFORM_DIRTY_WORLD }

/-- `s'` is `s` with the entity at address `e` replaced by `n'`. -/
def Upd (s : State K) (e : Nat) (n' : entity_t K) (s' : State K) : Prop :=
  s'.entity_orphans = s.entity_orphans ∧ s'.entity_last_orphan = s.entity_last_orphan ∧
  s'.heap.length = s.heap.length ∧ s'.node e = some n' ∧ ∀ j, j ≠ e → s'.node j = s.node j

/-- `s'` is `s` up to cached matrices and dirty bits, and no dirty bit is set in `s'` that was
clear in `s`: what the matrix getters do to a state. -/
def Refreshed (s s' : State K) : Prop :=
  SameData s s' ∧
  ∀ j n n', s.node j = some n → s'.node j = some n' →
    (n'.ldirty → n.ldirty) ∧ (n'.wdirty → n.wdirty)

/-- `WorldRef L s e M`: `M` is the product of the composed local matrices from `e` up its
ancestor chain (the relational form of `tform_world_ref`). -/
inductive WorldRef (L : MathLib K) (s : State K) : Nat → Matrix K → Prop
  | root {e : Nat} {n : entity_t K} :
      s.node e = some n → n.parent = none → WorldRef L s e (tform_compose L n.loc)
  | child {e p : Nat} {n : entity_t K} {M : Matrix K} :
      s.node e = some n → n.parent = some p → WorldRef L s p M →
      WorldRef L s e (MatrixMultiply (tform_compose L n.loc) M)

/-- World-dirtiness is passed from parent to child, except possibly below the entities of `X`:
a child of a world-dirty entity outside `X` is world-dirty. -/
def ClosedOutside (X : Nat → Prop) (s : State K) : Prop :=
  ∀ c q n m, s.node c = some n → n.parent = some q → s.node q = some m → ¬ X q →
    m.wdirty → n.wdirty

/-- World-dirtiness is passed from every parent to its children. -/
def Closed (s : State K) : Prop := ClosedOutside (fun _ => False) s

/-- `s'` is `s` with the parent of `e` set to `p` and sibling links rearranged: the same
addresses are allocated, every entity keeps its dirty word, transforms and attributes, and every
entity but `e` keeps its parent. -/
def Relinked (s s' : State K) (e : Nat) (p : Option Nat) : Prop :=
  ∀ j, (s.node j = none → s'.node j = none) ∧
    ∀ n, s.node j = some n → ∃ n', s'.node j = some n' ∧ n'.payload = n.payload ∧
      n'.parent = if j = e then p else n.parent

/-- The invariant of the reachable states: list integrity, acyclic parent links, world-dirtiness
closed under children, local-dirty implies world-dirty, and both caches valid when clean. -/
structure Inv (L : MathLib K) (s : State K) : Prop where
  wf : WFx s.skel none
  acyclic : Acyclic s.skel
  closed : Closed s
  local_world : ∀ i n, s.node i = some n → n.ldirty → n.wdirty
  cache_local : ∀ i n, s.node i = some n → ¬ n.ldirty → n.loc.mat = tform_compose L n.loc
  cache_world : ∀ i n, s.node i = some n → ¬ n.wdirty → WorldRef L s i n.world.mat

/-- The states reachable from the initial state through the API of `entity.c`, except
`free_entity`, with `entity_set_parent` never asked to put an entity under itself or under one
of its descendants. -/
inductive Reachable (L : MathLib K) : State K → Prop
  | init : Reachable L State.init
  | create {s s' : State K} {e : Nat} :
      Reachable L s → create_entity s = some (s', e) → Reachable L s'
  | copy {s s' : State K} {e c : Nat} :
      Reachable L s → copy_entity s e = some (s', c) → Reachable L s'
  | set_parent {s s' : State K} {fuel e : Nat} {p : Option Nat} :
      Reachable L s → (∀ q, p = some q → q ≠ e ∧ ¬ Descendant s e q) →
      entity_set_parent fuel s e p = some s' → Reachable L s'
  | set_name {s s' : State K} {e : Nat} { name : Option String} :
      Reachable L s → entity_set_name s e name = some s' → Reachable L s'
  | set_visible {s s' : State K} {e : Nat} {b : Bool} :
      Reachable L s → entity_set_visible s e b = some s' → Reachable L s'
  | set_enabled {s s' : State K} {e : Nat} {b : Bool} :
      Reachable L s → entity_set_enabled s e b = some s' → Reachable L s'
  | set_position {s s' : State K} {fuel e : Nat} {v : Vector3 K} {g : tform_space_t} :
      Reachable L s → entity_set_position L fuel s e v g = some s' → Reachable L s'
  | set_scale {s s' : State K} {fuel e : Nat} {v : Vector3 K} {g : tform_space_t} :
      Reachable L s → entity_set_scale fuel s e v g = some s' → Reachable L s'
  | set_rotation {s s' : State K} {fuel e : Nat} {q : Quaternion K} {g : tform_space_t} :
      Reachable L s → entity_set_rotation L fuel s e q g = some s' → Reachable L s'
  | set_tform {s s' : State K} {fuel e : Nat} {m : Matrix K} {g : tform_space_t} :
      Reachable L s → entity_set_tform L fuel s e m g = some s' → Reachable L s'
  | get_tform {s s' : State K} {fuel e : Nat} {m : Matrix K} {g : tform_space_t} :
      Reachable L s → entity_get_tform L fuel s e g = some (s', m) → Reachable L s'
  | invalidate {s s' : State K} {fuel e : Nat} {g : tform_space_t} :
      Reachable L s → entity_invalidate_tform fuel s e g = some s' → Reachable L s'

end vocabulary

end EntitySystem

namespace EntitySystem

section scenes

variable {K : Type} [LinearOrderedField K]

/-! ## Writes, ancestor chains and the scenes used to instantiate the theorems -/

/-- The four transform writes of the API, without their space argument. -/
inductive tform_write (K : Type) where
  | position (v : Vector3 K)
  | scale (v : Vector3 K)
  | rotation (q : Quaternion K)
  | tform (m : Matrix K)

/-- One transform write on `e` in the space `g`: `entity_set_position`, `entity_set_scale`,
`entity_set_rotation` or `entity_set_tform`. -/
def entity_write (L : MathLib K) (fuel : Nat) (s : State K) (e : Nat) (g : tform_space_t) :
    tform_write K → Option (State K)
  | .position v => entity_set_position L fuel s e v g
  | .scale v => entity_set_scale fuel s e v g
  | .rotation q => entity_set_rotation L fuel s e q g
  | .tform m => entity_set_tform L fuel s e m g

/-- A sequence of transform writes on `e` in the space `g`, first to last. -/
def entity_writes (L : MathLib K) (fuel : Nat) (e : Nat) (g : tform_space_t) :
    State K → List (tform_write K) → Option (State K)
  | s, [] => some s
  | s, w :: ws => (entity_write L fuel s e g w).bind (fun s1 => entity_writes L fuel e g s1 ws)

/-- The effect of a local-space write on the rotation, position and scale of a `tform_t`
(entity.c:177, 186, 195, 311-317); the cached matrix is left as it is. -/
def write_loc (L : MathLib K) : tform_write K → tform_t K → tform_t K
  | .position v, t => { t with pos := v }
  | .scale v, t => { t with scale := v }
  | .rotation q, t => { t with rot := QuaternionNormalize L q }
  | .tform m, t =>
    { t with
      pos := ⟨m.m12, m.m13, m.m14⟩
      rot := L.QuaternionFromMatrix m
      scale := ⟨Vector3Length L ⟨m.m0, m.m1, m.m2⟩, Vector3Length L ⟨m.m4, m.m5, m.m6⟩,
        Vector3Length L ⟨m.m8, m.m9, m.m10⟩⟩ }

/-- The ancestor chain of `e` from the root down to `e` itself.  The first argument bounds its
length. -/
def chain_down : Nat → State K → Nat → Option (List (entity_t K))
  | 0, _, _ => none
  | fuel + 1, s, e => do
    let n ← s.node e
    match n.parent with
    | some p => (chain_down fuel s p).map (fun l => l ++ [n])
    | none => some [n]

/-- The component-wise product of the local scales along a chain, root first. -/
def scale_product : List (entity_t K) → Option (Vector3 K)
  | [] => none
  | n :: l => some (l.foldl (fun v m => Vector3Multiply v m.loc.scale) n.loc.scale)

/-- The ordered quaternion product of the local rotations along a chain, root first (the root
on the left). -/
def rotation_product : List (entity_t K) → Option (Quaternion K)
  | [] => none
  | n :: l => some (l.foldl (fun q m => QuaternionMultiply q m.loc.rot) n.loc.rot)

/-- A matrix is affine: its last column `m3 m7 m11 m15` is `0 0 0 1`. -/
def Matrix.affine (m : Matrix K) : Prop := m.m3 = 0 ∧ m.m7 = 0 ∧ m.m11 = 0 ∧ m.m15 = 1

/-- A math library over the rationals on which the model can be run: exact at the arguments
that the scenes below evaluate (`sqrtf 0`, `sqrtf 1`, `sinf 0`, `cosf 0`, `acosf 1`). -/
def libQ : MathLib ℚ :=
  { sqrtf := fun x => x
    sinf := fun _ => 0
    cosf := fun _ => 1
    acosf := fun _ => 0
    atan2f := fun _ _ => 0
    DEG2RAD := 0
    QuaternionFromMatrix := fun _ => QuaternionIdentity
    QuaternionFromEuler := fun _ _ _ => QuaternionIdentity }

/-- An entity as `create_entity` leaves it, with the given links, dirty word, local position and
local scale: identity rotation, visible, enabled, unnamed, no matrix cached. -/
def ent (parent children succ pred last_child : Option Nat) (dirty : Nat)
    (pos scale : Vector3 K) : entity_t K :=
  { parent := parent, children := children, succ := succ, pred := pred,
    last_child := last_child, visible := true, enabled := true, name := none, dirty := dirty,
    loc := { rot := QuaternionIdentity, pos := pos, scale := scale, mat := tform_zero.mat },
    world := tform_zero }

/-- The state after `center = create_entity()`. -/
def scene1 : State K :=
  ⟨[some (ent none none none none none 3 Vector3Zero Vector3One)], some 0, some 0⟩

/-- The state after `child1 = create_entity()`. -/
def scene2 : State K :=
  ⟨[some (ent none none (some 1) none none 3 Vector3Zero Vector3One),
    some (ent none none none (some 0) none 3 Vector3Zero Vector3One)], some 0, some 1⟩

/-- The state after `child2 = create_entity()`: three top-level entities. -/
def scene3 : State K :=
  ⟨[some (ent none none (some 1) none none 3 Vector3Zero Vector3One),
    some (ent none none (some 2) (some 0) none 3 Vector3Zero Vector3One),
    some (ent none none none (some 1) none 3 Vector3Zero Vector3One)], some 0, some 2⟩

/-- The state after `entity_set_parent(child1, center)`. -/
def scene4 : State K :=
  ⟨[some (ent none (some 1) (some 2) none (some 1) 3 Vector3Zero Vector3One),
    some (ent (some 0) none none none none 3 Vector3Zero Vector3One),
    some (ent none none none (some 0) none 3 Vector3Zero Vector3One)], some 0, some 2⟩

/-- The state after `position_entity(child1, 0, 0, -5, TFORM_LOCAL)`. -/
def scene5 : State K :=
  ⟨[some (ent none (some 1) (some 2) none (some 1) 3 Vector3Zero Vector3One),
    some (ent (some 0) none none none none 3 ⟨0, 0, -5⟩ Vector3One),
    some (ent none none none (some 0) none 3 Vector3Zero Vector3One)], some 0, some 2⟩

/-- The state after `entity_set_parent(child2, child1)`: the chain
`center -> child1 -> child2`. -/
def scene6 : State K :=
  ⟨[some (ent none (some 1) none none (some 1) 3 Vector3Zero Vector3One),
    some (ent (some 0) (some 2) none none (some 2) 3 ⟨0, 0, -5⟩ Vector3One),
    some (ent (some 1) none none none none 3 Vector3Zero Vector3One)], some 0, some 0⟩

/-- The state after `scale_entity(child2, 0.5, 0.5, 0.5, TFORM_LOCAL)`. -/
def scene7 : State K :=
  ⟨[some (ent none (some 1) none none (some 1) 3 Vector3Zero Vector3One),
    some (ent (some 0) (some 2) none none (some 2) 3 ⟨0, 0, -5⟩ Vector3One),
    some (ent (some 1) none none none none 3 Vector3Zero ⟨1 / 2, 1 / 2, 1 / 2⟩)],
   some 0, some 0⟩

/-- The state after `position_entity(child2, 3, 0, 0, TFORM_LOCAL)`: the scene of `main`
restricted to `center`, `child1` and `child2`. -/
def scene8 : State K :=
  ⟨[some (ent none (some 1) none none (some 1) 3 Vector3Zero Vector3One),
    some (ent (some 0) (some 2) none none (some 2) 3 ⟨0, 0, -5⟩ Vector3One),
    some (ent (some 1) none none none none 3 ⟨3, 0, 0⟩ ⟨1 / 2, 1 / 2, 1 / 2⟩)],
   some 0, some 0⟩

/-- The state `scene4` after `entity_set_parent(child2, center)`: `center` with the two
children `child1` and `child2`. -/
def family : State K :=
  ⟨[some (ent none (some 1) none none (some 2) 3 Vector3Zero Vector3One),
    some (ent (some 0) none (some 2) none none 3 Vector3Zero Vector3One),
    some (ent (some 0) none none (some 1) none 3 Vector3Zero Vector3One)], some 0, some 0⟩

/-- The state `family` after `free_entity(center)`. -/
def family_freed : State K :=
  ⟨[some (ent none none none none (some 2) 3 Vector3Zero Vector3One),
    none,
    some (ent (some 0) none none (some 1) none 3 Vector3Zero Vector3One)], none, none⟩

/-- The state inside the second `create_entity()` call, after the fields of the new entity
have been assigned and before `entity_insert`: entity 1 is allocated and in no sibling list. -/
def loose : State K :=
  ⟨[some (ent none none none none none 3 Vector3Zero Vector3One),
    some (ent none none none none none 3 Vector3Zero Vector3One)], some 0, some 0⟩

/-- The state `scene2` after `position_entity(child1, 0, 1, 0, TFORM_LOCAL)`: two top-level
entities, `child1` one unit straight above `center`. -/
def above : State K :=
  ⟨[some (ent none none (some 1) none none 3 Vector3Zero Vector3One),
    some (ent none none none (some 0) none 3 ⟨0, 1, 0⟩ Vector3One)], some 0, some 1⟩

/-- The scenario of `main` (entity.c:391-401) restricted to `center`, `child1` and `child2`,
followed by the read of the world position of `child2`. -/
def scenario (L : MathLib K) (fuel : Nat) : Option (State K × Vector3 K) := do
  let a ← create_entity State.init
  let b ← create_entity a.1
  let c ← create_entity b.1
  let s ← entity_set_parent fuel c.1 b.2 (some a.2)
  let s ← position_entity L fuel s b.2 0 0 (-5) .TFORM_LOCAL
  let s ← entity_set_parent fuel s c.2 (some b.2)
  let s ← scale_entity fuel s c.2 (1 / 2) (1 / 2) (1 / 2) .TFORM_LOCAL
  let s ← position_entity L fuel s c.2 3 0 0 .TFORM_LOCAL
  entity_get_position L fuel s c.2 .TFORM_WORLD

/-- A parent with two children destroyed: `a`, `b`, `c` created, `b` and `c` put under `a`,
then `free_entity(a)`. -/
def free_scenario (fuel : Nat) : Option (State K) := do
  let a ← create_entity State.init
  let b ← create_entity a.1
  let c ← create_entity b.1
  let s ← entity_set_parent fuel c.1 b.2 (some a.2)
  let s ← entity_set_parent fuel s c.2 (some a.2)
  free_entity fuel s a.2

end scenes

end EntitySystem

/-! # Quadtree (`src/raylib/quadtree/quadtree.c`)

A shallow embedding of `create_quadtree` and `render_quadtree`.  A `quadtree_t` node has either
all four child pointers `NULL` (the zero-filled slots of `MemAlloc`) or four allocated children:
the two shapes that `create_quadtree` builds.  Rendering returns the drawing calls it issues, and
`none` when it follows a `NULL` child pointer.
-/

namespace Quadtree

section quadtree

variable {K : Type} [LinearOrderedField K]

/-- raylib `Vector2`. -/
structure Vector2 (K : Type) where
  x : K
  y : K

/-- `camera_t`. -/
structure camera_t (K : Type) where
  pos : Vector2 K
  fov : K

/-- The file-scope frustum points `fl` and `fr` (left and right planes). -/
structure Frustum (K : Type) where
  fl : Vector2 K
  fr : Vector2 K

/-- `quadtree_t`: `leaf` is a node whose four `childs` are `NULL`, `node` one whose four
`childs` (`CHILD_TL`, `CHILD_BL`, `CHILD_BR`, `CHILD_TR`) are allocated. -/
inductive quadtree_t (K : Type) where
  | leaf (min max : Vector2 K)
  | node (min max : Vector2 K) (tl bl br tr : quadtree_t K)

/-- The field `min` of a node. -/
def quadtree_t.min : quadtree_t K → Vector2 K
  | .leaf mn _ => mn
  | .node mn _ _ _ _ _ => mn

/-- The field `max` of a node. -/
def quadtree_t.max : quadtree_t K → Vector2 K
  | .leaf _ mx => mx
  | .node _ mx _ _ _ _ => mx

/-- The drawing calls of `render_quadtree`, with their coordinate arguments. -/
inductive draw_t (K : Type) where
  | DrawLine (x1 y1 x2 y2 : K)
  | DrawRectangle (x y w h : K)
  | DrawRectangleLines (x y w h : K)

/-- `create_quadtree` (quadtree.c:75), for a depth `depth >= 0`. -/
def create_quadtree (xmin ymin xmax ymax : K) : Nat → quadtree_t K
  | 0 => .leaf ⟨xmin, ymin⟩ ⟨xmax, ymax⟩
  | depth + 1 =>
    let xavg := (xmin + xmax) * (1 / 2)
    let yavg := (ymin + ymax) * (1 / 2)
    .node ⟨xmin, ymin⟩ ⟨xmax, ymax⟩
      (create_quadtree xmin ymin xavg yavg depth)
      (create_quadtree xmin yavg xavg ymax depth)
      (create_quadtree xavg yavg xmax ymax depth)
      (create_quadtree xavg ymin xmax yavg depth)

/-- `point_in_frustum_left` (quadtree.c:50): 1 or 0. -/
def point_in_frustum_left (F : Frustum K) (cam : camera_t K) (px py : K) : Nat :=
  if -(px - cam.pos.x) * (F.fl.y - cam.pos.y) + (py - cam.pos.y) * (F.fl.x - cam.pos.x) ≥ 0
  then 1 else 0

/-- `point_in_frustum_right` (quadtree.c:54): 1 or 0. -/
def point_in_frustum_right (F : Frustum K) (cam : camera_t K) (px py : K) : Nat :=
  if -(px - cam.pos.x) * (F.fr.y - cam.pos.y) + (py - cam.pos.y) * (F.fr.x - cam.pos.x) ≤ 0
  then 1 else 0

/-- `quad_in_frustum` (quadtree.c:97). -/
def quad_in_frustum (F : Frustum K) (qt : quadtree_t K) (cam : camera_t K) : Bool :=
  let inside := point_in_frustum_left F cam qt.min.x qt.min.y +
    point_in_frustum_left F cam qt.min.x qt.max.y +
    point_in_frustum_left F cam qt.max.x qt.min.y +
    point_in_frustum_left F cam qt.max.x qt.max.y
  if inside = 0 then false
  else
    let inside := point_in_frustum_right F cam qt.min.x qt.min.y +
      point_in_frustum_right F cam qt.min.x qt.max.y +
      point_in_frustum_right F cam qt.max.x qt.min.y +
      point_in_frustum_right F cam qt.max.x qt.max.y
    if inside = 0 then false else true

/-- `render_quadtree` (quadtree.c:117).  Returns the drawing calls in the order they are
issued; `none` when a recursive call is made on a `NULL` child pointer. -/
def render_quadtree (F : Frustum K) (cam : camera_t K) :
    quadtree_t K → Int → Option (List (draw_t K))
  | .leaf mn mx, depth =>
    if quad_in_frustum F (.leaf mn mx) cam then
      if depth > 1 then none
      else some [.DrawRectangle mn.x mn.y (mx.x - mn.x) (mx.y - mn.y),
        .DrawRectangleLines (mn.x - 1) (mn.y - 1) (mx.x - mn.x + 1) (mx.y - mn.y + 1)]
    else some []
  | .node mn mx tl bl br tr, depth =>
    if quad_in_frustum F (.node mn mx tl bl br tr) cam then
      if depth > 1 then do
        let xavg := (mn.x + mx.x) * (1 / 2)
        let yavg := (mn.y + mx.y) * (1 / 2)
        let a ← render_quadtree F cam tl (depth - 1)
        let b ← render_quadtree F cam bl (depth - 1)
        let c ← render_quadtree F cam br (depth - 1)
        let d ← render_quadtree F cam tr (depth - 1)
        some (.DrawLine xavg mn.y xavg mx.y :: .DrawLine mn.x yavg mx.x yavg :: (a ++ b ++ c ++ d))
      else some [.DrawRectangle mn.x mn.y (mx.x - mn.x) (mx.y - mn.y),
        .DrawRectangleLines (mn.x - 1) (mn.y - 1) (mx.x - mn.x + 1) (mx.y - mn.y + 1)]
    else some []

end quadtree

end Quadtree

namespace EntitySystem

section api

variable {K : Type} [LinearOrderedField K]

/-! ## The whole API and the consistency of the dirty word -/

/-- The dirty word and the cached local matrix of an entity are consistent: a set
`TFORM_DIRTY_LOCAL` bit comes with a set `TFORM_DIRTY_WORLD` bit, and with the
`TFORM_DIRTY_LOCAL` bit clear the cached local matrix is the one composed from the local
rotation, scale and position. -/
def entity_t.flags_ok (L : MathLib K) (n : entity_t K) : Prop :=
  (n.ldirty → n.wdirty) ∧ (¬ n.ldirty → n.loc.mat = tform_compose L n.loc)

/-- Every allocated entity of the state has a consistent dirty word. -/
def FlagsOK (L : MathLib K) (s : State K) : Prop :=
  ∀ i n, s.node i = some n → n.flags_ok L

/-- The states reachable from the initial state through the functions of `entity.c` that write
to the state, `free_entity` included and `entity_set_parent` with any arguments; a call counts
when it returns.  The helpers `move_entity`, `turn_entity`, `translate_entity`,
`position_entity`, `scale_entity`, `rotate_entity` and `point_entity` are sequences of these
calls. -/
inductive ApiReachable (L : MathLib K) : State K → Prop
  | init : ApiReachable L State.init
  | create {s s' : State K} {e : Nat} :
      ApiReachable L s → create_entity s = some (s', e) → ApiReachable L s'
  | copy {s s' : State K} {e c : Nat} :
      ApiReachable L s → copy_entity s e = some (s', c) → ApiReachable L s'
  | free {s s' : State K} {fuel e : Nat} :
      ApiReachable L s → free_entity fuel s e = some s' → ApiReachable L s'
  | set_parent {s s' : State K} {fuel e : Nat} {p : Option Nat} :
      ApiReachable L s → entity_set_parent fuel s e p = some s' → ApiReachable L s'
  | set_name {s s' : State K} {e : Nat} { name : Option String} :
      ApiReachable L s → entity_set_name s e name = some s' → ApiReachable L s'
  | set_visible {s s' : State K} {e : Nat} {b : Bool} :
      ApiReachable L s → entity_set_visible s e b = some s' → ApiReachable L s'
  | set_enabled {s s' : State K} {e : Nat} {b : Bool} :
      ApiReachable L s → entity_set_enabled s e b = some s' → ApiReachable L s'
  | set_position {s s' : State K} {fuel e : Nat} {v : Vector3 K} {g : tform_space_t} :
      ApiReachable L s → entity_set_position L fuel s e v g = some s' → ApiReachable L s'
  | set_scale {s s' : State K} {fuel e : Nat} {v : Vector3 K} {g : tform_space_t} :
      ApiReachable L s → entity_set_scale fuel s e v g = some s' → ApiReachable L s'
  | set_rotation {s s' : State K} {fuel e : Nat} {q : Quaternion K} {g : tform_space_t} :
      ApiReachable L s → entity_set_rotation L fuel s e q g = some s' → ApiReachable L s'
  | set_tform {s s' : State K} {fuel e : Nat} {m : Matrix K} {g : tform_space_t} :
      ApiReachable L s → entity_set_tform L fuel s e m g = some s' → ApiReachable L s'
  | get_tform {s s' : State K} {fuel e : Nat} {m : Matrix K} {g : tform_space_t} :
      ApiReachable L s → entity_get_tform L fuel s e g = some (s', m) → ApiReachable L s'
  | get_position {s s' : State K} {fuel e : Nat} {v : Vector3 K} {g : tform_space_t} :
      ApiReachable L s → entity_get_position L fuel s e g = some (s', v) → ApiReachable L s'
  | invalidate {s s' : State K} {fuel e : Nat} {g : tform_space_t} :
      ApiReachable L s → entity_invalidate_tform fuel s e g = some s' → ApiReachable L s'

end api

end EntitySystem

set_option linter.unusedSectionVars false

namespace EntitySystem

/-! ## Flag-word arithmetic -/

theorem and_world_or_world (d : Nat) : (d ||| TFORM_DIRTY_WORLD) &&& TFORM_DIRTY_WORLD ≠ 0 := by
  intro h
  have h1 := congrArg (fun x => Nat.testBit x 1) h
  have h2 : Nat.testBit 2 1 = true := by decide
  simp [TFORM_DIRTY_WORLD, Nat.testBit_and, Nat.testBit_or, h2] at h1

theorem and_local_or_local (d : Nat) : (d ||| TFORM_DIRTY_LOCAL) &&& TFORM_DIRTY_LOCAL ≠ 0 := by
  intro h
  have h1 := congrArg (fun x => Nat.testBit x 0) h
  simp [TFORM_DIRTY_LOCAL, Nat.testBit_and, Nat.testBit_or] at h1

theorem and_local_or_world (d : Nat) :
    (d ||| TFORM_DIRTY_WORLD) &&& TFORM_DIRTY_LOCAL = d &&& TFORM_DIRTY_LOCAL := by
  apply Nat.eq_of_testBit_eq
  intro i
  simp only [TFORM_DIRTY_WORLD, TFORM_DIRTY_LOCAL, Nat.testBit_and, Nat.testBit_or]
  rcases i with _ | i
  · simp
  · have h1 : Nat.testBit 1 (i + 1) = false := by simp [Nat.testBit_succ]
    simp [h1]

theorem and_world_or_local (d : Nat) :
    (d ||| TFORM_DIRTY_LOCAL) &&& TFORM_DIRTY_WORLD = d &&& TFORM_DIRTY_WORLD := by
  apply Nat.eq_of_testBit_eq
  intro i
  simp only [TFORM_DIRTY_WORLD, TFORM_DIRTY_LOCAL, Nat.testBit_and, Nat.testBit_or]
  rcases i with _ | _ | i
  · simp
  · have h1 : Nat.testBit 1 1 = false := by decide
    simp [h1]
  · have h1 : Nat.testBit 2 (i + 2) = false := by simp [Nat.testBit_succ]
    simp [h1]

theorem and_world_clear_world (d : Nat) :
    (d &&& bit_not TFORM_DIRTY_WORLD) &&& TFORM_DIRTY_WORLD = 0 := by
  have h : bit_not TFORM_DIRTY_WORLD &&& TFORM_DIRTY_WORLD = 0 := by decide
  rw [Nat.and_assoc, h]; simp

theorem and_local_clear_world (d : Nat) :
    (d &&& bit_not TFORM_DIRTY_WORLD) &&& TFORM_DIRTY_LOCAL = d &&& TFORM_DIRTY_LOCAL := by
  have h : bit_not TFORM_DIRTY_WORLD &&& TFORM_DIRTY_LOCAL = TFORM_DIRTY_LOCAL := by decide
  rw [Nat.and_assoc, h]

theorem and_local_clear_local (d : Nat) :
    (d &&& bit_not TFORM_DIRTY_LOCAL) &&& TFORM_DIRTY_LOCAL = 0 := by
  have h : bit_not TFORM_DIRTY_LOCAL &&& TFORM_DIRTY_LOCAL = 0 := by decide
  rw [Nat.and_assoc, h]; simp

theorem and_world_clear_local (d : Nat) :
    (d &&& bit_not TFORM_DIRTY_LOCAL) &&& TFORM_DIRTY_WORLD = d &&& TFORM_DIRTY_WORLD := by
  have h : bit_not TFORM_DIRTY_LOCAL &&& TFORM_DIRTY_WORLD = TFORM_DIRTY_WORLD := by decide
  rw [Nat.and_assoc, h]

theorem both_dirty_world : (TFORM_DIRTY_LOCAL ||| TFORM_DIRTY_WORLD) &&& TFORM_DIRTY_WORLD ≠ 0 := by
  decide

theorem both_dirty_local : (TFORM_DIRTY_LOCAL ||| TFORM_DIRTY_WORLD) &&& TFORM_DIRTY_LOCAL ≠ 0 := by
  decide

end EntitySystem

set_option linter.unusedSectionVars false

namespace EntitySystem
section heap

variable {K : Type} [LinearOrderedField K]

theorem node_lt {s : State K} {i : Nat} {n : entity_t K} (h : s.node i = some n) :
    i < s.heap.length := by
  unfold State.node at h
  by_contra hlt
  rw [List.get?_eq_none.mpr (by omega)] at h
  simp at h

theorem node_store {s : State K} {i : Nat} {m : entity_t K} (h : s.node i = some m)
    (n : entity_t K) (j : Nat) :
    (s.store i n).node j = if j = i then some n else s.node j := by
  have hlt := node_lt h
  unfold State.store State.node
  by_cases hj : j = i
  · subst hj
    simp [List.getElem?_set_self, hlt]
  · simp [hj, List.getElem?_set_ne (Ne.symm hj)]

theorem modify_eq_some {s s' : State K} {i : Nat} {f : entity_t K → entity_t K} :
    s.modify i f = some s' ↔ ∃ n, s.node i = some n ∧ s' = s.store i (f n) := by
  unfold State.modify
  cases h : s.node i <;> simp [eq_comm]

theorem modify_of_node {s : State K} {i : Nat} {n : entity_t K} (h : s.node i = some n)
    (f : entity_t K → entity_t K) : s.modify i f = some (s.store i (f n)) := by
  simp [State.modify, h]

theorem node_modify {s s' : State K} {i : Nat} {f : entity_t K → entity_t K}
    (h : s.modify i f = some s') (j : Nat) :
    s'.node j = if j = i then (s.node i).map f else s.node j := by
  obtain ⟨n, hn, rfl⟩ := modify_eq_some.mp h
  rw [node_store hn, hn]; rfl

theorem modify_orphans {s s' : State K} {i : Nat} {f : entity_t K → entity_t K}
    (h : s.modify i f = some s') :
    s'.entity_orphans = s.entity_orphans ∧ s'.entity_last_orphan = s.entity_last_orphan ∧
      s'.heap.length = s.heap.length := by
  obtain ⟨n, _, rfl⟩ := modify_eq_some.mp h
  simp [State.store]

end heap
end EntitySystem

set_option linter.unusedSectionVars false

namespace EntitySystem

section links

variable {K : Type} [LinearOrderedField K]

theorem node_store_if (s : State K) (i j : Nat) (n : entity_t K) :
    (s.store i n).node j = if j = i ∧ i < s.heap.length then some n else s.node j := by
  unfold State.store State.node
  by_cases hj : j = i
  · subst hj
    by_cases hlt : j < s.heap.length
    · simp [List.getElem?_set_self, hlt]
    · have h1 : (s.heap.set j (some n))[j]? = none :=
        List.getElem?_eq_none (by simp; omega)
      have h2 : s.heap[j]? = none := List.getElem?_eq_none (by omega)
      simp [hlt, h1, h2]
  · simp [hj, List.getElem?_set_ne (Ne.symm hj)]

theorem store_length (s : State K) (i : Nat) (n : entity_t K) :
    (s.store i n).heap.length = s.heap.length := by
  simp [State.store]

theorem store_orphans (s : State K) (i : Nat) (n : entity_t K) :
    (s.store i n).entity_orphans = s.entity_orphans := rfl

theorem store_last_orphan (s : State K) (i : Nat) (n : entity_t K) :
    (s.store i n).entity_last_orphan = s.entity_last_orphan := rfl

theorem node_set_orphans (s : State K) (v : Option Nat) (j : Nat) :
    (s.set_orphans v).node j = s.node j := rfl

theorem node_set_last_orphan (s : State K) (v : Option Nat) (j : Nat) :
    (s.set_last_orphan v).node j = s.node j := rfl

theorem length_set_orphans (s : State K) (v : Option Nat) :
    (s.set_orphans v).heap.length = s.heap.length := rfl

theorem length_set_last_orphan (s : State K) (v : Option Nat) :
    (s.set_last_orphan v).heap.length = s.heap.length := rfl

theorem orphans_set_orphans (s : State K) (v : Option Nat) :
    (s.set_orphans v).entity_orphans = v := rfl

theorem last_set_orphans (s : State K) (v : Option Nat) :
    (s.set_orphans v).entity_last_orphan = s.entity_last_orphan := rfl

theorem orphans_set_last_orphan (s : State K) (v : Option Nat) :
    (s.set_last_orphan v).entity_orphans = s.entity_orphans := rfl

theorem last_set_last_orphan (s : State K) (v : Option Nat) :
    (s.set_last_orphan v).entity_last_orphan = v := rfl

theorem skel_lk (s : State K) (j : Nat) : s.skel.lk j = (s.node j).map entity_t.links := rfl

theorem insert_sim {s : State K} {e : Nat} {n : entity_t K} (hn : s.node e = some n)
    (hp : s.skel.valid n.parent) (hpe : n.parent ≠ some e)
    (ht : ∀ q, s.skel.tail n.parent = some q →
      q ≠ e ∧ some q ≠ n.parent ∧ ∃ m, s.node q = some m) :
    ∃ s', entity_insert s (some e) = some s' ∧ s'.skel = s.skel.insert e ∧
      (∀ j, (s'.node j).map entity_t.payload = (s.node j).map entity_t.payload) ∧
      s'.heap.length = s.heap.length := by
  have he := node_lt hn
  rcases hpar : n.parent with _ | p
  · -- top-level list
    rw [hpar] at ht
    simp only [Skel.tail, State.skel] at ht
    rcases htl : s.entity_last_orphan with _ | q
    · obtain ⟨s', hs'⟩ : ∃ s', entity_insert s (some e) = some s' := by
        simp [entity_insert, State.modify, hn, node_store_if, he, hpar, htl, store_length,
          store_last_orphan]
      have hs := hs'
      simp [entity_insert, State.modify, hn, node_store_if, he, hpar, htl, store_length,
          store_last_orphan] at hs
      subst hs
      refine ⟨_, hs', ?_, ?_, ?_⟩
      · simp only [State.skel, Skel.insert, Skel.tail, hn, hpar, htl, Option.map_some',
          entity_t.links, Option.some_bind, Option.bind_some]
        simp only [Skel.mk.injEq]
        refine ⟨?_, ?_, ?_⟩
        · funext j
          by_cases hj : j = e
          · subst hj
            simp [node_store_if, he, hn, store_length, node_set_orphans, node_set_last_orphan,
              hpar, entity_t.links]
          · cases hnj : s.node j <;>
            simp [node_store_if, he, hn, store_length, node_set_orphans, node_set_last_orphan,
              hpar, hj, hnj, entity_t.links]
        · simp [orphans_set_orphans, orphans_set_last_orphan]
        · simp [last_set_last_orphan]
      · intro j
        by_cases hj : j = e
        · subst hj
          simp [node_store_if, he, hn, store_length, node_set_orphans, node_set_last_orphan,
              hpar, entity_t.payload]
        · simp [node_store_if, he, hn, store_length, node_set_orphans, node_set_last_orphan,
              hpar, hj]
      · simp [store_length, length_set_orphans, length_set_last_orphan]
    · obtain ⟨hqe, -, m, hm⟩ := ht q htl
      have hq := node_lt hm
      obtain ⟨s', hs'⟩ : ∃ s', entity_insert s (some e) = some s' := by
        simp [entity_insert, State.modify, hn, hm, node_store_if, he, hq, hqe, hpar, htl,
          store_length, store_last_orphan]
      have hs := hs'
      simp [entity_insert, State.modify, hn, hm, node_store_if, he, hq, hqe, hpar, htl,
          store_length, store_last_orphan] at hs
      subst hs
      refine ⟨_, hs', ?_, ?_, ?_⟩
      · simp only [State.skel, Skel.insert, Skel.tail, hn, hpar, htl, Option.map_some',
          entity_t.links, Option.some_bind, Option.bind_some]
        simp only [Skel.mk.injEq]
        refine ⟨?_, ?_, ?_⟩
        · funext j
          by_cases hj : j = e
          · subst hj
            simp [node_store_if, he, hq, hn, store_length, node_set_orphans,
              node_set_last_orphan, hpar, entity_t.links, Ne.symm hqe]
          · by_cases hjq : j = q
            · subst hjq
              simp [node_store_if, he, hq, hn, hm, store_length, node_set_orphans,
                node_set_last_orphan, hpar, entity_t.links, hj]
            · cases hnj : s.node j <;>
              simp [node_store_if, he, hq, hn, store_length, node_set_orphans,
                node_set_last_orphan, hpar, hj, hjq, Ne.symm hjq, hnj, entity_t.links]
        · simp [orphans_set_orphans, orphans_set_last_orphan, store_orphans]
        · simp [last_set_last_orphan]
      · intro j
        by_cases hj : j = e
        · subst hj
          simp [node_store_if, he, hq, hn, store_length, node_set_orphans, node_set_last_orphan,
              hpar, entity_t.payload, Ne.symm hqe]
        · by_cases hjq : j = q
          · subst hjq
            simp [node_store_if, he, hq, hn, hm, store_length, node_set_orphans,
              node_set_last_orphan, hpar, entity_t.payload, hj]
          · simp [node_store_if, he, hq, hn, store_length, node_set_orphans,
              node_set_last_orphan, hpar, hj, hjq]
      · simp [store_length, length_set_orphans, length_set_last_orphan]
  · -- child list of `p`
    rw [hpar] at ht hp hpe
    have hpe' : p ≠ e := fun h => hpe (by rw [h])
    obtain ⟨pl, hpl⟩ := hp
    rw [skel_lk] at hpl
    rcases hpn : s.node p with _ | pn
    · simp [hpn] at hpl
    have hplt := node_lt hpn
    simp only [Skel.tail, skel_lk, hpn, Option.map_some', Option.some_bind, Option.bind_some,
      entity_t.links] at ht
    rcases htl : pn.last_child with _ | q
    · obtain ⟨s', hs'⟩ : ∃ s', entity_insert s (some e) = some s' := by
        simp [entity_insert, State.modify, hn, hpn, node_store_if, he, hplt, hpe', Ne.symm hpe',
          hpar, htl, store_length]
      have hs := hs'
      simp [entity_insert, State.modify, hn, hpn, node_store_if, he, hplt, hpe', Ne.symm hpe',
          hpar, htl, store_length] at hs
      subst hs
      refine ⟨_, hs', ?_, ?_, ?_⟩
      · simp only [State.skel, Skel.insert, Skel.tail, hn, hpn, hpar, htl, Option.map_some',
          entity_t.links, Option.some_bind, Option.bind_some]
        simp only [Skel.mk.injEq]
        refine ⟨?_, ?_, ?_⟩
        · funext j
          by_cases hj : j = e
          · subst hj
            simp [node_store_if, he, hplt, hn, store_length, hpar, entity_t.links, hpe',
              Ne.symm hpe']
          · by_cases hjp : j = p
            · subst hjp
              simp [node_store_if, he, hplt, hn, hpn, store_length, hpar, entity_t.links, hj]
            · cases hnj : s.node j <;>
              simp [node_store_if, he, hplt, hn, store_length, hpar, hj, hjp, hnj,
                entity_t.links]
        · simp [store_orphans]
        · simp [store_last_orphan]
      · intro j
        by_cases hj : j = e
        · subst hj
          simp [node_store_if, he, hplt, hn, store_length, hpar, entity_t.payload, hpe',
            Ne.symm hpe']
        · by_cases hjp : j = p
          · subst hjp
            simp [node_store_if, he, hplt, hn, hpn, store_length, hpar, entity_t.payload, hj]
          · simp [node_store_if, he, hplt, hn, store_length, hpar, hj, hjp]
      · simp [store_length]
    · obtain ⟨hqe, hqp, m, hm⟩ := ht q htl
      have hqp' : q ≠ p := fun h => hqp (by rw [h])
      have hq := node_lt hm
      obtain ⟨s', hs'⟩ : ∃ s', entity_insert s (some e) = some s' := by
        simp [entity_insert, State.modify, hn, hpn, hm, node_store_if, he, hplt, hq, hpe',
          Ne.symm hpe', hqe, Ne.symm hqe, hqp', Ne.symm hqp', hpar, htl, store_length]
      have hs := hs'
      simp [entity_insert, State.modify, hn, hpn, hm, node_store_if, he, hplt, hq, hpe',
          Ne.symm hpe', hqe, Ne.symm hqe, hqp', Ne.symm hqp', hpar, htl, store_length] at hs
      subst hs
      refine ⟨_, hs', ?_, ?_, ?_⟩
      · simp only [State.skel, Skel.insert, Skel.tail, hn, hpn, hpar, htl, Option.map_some',
          entity_t.links, Option.some_bind, Option.bind_some]
        simp only [Skel.mk.injEq]
        refine ⟨?_, ?_, ?_⟩
        · funext j
          by_cases hj : j = e
          · subst hj
            simp [node_store_if, he, hplt, hq, hn, store_length, hpar, entity_t.links, hpe',
              Ne.symm hpe', hqe, Ne.symm hqe]
          · by_cases hjp : j = p
            · subst hjp
              simp [node_store_if, he, hplt, hq, hn, hpn, store_length, hpar, entity_t.links,
                hj, hqp', Ne.symm hqp']
            · by_cases hjq : j = q
              · subst hjq
                simp [node_store_if, he, hplt, hq, hn, hm, store_length, hpar, entity_t.links,
                  hj, hjp]
              · cases hnj : s.node j <;>
                simp [node_store_if, he, hplt, hq, hn, store_length, hpar, hj, hjp, hjq,
                  Ne.symm hjq, hnj, entity_t.links]
        · simp [store_orphans]
        · simp [store_last_orphan]
      · intro j
        by_cases hj : j = e
        · subst hj
          simp [node_store_if, he, hplt, hq, hn, store_length, hpar, entity_t.payload, hpe',
            Ne.symm hpe', hqe, Ne.symm hqe]
        · by_cases hjp : j = p
          · subst hjp
            simp [node_store_if, he, hplt, hq, hn, hpn, store_length, hpar, entity_t.payload,
              hj, hqp', Ne.symm hqp']
          · by_cases hjq : j = q
            · subst hjq
              simp [node_store_if, he, hplt, hq, hn, hm, store_length, hpar, entity_t.payload,
                hj, hjp]
            · simp [node_store_if, he, hplt, hq, hn, store_length, hpar, hj, hjp, hjq]
      · simp [store_length]

end links

end EntitySystem

set_option linter.unusedSectionVars false

namespace EntitySystem

section remove

variable {K : Type} [LinearOrderedField K]

set_option maxHeartbeats 1600000 in
theorem remove_sim {s : State K} {e : Nat} {n : entity_t K} (hn : s.node e = some n)
    (hp : s.skel.valid n.parent) (hpe : n.parent ≠ some e)
    (hd : ∀ a, (n.succ = some a ∨ n.pred = some a) →
      a ≠ e ∧ some a ≠ n.parent ∧ ∃ m, s.node a = some m)
    (hqr : ∀ a, n.succ = some a → n.pred ≠ some a)
    (hhead : s.skel.head n.parent = some e ↔ n.pred = none)
    (htail : s.skel.tail n.parent = some e ↔ n.succ = none) :
    ∃ s', entity_remove s (some e) = some s' ∧ s'.skel = s.skel.remove e n.links ∧
      (∀ j, (s'.node j).map entity_t.payload = (s.node j).map entity_t.payload) ∧
      s'.heap.length = s.heap.length := by
  have he := node_lt hn
  rcases hpar : n.parent with _ | p
  · rcases hsucc : n.succ with _ | q
    · rcases hpred : n.pred with _ | r
      · have hhd : s.entity_orphans = some e := by simpa [Skel.head, Skel.tail, State.skel, hpar, hsucc, hpred] using hhead
        have htl : s.entity_last_orphan = some e := by simpa [Skel.head, Skel.tail, State.skel, hpar, hsucc, hpred] using htail
        obtain ⟨s', hs'⟩ : ∃ s', entity_remove s (some e) = some s' := by
          simp [entity_remove, State.modify, hn, he, hpar, hsucc, hpred, hhd, htl, node_store_if, store_length, store_orphans, store_last_orphan, node_set_orphans, node_set_last_orphan, orphans_set_orphans, last_set_orphans, orphans_set_last_orphan, last_set_last_orphan, length_set_orphans, length_set_last_orphan]
        have hs := hs'
        simp [entity_remove, State.modify, hn, he, hpar, hsucc, hpred, hhd, htl, node_store_if, store_length, store_orphans, store_last_orphan, node_set_orphans, node_set_last_orphan, orphans_set_orphans, last_set_orphans, orphans_set_last_orphan, last_set_last_orphan, length_set_orphans, length_set_last_orphan] at hs
        subst hs
        refine ⟨_, hs', ?_, ?_, ?_⟩
        · simp only [State.skel, Skel.remove, entity_t.links, hpar, hsucc, hpred]
          simp only [Skel.mk.injEq]
          refine ⟨?_, ?_, ?_⟩
          · funext j
            by_cases hje : j = e
            · subst hje
              simp [hn, he, hpar, hsucc, hpred, hhd, htl, node_store_if, store_length, store_orphans, store_last_orphan, node_set_orphans, node_set_last_orphan, orphans_set_orphans, last_set_orphans, orphans_set_last_orphan, last_set_last_orphan, length_set_orphans, length_set_last_orphan, entity_t.links]
            · cases hnj : s.node j <;>
                simp [hn, he, hpar, hsucc, hpred, hhd, htl, node_store_if, store_length, store_orphans, store_last_orphan, node_set_orphans, node_set_last_orphan, orphans_set_orphans, last_set_orphans, orphans_set_last_orphan, last_set_last_orphan, length_set_orphans, length_set_last_orphan, entity_t.links, hnj, hje, Ne.symm hje]
          · simp [hn, he, hpar, hsucc, hpred, hhd, htl, node_store_if, store_length, store_orphans, store_last_orphan, node_set_orphans, node_set_last_orphan, orphans_set_orphans, last_set_orphans, orphans_set_last_orphan, last_set_last_orphan, length_set_orphans, length_set_last_orphan, entity_t.links]
          · simp [hn, he, hpar, hsucc, hpred, hhd, htl, node_store_if, store_length, store_orphans, store_last_orphan, node_set_orphans, node_set_last_orphan, orphans_set_orphans, last_set_orphans, orphans_set_last_orphan, last_set_last_orphan, length_set_orphans, length_set_last_orphan, entity_t.links]
        · intro j
          by_cases hje : j = e
          · subst hje
            simp [hn, he, hpar, hsucc, hpred, hhd, htl, node_store_if, store_length, store_orphans, store_last_orphan, node_set_orphans, node_set_last_orphan, orphans_set_orphans, last_set_orphans, orphans_set_last_orphan, last_set_last_orphan, length_set_orphans, length_set_last_orphan, entity_t.payload]
          · cases hnj : s.node j <;>
              simp [hn, he, hpar, hsucc, hpred, hhd, htl, node_store_if, store_length, store_orphans, store_last_orphan, node_set_orphans, node_set_last_orphan, orphans_set_orphans, last_set_orphans, orphans_set_last_orphan, last_set_last_orphan, length_set_orphans, length_set_last_orphan, entity_t.payload, hnj, hje, Ne.symm hje]
        · simp [hn, he, hpar, hsucc, hpred, hhd, htl, node_store_if, store_length, store_orphans, store_last_orphan, node_set_orphans, node_set_last_orphan, orphans_set_orphans, last_set_orphans, orphans_set_last_orphan, last_set_last_orphan, length_set_orphans, length_set_last_orphan, entity_t.links]
      · obtain ⟨hre, hrp, mr, hmr⟩ := hd r (Or.inr hpred)
        have hrlt := node_lt hmr
        have hhd : ¬ s.entity_orphans = some e := by simpa [Skel.head, Skel.tail, State.skel, hpar, hsucc, hpred] using hhead
        have htl : s.entity_last_orphan = some e := by simpa [Skel.head, Skel.tail, State.skel, hpar, hsucc, hpred] using htail
        obtain ⟨s', hs'⟩ : ∃ s', entity_remove s (some e) = some s' := by
          simp [entity_remove, State.modify, hn, he, hpar, hsucc, hpred, hmr, hrlt, hre, Ne.symm hre, hhd, htl, node_store_if, store_length, store_orphans, store_last_orphan, node_set_orphans, node_set_last_orphan, orphans_set_orphans, last_set_orphans, orphans_set_last_orphan, last_set_last_orphan, length_set_orphans, length_set_last_orphan]
        have hs := hs'
        simp [entity_remove, State.modify, hn, he, hpar, hsucc, hpred, hmr, hrlt, hre, Ne.symm hre, hhd, htl, node_store_if, store_length, store_orphans, store_last_orphan, node_set_orphans, node_set_last_orphan, orphans_set_orphans, last_set_orphans, orphans_set_last_orphan, last_set_last_orphan, length_set_orphans, length_set_last_orphan] at hs
        subst hs
        refine ⟨_, hs', ?_, ?_, ?_⟩
        · simp only [State.skel, Skel.remove, entity_t.links, hpar, hsucc, hpred]
          simp only [Skel.mk.injEq]
          refine ⟨?_, ?_, ?_⟩
          · funext j
            by_cases hje : j = e
            · subst hje
              simp [hn, he, hpar, hsucc, hpred, hmr, hrlt, hre, Ne.symm hre, hhd, htl, node_store_if, store_length, store_orphans, store_last_orphan, node_set_orphans, node_set_last_orphan, orphans_set_orphans, last_set_orphans, orphans_set_last_orphan, last_set_last_orphan, length_set_orphans, length_set_last_orphan, entity_t.links]
            · by_cases hjr : j = r
              · subst hjr
                simp [hn, he, hpar, hsucc, hpred, hmr, hrlt, hre, Ne.symm hre, hhd, htl, node_store_if, store_length, store_orphans, store_last_orphan, node_set_orphans, node_set_last_orphan, orphans_set_orphans, last_set_orphans, orphans_set_last_orphan, last_set_last_orphan, length_set_orphans, length_set_last_orphan, entity_t.links, hje, Ne.symm hje]
              · cases hnj : s.node j <;>
                  simp [hn, he, hpar, hsucc, hpred, hmr, hrlt, hre, Ne.symm hre, hhd, htl, node_store_if, store_length, store_orphans, store_last_orphan, node_set_orphans, node_set_last_orphan, orphans_set_orphans, last_set_orphans, orphans_set_last_orphan, last_set_last_orphan, length_set_orphans, length_set_last_orphan, entity_t.links, hnj, hje, Ne.symm hje, hjr, Ne.symm hjr]
          · simp [hn, he, hpar, hsucc, hpred, hmr, hrlt, hre, Ne.symm hre, hhd, htl, node_store_if, store_length, store_orphans, store_last_orphan, node_set_orphans, node_set_last_orphan, orphans_set_orphans, last_set_orphans, orphans_set_last_orphan, last_set_last_orphan, length_set_orphans, length_set_last_orphan, entity_t.links]
          · simp [hn, he, hpar, hsucc, hpred, hmr, hrlt, hre, Ne.symm hre, hhd, htl, node_store_if, store_length, store_orphans, store_last_orphan, node_set_orphans, node_set_last_orphan, orphans_set_orphans, last_set_orphans, orphans_set_last_orphan, last_set_last_orphan, length_set_orphans, length_set_last_orphan, entity_t.links]
        · intro j
          by_cases hje : j = e
          · subst hje
            simp [hn, he, hpar, hsucc, hpred, hmr, hrlt, hre, Ne.symm hre, hhd, htl, node_store_if, store_length, store_orphans, store_last_orphan, node_set_orphans, node_set_last_orphan, orphans_set_orphans, last_set_orphans, orphans_set_last_orphan, last_set_last_orphan, length_set_orphans, length_set_last_orphan, entity_t.payload]
          · by_cases hjr : j = r
            · subst hjr
              simp [hn, he, hpar, hsucc, hpred, hmr, hrlt, hre, Ne.symm hre, hhd, htl, node_store_if, store_length, store_orphans, store_last_orphan, node_set_orphans, node_set_last_orphan, orphans_set_orphans, last_set_orphans, orphans_set_last_orphan, last_set_last_orphan, length_set_orphans, length_set_last_orphan, entity_t.payload, hje, Ne.symm hje]
            · cases hnj : s.node j <;>
                simp [hn, he, hpar, hsucc, hpred, hmr, hrlt, hre, Ne.symm hre, hhd, htl, node_store_if, store_length, store_orphans, store_last_orphan, node_set_orphans, node_set_last_orphan, orphans_set_orphans, last_set_orphans, orphans_set_last_orphan, last_set_last_orphan, length_set_orphans, length_set_last_orphan, entity_t.payload, hnj, hje, Ne.symm hje, hjr, Ne.symm hjr]
        · simp [hn, he, hpar, hsucc, hpred, hmr, hrlt, hre, Ne.symm hre, hhd, htl, node_store_if, store_length, store_orphans, store_last_orphan, node_set_orphans, node_set_last_orphan, orphans_set_orphans, last_set_orphans, orphans_set_last_orphan, last_set_last_orphan, length_set_orphans, length_set_last_orphan, entity_t.links]
    · rcases hpred : n.pred with _ | r
      · obtain ⟨hqe, hqp, mq, hmq⟩ := hd q (Or.inl hsucc)
        have hqlt := node_lt hmq
        have hhd : s.entity_orphans = some e := by simpa [Skel.head, Skel.tail, State.skel, hpar, hsucc, hpred] using hhead
        have htl : ¬ s.entity_last_orphan = some e := by simpa [Skel.head, Skel.tail, State.skel, hpar, hsucc, hpred] using htail
        obtain ⟨s', hs'⟩ : ∃ s', entity_remove s (some e) = some s' := by
          simp [entity_remove, State.modify, hn, he, hpar, hsucc, hpred, hmq, hqlt, hqe, Ne.symm hqe, hhd, htl, node_store_if, store_length, store_orphans, store_last_orphan, node_set_orphans, node_set_last_orphan, orphans_set_orphans, last_set_orphans, orphans_set_last_orphan, last_set_last_orphan, length_set_orphans, length_set_last_orphan]
        have hs := hs'
        simp [entity_remove, State.modify, hn, he, hpar, hsucc, hpred, hmq, hqlt, hqe, Ne.symm hqe, hhd, htl, node_store_if, store_length, store_orphans, store_last_orphan, node_set_orphans, node_set_last_orphan, orphans_set_orphans, last_set_orphans, orphans_set_last_orphan, last_set_last_orphan, length_set_orphans, length_set_last_orphan] at hs
        subst hs
        refine ⟨_, hs', ?_, ?_, ?_⟩
        · simp only [State.skel, Skel.remove, entity_t.links, hpar, hsucc, hpred]
          simp only [Skel.mk.injEq]
          refine ⟨?_, ?_, ?_⟩
          · funext j
            by_cases hje : j = e
            · subst hje
              simp [hn, he, hpar, hsucc, hpred, hmq, hqlt, hqe, Ne.symm hqe, hhd, htl, node_store_if, store_length, store_orphans, store_last_orphan, node_set_orphans, node_set_last_orphan, orphans_set_orphans, last_set_orphans, orphans_set_last_orphan, last_set_last_orphan, length_set_orphans, length_set_last_orphan, entity_t.links]
            · by_cases hjq : j = q
              · subst hjq
                simp [hn, he, hpar, hsucc, hpred, hmq, hqlt, hqe, Ne.symm hqe, hhd, htl, node_store_if, store_length, store_orphans, store_last_orphan, node_set_orphans, node_set_last_orphan, orphans_set_orphans, last_set_orphans, orphans_set_last_orphan, last_set_last_orphan, length_set_orphans, length_set_last_orphan, entity_t.links, hje, Ne.symm hje]
              · cases hnj : s.node j <;>
                  simp [hn, he, hpar, hsucc, hpred, hmq, hqlt, hqe, Ne.symm hqe, hhd, htl, node_store_if, store_length, store_orphans, store_last_orphan, node_set_orphans, node_set_last_orphan, orphans_set_orphans, last_set_orphans, orphans_set_last_orphan, last_set_last_orphan, length_set_orphans, length_set_last_orphan, entity_t.links, hnj, hje, Ne.symm hje, hjq, Ne.symm hjq]
          · simp [hn, he, hpar, hsucc, hpred, hmq, hqlt, hqe, Ne.symm hqe, hhd, htl, node_store_if, store_length, store_orphans, store_last_orphan, node_set_orphans, node_set_last_orphan, orphans_set_orphans, last_set_orphans, orphans_set_last_orphan, last_set_last_orphan, length_set_orphans, length_set_last_orphan, entity_t.links]
          · simp [hn, he, hpar, hsucc, hpred, hmq, hqlt, hqe, Ne.symm hqe, hhd, htl, node_store_if, store_length, store_orphans, store_last_orphan, node_set_orphans, node_set_last_orphan, orphans_set_orphans, last_set_orphans, orphans_set_last_orphan, last_set_last_orphan, length_set_orphans, length_set_last_orphan, entity_t.links]
        · intro j
          by_cases hje : j = e
          · subst hje
            simp [hn, he, hpar, hsucc, hpred, hmq, hqlt, hqe, Ne.symm hqe, hhd, htl, node_store_if, store_length, store_orphans, store_last_orphan, node_set_orphans, node_set_last_orphan, orphans_set_orphans, last_set_orphans, orphans_set_last_orphan, last_set_last_orphan, length_set_orphans, length_set_last_orphan, entity_t.payload]
          · by_cases hjq : j = q
            · subst hjq
              simp [hn, he, hpar, hsucc, hpred, hmq, hqlt, hqe, Ne.symm hqe, hhd, htl, node_store_if, store_length, store_orphans, store_last_orphan, node_set_orphans, node_set_last_orphan, orphans_set_orphans, last_set_orphans, orphans_set_last_orphan, last_set_last_orphan, length_set_orphans, length_set_last_orphan, entity_t.payload, hje, Ne.symm hje]
            · cases hnj : s.node j <;>
                simp [hn, he, hpar, hsucc, hpred, hmq, hqlt, hqe, Ne.symm hqe, hhd, htl, node_store_if, store_length, store_orphans, store_last_orphan, node_set_orphans, node_set_last_orphan, orphans_set_orphans, last_set_orphans, orphans_set_last_orphan, last_set_last_orphan, length_set_orphans, length_set_last_orphan, entity_t.payload, hnj, hje, Ne.symm hje, hjq, Ne.symm hjq]
        · simp [hn, he, hpar, hsucc, hpred, hmq, hqlt, hqe, Ne.symm hqe, hhd, htl, node_store_if, store_length, store_orphans, store_last_orphan, node_set_orphans, node_set_last_orphan, orphans_set_orphans, last_set_orphans, orphans_set_last_orphan, last_set_last_orphan, length_set_orphans, length_set_last_orphan, entity_t.links]
      · obtain ⟨hqe, hqp, mq, hmq⟩ := hd q (Or.inl hsucc)
        have hqlt := node_lt hmq
        obtain ⟨hre, hrp, mr, hmr⟩ := hd r (Or.inr hpred)
        have hrlt := node_lt hmr
        have hqr' : q ≠ r := fun h => hqr q hsucc (by rw [hpred, h])
        have hhd : ¬ s.entity_orphans = some e := by simpa [Skel.head, Skel.tail, State.skel, hpar, hsucc, hpred] using hhead
        have htl : ¬ s.entity_last_orphan = some e := by simpa [Skel.head, Skel.tail, State.skel, hpar, hsucc, hpred] using htail
        obtain ⟨s', hs'⟩ : ∃ s', entity_remove s (some e) = some s' := by
          simp [entity_remove, State.modify, hn, he, hpar, hsucc, hpred, hmq, hqlt, hqe, Ne.symm hqe, hmr, hrlt, hre, Ne.symm hre, hqr', Ne.symm hqr', hhd, htl, node_store_if, store_length, store_orphans, store_last_orphan, node_set_orphans, node_set_last_orphan, orphans_set_orphans, last_set_orphans, orphans_set_last_orphan, last_set_last_orphan, length_set_orphans, length_set_last_orphan]
        have hs := hs'
        simp [entity_remove, State.modify, hn, he, hpar, hsucc, hpred, hmq, hqlt, hqe, Ne.symm hqe, hmr, hrlt, hre, Ne.symm hre, hqr', Ne.symm hqr', hhd, htl, node_store_if, store_length, store_orphans, store_last_orphan, node_set_orphans, node_set_last_orphan, orphans_set_orphans, last_set_orphans, orphans_set_last_orphan, last_set_last_orphan, length_set_orphans, length_set_last_orphan] at hs
        subst hs
        refine ⟨_, hs', ?_, ?_, ?_⟩
        · simp only [State.skel, Skel.remove, entity_t.links, hpar, hsucc, hpred]
          simp only [Skel.mk.injEq]
          refine ⟨?_, ?_, ?_⟩
          · funext j
            by_cases hje : j = e
            · subst hje
              simp [hn, he, hpar, hsucc, hpred, hmq, hqlt, hqe, Ne.symm hqe, hmr, hrlt, hre, Ne.symm hre, hqr', Ne.symm hqr', hhd, htl, node_store_if, store_length, store_orphans, store_last_orphan, node_set_orphans, node_set_last_orphan, orphans_set_orphans, last_set_orphans, orphans_set_last_orphan, last_set_last_orphan, length_set_orphans, length_set_last_orphan, entity_t.links]
            · by_cases hjq : j = q
              · subst hjq
                simp [hn, he, hpar, hsucc, hpred, hmq, hqlt, hqe, Ne.symm hqe, hmr, hrlt, hre, Ne.symm hre, hqr', Ne.symm hqr', hhd, htl, node_store_if, store_length, store_orphans, store_last_orphan, node_set_orphans, node_set_last_orphan, orphans_set_orphans, last_set_orphans, orphans_set_last_orphan, last_set_last_orphan, length_set_orphans, length_set_last_orphan, entity_t.links, hje, Ne.symm hje]
              · by_cases hjr : j = r
                · subst hjr
                  simp [hn, he, hpar, hsucc, hpred, hmq, hqlt, hqe, Ne.symm hqe, hmr, hrlt, hre, Ne.symm hre, hqr', Ne.symm hqr', hhd, htl, node_store_if, store_length, store_orphans, store_last_orphan, node_set_orphans, node_set_last_orphan, orphans_set_orphans, last_set_orphans, orphans_set_last_orphan, last_set_last_orphan, length_set_orphans, length_set_last_orphan, entity_t.links, hje, Ne.symm hje, hjq, Ne.symm hjq]
                · cases hnj : s.node j <;>
                    simp [hn, he, hpar, hsucc, hpred, hmq, hqlt, hqe, Ne.symm hqe, hmr, hrlt, hre, Ne.symm hre, hqr', Ne.symm hqr', hhd, htl, node_store_if, store_length, store_orphans, store_last_orphan, node_set_orphans, node_set_last_orphan, orphans_set_orphans, last_set_orphans, orphans_set_last_orphan, last_set_last_orphan, length_set_orphans, length_set_last_orphan, entity_t.links, hnj, hje, Ne.symm hje, hjq, Ne.symm hjq, hjr, Ne.symm hjr]
          · simp [hn, he, hpar, hsucc, hpred, hmq, hqlt, hqe, Ne.symm hqe, hmr, hrlt, hre, Ne.symm hre, hqr', Ne.symm hqr', hhd, htl, node_store_if, store_length, store_orphans, store_last_orphan, node_set_orphans, node_set_last_orphan, orphans_set_orphans, last_set_orphans, orphans_set_last_orphan, last_set_last_orphan, length_set_orphans, length_set_last_orphan, entity_t.links]
          · simp [hn, he, hpar, hsucc, hpred, hmq, hqlt, hqe, Ne.symm hqe, hmr, hrlt, hre, Ne.symm hre, hqr', Ne.symm hqr', hhd, htl, node_store_if, store_length, store_orphans, store_last_orphan, node_set_orphans, node_set_last_orphan, orphans_set_orphans, last_set_orphans, orphans_set_last_orphan, last_set_last_orphan, length_set_orphans, length_set_last_orphan, entity_t.links]
        · intro j
          by_cases hje : j = e
          · subst hje
            simp [hn, he, hpar, hsucc, hpred, hmq, hqlt, hqe, Ne.symm hqe, hmr, hrlt, hre, Ne.symm hre, hqr', Ne.symm hqr', hhd, htl, node_store_if, store_length, store_orphans, store_last_orphan, node_set_orphans, node_set_last_orphan, orphans_set_orphans, last_set_orphans, orphans_set_last_orphan, last_set_last_orphan, length_set_orphans, length_set_last_orphan, entity_t.payload]
          · by_cases hjq : j = q
            · subst hjq
              simp [hn, he, hpar, hsucc, hpred, hmq, hqlt, hqe, Ne.symm hqe, hmr, hrlt, hre, Ne.symm hre, hqr', Ne.symm hqr', hhd, htl, node_store_if, store_length, store_orphans, store_last_orphan, node_set_orphans, node_set_last_orphan, orphans_set_orphans, last_set_orphans, orphans_set_last_orphan, last_set_last_orphan, length_set_orphans, length_set_last_orphan, entity_t.payload, hje, Ne.symm hje]
            · by_cases hjr : j = r
              · subst hjr
                simp [hn, he, hpar, hsucc, hpred, hmq, hqlt, hqe, Ne.symm hqe, hmr, hrlt, hre, Ne.symm hre, hqr', Ne.symm hqr', hhd, htl, node_store_if, store_length, store_orphans, store_last_orphan, node_set_orphans, node_set_last_orphan, orphans_set_orphans, last_set_orphans, orphans_set_last_orphan, last_set_last_orphan, length_set_orphans, length_set_last_orphan, entity_t.payload, hje, Ne.symm hje, hjq, Ne.symm hjq]
              · cases hnj : s.node j <;>
                  simp [hn, he, hpar, hsucc, hpred, hmq, hqlt, hqe, Ne.symm hqe, hmr, hrlt, hre, Ne.symm hre, hqr', Ne.symm hqr', hhd, htl, node_store_if, store_length, store_orphans, store_last_orphan, node_set_orphans, node_set_last_orphan, orphans_set_orphans, last_set_orphans, orphans_set_last_orphan, last_set_last_orphan, length_set_orphans, length_set_last_orphan, entity_t.payload, hnj, hje, Ne.symm hje, hjq, Ne.symm hjq, hjr, Ne.symm hjr]
        · simp [hn, he, hpar, hsucc, hpred, hmq, hqlt, hqe, Ne.symm hqe, hmr, hrlt, hre, Ne.symm hre, hqr', Ne.symm hqr', hhd, htl, node_store_if, store_length, store_orphans, store_last_orphan, node_set_orphans, node_set_last_orphan, orphans_set_orphans, last_set_orphans, orphans_set_last_orphan, last_set_last_orphan, length_set_orphans, length_set_last_orphan, entity_t.links]
  · rw [hpar] at hp hpe
    have hpe' : p ≠ e := fun h => hpe (by rw [h])
    obtain ⟨pl, hpl⟩ := hp
    rw [skel_lk] at hpl
    rcases hpn : s.node p with _ | pn
    · simp [hpn] at hpl
    have hplt := node_lt hpn
    rcases hsucc : n.succ with _ | q
    · rcases hpred : n.pred with _ | r
      · have hhd : pn.children = some e := by simpa [Skel.head, Skel.tail, skel_lk, hpar, hpn, hsucc, hpred, entity_t.links] using hhead
        have htl : pn.last_child = some e := by simpa [Skel.head, Skel.tail, skel_lk, hpar, hpn, hsucc, hpred, entity_t.links] using htail
        obtain ⟨s', hs'⟩ : ∃ s', entity_remove s (some e) = some s' := by
          simp [entity_remove, State.modify, hn, he, hpar, hsucc, hpred, hpn, hplt, hpe', Ne.symm hpe', hhd, htl, node_store_if, store_length, store_orphans, store_last_orphan, node_set_orphans, node_set_last_orphan, orphans_set_orphans, last_set_orphans, orphans_set_last_orphan, last_set_last_orphan, length_set_orphans, length_set_last_orphan]
        have hs := hs'
        simp [entity_remove, State.modify, hn, he, hpar, hsucc, hpred, hpn, hplt, hpe', Ne.symm hpe', hhd, htl, node_store_if, store_length, store_orphans, store_last_orphan, node_set_orphans, node_set_last_orphan, orphans_set_orphans, last_set_orphans, orphans_set_last_orphan, last_set_last_orphan, length_set_orphans, length_set_last_orphan] at hs
        subst hs
        refine ⟨_, hs', ?_, ?_, ?_⟩
        · simp only [State.skel, Skel.remove, entity_t.links, hpar, hsucc, hpred]
          simp only [Skel.mk.injEq]
          refine ⟨?_, ?_, ?_⟩
          · funext j
            by_cases hje : j = e
            · subst hje
              simp [hn, he, hpar, hsucc, hpred, hpn, hplt, hpe', Ne.symm hpe', hhd, htl, node_store_if, store_length, store_orphans, store_last_orphan, node_set_orphans, node_set_last_orphan, orphans_set_orphans, last_set_orphans, orphans_set_last_orphan, last_set_last_orphan, length_set_orphans, length_set_last_orphan, entity_t.links]
            · by_cases hjp : j = p
              · subst hjp
                simp [hn, he, hpar, hsucc, hpred, hpn, hplt, hpe', Ne.symm hpe', hhd, htl, node_store_if, store_length, store_orphans, store_last_orphan, node_set_orphans, node_set_last_orphan, orphans_set_orphans, last_set_orphans, orphans_set_last_orphan, last_set_last_orphan, length_set_orphans, length_set_last_orphan, entity_t.links, hje, Ne.symm hje]
              · cases hnj : s.node j <;>
                  simp [hn, he, hpar, hsucc, hpred, hpn, hplt, hpe', Ne.symm hpe', hhd, htl, node_store_if, store_length, store_orphans, store_last_orphan, node_set_orphans, node_set_last_orphan, orphans_set_orphans, last_set_orphans, orphans_set_last_orphan, last_set_last_orphan, length_set_orphans, length_set_last_orphan, entity_t.links, hnj, hje, Ne.symm hje, hjp, Ne.symm hjp]
          · simp [hn, he, hpar, hsucc, hpred, hpn, hplt, hpe', Ne.symm hpe', hhd, htl, node_store_if, store_length, store_orphans, store_last_orphan, node_set_orphans, node_set_last_orphan, orphans_set_orphans, last_set_orphans, orphans_set_last_orphan, last_set_last_orphan, length_set_orphans, length_set_last_orphan, entity_t.links]
          · simp [hn, he, hpar, hsucc, hpred, hpn, hplt, hpe', Ne.symm hpe', hhd, htl, node_store_if, store_length, store_orphans, store_last_orphan, node_set_orphans, node_set_last_orphan, orphans_set_orphans, last_set_orphans, orphans_set_last_orphan, last_set_last_orphan, length_set_orphans, length_set_last_orphan, entity_t.links]
        · intro j
          by_cases hje : j = e
          · subst hje
            simp [hn, he, hpar, hsucc, hpred, hpn, hplt, hpe', Ne.symm hpe', hhd, htl, node_store_if, store_length, store_orphans, store_last_orphan, node_set_orphans, node_set_last_orphan, orphans_set_orphans, last_set_orphans, orphans_set_last_orphan, last_set_last_orphan, length_set_orphans, length_set_last_orphan, entity_t.payload]
          · by_cases hjp : j = p
            · subst hjp
              simp [hn, he, hpar, hsucc, hpred, hpn, hplt, hpe', Ne.symm hpe', hhd, htl, node_store_if, store_length, store_orphans, store_last_orphan, node_set_orphans, node_set_last_orphan, orphans_set_orphans, last_set_orphans, orphans_set_last_orphan, last_set_last_orphan, length_set_orphans, length_set_last_orphan, entity_t.payload, hje, Ne.symm hje]
            · cases hnj : s.node j <;>
                simp [hn, he, hpar, hsucc, hpred, hpn, hplt, hpe', Ne.symm hpe', hhd, htl, node_store_if, store_length, store_orphans, store_last_orphan, node_set_orphans, node_set_last_orphan, orphans_set_orphans, last_set_orphans, orphans_set_last_orphan, last_set_last_orphan, length_set_orphans, length_set_last_orphan, entity_t.payload, hnj, hje, Ne.symm hje, hjp, Ne.symm hjp]
        · simp [hn, he, hpar, hsucc, hpred, hpn, hplt, hpe', Ne.symm hpe', hhd, htl, node_store_if, store_length, store_orphans, store_last_orphan, node_set_orphans, node_set_last_orphan, orphans_set_orphans, last_set_orphans, orphans_set_last_orphan, last_set_last_orphan, length_set_orphans, length_set_last_orphan, entity_t.links]
      · obtain ⟨hre, hrp, mr, hmr⟩ := hd r (Or.inr hpred)
        have hrlt := node_lt hmr
        have hrp' : r ≠ p := fun h => hrp (by rw [h, hpar])
        have hhd : ¬ pn.children = some e := by simpa [Skel.head, Skel.tail, skel_lk, hpar, hpn, hsucc, hpred, entity_t.links] using hhead
        have htl : pn.last_child = some e := by simpa [Skel.head, Skel.tail, skel_lk, hpar, hpn, hsucc, hpred, entity_t.links] using htail
        obtain ⟨s', hs'⟩ : ∃ s', entity_remove s (some e) = some s' := by
          simp [entity_remove, State.modify, hn, he, hpar, hsucc, hpred, hpn, hplt, hpe', Ne.symm hpe', hmr, hrlt, hre, Ne.symm hre, hrp', Ne.symm hrp', hhd, htl, node_store_if, store_length, store_orphans, store_last_orphan, node_set_orphans, node_set_last_orphan, orphans_set_orphans, last_set_orphans, orphans_set_last_orphan, last_set_last_orphan, length_set_orphans, length_set_last_orphan]
        have hs := hs'
        simp [entity_remove, State.modify, hn, he, hpar, hsucc, hpred, hpn, hplt, hpe', Ne.symm hpe', hmr, hrlt, hre, Ne.symm hre, hrp', Ne.symm hrp', hhd, htl, node_store_if, store_length, store_orphans, store_last_orphan, node_set_orphans, node_set_last_orphan, orphans_set_orphans, last_set_orphans, orphans_set_last_orphan, last_set_last_orphan, length_set_orphans, length_set_last_orphan] at hs
        subst hs
        refine ⟨_, hs', ?_, ?_, ?_⟩
        · simp only [State.skel, Skel.remove, entity_t.links, hpar, hsucc, hpred]
          simp only [Skel.mk.injEq]
          refine ⟨?_, ?_, ?_⟩
          · funext j
            by_cases hje : j = e
            · subst hje
              simp [hn, he, hpar, hsucc, hpred, hpn, hplt, hpe', Ne.symm hpe', hmr, hrlt, hre, Ne.symm hre, hrp', Ne.symm hrp', hhd, htl, node_store_if, store_length, store_orphans, store_last_orphan, node_set_orphans, node_set_last_orphan, orphans_set_orphans, last_set_orphans, orphans_set_last_orphan, last_set_last_orphan, length_set_orphans, length_set_last_orphan, entity_t.links]
            · by_cases hjp : j = p
              · subst hjp
                simp [hn, he, hpar, hsucc, hpred, hpn, hplt, hpe', Ne.symm hpe', hmr, hrlt, hre, Ne.symm hre, hrp', Ne.symm hrp', hhd, htl, node_store_if, store_length, store_orphans, store_last_orphan, node_set_orphans, node_set_last_orphan, orphans_set_orphans, last_set_orphans, orphans_set_last_orphan, last_set_last_orphan, length_set_orphans, length_set_last_orphan, entity_t.links, hje, Ne.symm hje]
              · by_cases hjr : j = r
                · subst hjr
                  simp [hn, he, hpar, hsucc, hpred, hpn, hplt, hpe', Ne.symm hpe', hmr, hrlt, hre, Ne.symm hre, hrp', Ne.symm hrp', hhd, htl, node_store_if, store_length, store_orphans, store_last_orphan, node_set_orphans, node_set_last_orphan, orphans_set_orphans, last_set_orphans, orphans_set_last_orphan, last_set_last_orphan, length_set_orphans, length_set_last_orphan, entity_t.links, hje, Ne.symm hje, hjp, Ne.symm hjp]
                · cases hnj : s.node j <;>
                    simp [hn, he, hpar, hsucc, hpred, hpn, hplt, hpe', Ne.symm hpe', hmr, hrlt, hre, Ne.symm hre, hrp', Ne.symm hrp', hhd, htl, node_store_if, store_length, store_orphans, store_last_orphan, node_set_orphans, node_set_last_orphan, orphans_set_orphans, last_set_orphans, orphans_set_last_orphan, last_set_last_orphan, length_set_orphans, length_set_last_orphan, entity_t.links, hnj, hje, Ne.symm hje, hjp, Ne.symm hjp, hjr, Ne.symm hjr]
          · simp [hn, he, hpar, hsucc, hpred, hpn, hplt, hpe', Ne.symm hpe', hmr, hrlt, hre, Ne.symm hre, hrp', Ne.symm hrp', hhd, htl, node_store_if, store_length, store_orphans, store_last_orphan, node_set_orphans, node_set_last_orphan, orphans_set_orphans, last_set_orphans, orphans_set_last_orphan, last_set_last_orphan, length_set_orphans, length_set_last_orphan, entity_t.links]
          · simp [hn, he, hpar, hsucc, hpred, hpn, hplt, hpe', Ne.symm hpe', hmr, hrlt, hre, Ne.symm hre, hrp', Ne.symm hrp', hhd, htl, node_store_if, store_length, store_orphans, store_last_orphan, node_set_orphans, node_set_last_orphan, orphans_set_orphans, last_set_orphans, orphans_set_last_orphan, last_set_last_orphan, length_set_orphans, length_set_last_orphan, entity_t.links]
        · intro j
          by_cases hje : j = e
          · subst hje
            simp [hn, he, hpar, hsucc, hpred, hpn, hplt, hpe', Ne.symm hpe', hmr, hrlt, hre, Ne.symm hre, hrp', Ne.symm hrp', hhd, htl, node_store_if, store_length, store_orphans, store_last_orphan, node_set_orphans, node_set_last_orphan, orphans_set_orphans, last_set_orphans, orphans_set_last_orphan, last_set_last_orphan, length_set_orphans, length_set_last_orphan, entity_t.payload]
          · by_cases hjp : j = p
            · subst hjp
              simp [hn, he, hpar, hsucc, hpred, hpn, hplt, hpe', Ne.symm hpe', hmr, hrlt, hre, Ne.symm hre, hrp', Ne.symm hrp', hhd, htl, node_store_if, store_length, store_orphans, store_last_orphan, node_set_orphans, node_set_last_orphan, orphans_set_orphans, last_set_orphans, orphans_set_last_orphan, last_set_last_orphan, length_set_orphans, length_set_last_orphan, entity_t.payload, hje, Ne.symm hje]
            · by_cases hjr : j = r
              · subst hjr
                simp [hn, he, hpar, hsucc, hpred, hpn, hplt, hpe', Ne.symm hpe', hmr, hrlt, hre, Ne.symm hre, hrp', Ne.symm hrp', hhd, htl, node_store_if, store_length, store_orphans, store_last_orphan, node_set_orphans, node_set_last_orphan, orphans_set_orphans, last_set_orphans, orphans_set_last_orphan, last_set_last_orphan, length_set_orphans, length_set_last_orphan, entity_t.payload, hje, Ne.symm hje, hjp, Ne.symm hjp]
              · cases hnj : s.node j <;>
                  simp [hn, he, hpar, hsucc, hpred, hpn, hplt, hpe', Ne.symm hpe', hmr, hrlt, hre, Ne.symm hre, hrp', Ne.symm hrp', hhd, htl, node_store_if, store_length, store_orphans, store_last_orphan, node_set_orphans, node_set_last_orphan, orphans_set_orphans, last_set_orphans, orphans_set_last_orphan, last_set_last_orphan, length_set_orphans, length_set_last_orphan, entity_t.payload, hnj, hje, Ne.symm hje, hjp, Ne.symm hjp, hjr, Ne.symm hjr]
        · simp [hn, he, hpar, hsucc, hpred, hpn, hplt, hpe', Ne.symm hpe', hmr, hrlt, hre, Ne.symm hre, hrp', Ne.symm hrp', hhd, htl, node_store_if, store_length, store_orphans, store_last_orphan, node_set_orphans, node_set_last_orphan, orphans_set_orphans, last_set_orphans, orphans_set_last_orphan, last_set_last_orphan, length_set_orphans, length_set_last_orphan, entity_t.links]
    · rcases hpred : n.pred with _ | r
      · obtain ⟨hqe, hqp, mq, hmq⟩ := hd q (Or.inl hsucc)
        have hqlt := node_lt hmq
        have hqp' : q ≠ p := fun h => hqp (by rw [h, hpar])
        have hhd : pn.children = some e := by simpa [Skel.head, Skel.tail, skel_lk, hpar, hpn, hsucc, hpred, entity_t.links] using hhead
        have htl : ¬ pn.last_child = some e := by simpa [Skel.head, Skel.tail, skel_lk, hpar, hpn, hsucc, hpred, entity_t.links] using htail
        obtain ⟨s', hs'⟩ : ∃ s', entity_remove s (some e) = some s' := by
          simp [entity_remove, State.modify, hn, he, hpar, hsucc, hpred, hpn, hplt, hpe', Ne.symm hpe', hmq, hqlt, hqe, Ne.symm hqe, hqp', Ne.symm hqp', hhd, htl, node_store_if, store_length, store_orphans, store_last_orphan, node_set_orphans, node_set_last_orphan, orphans_set_orphans, last_set_orphans, orphans_set_last_orphan, last_set_last_orphan, length_set_orphans, length_set_last_orphan]
        have hs := hs'
        simp [entity_remove, State.modify, hn, he, hpar, hsucc, hpred, hpn, hplt, hpe', Ne.symm hpe', hmq, hqlt, hqe, Ne.symm hqe, hqp', Ne.symm hqp', hhd, htl, node_store_if, store_length, store_orphans, store_last_orphan, node_set_orphans, node_set_last_orphan, orphans_set_orphans, last_set_orphans, orphans_set_last_orphan, last_set_last_orphan, length_set_orphans, length_set_last_orphan] at hs
        subst hs
        refine ⟨_, hs', ?_, ?_, ?_⟩
        · simp only [State.skel, Skel.remove, entity_t.links, hpar, hsucc, hpred]
          simp only [Skel.mk.injEq]
          refine ⟨?_, ?_, ?_⟩
          · funext j
            by_cases hje : j = e
            · subst hje
              simp [hn, he, hpar, hsucc, hpred, hpn, hplt, hpe', Ne.symm hpe', hmq, hqlt, hqe, Ne.symm hqe, hqp', Ne.symm hqp', hhd, htl, node_store_if, store_length, store_orphans, store_last_orphan, node_set_orphans, node_set_last_orphan, orphans_set_orphans, last_set_orphans, orphans_set_last_orphan, last_set_last_orphan, length_set_orphans, length_set_last_orphan, entity_t.links]
            · by_cases hjp : j = p
              · subst hjp
                simp [hn, he, hpar, hsucc, hpred, hpn, hplt, hpe', Ne.symm hpe', hmq, hqlt, hqe, Ne.symm hqe, hqp', Ne.symm hqp', hhd, htl, node_store_if, store_length, store_orphans, store_last_orphan, node_set_orphans, node_set_last_orphan, orphans_set_orphans, last_set_orphans, orphans_set_last_orphan, last_set_last_orphan, length_set_orphans, length_set_last_orphan, entity_t.links, hje, Ne.symm hje]
              · by_cases hjq : j = q
                · subst hjq
                  simp [hn, he, hpar, hsucc, hpred, hpn, hplt, hpe', Ne.symm hpe', hmq, hqlt, hqe, Ne.symm hqe, hqp', Ne.symm hqp', hhd, htl, node_store_if, store_length, store_orphans, store_last_orphan, node_set_orphans, node_set_last_orphan, orphans_set_orphans, last_set_orphans, orphans_set_last_orphan, last_set_last_orphan, length_set_orphans, length_set_last_orphan, entity_t.links, hje, Ne.symm hje, hjp, Ne.symm hjp]
                · cases hnj : s.node j <;>
                    simp [hn, he, hpar, hsucc, hpred, hpn, hplt, hpe', Ne.symm hpe', hmq, hqlt, hqe, Ne.symm hqe, hqp', Ne.symm hqp', hhd, htl, node_store_if, store_length, store_orphans, store_last_orphan, node_set_orphans, node_set_last_orphan, orphans_set_orphans, last_set_orphans, orphans_set_last_orphan, last_set_last_orphan, length_set_orphans, length_set_last_orphan, entity_t.links, hnj, hje, Ne.symm hje, hjp, Ne.symm hjp, hjq, Ne.symm hjq]
          · simp [hn, he, hpar, hsucc, hpred, hpn, hplt, hpe', Ne.symm hpe', hmq, hqlt, hqe, Ne.symm hqe, hqp', Ne.symm hqp', hhd, htl, node_store_if, store_length, store_orphans, store_last_orphan, node_set_orphans, node_set_last_orphan, orphans_set_orphans, last_set_orphans, orphans_set_last_orphan, last_set_last_orphan, length_set_orphans, length_set_last_orphan, entity_t.links]
          · simp [hn, he, hpar, hsucc, hpred, hpn, hplt, hpe', Ne.symm hpe', hmq, hqlt, hqe, Ne.symm hqe, hqp', Ne.symm hqp', hhd, htl, node_store_if, store_length, store_orphans, store_last_orphan, node_set_orphans, node_set_last_orphan, orphans_set_orphans, last_set_orphans, orphans_set_last_orphan, last_set_last_orphan, length_set_orphans, length_set_last_orphan, entity_t.links]
        · intro j
          by_cases hje : j = e
          · subst hje
            simp [hn, he, hpar, hsucc, hpred, hpn, hplt, hpe', Ne.symm hpe', hmq, hqlt, hqe, Ne.symm hqe, hqp', Ne.symm hqp', hhd, htl, node_store_if, store_length, store_orphans, store_last_orphan, node_set_orphans, node_set_last_orphan, orphans_set_orphans, last_set_orphans, orphans_set_last_orphan, last_set_last_orphan, length_set_orphans, length_set_last_orphan, entity_t.payload]
          · by_cases hjp : j = p
            · subst hjp
              simp [hn, he, hpar, hsucc, hpred, hpn, hplt, hpe', Ne.symm hpe', hmq, hqlt, hqe, Ne.symm hqe, hqp', Ne.symm hqp', hhd, htl, node_store_if, store_length, store_orphans, store_last_orphan, node_set_orphans, node_set_last_orphan, orphans_set_orphans, last_set_orphans, orphans_set_last_orphan, last_set_last_orphan, length_set_orphans, length_set_last_orphan, entity_t.payload, hje, Ne.symm hje]
            · by_cases hjq : j = q
              · subst hjq
                simp [hn, he, hpar, hsucc, hpred, hpn, hplt, hpe', Ne.symm hpe', hmq, hqlt, hqe, Ne.symm hqe, hqp', Ne.symm hqp', hhd, htl, node_store_if, store_length, store_orphans, store_last_orphan, node_set_orphans, node_set_last_orphan, orphans_set_orphans, last_set_orphans, orphans_set_last_orphan, last_set_last_orphan, length_set_orphans, length_set_last_orphan, entity_t.payload, hje, Ne.symm hje, hjp, Ne.symm hjp]
              · cases hnj : s.node j <;>
                  simp [hn, he, hpar, hsucc, hpred, hpn, hplt, hpe', Ne.symm hpe', hmq, hqlt, hqe, Ne.symm hqe, hqp', Ne.symm hqp', hhd, htl, node_store_if, store_length, store_orphans, store_last_orphan, node_set_orphans, node_set_last_orphan, orphans_set_orphans, last_set_orphans, orphans_set_last_orphan, last_set_last_orphan, length_set_orphans, length_set_last_orphan, entity_t.payload, hnj, hje, Ne.symm hje, hjp, Ne.symm hjp, hjq, Ne.symm hjq]
        · simp [hn, he, hpar, hsucc, hpred, hpn, hplt, hpe', Ne.symm hpe', hmq, hqlt, hqe, Ne.symm hqe, hqp', Ne.symm hqp', hhd, htl, node_store_if, store_length, store_orphans, store_last_orphan, node_set_orphans, node_set_last_orphan, orphans_set_orphans, last_set_orphans, orphans_set_last_orphan, last_set_last_orphan, length_set_orphans, length_set_last_orphan, entity_t.links]
      · obtain ⟨hqe, hqp, mq, hmq⟩ := hd q (Or.inl hsucc)
        have hqlt := node_lt hmq
        have hqp' : q ≠ p := fun h => hqp (by rw [h, hpar])
        obtain ⟨hre, hrp, mr, hmr⟩ := hd r (Or.inr hpred)
        have hrlt := node_lt hmr
        have hrp' : r ≠ p := fun h => hrp (by rw [h, hpar])
        have hqr' : q ≠ r := fun h => hqr q hsucc (by rw [hpred, h])
        have hhd : ¬ pn.children = some e := by simpa [Skel.head, Skel.tail, skel_lk, hpar, hpn, hsucc, hpred, entity_t.links] using hhead
        have htl : ¬ pn.last_child = some e := by simpa [Skel.head, Skel.tail, skel_lk, hpar, hpn, hsucc, hpred, entity_t.links] using htail
        obtain ⟨s', hs'⟩ : ∃ s', entity_remove s (some e) = some s' := by
          simp [entity_remove, State.modify, hn, he, hpar, hsucc, hpred, hpn, hplt, hpe', Ne.symm hpe', hmq, hqlt, hqe, Ne.symm hqe, hqp', Ne.symm hqp', hmr, hrlt, hre, Ne.symm hre, hrp', Ne.symm hrp', hqr', Ne.symm hqr', hhd, htl, node_store_if, store_length, store_orphans, store_last_orphan, node_set_orphans, node_set_last_orphan, orphans_set_orphans, last_set_orphans, orphans_set_last_orphan, last_set_last_orphan, length_set_orphans, length_set_last_orphan]
        have hs := hs'
        simp [entity_remove, State.modify, hn, he, hpar, hsucc, hpred, hpn, hplt, hpe', Ne.symm hpe', hmq, hqlt, hqe, Ne.symm hqe, hqp', Ne.symm hqp', hmr, hrlt, hre, Ne.symm hre, hrp', Ne.symm hrp', hqr', Ne.symm hqr', hhd, htl, node_store_if, store_length, store_orphans, store_last_orphan, node_set_orphans, node_set_last_orphan, orphans_set_orphans, last_set_orphans, orphans_set_last_orphan, last_set_last_orphan, length_set_orphans, length_set_last_orphan] at hs
        subst hs
        refine ⟨_, hs', ?_, ?_, ?_⟩
        · simp only [State.skel, Skel.remove, entity_t.links, hpar, hsucc, hpred]
          simp only [Skel.mk.injEq]
          refine ⟨?_, ?_, ?_⟩
          · funext j
            by_cases hje : j = e
            · subst hje
              simp [hn, he, hpar, hsucc, hpred, hpn, hplt, hpe', Ne.symm hpe', hmq, hqlt, hqe, Ne.symm hqe, hqp', Ne.symm hqp', hmr, hrlt, hre, Ne.symm hre, hrp', Ne.symm hrp', hqr', Ne.symm hqr', hhd, htl, node_store_if, store_length, store_orphans, store_last_orphan, node_set_orphans, node_set_last_orphan, orphans_set_orphans, last_set_orphans, orphans_set_last_orphan, last_set_last_orphan, length_set_orphans, length_set_last_orphan, entity_t.links]
            · by_cases hjp : j = p
              · subst hjp
                simp [hn, he, hpar, hsucc, hpred, hpn, hplt, hpe', Ne.symm hpe', hmq, hqlt, hqe, Ne.symm hqe, hqp', Ne.symm hqp', hmr, hrlt, hre, Ne.symm hre, hrp', Ne.symm hrp', hqr', Ne.symm hqr', hhd, htl, node_store_if, store_length, store_orphans, store_last_orphan, node_set_orphans, node_set_last_orphan, orphans_set_orphans, last_set_orphans, orphans_set_last_orphan, last_set_last_orphan, length_set_orphans, length_set_last_orphan, entity_t.links, hje, Ne.symm hje]
              · by_cases hjq : j = q
                · subst hjq
                  simp [hn, he, hpar, hsucc, hpred, hpn, hplt, hpe', Ne.symm hpe', hmq, hqlt, hqe, Ne.symm hqe, hqp', Ne.symm hqp', hmr, hrlt, hre, Ne.symm hre, hrp', Ne.symm hrp', hqr', Ne.symm hqr', hhd, htl, node_store_if, store_length, store_orphans, store_last_orphan, node_set_orphans, node_set_last_orphan, orphans_set_orphans, last_set_orphans, orphans_set_last_orphan, last_set_last_orphan, length_set_orphans, length_set_last_orphan, entity_t.links, hje, Ne.symm hje, hjp, Ne.symm hjp]
                · by_cases hjr : j = r
                  · subst hjr
                    simp [hn, he, hpar, hsucc, hpred, hpn, hplt, hpe', Ne.symm hpe', hmq, hqlt, hqe, Ne.symm hqe, hqp', Ne.symm hqp', hmr, hrlt, hre, Ne.symm hre, hrp', Ne.symm hrp', hqr', Ne.symm hqr', hhd, htl, node_store_if, store_length, store_orphans, store_last_orphan, node_set_orphans, node_set_last_orphan, orphans_set_orphans, last_set_orphans, orphans_set_last_orphan, last_set_last_orphan, length_set_orphans, length_set_last_orphan, entity_t.links, hje, Ne.symm hje, hjp, Ne.symm hjp, hjq, Ne.symm hjq]
                  · cases hnj : s.node j <;>
                      simp [hn, he, hpar, hsucc, hpred, hpn, hplt, hpe', Ne.symm hpe', hmq, hqlt, hqe, Ne.symm hqe, hqp', Ne.symm hqp', hmr, hrlt, hre, Ne.symm hre, hrp', Ne.symm hrp', hqr', Ne.symm hqr', hhd, htl, node_store_if, store_length, store_orphans, store_last_orphan, node_set_orphans, node_set_last_orphan, orphans_set_orphans, last_set_orphans, orphans_set_last_orphan, last_set_last_orphan, length_set_orphans, length_set_last_orphan, entity_t.links, hnj, hje, Ne.symm hje, hjp, Ne.symm hjp, hjq, Ne.symm hjq, hjr, Ne.symm hjr]
          · simp [hn, he, hpar, hsucc, hpred, hpn, hplt, hpe', Ne.symm hpe', hmq, hqlt, hqe, Ne.symm hqe, hqp', Ne.symm hqp', hmr, hrlt, hre, Ne.symm hre, hrp', Ne.symm hrp', hqr', Ne.symm hqr', hhd, htl, node_store_if, store_length, store_orphans, store_last_orphan, node_set_orphans, node_set_last_orphan, orphans_set_orphans, last_set_orphans, orphans_set_last_orphan, last_set_last_orphan, length_set_orphans, length_set_last_orphan, entity_t.links]
          · simp [hn, he, hpar, hsucc, hpred, hpn, hplt, hpe', Ne.symm hpe', hmq, hqlt, hqe, Ne.symm hqe, hqp', Ne.symm hqp', hmr, hrlt, hre, Ne.symm hre, hrp', Ne.symm hrp', hqr', Ne.symm hqr', hhd, htl, node_store_if, store_length, store_orphans, store_last_orphan, node_set_orphans, node_set_last_orphan, orphans_set_orphans, last_set_orphans, orphans_set_last_orphan, last_set_last_orphan, length_set_orphans, length_set_last_orphan, entity_t.links]
        · intro j
          by_cases hje : j = e
          · subst hje
            simp [hn, he, hpar, hsucc, hpred, hpn, hplt, hpe', Ne.symm hpe', hmq, hqlt, hqe, Ne.symm hqe, hqp', Ne.symm hqp', hmr, hrlt, hre, Ne.symm hre, hrp', Ne.symm hrp', hqr', Ne.symm hqr', hhd, htl, node_store_if, store_length, store_orphans, store_last_orphan, node_set_orphans, node_set_last_orphan, orphans_set_orphans, last_set_orphans, orphans_set_last_orphan, last_set_last_orphan, length_set_orphans, length_set_last_orphan, entity_t.payload]
          · by_cases hjp : j = p
            · subst hjp
              simp [hn, he, hpar, hsucc, hpred, hpn, hplt, hpe', Ne.symm hpe', hmq, hqlt, hqe, Ne.symm hqe, hqp', Ne.symm hqp', hmr, hrlt, hre, Ne.symm hre, hrp', Ne.symm hrp', hqr', Ne.symm hqr', hhd, htl, node_store_if, store_length, store_orphans, store_last_orphan, node_set_orphans, node_set_last_orphan, orphans_set_orphans, last_set_orphans, orphans_set_last_orphan, last_set_last_orphan, length_set_orphans, length_set_last_orphan, entity_t.payload, hje, Ne.symm hje]
            · by_cases hjq : j = q
              · subst hjq
                simp [hn, he, hpar, hsucc, hpred, hpn, hplt, hpe', Ne.symm hpe', hmq, hqlt, hqe, Ne.symm hqe, hqp', Ne.symm hqp', hmr, hrlt, hre, Ne.symm hre, hrp', Ne.symm hrp', hqr', Ne.symm hqr', hhd, htl, node_store_if, store_length, store_orphans, store_last_orphan, node_set_orphans, node_set_last_orphan, orphans_set_orphans, last_set_orphans, orphans_set_last_orphan, last_set_last_orphan, length_set_orphans, length_set_last_orphan, entity_t.payload, hje, Ne.symm hje, hjp, Ne.symm hjp]
              · by_cases hjr : j = r
                · subst hjr
                  simp [hn, he, hpar, hsucc, hpred, hpn, hplt, hpe', Ne.symm hpe', hmq, hqlt, hqe, Ne.symm hqe, hqp', Ne.symm hqp', hmr, hrlt, hre, Ne.symm hre, hrp', Ne.symm hrp', hqr', Ne.symm hqr', hhd, htl, node_store_if, store_length, store_orphans, store_last_orphan, node_set_orphans, node_set_last_orphan, orphans_set_orphans, last_set_orphans, orphans_set_last_orphan, last_set_last_orphan, length_set_orphans, length_set_last_orphan, entity_t.payload, hje, Ne.symm hje, hjp, Ne.symm hjp, hjq, Ne.symm hjq]
                · cases hnj : s.node j <;>
                    simp [hn, he, hpar, hsucc, hpred, hpn, hplt, hpe', Ne.symm hpe', hmq, hqlt, hqe, Ne.symm hqe, hqp', Ne.symm hqp', hmr, hrlt, hre, Ne.symm hre, hrp', Ne.symm hrp', hqr', Ne.symm hqr', hhd, htl, node_store_if, store_length, store_orphans, store_last_orphan, node_set_orphans, node_set_last_orphan, orphans_set_orphans, last_set_orphans, orphans_set_last_orphan, last_set_last_orphan, length_set_orphans, length_set_last_orphan, entity_t.payload, hnj, hje, Ne.symm hje, hjp, Ne.symm hjp, hjq, Ne.symm hjq, hjr, Ne.symm hjr]
        · simp [hn, he, hpar, hsucc, hpred, hpn, hplt, hpe', Ne.symm hpe', hmq, hqlt, hqe, Ne.symm hqe, hqp', Ne.symm hqp', hmr, hrlt, hre, Ne.symm hre, hrp', Ne.symm hrp', hqr', Ne.symm hqr', hhd, htl, node_store_if, store_length, store_orphans, store_last_orphan, node_set_orphans, node_set_last_orphan, orphans_set_orphans, last_set_orphans, orphans_set_last_orphan, last_set_last_orphan, length_set_orphans, length_set_last_orphan, entity_t.links]

end remove

end EntitySystem

set_option linter.unusedSectionVars false

namespace EntitySystem

section dseg

theorem lastOr_append (prev : Option Nat) (l : List Nat) (a : Nat) :
    lastOr prev (l ++ [a]) = some a := by
  induction l generalizing prev with
  | nil => rfl
  | cons b l ih => exact ih (some b)

theorem lastOr_append_cons (prev : Option Nat) (l1 l2 : List Nat) (a : Nat) :
    lastOr prev (l1 ++ a :: l2) = lastOr (some a) l2 := by
  induction l1 generalizing prev with
  | nil => rfl
  | cons b l ih => exact ih (some b)

theorem lastOr_append_list (prev : Option Nat) (l1 l2 : List Nat) :
    lastOr prev (l1 ++ l2) = lastOr (lastOr prev l1) l2 := by
  induction l1 generalizing prev with
  | nil => rfl
  | cons b l ih => exact ih (some b)

theorem lastOr_eq_getLast? (l : List Nat) : lastOr none l = l.getLast? := by
  rcases List.eq_nil_or_concat l with h | ⟨l', a, h⟩
  · subst h; rfl
  · subst h; rw [List.concat_eq_append, lastOr_append]; simp

theorem lastOr_mem {prev : Option Nat} {l : List Nat} {a : Nat} (h : lastOr prev l = some a) :
    a ∈ l ∨ (l = [] ∧ prev = some a) := by
  induction l generalizing prev with
  | nil => exact Or.inr ⟨rfl, h⟩
  | cons b l ih =>
    rcases ih h with h1 | ⟨h1, h2⟩
    · exact Or.inl (List.mem_cons_of_mem _ h1)
    · cases h2; exact Or.inl (List.mem_cons_self _ _)

theorem lastOr_cons_ne_nil (prev : Option Nat) (b : Nat) {l : List Nat} (h : l ≠ []) :
    lastOr prev (b :: l) = lastOr none l := by
  cases l with
  | nil => exact absurd rfl h
  | cons c l => rfl

theorem lastOr_ne_nil (prev : Option Nat) {l : List Nat} (h : l ≠ []) :
    lastOr prev l = lastOr none l := by
  cases l with
  | nil => exact absurd rfl h
  | cons c l => rfl

theorem DSeg_mem {k : Skel} {p : Option Nat} {l : List Nat} {prev h nxt : Option Nat}
    (hd : DSeg k p prev h l nxt) {a : Nat} (ha : a ∈ l) :
    ∃ n, k.lk a = some n ∧ n.parent = p := by
  induction l generalizing prev h with
  | nil => cases ha
  | cons b l ih =>
    obtain ⟨-, n, hn, hp, -, hrest⟩ := hd
    rcases List.mem_cons.mp ha with rfl | h1
    · exact ⟨n, hn, hp⟩
    · exact ih hrest h1

theorem DSeg_head {k : Skel} {p : Option Nat} {l : List Nat} {prev h : Option Nat}
    (hd : DSeg k p prev h l none) : h = l.head? := by
  cases l with
  | nil => exact hd
  | cons b l => exact hd.1

theorem DSeg_frame {k g : Skel} {p : Option Nat} {l : List Nat} {prev h nxt : Option Nat}
    (hk : ∀ a ∈ l, ∀ n, k.lk a = some n →
      ∃ n', g.lk a = some n' ∧ n'.parent = n.parent ∧ n'.pred = n.pred ∧ n'.succ = n.succ)
    (hd : DSeg k p prev h l nxt) : DSeg g p prev h l nxt := by
  induction l generalizing prev h with
  | nil => exact hd
  | cons b l ih =>
    obtain ⟨hh, n, hn, hp, hpr, hrest⟩ := hd
    obtain ⟨n', hn', h1, h2, h3⟩ := hk b (List.mem_cons_self _ _) n hn
    refine ⟨hh, n', hn', h1 ▸ hp, h2 ▸ hpr, ?_⟩
    rw [h3]
    exact ih (fun a ha => hk a (List.mem_cons_of_mem _ ha)) hrest

theorem DSeg_append {k : Skel} {p : Option Nat} {l1 l2 : List Nat} {prev h nxt : Option Nat} :
    DSeg k p prev h (l1 ++ l2) nxt ↔
      ∃ mid, DSeg k p prev h l1 mid ∧ DSeg k p (lastOr prev l1) mid l2 nxt := by
  induction l1 generalizing prev h with
  | nil =>
    constructor
    · intro hd; exact ⟨h, rfl, hd⟩
    · rintro ⟨mid, h1, h2⟩
      have : h = mid := h1
      subst this; exact h2
  | cons b l ih =>
    constructor
    · rintro ⟨hh, n, hn, hp, hpr, hrest⟩
      obtain ⟨mid, h1, h2⟩ := ih.mp hrest
      exact ⟨mid, ⟨hh, n, hn, hp, hpr, h1⟩, h2⟩
    · rintro ⟨mid, ⟨hh, n, hn, hp, hpr, h1⟩, h2⟩
      exact ⟨hh, n, hn, hp, hpr, ih.mpr ⟨mid, h1, h2⟩⟩

theorem DSeg_retarget {k g : Skel} {p x : Option Nat} {l : List Nat} {prev h y : Option Nat}
    (hd : DSeg k p prev h l y) (hnd : l.Nodup)
    (hk : ∀ a ∈ l, ∀ n, k.lk a = some n →
      ∃ n', g.lk a = some n' ∧ n'.parent = n.parent ∧ n'.pred = n.pred ∧
        n'.succ = if lastOr none l = some a then x else n.succ) :
    DSeg g p prev (if l = [] then x else h) l x := by
  induction l generalizing prev h with
  | nil => simp [DSeg]
  | cons b l ih =>
    obtain ⟨hh, n, hn, hp, hpr, hrest⟩ := hd
    obtain ⟨n', hn', h1, h2, h3⟩ := hk b (List.mem_cons_self _ _) n hn
    have hbl : b ∉ l := (List.nodup_cons.mp hnd).1
    simp only [if_neg (List.cons_ne_nil b l)]
    refine ⟨hh, n', hn', h1 ▸ hp, h2 ▸ hpr, ?_⟩
    by_cases hl : l = []
    · subst hl
      have : n'.succ = x := by rw [h3]; simp [lastOr]
      rw [this]; rfl
    · have hlast : lastOr none (b :: l) = lastOr none l := lastOr_cons_ne_nil none b hl
      have hne : lastOr none (b :: l) ≠ some b := by
        rw [hlast]
        intro hc
        rcases lastOr_mem hc with h4 | ⟨h4, -⟩
        · exact hbl h4
        · exact hl h4
      rw [if_neg hne] at h3
      rw [h3]
      have := ih hrest (List.nodup_cons.mp hnd).2
        (fun a ha m hm => by
          obtain ⟨m', hm', g1, g2, g3⟩ := hk a (List.mem_cons_of_mem _ ha) m hm
          exact ⟨m', hm', g1, g2, by rw [g3, hlast]⟩)
      rwa [if_neg hl] at this

theorem DSeg_reprev {k g : Skel} {p x : Option Nat} {l : List Nat} {prev h nxt : Option Nat}
    (hd : DSeg k p prev h l nxt) (hnd : l.Nodup)
    (hk : ∀ a ∈ l, ∀ n, k.lk a = some n →
      ∃ n', g.lk a = some n' ∧ n'.parent = n.parent ∧ n'.succ = n.succ ∧
        n'.pred = if l.head? = some a then x else n.pred) :
    DSeg g p x h l nxt := by
  cases l with
  | nil => exact hd
  | cons b l =>
    obtain ⟨hh, n, hn, hp, hpr, hrest⟩ := hd
    obtain ⟨n', hn', h1, h2, h3⟩ := hk b (List.mem_cons_self _ _) n hn
    have hbl : b ∉ l := (List.nodup_cons.mp hnd).1
    refine ⟨hh, n', hn', h1 ▸ hp, by simpa using h3, ?_⟩
    rw [h2]
    refine DSeg_frame (fun a ha m hm => ?_) hrest
    obtain ⟨m', hm', g1, g2, g3⟩ := hk a (List.mem_cons_of_mem _ ha) m hm
    have hab : b ≠ a := fun hc => hbl (hc ▸ ha)
    refine ⟨m', hm', g1, ?_, g2⟩
    simpa [hab] using g3

end dseg

end EntitySystem

set_option linter.unusedSectionVars false

namespace EntitySystem

section wf

theorem lastOr_none_eq_none {l : List Nat} : lastOr none l = none ↔ l = [] := by
  constructor
  · intro h
    cases l with
    | nil => rfl
    | cons b l =>
      exfalso
      rcases List.eq_nil_or_concat (b :: l) with h1 | ⟨l', a, h1⟩
      · cases h1
      · rw [h1, List.concat_eq_append, lastOr_append] at h; cases h
  · rintro rfl; rfl

theorem valid_insert (k : Skel) (e : Nat) (p : Option Nat) :
    (k.insert e).valid p ↔ k.valid p := by
  cases p with
  | none => simp [Skel.valid]
  | some q =>
    simp only [Skel.valid, Skel.insert]
    cases k.lk q <;> simp

theorem valid_remove (k : Skel) (e : Nat) (n : links_t) (p : Option Nat) :
    (k.remove e n).valid p ↔ k.valid p := by
  cases p with
  | none => simp [Skel.valid]
  | some q =>
    simp only [Skel.valid, Skel.remove]
    cases k.lk q <;> simp

theorem valid_set_parent (k : Skel) (e : Nat) (p' : Option Nat) (p : Option Nat) :
    (k.set_parent e p').valid p ↔ k.valid p := by
  cases p with
  | none => simp [Skel.valid]
  | some q =>
    simp only [Skel.valid, Skel.set_parent]
    by_cases h : q = e
    · simp only [h, if_true]; cases k.lk e <;> simp
    · simp [h]

theorem WFk_insert {k : Skel} {e : Nat} {n : links_t} {kids : Option Nat → List Nat}
    (hw : WFk k (some e) kids) (hn : k.lk e = some n) (hv : k.valid n.parent) :
    WFk (k.insert e) none (Function.update kids n.parent (kids n.parent ++ [e])) := by
  obtain ⟨hA, hB, hC, hD⟩ := hw
  obtain ⟨hseg, htl⟩ := hA n.parent hv
  have hel : ∀ p, e ∉ kids p := fun p h => (hD p e h).1 rfl
  have hpe : (k.lk e).bind (fun n => n.parent) = n.parent := by simp [hn]
  have hlk : ∀ j, (k.insert e).lk j = (k.lk j).map (fun m =>
      { parent := m.parent,
        children := if some j = n.parent ∧ k.tail n.parent = none then some e else m.children,
        last_child := if some j = n.parent then some e else m.last_child,
        succ := if j = e then none else if k.tail n.parent = some j then some e else m.succ,
        pred := if j = e then k.tail n.parent else m.pred }) := by
    intro j; simp only [Skel.insert, hpe]
  have hhead : ∀ p, k.valid p → (k.insert e).head p =
      if p = n.parent ∧ k.tail n.parent = none then some e else k.head p := by
    intro p hp
    cases p with
    | none =>
      simp only [Skel.head, Skel.insert, hpe]
      by_cases h1 : n.parent = none <;> simp [h1, eq_comm]
    | some q =>
      obtain ⟨m, hm⟩ := hp
      simp only [Skel.head, hlk, hm, Option.map_some', Option.some_bind, Option.bind_some]
  have htail : ∀ p, k.valid p → (k.insert e).tail p =
      if p = n.parent then some e else k.tail p := by
    intro p hp
    cases p with
    | none =>
      simp only [Skel.tail, Skel.insert, hpe]
      by_cases h1 : n.parent = none <;> simp [h1, eq_comm]
    | some q =>
      obtain ⟨m, hm⟩ := hp
      simp only [Skel.tail, hlk, hm, Option.map_some', Option.some_bind, Option.bind_some]
  refine ⟨?_, ?_, ?_, ?_⟩
  · intro p hp
    rw [valid_insert] at hp
    by_cases hpp : p = n.parent
    · subst hpp
      rw [Function.update_same, hhead _ hp, htail _ hp]
      refine ⟨?_, by simp [lastOr_append]⟩
      rw [DSeg_append]
      refine ⟨some e, ?_, ?_⟩
      · have := DSeg_retarget (g := k.insert e) (x := some e) hseg (hC _) (fun a ha m hm => by
          have hae : a ≠ e := fun h => hel _ (h ▸ ha)
          refine ⟨_, (by rw [hlk, hm, Option.map_some'] : (k.insert e).lk a = some _), ?_, ?_, ?_⟩
          · rfl
          · simp [hae]
          · simp [hae, htl])
        simpa [htl, lastOr_none_eq_none] using this
      · refine ⟨rfl, _, (by rw [hlk, hn, Option.map_some'] : (k.insert e).lk e = some _), ?_, ?_, ?_⟩
        · rfl
        · simp [htl]
        · simp [DSeg]
    · rw [Function.update_noteq hpp, hhead _ hp, htail _ hp, if_neg hpp,
        if_neg (fun h => hpp h.1)]
      obtain ⟨hseg', htl'⟩ := hA p hp
      refine ⟨DSeg_frame (fun a ha m hm => ?_) hseg', htl'⟩
      have hae : a ≠ e := fun h => hel _ (h ▸ ha)
      refine ⟨_, (by rw [hlk, hm, Option.map_some'] : (k.insert e).lk a = some _), ?_, ?_, ?_⟩
      · rfl
      · simp [hae]
      have : k.tail n.parent ≠ some a := by
        intro hc
        rw [htl] at hc
        rcases lastOr_mem hc with h1 | ⟨-, h1⟩
        · obtain ⟨m1, hm1, hp1⟩ := DSeg_mem hseg h1
          obtain ⟨m2, hm2, hp2⟩ := DSeg_mem hseg' ha
          rw [hm1] at hm2; cases hm2
          exact hpp (hp2 ▸ hp1)
        · cases h1
      simp [hae, this]
  · intro i n' hn' _
    rw [hlk] at hn'
    rcases hi : k.lk i with _ | m
    · simp [hi] at hn'
    · simp only [hi, Option.map_some', Option.some.injEq] at hn'
      subst hn'
      simp only
      rw [valid_insert]
      by_cases hie : i = e
      · subst hie
        rw [hn] at hi; cases hi
        exact ⟨by simp [Function.update_same], hv⟩
      · obtain ⟨h1, h2⟩ := hB i m hi (by simpa using hie)
        refine ⟨?_, h2⟩
        by_cases hpp : m.parent = n.parent
        · rw [hpp, Function.update_same]; rw [hpp] at h1
          exact List.mem_append_left _ h1
        · rw [Function.update_noteq hpp]; exact h1
  · intro p
    by_cases hpp : p = n.parent
    · subst hpp
      rw [Function.update_same]
      exact List.Nodup.append (hC _) (List.nodup_singleton e)
        (fun a h1 h2 => by
          rw [List.mem_singleton] at h2; subst h2; exact hel _ h1)
    · rw [Function.update_noteq hpp]; exact hC p
  · intro p i hi
    refine ⟨by simp, ?_⟩
    rw [valid_insert]
    by_cases hpp : p = n.parent
    · subst hpp; exact hv
    · rw [Function.update_noteq hpp] at hi; exact (hD p i hi).2

theorem WFk_split {k : Skel} {e : Nat} {n : links_t} {kids : Option Nat → List Nat}
    (hw : WFk k none kids) (hn : k.lk e = some n) :
    ∃ l1 l2, kids n.parent = l1 ++ e :: l2 ∧ n.pred = lastOr none l1 ∧ n.succ = l2.head? ∧
      k.valid n.parent ∧ DSeg k n.parent none (k.head n.parent) l1 (some e) ∧
      DSeg k n.parent (some e) n.succ l2 none := by
  obtain ⟨hA, hB, hC, hD⟩ := hw
  obtain ⟨hmem, hv⟩ := hB e n hn (by simp)
  obtain ⟨l1, l2, hl⟩ := List.append_of_mem hmem
  obtain ⟨hseg, -⟩ := hA n.parent hv
  rw [hl, DSeg_append] at hseg
  obtain ⟨mid, h1, hmid, n', hn', -, hpred, hrest⟩ := hseg
  rw [hn] at hn'; cases hn'
  subst hmid
  exact ⟨l1, l2, hl, hpred, DSeg_head hrest, hv, h1, hrest⟩

theorem head?_mem {l : List Nat} {a : Nat} (h : l.head? = some a) : a ∈ l := by
  cases l with
  | nil => cases h
  | cons b l => simp at h; subst h; exact List.mem_cons_self _ _

theorem WFk_remove {k : Skel} {e : Nat} {n : links_t} {kids : Option Nat → List Nat}
    (hw : WFk k none kids) (hn : k.lk e = some n) :
    WFk (k.remove e n) (some e) (Function.update kids n.parent ((kids n.parent).erase e)) := by
  obtain ⟨l1, l2, hl, hpred, hsucc, hv, hs1, hs2⟩ := WFk_split hw hn
  obtain ⟨hA, hB, hC, hD⟩ := hw
  have hnd := hC n.parent
  rw [hl] at hnd
  have he1 : e ∉ l1 := fun h => by
    have := (List.nodup_append.mp hnd).2.2
    exact this h (List.mem_cons_self _ _)
  have he2 : e ∉ l2 := (List.nodup_cons.mp (List.nodup_append.mp hnd).2.1).1
  have hdis : ∀ a, a ∈ l1 → a ∈ l2 → False := fun a h1 h2 =>
    (List.nodup_append.mp hnd).2.2 h1 (List.mem_cons_of_mem _ h2)
  have hnd1 : l1.Nodup := (List.nodup_append.mp hnd).1
  have hnd2 : l2.Nodup := (List.nodup_cons.mp (List.nodup_append.mp hnd).2.1).2
  have herase : (kids n.parent).erase e = l1 ++ l2 := by
    rw [hl, List.erase_append_right _ he1, List.erase_cons_head]
  rw [herase]
  obtain ⟨hseg, htl⟩ := hA n.parent hv
  have hpl : ∀ a, a ∈ kids n.parent → ∃ m, k.lk a = some m ∧ m.parent = n.parent :=
    fun a ha => DSeg_mem hseg ha
  have hhd : k.head n.parent = (l1 ++ e :: l2).head? := by rw [← hl]; exact DSeg_head hseg
  have hlk : ∀ j, (k.remove e n).lk j = (k.lk j).map (fun m =>
      { parent := m.parent,
        children := if some j = n.parent ∧ m.children = some e then n.succ else m.children,
        last_child := if some j = n.parent ∧ m.last_child = some e then n.pred else m.last_child,
        succ := if n.pred = some j then n.succ else m.succ,
        pred := if n.succ = some j then n.pred else m.pred }) := fun j => rfl
  have hhead : ∀ p, k.valid p → (k.remove e n).head p =
      if p = n.parent ∧ k.head p = some e then n.succ else k.head p := by
    intro p hp
    cases p with
    | none =>
      simp only [Skel.head, Skel.remove]
      by_cases h1 : n.parent = none <;> simp [h1, eq_comm]
    | some q =>
      obtain ⟨m, hm⟩ := hp
      simp only [Skel.head, hlk, hm, Option.map_some', Option.some_bind, Option.bind_some]
  have htail : ∀ p, k.valid p → (k.remove e n).tail p =
      if p = n.parent ∧ k.tail p = some e then n.pred else k.tail p := by
    intro p hp
    cases p with
    | none =>
      simp only [Skel.tail, Skel.remove]
      by_cases h1 : n.parent = none <;> simp [h1, eq_comm]
    | some q =>
      obtain ⟨m, hm⟩ := hp
      simp only [Skel.tail, hlk, hm, Option.map_some', Option.some_bind, Option.bind_some]
  have hpred1 : ∀ a, n.pred = some a → a ∈ l1 := by
    intro a ha
    rw [hpred] at ha
    rcases lastOr_mem ha with h | ⟨-, h⟩
    · exact h
    · cases h
  have hsucc2 : ∀ a, n.succ = some a → a ∈ l2 := fun a ha => head?_mem (hsucc ▸ ha)
  refine ⟨?_, ?_, ?_, ?_⟩
  · intro p hp
    rw [valid_remove] at hp
    by_cases hpp : p = n.parent
    · subst hpp
      rw [Function.update_same, hhead _ hp, htail _ hp]
      constructor
      · rw [DSeg_append]
        refine ⟨n.succ, ?_, ?_⟩
        · have := DSeg_retarget (g := k.remove e n) (x := n.succ) hs1 hnd1 (fun a ha m hm => by
            refine ⟨_, (by rw [hlk, hm, Option.map_some'] : (k.remove e n).lk a = some _),
              ?_, ?_, ?_⟩
            · rfl
            · have : n.succ ≠ some a := fun hc => hdis a ha (hsucc2 a hc)
              simp [this]
            · simp [hpred])
          by_cases hl1 : l1 = []
          · subst hl1
            simpa [hhd] using this
          · rw [if_neg hl1] at this
            have hne : k.head n.parent ≠ some e := by
              rw [hhd]
              intro hc
              cases l1 with
              | nil => exact hl1 rfl
              | cons b l1 =>
                simp at hc; subst hc
                exact he1 (List.mem_cons_self _ _)
            simpa [hne] using this
        · exact DSeg_reprev (g := k.remove e n) (x := lastOr none l1) hs2 hnd2
            (fun a ha m hm => by
              refine ⟨_, (by rw [hlk, hm, Option.map_some'] : (k.remove e n).lk a = some _),
                ?_, ?_, ?_⟩
              · rfl
              · have : n.pred ≠ some a := fun hc => hdis a (hpred1 a hc) ha
                simp [this]
              · simp [hsucc, hpred])
      · rw [htl, hl, lastOr_append_cons, lastOr_append_list]
        by_cases hl2 : l2 = []
        · subst hl2
          simp [lastOr, hpred]
        · rw [lastOr_ne_nil (some e) hl2, lastOr_ne_nil (lastOr none l1) hl2]
          have hne : lastOr none l2 ≠ some e := by
            intro hc
            rcases lastOr_mem hc with h | ⟨h, -⟩
            · exact he2 h
            · exact hl2 h
          simp [hne]
    · rw [Function.update_noteq hpp, hhead _ hp, htail _ hp, if_neg (fun h => hpp h.1),
        if_neg (fun h => hpp h.1)]
      obtain ⟨hseg', htl'⟩ := hA p hp
      refine ⟨DSeg_frame (fun a ha m hm => ?_) hseg', htl'⟩
      have hnl : a ∉ kids n.parent := by
        intro hc
        obtain ⟨m1, hm1, hp1⟩ := hpl a hc
        obtain ⟨m2, hm2, hp2⟩ := DSeg_mem hseg' ha
        rw [hm1] at hm2; cases hm2
        exact hpp (hp2 ▸ hp1)
      rw [hl] at hnl
      have h1 : n.pred ≠ some a := fun hc => hnl (List.mem_append_left _ (hpred1 a hc))
      have h2 : n.succ ≠ some a := fun hc =>
        hnl (List.mem_append_right _ (List.mem_cons_of_mem _ (hsucc2 a hc)))
      refine ⟨_, (by rw [hlk, hm, Option.map_some'] : (k.remove e n).lk a = some _), ?_, ?_, ?_⟩
      · rfl
      · simp [h2]
      · simp [h1]
  · intro i n' hn' hie
    rw [hlk] at hn'
    rcases hi : k.lk i with _ | m
    · simp [hi] at hn'
    · simp only [hi, Option.map_some', Option.some.injEq] at hn'
      subst hn'
      simp only
      rw [valid_remove]
      obtain ⟨h1, h2⟩ := hB i m hi (by simp)
      refine ⟨?_, h2⟩
      by_cases hpp : m.parent = n.parent
      · rw [hpp, Function.update_same]
        rw [hpp, hl] at h1
        rcases List.mem_append.mp h1 with h3 | h3
        · exact List.mem_append_left _ h3
        · rcases List.mem_cons.mp h3 with h4 | h4
          · exact absurd (congrArg some h4) hie
          · exact List.mem_append_right _ h4
      · rw [Function.update_noteq hpp]; exact h1
  · intro p
    by_cases hpp : p = n.parent
    · subst hpp
      rw [Function.update_same]
      exact List.Nodup.append hnd1 hnd2 (fun a h1 h2 => hdis a h1 h2)
    · rw [Function.update_noteq hpp]; exact hC p
  · intro p i hi
    rw [valid_remove]
    by_cases hpp : p = n.parent
    · subst hpp
      rw [Function.update_same] at hi
      refine ⟨?_, hv⟩
      intro hc
      cases hc
      rcases List.mem_append.mp hi with h3 | h3
      · exact he1 h3
      · exact he2 h3
    · rw [Function.update_noteq hpp] at hi
      refine ⟨?_, (hD p i hi).2⟩
      intro hc
      cases hc
      obtain ⟨hseg', -⟩ := hA p (hD p e hi).2
      obtain ⟨m2, hm2, hp2⟩ := DSeg_mem hseg' hi
      rw [hn] at hm2; cases hm2
      exact hpp hp2.symm

theorem WFk_set_parent {k : Skel} {e : Nat} {kids : Option Nat → List Nat}
    (hw : WFk k (some e) kids) (p' : Option Nat) : WFk (k.set_parent e p') (some e) kids := by
  obtain ⟨hA, hB, hC, hD⟩ := hw
  have hne : ∀ j, j ≠ e → (k.set_parent e p').lk j = k.lk j := by
    intro j hj; simp [Skel.set_parent, hj]
  have hhead : ∀ p, (k.set_parent e p').head p = k.head p := by
    intro p
    cases p with
    | none => rfl
    | some q =>
      simp only [Skel.head, Skel.set_parent]
      by_cases h : q = e
      · simp only [h, if_true]; cases k.lk e <;> rfl
      · simp [h]
  have htail : ∀ p, (k.set_parent e p').tail p = k.tail p := by
    intro p
    cases p with
    | none => rfl
    | some q =>
      simp only [Skel.tail, Skel.set_parent]
      by_cases h : q = e
      · simp only [h, if_true]; cases k.lk e <;> rfl
      · simp [h]
  refine ⟨?_, ?_, hC, ?_⟩
  · intro p hp
    rw [valid_set_parent] at hp
    obtain ⟨h1, h2⟩ := hA p hp
    rw [hhead, htail]
    refine ⟨DSeg_frame (fun a ha m hm => ?_) h1, h2⟩
    have hae : a ≠ e := fun h => (hD p a ha).1 (by rw [h])
    exact ⟨m, by rw [hne a hae]; exact hm, rfl, rfl, rfl⟩
  · intro i n hn hie
    have hie' : i ≠ e := fun h => hie (by rw [h])
    rw [hne i hie'] at hn
    rw [valid_set_parent]
    exact hB i n hn hie
  · intro p i hi
    rw [valid_set_parent]
    exact hD p i hi

theorem WFk_alloc {k : Skel} {e : Nat} {kids : Option Nat → List Nat}
    (hw : WFk k none kids) (he : k.lk e = none) : WFk (k.alloc e) (some e) kids := by
  obtain ⟨hA, hB, hC, hD⟩ := hw
  have hne : ∀ j m, k.lk j = some m → (k.alloc e).lk j = some m := by
    intro j m hm
    have : j ≠ e := fun h => by rw [h, he] at hm; cases hm
    simp [Skel.alloc, this, hm]
  have hval : ∀ p, k.valid p → (k.alloc e).valid p := by
    intro p hp
    cases p with
    | none => trivial
    | some q => obtain ⟨m, hm⟩ := hp; exact ⟨m, hne q m hm⟩
  have hnil : kids (some e) = [] := by
    cases h : kids (some e) with
    | nil => rfl
    | cons b l =>
      obtain ⟨m, hm⟩ := (hD (some e) b (by rw [h]; exact List.mem_cons_self _ _)).2
      rw [he] at hm; cases hm
  refine ⟨?_, ?_, hC, ?_⟩
  · intro p hp
    by_cases hpe : p = some e
    · subst hpe
      rw [hnil]
      simp [Skel.head, Skel.tail, Skel.alloc, DSeg, lastOr]
    · have hp' : k.valid p := by
        cases p with
        | none => trivial
        | some q =>
          obtain ⟨m, hm⟩ := hp
          have hq : q ≠ e := fun h => hpe (by rw [h])
          simp only [Skel.alloc, hq, if_false] at hm
          exact ⟨m, hm⟩
      obtain ⟨h1, h2⟩ := hA p hp'
      have hh : (k.alloc e).head p = k.head p := by
        cases p with
        | none => rfl
        | some q =>
          have hq : q ≠ e := fun h => hpe (by rw [h])
          simp [Skel.head, Skel.alloc, hq]
      have ht : (k.alloc e).tail p = k.tail p := by
        cases p with
        | none => rfl
        | some q =>
          have hq : q ≠ e := fun h => hpe (by rw [h])
          simp [Skel.tail, Skel.alloc, hq]
      rw [hh, ht]
      exact ⟨DSeg_frame (fun a _ m hm => ⟨m, hne a m hm, rfl, rfl, rfl⟩) h1, h2⟩
  · intro i n hn hie
    have hie' : i ≠ e := fun h => hie (by rw [h])
    simp only [Skel.alloc, hie', if_false] at hn
    obtain ⟨h1, h2⟩ := hB i n hn (by simp)
    exact ⟨h1, hval _ h2⟩
  · intro p i hi
    obtain ⟨-, h2⟩ := hD p i hi
    refine ⟨?_, hval _ h2⟩
    intro hc; cases hc
    obtain ⟨h1, -⟩ := hA p h2
    obtain ⟨m, hm, -⟩ := DSeg_mem h1 hi
    rw [he] at hm; cases hm

theorem WFk_remove_pre {k : Skel} {e : Nat} {n : links_t} {kids : Option Nat → List Nat}
    (hw : WFk k none kids) (hac : Acyclic k) (hn : k.lk e = some n) :
    k.valid n.parent ∧ n.parent ≠ some e ∧
    (∀ a, (n.succ = some a ∨ n.pred = some a) →
      a ≠ e ∧ some a ≠ n.parent ∧ ∃ m, k.lk a = some m) ∧
    (∀ a, n.succ = some a → n.pred ≠ some a) ∧
    (k.head n.parent = some e ↔ n.pred = none) ∧
    (k.tail n.parent = some e ↔ n.succ = none) := by
  obtain ⟨l1, l2, hl, hpred, hsucc, hv, hs1, hs2⟩ := WFk_split hw hn
  obtain ⟨hA, hB, hC, hD⟩ := hw
  obtain ⟨rank, hrank⟩ := hac
  have hnd := hC n.parent
  rw [hl] at hnd
  have he1 : e ∉ l1 := fun h => (List.nodup_append.mp hnd).2.2 h (List.mem_cons_self _ _)
  have he2 : e ∉ l2 := (List.nodup_cons.mp (List.nodup_append.mp hnd).2.1).1
  have hdis : ∀ a, a ∈ l1 → a ∈ l2 → False := fun a h1 h2 =>
    (List.nodup_append.mp hnd).2.2 h1 (List.mem_cons_of_mem _ h2)
  obtain ⟨hseg, htl⟩ := hA n.parent hv
  have hpred1 : ∀ a, n.pred = some a → a ∈ l1 := by
    intro a ha
    rw [hpred] at ha
    rcases lastOr_mem ha with h | ⟨-, h⟩
    · exact h
    · cases h
  have hsucc2 : ∀ a, n.succ = some a → a ∈ l2 := fun a ha => head?_mem (hsucc ▸ ha)
  have hin : ∀ a, a ∈ kids n.parent → some a ≠ n.parent ∧ ∃ m, k.lk a = some m := by
    intro a ha
    obtain ⟨m, hm, hp⟩ := DSeg_mem hseg ha
    refine ⟨fun hc => ?_, m, hm⟩
    have := hrank a m a hm (by rw [hp, ← hc])
    exact lt_irrefl _ this
  refine ⟨hv, ?_, ?_, ?_, ?_, ?_⟩
  · intro hc
    exact lt_irrefl _ (hrank e n e hn hc)
  · rintro a (ha | ha)
    · have h2 := hsucc2 a ha
      obtain ⟨h3, h4⟩ := hin a (by rw [hl]; exact List.mem_append_right _ (List.mem_cons_of_mem _ h2))
      exact ⟨fun hc => he2 (hc ▸ h2), h3, h4⟩
    · have h1 := hpred1 a ha
      obtain ⟨h3, h4⟩ := hin a (by rw [hl]; exact List.mem_append_left _ h1)
      exact ⟨fun hc => he1 (hc ▸ h1), h3, h4⟩
  · intro a h1 h2
    exact hdis a (hpred1 a h2) (hsucc2 a h1)
  · rw [DSeg_head hseg, hl, hpred]
    cases l1 with
    | nil => simp [lastOr]
    | cons b l1 =>
      constructor
      · intro hc
        simp at hc; subst hc
        exact absurd (List.mem_cons_self _ _) he1
      · intro hc
        rw [lastOr_none_eq_none] at hc
        cases hc
  · rw [htl, hl, lastOr_append_cons, hsucc]
    cases l2 with
    | nil => simp [lastOr]
    | cons b l2 =>
      constructor
      · intro hc
        exfalso
        rw [lastOr_ne_nil (some e) (List.cons_ne_nil b l2)] at hc
        rcases lastOr_mem hc with h | ⟨h, -⟩
        · exact he2 h
        · cases h
      · intro hc; simp at hc

end wf

end EntitySystem

set_option linter.unusedSectionVars false

namespace EntitySystem

section inval

variable {K : Type} [LinearOrderedField K]

theorem inval_world_zero (s : State K) (e : Nat) :
    entity_invalidate_tform_world 0 s e = none := by
  simp [entity_invalidate_tform_world]

theorem inval_world_succ (fuel : Nat) (s : State K) (e : Nat) :
    entity_invalidate_tform_world (fuel + 1) s e =
      (s.node e).bind (fun n =>
        if n.dirty &&& TFORM_DIRTY_WORLD ≠ 0 then some s
        else (s.modify e (fun n => { n with dirty := n.dirty ||| TFORM_DIRTY_WORLD })).bind
          (fun s1 => (s1.node e).bind
            (fun n1 => entity_invalidate_tform_children fuel s1 n1.children))) := by
  simp only [entity_invalidate_tform_world]
  rfl

theorem inval_children_zero (s : State K) (h : Option Nat) :
    entity_invalidate_tform_children 0 s h = none := by
  simp [entity_invalidate_tform_children]

theorem inval_children_none (fuel : Nat) (s : State K) :
    entity_invalidate_tform_children (fuel + 1) s none = some s := by
  simp [entity_invalidate_tform_children]

theorem inval_children_some (fuel : Nat) (s : State K) (c : Nat) :
    entity_invalidate_tform_children (fuel + 1) s (some c) =
      (entity_invalidate_tform_world fuel s c).bind (fun s1 =>
        (s1.node c).bind (fun n => entity_invalidate_tform_children fuel s1 n.succ)) := by
  simp only [entity_invalidate_tform_children]
  rfl

theorem Marked.mk_refl (s : State K) : Marked s s :=
  ⟨rfl, rfl, rfl, fun _ => ⟨fun h => h, fun _ h => Or.inl h⟩⟩

theorem Marked.mk_trans {s1 s2 s3 : State K} (h1 : Marked s1 s2) (h2 : Marked s2 s3) :
    Marked s1 s3 := by
  obtain ⟨a1, a2, a3, a4⟩ := h1
  obtain ⟨b1, b2, b3, b4⟩ := h2
  refine ⟨b1.trans a1, b2.trans a2, b3.trans a3, fun j => ⟨fun h => (b4 j).1 ((a4 j).1 h), ?_⟩⟩
  intro n hn
  rcases (a4 j).2 n hn with h | h
  · exact (b4 j).2 n h
  · rcases (b4 j).2 _ h with h' | h'
    · exact Or.inr h'
    · refine Or.inr ?_
      rw [h']
      simp [Nat.or_assoc]

theorem Marked.mk_of_modify {s s' : State K} {e : Nat}
    (h : s.modify e (fun n => { n with dirty := n.dirty ||| TFORM_DIRTY_WORLD }) = some s') :
    Marked s s' := by
  obtain ⟨h1, h2, h3⟩ := modify_orphans h
  refine ⟨h1, h2, h3, fun j => ⟨?_, ?_⟩⟩
  · intro hj
    rw [node_modify h]
    by_cases hje : j = e
    · subst hje; simp [hj]
    · simp [hje, hj]
  · intro n hn
    rw [node_modify h]
    by_cases hje : j = e
    · subst hje; right; simp [hn]
    · left; simp [hje, hn]

theorem Marked.get {s s' : State K} (h : Marked s s') {j : Nat} {n : entity_t K}
    (hn : s.node j = some n) :
    ∃ d, s'.node j = some { n with dirty := d } ∧
      (d = n.dirty ∨ d = n.dirty ||| TFORM_DIRTY_WORLD) := by
  rcases (h.2.2.2 j).2 n hn with h1 | h1
  · exact ⟨n.dirty, h1, Or.inl rfl⟩
  · exact ⟨_, h1, Or.inr rfl⟩

theorem Marked.mk_get_inv {s s' : State K} (h : Marked s s') {j : Nat} {n' : entity_t K}
    (hn : s'.node j = some n') :
    ∃ n, s.node j = some n ∧ n' = { n with dirty := n'.dirty } ∧
      (n'.dirty = n.dirty ∨ n'.dirty = n.dirty ||| TFORM_DIRTY_WORLD) := by
  rcases hj : s.node j with _ | n
  · rw [(h.2.2.2 j).1 hj] at hn; cases hn
  · obtain ⟨d, hd, hd'⟩ := h.get hj
    rw [hd] at hn; cases hn
    exact ⟨n, rfl, rfl, hd'⟩

theorem Marked.mk_skel {s s' : State K} (h : Marked s s') : s'.skel = s.skel := by
  obtain ⟨h1, h2, -, h4⟩ := h
  simp only [State.skel, h1, h2, Skel.mk.injEq, and_true]
  funext j
  rcases hj : s.node j with _ | n
  · rw [(h4 j).1 hj]
  · rcases (h4 j).2 n hj with h' | h' <;> rw [h'] <;> rfl

theorem wdirty_or (n : entity_t K) :
    ({ n with dirty := n.dirty ||| TFORM_DIRTY_WORLD } : entity_t K).wdirty :=
  and_world_or_world _

theorem ldirty_or_world (n : entity_t K) :
    ({ n with dirty := n.dirty ||| TFORM_DIRTY_WORLD } : entity_t K).ldirty ↔ n.ldirty := by
  simp only [entity_t.ldirty, and_local_or_world]

theorem Marked.wdirty_mono {s s' : State K} (h : Marked s s') {j : Nat} {n n' : entity_t K}
    (hn : s.node j = some n) (hn' : s'.node j = some n') (hw : n.wdirty) : n'.wdirty := by
  obtain ⟨d, hd, hd'⟩ := h.get hn
  rw [hd] at hn'; cases hn'
  rcases hd' with rfl | rfl
  · exact hw
  · exact and_world_or_world _

/-- Both invalidation routines only set world-dirty bits. -/
theorem inval_marked (fuel : Nat) :
    (∀ (s s' : State K) (e : Nat), entity_invalidate_tform_world fuel s e = some s' →
      Marked s s') ∧
    (∀ (s s' : State K) (h : Option Nat), entity_invalidate_tform_children fuel s h = some s' →
      Marked s s') := by
  induction fuel with
  | zero =>
    constructor
    · intro s s' e h; rw [inval_world_zero] at h; cases h
    · intro s s' h hh; rw [inval_children_zero] at hh; cases hh
  | succ fuel ih =>
    constructor
    · intro s s' e h
      rw [inval_world_succ] at h
      rcases hn : s.node e with _ | n
      · rw [hn] at h; cases h
      · rw [hn] at h
        simp only [Option.some_bind, Option.bind_some] at h
        by_cases hd : n.dirty &&& TFORM_DIRTY_WORLD ≠ 0
        · rw [if_pos hd] at h; cases h; exact Marked.mk_refl s
        · rw [if_neg hd] at h
          rcases hm : s.modify e (fun n => { n with dirty := n.dirty ||| TFORM_DIRTY_WORLD })
            with _ | s1
          · rw [hm] at h; cases h
          · rw [hm] at h
            simp only [Option.some_bind, Option.bind_some] at h
            rcases hn1 : s1.node e with _ | n1
            · rw [hn1] at h; cases h
            · rw [hn1] at h
              exact (Marked.mk_of_modify hm).mk_trans (ih.2 _ _ _ h)
    · intro s s' h hh
      cases h with
      | none => rw [inval_children_none] at hh; cases hh; exact Marked.mk_refl s
      | some c =>
        rw [inval_children_some] at hh
        rcases h1 : entity_invalidate_tform_world fuel s c with _ | s1
        · rw [h1] at hh; cases hh
        · rw [h1] at hh
          simp only [Option.some_bind, Option.bind_some] at hh
          rcases hn1 : s1.node c with _ | n1
          · rw [hn1] at hh; cases hh
          · rw [hn1] at hh
            exact (ih.1 _ _ _ h1).mk_trans (ih.2 _ _ _ hh)

/-- After `entity_invalidate_tform(e, TFORM_WORLD)` the entity `e` is world-dirty. -/
theorem inval_world_dirty {fuel : Nat} {s s' : State K} {e : Nat}
    (h : entity_invalidate_tform_world fuel s e = some s') :
    ∃ n', s'.node e = some n' ∧ n'.wdirty := by
  cases fuel with
  | zero => rw [inval_world_zero] at h; cases h
  | succ fuel =>
    have hmk := (inval_marked (fuel + 1)).1 _ _ _ h
    rw [inval_world_succ] at h
    rcases hn : s.node e with _ | n
    · rw [hn] at h; cases h
    · rw [hn] at h
      simp only [Option.some_bind, Option.bind_some] at h
      by_cases hd : n.dirty &&& TFORM_DIRTY_WORLD ≠ 0
      · rw [if_pos hd] at h; cases h; exact ⟨n, hn, hd⟩
      · rw [if_neg hd] at h
        rcases hm : s.modify e (fun n => { n with dirty := n.dirty ||| TFORM_DIRTY_WORLD })
          with _ | s1
        · rw [hm] at h; cases h
        · rw [hm] at h
          simp only [Option.some_bind, Option.bind_some] at h
          rcases hn1 : s1.node e with _ | n1
          · rw [hn1] at h; cases h
          · rw [hn1] at h
            have hmk2 := (inval_marked fuel).2 _ _ _ h
            have h1 : s1.node e = some { n with dirty := n.dirty ||| TFORM_DIRTY_WORLD } := by
              rw [node_modify hm]; simp [hn]
            obtain ⟨d, hd1, -⟩ := hmk2.get h1
            exact ⟨_, hd1, hmk2.wdirty_mono h1 hd1 (and_world_or_world _)⟩

/-- Fuel monotonicity of the invalidation routines. -/
theorem inval_fuel_succ (fuel : Nat) :
    (∀ (s s' : State K) (e : Nat), entity_invalidate_tform_world fuel s e = some s' →
      entity_invalidate_tform_world (fuel + 1) s e = some s') ∧
    (∀ (s s' : State K) (h : Option Nat), entity_invalidate_tform_children fuel s h = some s' →
      entity_invalidate_tform_children (fuel + 1) s h = some s') := by
  induction fuel with
  | zero =>
    constructor
    · intro s s' e h; rw [inval_world_zero] at h; cases h
    · intro s s' h hh; rw [inval_children_zero] at hh; cases hh
  | succ fuel ih =>
    constructor
    · intro s s' e h
      rw [inval_world_succ] at h ⊢
      rcases hn : s.node e with _ | n
      · rw [hn] at h; cases h
      · rw [hn] at h
        simp only [Option.some_bind, Option.bind_some] at h ⊢
        by_cases hd : n.dirty &&& TFORM_DIRTY_WORLD ≠ 0
        · rw [if_pos hd] at h ⊢; exact h
        · rw [if_neg hd] at h ⊢
          rcases hm : s.modify e (fun n => { n with dirty := n.dirty ||| TFORM_DIRTY_WORLD })
            with _ | s1
          · rw [hm] at h; cases h
          · rw [hm] at h
            simp only [Option.some_bind, Option.bind_some] at h ⊢
            rcases hn1 : s1.node e with _ | n1
            · rw [hn1] at h; cases h
            · rw [hn1] at h
              exact ih.2 _ _ _ h
    · intro s s' h hh
      cases h with
      | none => rw [inval_children_none] at hh ⊢; exact hh
      | some c =>
        rw [inval_children_some] at hh ⊢
        rcases h1 : entity_invalidate_tform_world fuel s c with _ | s1
        · rw [h1] at hh; cases hh
        · rw [h1] at hh
          rw [ih.1 _ _ _ h1]
          simp only [Option.some_bind, Option.bind_some] at hh ⊢
          rcases hn1 : s1.node c with _ | n1
          · rw [hn1] at hh; cases hh
          · rw [hn1] at hh
            exact ih.2 _ _ _ hh

theorem inval_world_fuel_mono {fuel fuel' : Nat} {s s' : State K} {e : Nat}
    (h : entity_invalidate_tform_world fuel s e = some s') (hle : fuel ≤ fuel') :
    entity_invalidate_tform_world fuel' s e = some s' := by
  induction hle with
  | refl => exact h
  | step _ ih => exact (inval_fuel_succ _).1 _ _ _ ih

theorem inval_children_fuel_mono {fuel fuel' : Nat} {s s' : State K} {c : Option Nat}
    (h : entity_invalidate_tform_children fuel s c = some s') (hle : fuel ≤ fuel') :
    entity_invalidate_tform_children fuel' s c = some s' := by
  induction hle with
  | refl => exact h
  | step _ ih => exact (inval_fuel_succ _).2 _ _ _ ih

theorem Marked.dirty_set {s s' : State K} (h : Marked s s') {X : Nat → Prop}
    (hX : ∀ x, X x → ∀ n, s.node x = some n → n.wdirty) :
    ∀ x, X x → ∀ n, s'.node x = some n → n.wdirty := by
  intro x hx n' hn'
  obtain ⟨n, hn, -, -⟩ := h.mk_get_inv hn'
  exact h.wdirty_mono hn hn' (hX x hx n hn)

theorem closed_mark {s s1 : State K} {e : Nat} {X : Nat → Prop}
    (hm : s.modify e (fun n => { n with dirty := n.dirty ||| TFORM_DIRTY_WORLD }) = some s1)
    (hc : ClosedOutside X s) : ClosedOutside (fun x => X x ∨ x = e) s1 := by
  have hmk := Marked.mk_of_modify hm
  intro c q n1 m1 hn1 hpar hm1 hX hw
  obtain ⟨n, hn, hn1', -⟩ := hmk.mk_get_inv hn1
  have hq : q ≠ e := fun h => hX (Or.inr h)
  have hm1' : s.node q = some m1 := by
    rw [node_modify hm, if_neg hq] at hm1; exact hm1
  have hpar' : n.parent = some q := by rw [hn1'] at hpar; exact hpar
  exact hmk.wdirty_mono hn hn1 (hc c q n m1 hn hpar' hm1' (fun h => hX (Or.inl h)) hw)

/-- World invalidation keeps world-dirtiness closed under children, outside any set of entities
that were already world-dirty. -/
theorem inval_closed (fuel : Nat) :
    (∀ (s s' : State K) (e : Nat) (X : Nat → Prop) (kids : Option Nat → List Nat),
      WFk s.skel none kids → entity_invalidate_tform_world fuel s e = some s' →
      (∀ x, X x → ∀ n, s.node x = some n → n.wdirty) → ClosedOutside X s →
      ClosedOutside X s') ∧
    (∀ (s s' : State K) (h : Option Nat) (X : Nat → Prop) (kids : Option Nat → List Nat)
      (p prev : Option Nat) (l : List Nat),
      WFk s.skel none kids → entity_invalidate_tform_children fuel s h = some s' →
      DSeg s.skel p prev h l none →
      (∀ x, X x → ∀ n, s.node x = some n → n.wdirty) → ClosedOutside X s →
      ClosedOutside X s' ∧ ∀ c ∈ l, ∀ n, s'.node c = some n → n.wdirty) := by
  induction fuel with
  | zero =>
    constructor
    · intro s s' e X kids _ h; rw [inval_world_zero] at h; cases h
    · intro s s' h X kids p prev l _ hh; rw [inval_children_zero] at hh; cases hh
  | succ fuel ih =>
    constructor
    · intro s s' e X kids hwf h hX hc
      have hmk := (inval_marked (fuel + 1)).1 _ _ _ h
      rw [inval_world_succ] at h
      rcases hn : s.node e with _ | n
      · rw [hn] at h; cases h
      · rw [hn] at h
        simp only [Option.some_bind, Option.bind_some] at h
        by_cases hd : n.dirty &&& TFORM_DIRTY_WORLD ≠ 0
        · rw [if_pos hd] at h; cases h; exact hc
        · rw [if_neg hd] at h
          rcases hm : s.modify e (fun n => { n with dirty := n.dirty ||| TFORM_DIRTY_WORLD })
            with _ | s1
          · rw [hm] at h; cases h
          · rw [hm] at h
            simp only [Option.some_bind, Option.bind_some] at h
            rcases hn1 : s1.node e with _ | n1
            · rw [hn1] at h; cases h
            · rw [hn1] at h
              have hmk1 := Marked.mk_of_modify hm
              have hsk1 := hmk1.mk_skel
              have hn1e : s1.node e = some { n with dirty := n.dirty ||| TFORM_DIRTY_WORLD } := by
                rw [node_modify hm]; simp [hn]
              rw [hn1] at hn1e; cases hn1e
              have hval : s.skel.valid (some e) := ⟨n.links, by rw [skel_lk, hn]; rfl⟩
              obtain ⟨hseg, -⟩ := hwf.1 (some e) hval
              have hhead : s.skel.head (some e) = n.children := by
                simp [Skel.head, skel_lk, hn, entity_t.links]
              rw [hhead] at hseg
              have hX1 : ∀ x, (X x ∨ x = e) → ∀ m, s1.node x = some m → m.wdirty := by
                rintro x (hx | rfl) m hm'
                · exact hmk1.dirty_set hX x hx m hm'
                · rw [hn1] at hm'; cases hm'; exact and_world_or_world _
              obtain ⟨hc', hkids⟩ := ih.2 s1 s' n.children (fun x => X x ∨ x = e) kids (some e)
                none (kids (some e)) (hsk1 ▸ hwf) h (hsk1 ▸ hseg) hX1 (closed_mark hm hc)
              intro c q n' m' hcn hpar hqm hXq hw
              by_cases hq : q = e
              · subst hq
                obtain ⟨n0, hn0, hn0', -⟩ := hmk.mk_get_inv hcn
                have hlk : s.skel.lk c = some n0.links := by rw [skel_lk, hn0]; rfl
                have : c ∈ kids n0.links.parent := (hwf.2.1 c _ hlk (by simp)).1
                have hp0 : n0.links.parent = some q := by
                  rw [hn0'] at hpar; exact hpar
                rw [hp0] at this
                exact hkids c this n' hcn
              · exact hc' c q n' m' hcn hpar hqm (fun h => h.elim hXq hq) hw
    · intro s s' h X kids p prev l hwf hh hseg hX hc
      cases h with
      | none =>
        rw [inval_children_none] at hh; cases hh
        cases l with
        | nil => exact ⟨hc, fun c hcl => by cases hcl⟩
        | cons b l => exact absurd hseg.1 (by simp)
      | some c =>
        rw [inval_children_some] at hh
        rcases h1 : entity_invalidate_tform_world fuel s c with _ | s1
        · rw [h1] at hh; cases hh
        · rw [h1] at hh
          simp only [Option.some_bind, Option.bind_some] at hh
          rcases hn1 : s1.node c with _ | n1
          · rw [hn1] at hh; cases hh
          · rw [hn1] at hh
            have hmk1 := (inval_marked fuel).1 _ _ _ h1
            have hmk2 := (inval_marked fuel).2 _ _ _ hh
            have hsk1 := hmk1.mk_skel
            cases l with
            | nil => exact absurd hseg (by simp [DSeg])
            | cons b l =>
              obtain ⟨hb, nb, hnb, -, -, hrest⟩ := hseg
              cases hb
              have hsucc : nb.succ = n1.succ := by
                rw [← hsk1, skel_lk, hn1] at hnb
                simp only [Option.map_some', Option.some.injEq] at hnb
                rw [← hnb]; rfl
              rw [hsucc] at hrest
              have hc1 := ih.1 s s1 c X kids hwf h1 hX hc
              obtain ⟨hc2, hl2⟩ := ih.2 s1 s' n1.succ X kids p (some c) l (hsk1 ▸ hwf) hh
                (hsk1 ▸ hrest) (hmk1.dirty_set hX) hc1
              refine ⟨hc2, ?_⟩
              intro c' hc' n' hn'
              rcases List.mem_cons.mp hc' with rfl | hc''
              · obtain ⟨n2, hn2, hw2⟩ := inval_world_dirty h1
                exact hmk2.wdirty_mono hn2 hn' hw2
              · exact hl2 c' hc'' n' hn'

theorem rank_bound (rank : Nat → Nat) (N : Nat) : ∃ B, ∀ i, i < N → rank i ≤ B := by
  induction N with
  | zero => exact ⟨0, fun i h => absurd h (Nat.not_lt_zero i)⟩
  | succ N ih =>
    obtain ⟨B, hB⟩ := ih
    refine ⟨max B (rank N), fun i hi => ?_⟩
    rcases Nat.lt_succ_iff_lt_or_eq.mp hi with h | h
    · exact le_trans (hB i h) (le_max_left _ _)
    · subst h; exact le_max_right _ _

theorem skel_node {s : State K} {k : Skel} (hs : s.skel = k) {j : Nat} {m : links_t}
    (h : k.lk j = some m) : ∃ n, s.node j = some n ∧ n.links = m := by
  rw [← hs, skel_lk] at h
  rcases hn : s.node j with _ | n
  · rw [hn] at h; cases h
  · rw [hn] at h
    simp only [Option.map_some', Option.some.injEq] at h
    exact ⟨n, rfl, h⟩

theorem inval_children_total {k : Skel} {p : Option Nat} (l : List Nat) :
    ∀ (prev h : Option Nat) (s : State K), s.skel = k → DSeg k p prev h l none →
    (∀ c ∈ l, ∀ s2 : State K, s2.skel = k →
      ∃ f0, ∀ f, f0 ≤ f → ∃ s', entity_invalidate_tform_world f s2 c = some s') →
    ∃ f0, ∀ f, f0 ≤ f → ∃ s', entity_invalidate_tform_children f s h = some s' := by
  induction l with
  | nil =>
    intro prev h s _ hseg _
    have : h = none := hseg
    subst this
    refine ⟨1, fun f hf => ?_⟩
    obtain ⟨f', rfl⟩ : ∃ f', f = f' + 1 := ⟨f - 1, by omega⟩
    exact ⟨s, inval_children_none f' s⟩
  | cons c l ih =>
    intro prev h s hs hseg hall
    obtain ⟨hh, nc, hnc, -, -, hrest⟩ := hseg
    subst hh
    obtain ⟨fc, hfc⟩ := hall c (List.mem_cons_self _ _) s hs
    obtain ⟨s1, hs1⟩ := hfc fc (le_refl _)
    have hmk := (inval_marked fc).1 _ _ _ hs1
    have hsk1 : s1.skel = k := by rw [hmk.mk_skel, hs]
    obtain ⟨n1, hn1, hl1⟩ := skel_node hsk1 hnc
    have hsucc : n1.succ = nc.succ := by rw [← hl1]; rfl
    obtain ⟨fl, hfl⟩ := ih (some c) n1.succ s1 hsk1 (hsucc ▸ hrest)
      (fun c' hc' => hall c' (List.mem_cons_of_mem _ hc'))
    refine ⟨max fc fl + 1, fun f hf => ?_⟩
    obtain ⟨f', rfl⟩ : ∃ f', f = f' + 1 := ⟨f - 1, by omega⟩
    have h1 : fc ≤ f' := by have := le_max_left fc fl; omega
    have h2 : fl ≤ f' := by have := le_max_right fc fl; omega
    obtain ⟨s', hs'⟩ := hfl f' h2
    refine ⟨s', ?_⟩
    rw [inval_children_some, inval_world_fuel_mono hs1 h1]
    simp only [Option.some_bind, Option.bind_some, hn1]
    exact hs'

theorem inval_world_total_aux {k : Skel} {kids : Option Nat → List Nat}
    (hwf : WFk k none kids) (rank : Nat → Nat)
    (hrank : ∀ i n q, k.lk i = some n → n.parent = some q → rank q < rank i)
    (B : Nat) (hB : ∀ i n, k.lk i = some n → rank i ≤ B) :
    ∀ (d e : Nat), B - rank e = d → (∃ n, k.lk e = some n) → ∀ s : State K, s.skel = k →
      ∃ f0, ∀ f, f0 ≤ f → ∃ s', entity_invalidate_tform_world f s e = some s' := by
  intro d
  induction d using Nat.strong_induction_on with
  | _ d ih =>
    intro e hd ⟨m, hm⟩ s hs
    obtain ⟨n, hn, hl⟩ := skel_node hs hm
    by_cases hdirty : n.dirty &&& TFORM_DIRTY_WORLD ≠ 0
    · refine ⟨1, fun f hf => ?_⟩
      obtain ⟨f', rfl⟩ : ∃ f', f = f' + 1 := ⟨f - 1, by omega⟩
      refine ⟨s, ?_⟩
      rw [inval_world_succ, hn]
      simp only [Option.some_bind, Option.bind_some, if_pos hdirty]
    · have hmod := modify_of_node hn (fun n => { n with dirty := n.dirty ||| TFORM_DIRTY_WORLD })
      have hmk1 := Marked.mk_of_modify hmod
      have hsk1 : (s.store e { n with dirty := n.dirty ||| TFORM_DIRTY_WORLD }).skel = k := by
        rw [hmk1.mk_skel, hs]
      have hn1 : (s.store e { n with dirty := n.dirty ||| TFORM_DIRTY_WORLD }).node e =
          some { n with dirty := n.dirty ||| TFORM_DIRTY_WORLD } := by
        rw [node_modify hmod]; simp [hn]
      have hval : k.valid (some e) := ⟨m, hm⟩
      obtain ⟨hseg, -⟩ := hwf.1 (some e) hval
      have hhead : k.head (some e) = n.children := by
        simp only [Skel.head, hm, Option.some_bind, Option.bind_some, ← hl]; rfl
      rw [hhead] at hseg
      obtain ⟨fl, hfl⟩ := inval_children_total (kids (some e)) none n.children _ hsk1 hseg
        (fun c hc s2 hs2 => by
          obtain ⟨mc, hmc, hpc⟩ := DSeg_mem hseg hc
          have h1 := hrank c mc e hmc hpc
          have h2 := hB c mc hmc
          exact ih (B - rank c) (by omega) c rfl ⟨mc, hmc⟩ s2 hs2)
      refine ⟨fl + 1, fun f hf => ?_⟩
      obtain ⟨f', rfl⟩ : ∃ f', f = f' + 1 := ⟨f - 1, by omega⟩
      obtain ⟨s', hs'⟩ := hfl f' (by omega)
      refine ⟨s', ?_⟩
      rw [inval_world_succ, hn]
      simp only [Option.some_bind, Option.bind_some, if_neg hdirty, hmod, hn1]
      exact hs'

/-- On a well-formed acyclic forest `entity_invalidate_tform(e, TFORM_WORLD)` returns, given
enough fuel, and the result does not depend on the fuel. -/
theorem inval_world_total {s : State K} {kids : Option Nat → List Nat} {e : Nat}
    {n : entity_t K} (hwf : WFk s.skel none kids) (hac : Acyclic s.skel)
    (hn : s.node e = some n) :
    ∃ f0 s', ∀ f, f0 ≤ f → entity_invalidate_tform_world f s e = some s' := by
  obtain ⟨rank, hrank⟩ := hac
  obtain ⟨B, hB⟩ := rank_bound rank s.heap.length
  have hB' : ∀ i m, s.skel.lk i = some m → rank i ≤ B := by
    intro i m hm
    obtain ⟨n', hn', -⟩ := skel_node rfl hm
    exact hB i (node_lt hn')
  obtain ⟨f0, hf0⟩ := inval_world_total_aux hwf rank hrank B hB' (B - rank e) e rfl
    ⟨n.links, by rw [skel_lk, hn]; rfl⟩ s rfl
  obtain ⟨s', hs'⟩ := hf0 f0 (le_refl _)
  exact ⟨f0, s', fun f hf => inval_world_fuel_mono hs' hf⟩

end inval

end EntitySystem

set_option linter.unusedSectionVars false

namespace EntitySystem

section get

variable {K : Type} [LinearOrderedField K]

theorem tform_compose_congr (L : MathLib K) {t t' : tform_t K} (h1 : t'.rot = t.rot)
    (h2 : t'.pos = t.pos) (h3 : t'.scale = t.scale) :
    tform_compose L t' = tform_compose L t := by
  simp only [tform_compose, h1, h2, h3]

theorem get_local_spec (L : MathLib K) {s : State K} {e : Nat} {n : entity_t K}
    (hn : s.node e = some n) :
    ∃ s', entity_get_tform_local L s e =
        some (s', if n.dirty &&& TFORM_DIRTY_LOCAL ≠ 0 then tform_compose L n.loc
          else n.loc.mat) ∧
      s'.entity_orphans = s.entity_orphans ∧ s'.entity_last_orphan = s.entity_last_orphan ∧
      s'.heap.length = s.heap.length ∧
      (∀ j, j ≠ e → s'.node j = s.node j) ∧
      s'.node e = some (if n.dirty &&& TFORM_DIRTY_LOCAL ≠ 0 then
        { n with loc := { n.loc with mat := tform_compose L n.loc },
                 dirty := n.dirty &&& bit_not TFORM_DIRTY_LOCAL } else n) := by
  have he := node_lt hn
  by_cases hd : n.dirty &&& TFORM_DIRTY_LOCAL ≠ 0
  · refine ⟨(s.store e { n with loc := { n.loc with mat := tform_compose L n.loc } }).store e
      { n with loc := { n.loc with mat := tform_compose L n.loc },
               dirty := n.dirty &&& bit_not TFORM_DIRTY_LOCAL }, ?_, rfl, rfl, ?_, ?_, ?_⟩
    · simp [entity_get_tform_local, hn, hd, State.modify, node_store_if, he, store_length]
    · simp [store_length]
    · intro j hj
      simp [node_store_if, hj]
    · simp [node_store_if, he, store_length, hd]
  · refine ⟨s, ?_, rfl, rfl, rfl, fun _ _ => rfl, ?_⟩
    · simp [entity_get_tform_local, hn, hd]
    · simp [hd, hn]

theorem same_data_refl (n : entity_t K) : n.same_data n := rfl

theorem same_data_trans {a b c : entity_t K} (h1 : a.same_data b) (h2 : b.same_data c) :
    a.same_data c := by
  unfold entity_t.same_data at *
  rw [h2, h1]

theorem same_data_links {a b : entity_t K} (h : a.same_data b) : b.links = a.links := by
  unfold entity_t.same_data at h
  rw [h]; rfl

theorem same_data_parent {a b : entity_t K} (h : a.same_data b) : b.parent = a.parent := by
  unfold entity_t.same_data at h
  rw [h]

theorem same_data_compose (L : MathLib K) {a b : entity_t K} (h : a.same_data b) :
    tform_compose L b.loc = tform_compose L a.loc := by
  unfold entity_t.same_data at h
  rw [h]; rfl

theorem SameData.sd_refl (s : State K) : SameData s s :=
  ⟨rfl, rfl, rfl, fun _ => ⟨fun h => h, fun n h => ⟨n, h, rfl⟩⟩⟩

theorem SameData.sd_trans {s1 s2 s3 : State K} (h1 : SameData s1 s2) (h2 : SameData s2 s3) :
    SameData s1 s3 := by
  obtain ⟨a1, a2, a3, a4⟩ := h1
  obtain ⟨b1, b2, b3, b4⟩ := h2
  refine ⟨b1.trans a1, b2.trans a2, b3.trans a3, fun j => ⟨fun h => (b4 j).1 ((a4 j).1 h), ?_⟩⟩
  intro n hn
  obtain ⟨n', hn', hd⟩ := (a4 j).2 n hn
  obtain ⟨n'', hn'', hd'⟩ := (b4 j).2 n' hn'
  exact ⟨n'', hn'', same_data_trans hd hd'⟩

theorem SameData.sd_skel {s s' : State K} (h : SameData s s') : s'.skel = s.skel := by
  obtain ⟨h1, h2, -, h4⟩ := h
  simp only [State.skel, h1, h2, Skel.mk.injEq, and_true]
  funext j
  rcases hj : s.node j with _ | n
  · rw [(h4 j).1 hj]
  · obtain ⟨n', hn', hd⟩ := (h4 j).2 n hj
    rw [hn']
    simp only [Option.map_some', same_data_links hd]

theorem SameData.sd_get_inv {s s' : State K} (h : SameData s s') {j : Nat} {n' : entity_t K}
    (hn : s'.node j = some n') : ∃ n, s.node j = some n ∧ n.same_data n' := by
  rcases hj : s.node j with _ | n
  · rw [(h.2.2.2 j).1 hj] at hn; cases hn
  · obtain ⟨n'', hn'', hd⟩ := (h.2.2.2 j).2 n hj
    rw [hn''] at hn; cases hn
    exact ⟨n, rfl, hd⟩

theorem Upd.upd_of_modify {s s' : State K} {e : Nat} {n : entity_t K} {f : entity_t K → entity_t K}
    (hn : s.node e = some n) (h : s.modify e f = some s') : Upd s e (f n) s' := by
  obtain ⟨h1, h2, h3⟩ := modify_orphans h
  refine ⟨h1, h2, h3, ?_, ?_⟩
  · rw [node_modify h]; simp [hn]
  · intro j hj; rw [node_modify h]; simp [hj]

theorem Upd.same_data {s s' : State K} {e : Nat} {n n' : entity_t K} (h : Upd s e n' s')
    (hn : s.node e = some n) (hd : n.same_data n') : SameData s s' := by
  obtain ⟨h1, h2, h3, h4, h5⟩ := h
  refine ⟨h1, h2, h3, fun j => ?_⟩
  by_cases hj : j = e
  · subst hj
    refine ⟨fun h => ?_, fun m hm => ?_⟩
    · rw [hn] at h; cases h
    · rw [hn] at hm; cases hm; exact ⟨n', h4, hd⟩
  · rw [h5 j hj]
    exact ⟨fun h => h, fun m hm => ⟨m, hm, rfl⟩⟩

theorem Upd.upd_trans {s s1 s2 : State K} {e : Nat} {n1 n2 : entity_t K} (h1 : Upd s e n1 s1)
    (h2 : Upd s1 e n2 s2) : Upd s e n2 s2 := by
  obtain ⟨a1, a2, a3, -, a5⟩ := h1
  obtain ⟨b1, b2, b3, b4, b5⟩ := h2
  exact ⟨b1.trans a1, b2.trans a2, b3.trans a3, b4, fun j hj => (b5 j hj).trans (a5 j hj)⟩

theorem Refreshed.rf_refl (s : State K) : Refreshed s s :=
  ⟨SameData.sd_refl s, fun j n n' h h' => by rw [h] at h'; cases h'; exact ⟨id, id⟩⟩

theorem Refreshed.rf_trans {s1 s2 s3 : State K} (h1 : Refreshed s1 s2) (h2 : Refreshed s2 s3) :
    Refreshed s1 s3 := by
  refine ⟨h1.1.sd_trans h2.1, fun j n n'' hn hn'' => ?_⟩
  obtain ⟨n', hn', -⟩ := (h1.1.2.2.2 j).2 n hn
  obtain ⟨a1, a2⟩ := h1.2 j n n' hn hn'
  obtain ⟨b1, b2⟩ := h2.2 j n' n'' hn' hn''
  exact ⟨fun h => a1 (b1 h), fun h => a2 (b2 h)⟩

theorem Refreshed.of_upd {s s' : State K} {e : Nat} {n n' : entity_t K} (h : Upd s e n' s')
    (hn : s.node e = some n) (hd : n.same_data n') (hl : n'.ldirty → n.ldirty)
    (hw : n'.wdirty → n.wdirty) : Refreshed s s' := by
  refine ⟨h.same_data hn hd, fun j m m' hm hm' => ?_⟩
  by_cases hj : j = e
  · subst hj
    rw [hn] at hm; cases hm
    rw [h.2.2.2.1] at hm'; cases hm'
    exact ⟨hl, hw⟩
  · rw [h.2.2.2.2 j hj, hm] at hm'; cases hm'
    exact ⟨id, id⟩

/-- The reference world matrix is determined by the parent links and the local
rotation/position/scale along the ancestor chain. -/
theorem WorldRef_transfer (L : MathLib K) {s s' : State K} (G : Nat → Prop)
    (hG : ∀ j n, G j → s.node j = some n →
      ∃ n', s'.node j = some n' ∧ n'.parent = n.parent ∧
        tform_compose L n'.loc = tform_compose L n.loc ∧ ∀ p, n.parent = some p → G p)
    {j : Nat} {M : Matrix K} (h : WorldRef L s j M) (hj : G j) : WorldRef L s' j M := by
  induction h with
  | root hn hp =>
    obtain ⟨n', hn', h1, h2, -⟩ := hG _ _ hj hn
    rw [← h2]
    exact WorldRef.root hn' (h1.trans hp)
  | child hn hp _ ih =>
    obtain ⟨n', hn', h1, h2, h3⟩ := hG _ _ hj hn
    rw [← h2]
    exact WorldRef.child hn' (h1.trans hp) (ih (h3 _ hp))

theorem WorldRef_same_data (L : MathLib K) {s s' : State K} (h : SameData s s') {j : Nat}
    {M : Matrix K} (hr : WorldRef L s j M) : WorldRef L s' j M := by
  refine WorldRef_transfer L (fun _ => True) (fun j n _ hn => ?_) hr trivial
  obtain ⟨n', hn', hd⟩ := (h.2.2.2 j).2 n hn
  exact ⟨n', hn', same_data_parent hd, same_data_compose L hd, fun _ _ => trivial⟩

theorem WorldRef_same_data_inv (L : MathLib K) {s s' : State K} (h : SameData s s') {j : Nat}
    {M : Matrix K} (hr : WorldRef L s' j M) : WorldRef L s j M := by
  refine WorldRef_transfer L (fun _ => True) (fun j n' _ hn' => ?_) hr trivial
  obtain ⟨n, hn, hd⟩ := h.sd_get_inv hn'
  exact ⟨n, hn, (same_data_parent hd).symm, (same_data_compose L hd).symm, fun _ _ => trivial⟩

theorem WorldRef_unique (L : MathLib K) {s : State K} {j : Nat} {M M' : Matrix K}
    (h : WorldRef L s j M) (h' : WorldRef L s j M') : M = M' := by
  induction h generalizing M' with
  | root hn hp =>
    cases h' with
    | root hn' _ => rw [hn] at hn'; cases hn'; rfl
    | child hn' hp' _ => rw [hn] at hn'; cases hn'; rw [hp] at hp'; cases hp'
  | child hn hp _ ih =>
    cases h' with
    | root hn' hp' => rw [hn] at hn'; cases hn'; rw [hp] at hp'; cases hp'
    | child hn' hp' hr' =>
      rw [hn] at hn'; cases hn'
      rw [hp] at hp'; cases hp'
      rw [ih hr']

theorem acyclic_parent_ne {k : Skel} (hac : Acyclic k) {e : Nat} {n : links_t}
    (hn : k.lk e = some n) : n.parent ≠ some e := by
  obtain ⟨rank, hrank⟩ := hac
  intro hc
  exact lt_irrefl _ (hrank e n e hn hc)

theorem Upd.upd_skel {s s' : State K} {e : Nat} {n n' : entity_t K} (h : Upd s e n' s')
    (hn : s.node e = some n) (hl : n'.links = n.links) : s'.skel = s.skel := by
  obtain ⟨h1, h2, -, h4, h5⟩ := h
  simp only [State.skel, h1, h2, Skel.mk.injEq, and_true]
  funext j
  by_cases hj : j = e
  · subst hj; rw [h4, hn]; simp [hl]
  · rw [h5 j hj]

theorem WorldRef_upd (L : MathLib K) {s s' : State K} {e : Nat} {n n' : entity_t K}
    (h : Upd s e n' s') (hn : s.node e = some n) (hl : n'.links = n.links)
    (hc : tform_compose L n'.loc = tform_compose L n.loc) {j : Nat} {M : Matrix K}
    (hr : WorldRef L s j M) : WorldRef L s' j M := by
  refine WorldRef_transfer L (fun _ => True) (fun j m _ hm => ?_) hr trivial
  by_cases hj : j = e
  · subst hj
    rw [hn] at hm; cases hm
    exact ⟨n', h.2.2.2.1, congrArg links_t.parent hl, hc, fun _ _ => trivial⟩
  · exact ⟨m, by rw [h.2.2.2.2 j hj]; exact hm, rfl, rfl, fun _ _ => trivial⟩

/-- Replacing one entity by one with the same links and local rotation/position/scale, no
dirtier than before and with valid caches wherever it is clean, preserves the invariant. -/
theorem Inv_upd (L : MathLib K) {s s' : State K} {e : Nat} {n n' : entity_t K}
    (hI : Inv L s) (hn : s.node e = some n) (hu : Upd s e n' s') (hl : n'.links = n.links)
    (hc : tform_compose L n'.loc = tform_compose L n.loc)
    (hw : n'.wdirty → n.wdirty) (hlw : n'.ldirty → n'.wdirty)
    (hcl : ¬ n'.ldirty → n'.loc.mat = tform_compose L n.loc)
    (hcw : ¬ n'.wdirty → WorldRef L s e n'.world.mat ∧
      ∀ p m, n.parent = some p → s.node p = some m → ¬ m.wdirty) : Inv L s' := by
  have hsk := hu.upd_skel hn hl
  have hpar : n'.parent = n.parent := congrArg links_t.parent hl
  have hu' := hu
  obtain ⟨-, -, -, hne, hframe⟩ := hu
  refine ⟨hsk ▸ hI.wf, hsk ▸ hI.acyclic, ?_, ?_, ?_, ?_⟩
  · intro c q nc mq hc hpar' hq _ hwq
    by_cases hqe : q = e
    · subst hqe
      rw [hne] at hq; cases hq
      by_cases hce : c = q
      · subst hce
        rw [hne] at hc; cases hc
        exfalso
        have hlk : s.skel.lk c = some n.links := by rw [skel_lk, hn]; rfl
        exact acyclic_parent_ne hI.acyclic hlk (hpar.symm.trans hpar')
      · rw [hframe c hce] at hc
        exact hI.closed c q nc n hc hpar' hn (fun h => h) (hw hwq)
    · rw [hframe q hqe] at hq
      by_cases hce : c = e
      · subst hce
        rw [hne] at hc; cases hc
        by_contra hnw
        exact (hcw hnw).2 q mq (hpar.symm.trans hpar') hq hwq
      · rw [hframe c hce] at hc
        exact hI.closed c q nc mq hc hpar' hq (fun h => h) hwq
  · intro j m hm
    by_cases hj : j = e
    · subst hj; rw [hne] at hm; cases hm; exact hlw
    · rw [hframe j hj] at hm; exact hI.local_world j m hm
  · intro j m hm
    by_cases hj : j = e
    · subst hj; rw [hne] at hm; cases hm
      intro h
      rw [hc]; exact hcl h
    · rw [hframe j hj] at hm; exact hI.cache_local j m hm
  · intro j m hm hclean
    by_cases hj : j = e
    · subst hj; rw [hne] at hm; cases hm
      exact WorldRef_upd L hu' hn hl hc (hcw hclean).1
    · rw [hframe j hj] at hm
      exact WorldRef_upd L hu' hn hl hc (hI.cache_world j m hm hclean)

theorem Upd_store_store (s : State K) {e : Nat} {n : entity_t K} (hn : s.node e = some n)
    (a b : entity_t K) : Upd s e b ((s.store e a).store e b) := by
  have he := node_lt hn
  refine ⟨rfl, rfl, by simp [store_length], by simp [node_store_if, he, store_length], ?_⟩
  intro j hj
  simp [node_store_if, hj]

/-- One unfolding of `entity_get_tform(e, TFORM_WORLD)`. -/
theorem get_world_succ (L : MathLib K) (fuel : Nat) (s s' : State K) (e : Nat) (M : Matrix K) :
    entity_get_tform_world L (fuel + 1) s e = some (s', M) ↔
    ∃ n, s.node e = some n ∧
      ((¬ n.wdirty ∧ s' = s ∧ M = n.world.mat) ∨
       (n.wdirty ∧ ∃ s1 Ml s2 n2,
          entity_get_tform_local L s e = some (s1, Ml) ∧
          (match n.parent with
           | some p => ∃ Mp, entity_get_tform_world L fuel s1 p = some (s2, Mp) ∧
               M = MatrixMultiply Ml Mp
           | none => s2 = s1 ∧ M = Ml) ∧
          s2.node e = some n2 ∧
          s' = (s2.store e { n2 with world := { n2.world with mat := M } }).store e
            { n2 with world := { n2.world with mat := M },
                      dirty := n2.dirty &&& bit_not TFORM_DIRTY_WORLD })) := by
  simp only [entity_get_tform_world]
  rcases hn : s.node e with _ | n
  · simp
  · simp only [Option.some_bind, Option.bind_some, Option.bind_eq_bind, Option.some.injEq,
      exists_eq_left']
    by_cases hd : n.dirty &&& TFORM_DIRTY_WORLD ≠ 0
    · have hw : n.wdirty := hd
      simp only [if_pos hd, hw, not_true_eq_false, false_and, true_and, false_or]
      rcases hl : entity_get_tform_local L s e with _ | ⟨s1, Ml⟩
      · rcases hp : n.parent with _ | p <;> simp
      · rcases hp : n.parent with _ | p
        · simp only [Option.some_bind, Option.bind_some, Option.some.injEq, Prod.mk.injEq,
            exists_and_left]
          constructor
          · intro h
            rcases hn2 : s1.node e with _ | n2
            · simp [State.modify, hn2] at h
            · have he := node_lt hn2
              simp [State.modify, hn2, node_store_if, he, store_length] at h
              obtain ⟨h1, h2⟩ := h
              subst h2
              exact ⟨s1, Ml, ⟨rfl, rfl⟩, s1, ⟨rfl, rfl⟩, n2, hn2, h1.symm⟩
          · rintro ⟨s1', Ml', ⟨rfl, rfl⟩, s2, ⟨rfl, rfl⟩, n2, hn2, rfl⟩
            have he := node_lt hn2
            simp [State.modify, hn2, node_store_if, he, store_length]
        · simp only [Option.some_bind, Option.bind_some, Option.some.injEq, Prod.mk.injEq,
            exists_and_left]
          constructor
          · intro h
            rcases hr : entity_get_tform_world L fuel s1 p with _ | ⟨s2, Mp⟩
            · simp [hr] at h
            · rcases hn2 : s2.node e with _ | n2
              · simp [hr, State.modify, hn2] at h
              · have he := node_lt hn2
                simp [hr, State.modify, hn2, node_store_if, he, store_length] at h
                obtain ⟨h1, h2⟩ := h
                subst h2
                exact ⟨s1, Ml, ⟨rfl, rfl⟩, s2, ⟨Mp, hr, rfl⟩, n2, hn2, h1.symm⟩
          · rintro ⟨s1', Ml', ⟨rfl, rfl⟩, s2, ⟨Mp, hr, rfl⟩, n2, hn2, rfl⟩
            have he := node_lt hn2
            simp [hr, State.modify, hn2, node_store_if, he, store_length]
    · have hw : ¬ n.wdirty := hd
      simp only [if_neg hd, hw, not_false_eq_true, true_and, false_and, or_false,
        Option.some.injEq, Prod.mk.injEq]
      constructor
      · rintro ⟨rfl, rfl⟩; exact ⟨rfl, rfl⟩
      · rintro ⟨rfl, rfl⟩; exact ⟨rfl, rfl⟩

theorem wdirty_clear_local (n : entity_t K) (m : tform_t K) :
    ({ n with loc := m, dirty := n.dirty &&& bit_not TFORM_DIRTY_LOCAL } : entity_t K).wdirty ↔
      n.wdirty := by
  simp only [entity_t.wdirty, and_world_clear_local]

theorem ldirty_clear_local (n : entity_t K) (m : tform_t K) :
    ¬ ({ n with loc := m, dirty := n.dirty &&& bit_not TFORM_DIRTY_LOCAL } : entity_t K).ldirty := by
  simp only [entity_t.ldirty, and_local_clear_local, ne_eq, not_true_eq_false, not_false_eq_true]

theorem wdirty_clear_world (n : entity_t K) (m : tform_t K) :
    ¬ ({ n with world := m, dirty := n.dirty &&& bit_not TFORM_DIRTY_WORLD } : entity_t K).wdirty := by
  simp only [entity_t.wdirty, and_world_clear_world, ne_eq, not_true_eq_false, not_false_eq_true]

theorem ldirty_clear_world (n : entity_t K) (m : tform_t K) :
    ({ n with world := m, dirty := n.dirty &&& bit_not TFORM_DIRTY_WORLD } : entity_t K).ldirty ↔
      n.ldirty := by
  simp only [entity_t.ldirty, and_local_clear_world]

/-- `entity_get_tform(e, TFORM_LOCAL)` on a state satisfying the invariant: it returns the
matrix composed from the current local rotation, scale and position. -/
theorem get_local_inv (L : MathLib K) {s : State K} {e : Nat} {n : entity_t K}
    (hI : Inv L s) (hn : s.node e = some n) :
    ∃ s1 n1, entity_get_tform_local L s e = some (s1, tform_compose L n.loc) ∧ Inv L s1 ∧
      Refreshed s s1 ∧ Upd s e n1 s1 ∧ n.same_data n1 ∧ ¬ n1.ldirty ∧ (n1.wdirty ↔ n.wdirty) ∧
      n1.world.mat = n.world.mat := by
  obtain ⟨s1, h1, h2, h3, h4, h5, h6⟩ := get_local_spec L hn
  by_cases hd : n.dirty &&& TFORM_DIRTY_LOCAL ≠ 0
  · simp only [if_pos hd] at h1 h6
    have hu : Upd s e _ s1 := ⟨h2, h3, h4, h6, h5⟩
    have hsd : n.same_data
        { n with
          loc := { n.loc with mat := tform_compose L n.loc },
          dirty := n.dirty &&& bit_not TFORM_DIRTY_LOCAL } := rfl
    refine ⟨s1, _, h1, ?_, ?_, hu, hsd, ldirty_clear_local n _, wdirty_clear_local n _, rfl⟩
    · refine Inv_upd L hI hn hu rfl rfl (wdirty_clear_local n _).mp
        (fun h => absurd h (ldirty_clear_local n _)) (fun _ => rfl) (fun h => ?_)
      have hw : ¬ n.wdirty := fun h' => h ((wdirty_clear_local n _).mpr h')
      exact absurd (hI.local_world e n hn hd) hw
    · exact Refreshed.of_upd hu hn hsd (fun h => absurd h (ldirty_clear_local n _))
        (wdirty_clear_local n _).mp
  · simp only [if_neg hd] at h1 h6
    have hs : Upd s e n s1 := ⟨h2, h3, h4, h6, h5⟩
    have hmat : n.loc.mat = tform_compose L n.loc := hI.cache_local e n hn hd
    rw [hmat] at h1
    refine ⟨s1, n, h1, ?_, ?_, hs, rfl, hd, Iff.rfl, rfl⟩
    · exact Inv_upd L hI hn hs rfl rfl id (hI.local_world e n hn) (fun _ => hmat)
        (fun h => ⟨hI.cache_world e n hn h, fun p m hp hm hmw =>
          h (hI.closed e p n m hn hp hm (fun h => h) hmw)⟩)
    · exact Refreshed.of_upd hs hn rfl id id

/-- Partial correctness of `entity_get_tform(e, TFORM_WORLD)`: whatever it returns on a state
satisfying the invariant is the reference world matrix, and the invariant is kept. -/
theorem get_world_inv (L : MathLib K) (fuel : Nat) :
    ∀ (s s' : State K) (e : Nat) (M : Matrix K), Inv L s →
      entity_get_tform_world L fuel s e = some (s', M) →
      Inv L s' ∧ WorldRef L s e M ∧ Refreshed s s' ∧
        ∃ n', s'.node e = some n' ∧ ¬ n'.wdirty ∧ n'.world.mat = M := by
  induction fuel with
  | zero => intro s s' e M _ h; simp [entity_get_tform_world] at h
  | succ fuel ih =>
    intro s s' e M hI h
    rw [get_world_succ] at h
    obtain ⟨n, hn, h⟩ := h
    rcases h with ⟨hclean, rfl, rfl⟩ | ⟨hw, s1, Ml, s2, n2, hl, hmatch, hn2, hs'⟩
    · exact ⟨hI, hI.cache_world e n hn hclean, Refreshed.rf_refl _, n, hn, hclean, rfl⟩
    · obtain ⟨s1', n1, hl', hI1, hR1, hU1, hsd1, hnl1, hw1, -⟩ := get_local_inv L hI hn
      rw [hl] at hl'
      simp only [Option.some.injEq, Prod.mk.injEq] at hl'
      obtain ⟨rfl, rfl⟩ := hl'
      have hn1 : s1.node e = some n1 := hU1.2.2.2.1
      have hsd4 : ∀ (m : entity_t K) (X : Matrix K), m.same_data
          { m with
            world := { m.world with mat := X },
            dirty := m.dirty &&& bit_not TFORM_DIRTY_WORLD } := fun _ _ => rfl
      rcases hp : n.parent with _ | p
      · rw [hp] at hmatch
        obtain ⟨rfl, rfl⟩ := hmatch
        have e12 : n1 = n2 := by rw [hn1] at hn2; exact Option.some.inj hn2
        subst e12
        have hU := Upd_store_store s2 hn1
          { n1 with world := { n1.world with mat := tform_compose L n.loc } }
          { n1 with
            world := { n1.world with mat := tform_compose L n.loc },
            dirty := n1.dirty &&& bit_not TFORM_DIRTY_WORLD }
        rw [← hs'] at hU
        have hp1 : n1.parent = none := (same_data_parent hsd1).trans hp
        have hI' : Inv L s' := by
          refine Inv_upd L hI1 hn1 hU rfl rfl (fun h => absurd h (wdirty_clear_world n1 _))
            (fun h => absurd ((ldirty_clear_world n1 _).mp h) hnl1)
            (fun _ => hI1.cache_local e n1 hn1 hnl1) (fun _ => ⟨?_, ?_⟩)
          · have := WorldRef.root (L := L) hn1 hp1
            rw [same_data_compose L hsd1] at this
            exact this
          · intro q m hq; rw [hp1] at hq; cases hq
        refine ⟨hI', WorldRef.root hn hp, hR1.rf_trans (Refreshed.of_upd hU hn1 (hsd4 n1 _)
          (ldirty_clear_world n1 _).mp (fun h => absurd h (wdirty_clear_world n1 _))),
          _, hU.2.2.2.1, wdirty_clear_world n1 _, rfl⟩
      · rw [hp] at hmatch
        obtain ⟨Mp, hr, rfl⟩ := hmatch
        obtain ⟨hI2, hWp, hR2, m2, hm2, hm2c, hm2m⟩ := ih s1 s2 p Mp hI1 hr
        obtain ⟨n1', hn1', hsd2⟩ := hR2.1.sd_get_inv hn2
        have e12 : n1 = n1' := by rw [hn1] at hn1'; exact Option.some.inj hn1' 
        subst e12
        have hnl2 : ¬ n2.ldirty := fun h => hnl1 ((hR2.2 e n1 n2 hn1 hn2).1 h)
        have hU := Upd_store_store s2 hn2
          { n2 with world := { n2.world with mat := MatrixMultiply (tform_compose L n.loc) Mp } }
          { n2 with
            world := { n2.world with mat := MatrixMultiply (tform_compose L n.loc) Mp },
            dirty := n2.dirty &&& bit_not TFORM_DIRTY_WORLD }
        rw [← hs'] at hU
        have hp2 : n2.parent = some p :=
          (same_data_parent hsd2).trans ((same_data_parent hsd1).trans hp)
        have hc2 : tform_compose L n2.loc = tform_compose L n.loc :=
          (same_data_compose L hsd2).trans (same_data_compose L hsd1)
        have hI' : Inv L s' := by
          refine Inv_upd L hI2 hn2 hU rfl rfl (fun h => absurd h (wdirty_clear_world n2 _))
            (fun h => absurd ((ldirty_clear_world n2 _).mp h) hnl2)
            (fun _ => hI2.cache_local e n2 hn2 hnl2) (fun _ => ⟨?_, ?_⟩)
          · have := WorldRef.child (L := L) hn2 hp2 (WorldRef_same_data L hR2.1 hWp)
            rw [hc2] at this
            exact this
          · intro q m hq hm
            rw [hp2] at hq; cases hq
            rw [hm2] at hm; cases hm
            exact hm2c
        refine ⟨hI', WorldRef.child hn hp (WorldRef_same_data_inv L hR1.1 hWp),
          hR1.rf_trans (hR2.rf_trans (Refreshed.of_upd hU hn2 (hsd4 n2 _)
            (ldirty_clear_world n2 _).mp (fun h => absurd h (wdirty_clear_world n2 _)))),
          _, hU.2.2.2.1, wdirty_clear_world n2 _, rfl⟩

theorem get_local_same_data (L : MathLib K) {s s1 : State K} {e : Nat} {M : Matrix K}
    (h : entity_get_tform_local L s e = some (s1, M)) : SameData s s1 := by
  rcases hn : s.node e with _ | n
  · simp [entity_get_tform_local, hn] at h
  · obtain ⟨s1', h1, h2, h3, h4, h5, h6⟩ := get_local_spec L hn
    rw [h] at h1
    simp only [Option.some.injEq, Prod.mk.injEq] at h1
    obtain ⟨rfl, -⟩ := h1
    have hu : Upd s e _ s1 := ⟨h2, h3, h4, h6, h5⟩
    refine hu.same_data hn ?_
    by_cases hd : n.dirty &&& TFORM_DIRTY_LOCAL ≠ 0
    · simp only [if_pos hd]; rfl
    · simp only [if_neg hd]; rfl

theorem get_world_same_data (L : MathLib K) (fuel : Nat) :
    ∀ (s s' : State K) (e : Nat) (M : Matrix K),
      entity_get_tform_world L fuel s e = some (s', M) → SameData s s' := by
  induction fuel with
  | zero => intro s s' e M h; simp [entity_get_tform_world] at h
  | succ fuel ih =>
    intro s s' e M h
    rw [get_world_succ] at h
    obtain ⟨n, hn, h⟩ := h
    rcases h with ⟨-, rfl, -⟩ | ⟨-, s1, Ml, s2, n2, hl, hmatch, hn2, hs'⟩
    · exact SameData.sd_refl _
    · have h1 := get_local_same_data L hl
      have h12 : SameData s1 s2 := by
        rcases hp : n.parent with _ | p
        · rw [hp] at hmatch; rw [hmatch.1]; exact SameData.sd_refl _
        · rw [hp] at hmatch
          obtain ⟨Mp, hr, -⟩ := hmatch
          exact ih _ _ _ _ hr
      have hU := Upd_store_store s2 hn2
        { n2 with world := { n2.world with mat := M } }
        { n2 with
          world := { n2.world with mat := M },
          dirty := n2.dirty &&& bit_not TFORM_DIRTY_WORLD }
      rw [← hs'] at hU
      exact h1.sd_trans (h12.sd_trans (hU.same_data hn2 rfl))

theorem get_world_fuel_succ (L : MathLib K) (fuel : Nat) :
    ∀ (s s' : State K) (e : Nat) (M : Matrix K),
      entity_get_tform_world L fuel s e = some (s', M) →
      entity_get_tform_world L (fuel + 1) s e = some (s', M) := by
  induction fuel with
  | zero => intro s s' e M h; simp [entity_get_tform_world] at h
  | succ fuel ih =>
    intro s s' e M h
    rw [get_world_succ] at h ⊢
    obtain ⟨n, hn, h⟩ := h
    refine ⟨n, hn, ?_⟩
    rcases h with h | ⟨hw, s1, Ml, s2, n2, hl, hmatch, hn2, hs'⟩
    · exact Or.inl h
    · refine Or.inr ⟨hw, s1, Ml, s2, n2, hl, ?_, hn2, hs'⟩
      rcases hp : n.parent with _ | p
      · rw [hp] at hmatch; exact hmatch
      · rw [hp] at hmatch
        obtain ⟨Mp, hr, hM⟩ := hmatch
        exact ⟨Mp, ih _ _ _ _ hr, hM⟩

theorem get_world_fuel_mono (L : MathLib K) {fuel fuel' : Nat} {s s' : State K} {e : Nat}
    {M : Matrix K} (h : entity_get_tform_world L fuel s e = some (s', M)) (hle : fuel ≤ fuel') :
    entity_get_tform_world L fuel' s e = some (s', M) := by
  induction hle with
  | refl => exact h
  | step _ ih => exact get_world_fuel_succ L _ _ _ _ _ ih

theorem get_world_total_aux (L : MathLib K) {k : Skel} {kids : Option Nat → List Nat}
    (hwf : WFk k none kids) (rank : Nat → Nat)
    (hrank : ∀ i n q, k.lk i = some n → n.parent = some q → rank q < rank i) :
    ∀ (r e : Nat), rank e = r → (∃ m, k.lk e = some m) → ∀ s : State K, s.skel = k →
      ∃ f0 s' M, ∀ f, f0 ≤ f → entity_get_tform_world L f s e = some (s', M) := by
  intro r
  induction r using Nat.strong_induction_on with
  | _ r ih =>
    intro e hr ⟨m, hm⟩ s hs
    obtain ⟨n, hn, hl⟩ := skel_node hs hm
    by_cases hw : n.wdirty
    · obtain ⟨s1, hl1, -⟩ := get_local_spec L hn
      generalize (if n.dirty &&& TFORM_DIRTY_LOCAL ≠ 0 then tform_compose L n.loc
        else n.loc.mat) = Ml at hl1
      have hsd1 := get_local_same_data L hl1
      have hsk1 : s1.skel = k := by rw [hsd1.sd_skel, hs]
      rcases hp : n.parent with _ | p
      · obtain ⟨n2, hn2, -⟩ := skel_node hsk1 hm
        refine ⟨1, (s1.store e { n2 with world := { n2.world with mat := Ml } }).store e
          { n2 with
            world := { n2.world with mat := Ml },
            dirty := n2.dirty &&& bit_not TFORM_DIRTY_WORLD }, Ml, fun f hf => ?_⟩
        obtain ⟨f', rfl⟩ : ∃ f', f = f' + 1 := ⟨f - 1, by omega⟩
        rw [get_world_succ]
        refine ⟨n, hn, Or.inr ⟨hw, s1, Ml, s1, n2, hl1, ?_, hn2, rfl⟩⟩
        rw [hp]
        exact ⟨rfl, rfl⟩
      · have hmp : m.parent = some p := by rw [← hl]; exact hp
        obtain ⟨-, hv⟩ := hwf.2.1 e m hm (by simp)
        rw [hmp] at hv
        obtain ⟨f0, s2, Mp, hf0⟩ := ih (rank p) (by rw [← hr]; exact hrank e m p hm hmp) p rfl hv
          s1 hsk1
        have hsd2 := get_world_same_data L f0 _ _ _ _ (hf0 f0 (le_refl _))
        have hsk2 : s2.skel = k := by rw [hsd2.sd_skel, hsk1]
        obtain ⟨n2, hn2, -⟩ := skel_node hsk2 hm
        refine ⟨f0 + 1,
          (s2.store e { n2 with world := { n2.world with mat := MatrixMultiply Ml Mp } }).store e
          { n2 with
            world := { n2.world with mat := MatrixMultiply Ml Mp },
            dirty := n2.dirty &&& bit_not TFORM_DIRTY_WORLD }, MatrixMultiply Ml Mp,
          fun f hf => ?_⟩
        obtain ⟨f', rfl⟩ : ∃ f', f = f' + 1 := ⟨f - 1, by omega⟩
        rw [get_world_succ]
        refine ⟨n, hn, Or.inr ⟨hw, s1, Ml, s2, n2, hl1, ?_, hn2, rfl⟩⟩
        rw [hp]
        exact ⟨Mp, hf0 f' (by omega), rfl⟩
    · refine ⟨1, s, n.world.mat, fun f hf => ?_⟩
      obtain ⟨f', rfl⟩ : ∃ f', f = f' + 1 := ⟨f - 1, by omega⟩
      rw [get_world_succ]
      exact ⟨n, hn, Or.inl ⟨hw, rfl, rfl⟩⟩

/-- On a state satisfying the invariant `entity_get_tform(e, TFORM_WORLD)` returns, given enough
fuel, the reference world matrix of `e`, and leaves a state satisfying the invariant in which
`e` is world-clean. -/
theorem get_world_total (L : MathLib K) {s : State K} {e : Nat} {n : entity_t K}
    (hI : Inv L s) (hn : s.node e = some n) :
    ∃ f0 s' M, (∀ f, f0 ≤ f → entity_get_tform_world L f s e = some (s', M)) ∧
      Inv L s' ∧ WorldRef L s e M ∧ Refreshed s s' ∧
      ∃ n', s'.node e = some n' ∧ ¬ n'.wdirty ∧ n'.world.mat = M := by
  obtain ⟨kids, hwf⟩ := hI.wf
  obtain ⟨rank, hrank⟩ := hI.acyclic
  obtain ⟨f0, s', M, hf⟩ := get_world_total_aux L hwf rank hrank (rank e) e rfl
    ⟨n.links, by rw [skel_lk, hn]; rfl⟩ s rfl
  exact ⟨f0, s', M, hf, get_world_inv L f0 s s' e M hI (hf f0 (le_refl _))⟩

end get

end EntitySystem

set_option linter.unusedSectionVars false

namespace EntitySystem

section inv

variable {K : Type} [LinearOrderedField K]

/-- The invariant survives any change that keeps list integrity, acyclicity and the closure of
world-dirtiness, leaves `e` world-dirty, and changes no other entity except for setting its
world-dirty bit or relinking it among its siblings. -/
theorem Inv_relink (L : MathLib K) {s s' : State K} {e : Nat} (hI : Inv L s)
    (hwf : WFx s'.skel none) (hac : Acyclic s'.skel) (hcl : Closed s')
    (he : ∀ n', s'.node e = some n' →
      n'.wdirty ∧ (¬ n'.ldirty → n'.loc.mat = tform_compose L n'.loc))
    (hrest : ∀ j n', j ≠ e → s'.node j = some n' →
      ∃ n, s.node j = some n ∧ n'.parent = n.parent ∧ n'.loc = n.loc ∧ n'.world = n.world ∧
        (n'.ldirty ↔ n.ldirty) ∧ (n.wdirty → n'.wdirty)) : Inv L s' := by
  refine ⟨hwf, hac, hcl, ?_, ?_, ?_⟩
  · intro j m hm hld
    by_cases hj : j = e
    · subst hj; exact (he m hm).1
    · obtain ⟨n, hn, -, -, -, h1, h2⟩ := hrest j m hj hm
      exact h2 (hI.local_world j n hn (h1.mp hld))
  · intro j m hm hld
    by_cases hj : j = e
    · subst hj; exact (he m hm).2 hld
    · obtain ⟨n, hn, -, h0, -, h1, -⟩ := hrest j m hj hm
      rw [h0]
      exact hI.cache_local j n hn (fun h => hld (h1.mpr h))
  · intro j m hm hclean
    have hj : j ≠ e := fun h => by subst h; exact hclean (he m hm).1
    obtain ⟨n, hn, -, -, h0, -, h2⟩ := hrest j m hj hm
    rw [h0]
    have hr := hI.cache_world j n hn (fun h => hclean (h2 h))
    obtain ⟨kids, hk⟩ := hwf
    refine WorldRef_transfer L (fun i => ∃ m', s'.node i = some m' ∧ ¬ m'.wdirty)
      (fun i ni ⟨mi, hmi, hci⟩ hni => ?_) hr ⟨m, hm, hclean⟩
    have hi : i ≠ e := fun h => by subst h; exact hci (he mi hmi).1
    obtain ⟨ni', hni', g1, g2, -, -, -⟩ := hrest i mi hi hmi
    rw [hni] at hni'; cases hni'
    refine ⟨mi, hmi, g1, by rw [g2], fun p hp => ?_⟩
    have hlk : s'.skel.lk i = some mi.links := by rw [skel_lk, hmi]; rfl
    obtain ⟨-, hv⟩ := hk.2.1 i mi.links hlk (by simp)
    have hpp : mi.links.parent = some p := g1.trans hp
    rw [hpp] at hv
    obtain ⟨lp, hlp⟩ := hv
    obtain ⟨mp, hmp, -⟩ := skel_node rfl hlp
    exact ⟨mp, hmp, fun hw => hci (hcl i p mi mp hmi hpp hmp (fun h => h) hw)⟩

/-- World invalidation preserves the invariant. -/
theorem Inv_inval_world (L : MathLib K) {fuel : Nat} {s s' : State K} {e : Nat}
    (hI : Inv L s) (h : entity_invalidate_tform_world fuel s e = some s') : Inv L s' := by
  have hmk := (inval_marked fuel).1 _ _ _ h
  have hsk := hmk.mk_skel
  obtain ⟨kids, hk⟩ := hI.wf
  refine Inv_relink L (e := e) hI (hsk ▸ hI.wf) (hsk ▸ hI.acyclic)
    ((inval_closed fuel).1 s s' e _ kids hk h (fun _ hx => hx.elim) hI.closed) ?_ ?_
  · intro n' hn'
    obtain ⟨n2, hn2, hw2⟩ := inval_world_dirty h
    rw [hn'] at hn2; cases hn2
    refine ⟨hw2, fun hl => ?_⟩
    obtain ⟨n, hn, hn1, hd⟩ := hmk.mk_get_inv hn'
    have hloc : n'.loc = n.loc := by rw [hn1]
    have hld : n'.ldirty ↔ n.ldirty := by
      rcases hd with hd | hd
      · simp only [entity_t.ldirty, hd]
      · simp only [entity_t.ldirty, hd, and_local_or_world]
    rw [hloc]
    exact hI.cache_local e n hn (fun h => hl (hld.mpr h))
  · intro j n' _ hn'
    obtain ⟨n, hn, hn1, hd⟩ := hmk.mk_get_inv hn'
    refine ⟨n, hn, by rw [hn1], by rw [hn1], by rw [hn1], ?_, ?_⟩
    · rcases hd with hd | hd
      · simp only [entity_t.ldirty, hd]
      · simp only [entity_t.ldirty, hd, and_local_or_world]
    · intro hw
      exact hmk.wdirty_mono hn hn' hw

/-- The invariant after overwriting the payload of `e` and then invalidating its world
transform: the shape shared by the local setters and `entity_invalidate_tform`. -/
theorem Inv_dirty (L : MathLib K) {fuel : Nat} {s s1 s' : State K} {e : Nat}
    {n n1 : entity_t K} (hI : Inv L s) (hn : s.node e = some n) (hu : Upd s e n1 s1)
    (hl : n1.links = n.links) (hw : n1.wdirty ↔ n.wdirty)
    (hc : ¬ n1.ldirty → n1.loc.mat = tform_compose L n1.loc)
    (h : entity_invalidate_tform_world fuel s1 e = some s') : Inv L s' := by
  have hmk := (inval_marked fuel).1 _ _ _ h
  have hsk1 := hu.upd_skel hn hl
  have hsk : s'.skel = s.skel := hmk.mk_skel.trans hsk1
  obtain ⟨kids, hk⟩ := hI.wf
  have hpar : n1.parent = n.parent := congrArg links_t.parent hl
  have hn1 : s1.node e = some n1 := hu.2.2.2.1
  have hfr := hu.2.2.2.2
  have hcl1 : Closed s1 := by
    intro c q nc mq hc' hp hq _ hwq
    by_cases hqe : q = e
    · subst hqe
      rw [hn1] at hq; cases hq
      by_cases hce : c = q
      · subst hce; rw [hn1] at hc'; cases hc'; exact hwq
      · rw [hfr c hce] at hc'
        exact hI.closed c q nc n hc' hp hn (fun h => h) (hw.mp hwq)
    · rw [hfr q hqe] at hq
      by_cases hce : c = e
      · subst hce; rw [hn1] at hc'; cases hc'
        exact hw.mpr (hI.closed c q n mq hn (hpar.symm.trans hp) hq (fun h => h) hwq)
      · rw [hfr c hce] at hc'
        exact hI.closed c q nc mq hc' hp hq (fun h => h) hwq
  refine Inv_relink L (e := e) hI (hsk ▸ hI.wf) (hsk ▸ hI.acyclic)
    ((inval_closed fuel).1 s1 s' e _ kids (hsk1 ▸ hk) h (fun _ hx => hx.elim) hcl1) ?_ ?_
  · intro n' hn'
    obtain ⟨n2, hn2, hw2⟩ := inval_world_dirty h
    rw [hn'] at hn2; cases hn2
    refine ⟨hw2, fun hld => ?_⟩
    obtain ⟨n0, hn0, hn0', hd⟩ := hmk.mk_get_inv hn'
    rw [hn1] at hn0; cases hn0
    have hloc : n'.loc = n1.loc := by rw [hn0']
    have hld' : n'.ldirty ↔ n1.ldirty := by
      rcases hd with hd | hd
      · simp only [entity_t.ldirty, hd]
      · simp only [entity_t.ldirty, hd, and_local_or_world]
    rw [hloc]
    exact hc (fun h => hld (hld'.mpr h))
  · intro j n' hj hn'
    obtain ⟨n0, hn0, hn0', hd⟩ := hmk.mk_get_inv hn'
    rw [hfr j hj] at hn0
    refine ⟨n0, hn0, by rw [hn0'], by rw [hn0'], by rw [hn0'], ?_, ?_⟩
    · rcases hd with hd | hd
      · simp only [entity_t.ldirty, hd]
      · simp only [entity_t.ldirty, hd, and_local_or_world]
    · intro hw'
      exact hmk.wdirty_mono (by rw [hfr j hj]; exact hn0) hn' hw'

theorem wdirty_or_local (n : entity_t K) :
    ({ n with dirty := n.dirty ||| TFORM_DIRTY_LOCAL } : entity_t K).wdirty ↔ n.wdirty := by
  simp only [entity_t.wdirty, and_world_or_local]

theorem ldirty_or_local (n : entity_t K) :
    ({ n with dirty := n.dirty ||| TFORM_DIRTY_LOCAL } : entity_t K).ldirty :=
  and_local_or_local _

/-- `entity_invalidate_tform` preserves the invariant, in either space. -/
theorem Inv_invalidate (L : MathLib K) {fuel : Nat} {s s' : State K} {e : Nat}
    {g : tform_space_t} (hI : Inv L s) (h : entity_invalidate_tform fuel s e g = some s') :
    Inv L s' := by
  cases g with
  | TFORM_WORLD => exact Inv_inval_world L hI h
  | TFORM_LOCAL =>
    simp only [entity_invalidate_tform, Option.bind_eq_bind, Option.bind_eq_some] at h
    obtain ⟨s1, hm, h⟩ := h
    obtain ⟨n, hn, -⟩ := modify_eq_some.mp hm
    exact Inv_dirty L hI hn (Upd.upd_of_modify hn hm) rfl (wdirty_or_local n)
      (fun hc => absurd (ldirty_or_local n) hc) h

/-- Overwriting fields of `e` other than its links and dirty word and then invalidating its local
transform preserves the invariant: the shape of every local setter. -/
theorem Inv_modify_invalidate (L : MathLib K) {fuel : Nat} {s s' : State K} {e : Nat}
    (f : entity_t K → entity_t K) (hf : ∀ n, (f n).links = n.links ∧ (f n).dirty = n.dirty)
    (hI : Inv L s)
    (h : (s.modify e f).bind (fun s1 => entity_invalidate_tform fuel s1 e .TFORM_LOCAL) =
      some s') : Inv L s' := by
  simp only [entity_invalidate_tform, Option.bind_eq_bind, Option.bind_eq_some] at h
  obtain ⟨s1, hm1, s2, hm2, h⟩ := h
  obtain ⟨n, hn, -⟩ := modify_eq_some.mp hm1
  have hu1 := Upd.upd_of_modify hn hm1
  have hu2 := Upd.upd_of_modify hu1.2.2.2.1 hm2
  have hu := hu1.upd_trans hu2
  refine Inv_dirty L hI hn hu (hf n).1 ?_ (fun hc => absurd (ldirty_or_local (f n)) hc) h
  rw [wdirty_or_local]
  simp only [entity_t.wdirty, (hf n).2]

theorem modify_modify (s : State K) (e : Nat) (f g : entity_t K → entity_t K) :
    (s.modify e f).bind (fun s1 => s1.modify e g) = s.modify e (fun n => g (f n)) := by
  rcases hn : s.node e with _ | n
  · simp [State.modify, hn]
  · have he := node_lt hn
    simp only [State.modify, hn, Option.map_some', Option.some_bind, Option.bind_some,
      node_store_if, he, and_self, if_true, Option.some.injEq]
    simp only [State.store, List.set_set]

theorem Inv_set_position_local (L : MathLib K) {fuel : Nat} {s s' : State K} {e : Nat}
    {v : Vector3 K} (hI : Inv L s) (h : entity_set_position_local fuel s e v = some s') :
    Inv L s' := by
  simp only [entity_set_position_local, Option.bind_eq_bind] at h
  refine Inv_modify_invalidate L _ ?_ hI h
  intro n; exact ⟨rfl, rfl⟩

theorem Inv_set_scale_local (L : MathLib K) {fuel : Nat} {s s' : State K} {e : Nat}
    {v : Vector3 K} (hI : Inv L s) (h : entity_set_scale_local fuel s e v = some s') :
    Inv L s' := by
  simp only [entity_set_scale_local, Option.bind_eq_bind] at h
  refine Inv_modify_invalidate L _ ?_ hI h
  intro n; exact ⟨rfl, rfl⟩

theorem Inv_set_rotation_local (L : MathLib K) {fuel : Nat} {s s' : State K} {e : Nat}
    {q : Quaternion K} (hI : Inv L s) (h : entity_set_rotation_local L fuel s e q = some s') :
    Inv L s' := by
  simp only [entity_set_rotation_local, Option.bind_eq_bind] at h
  refine Inv_modify_invalidate L _ ?_ hI h
  intro n; exact ⟨rfl, rfl⟩

theorem Inv_set_tform_local (L : MathLib K) {fuel : Nat} {s s' : State K} {e : Nat}
    {m : Matrix K} (hI : Inv L s) (h : entity_set_tform_local L fuel s e m = some s') :
    Inv L s' := by
  simp only [entity_set_tform_local, Option.bind_eq_bind] at h
  rw [← Option.bind_assoc, ← Option.bind_assoc, modify_modify, modify_modify] at h
  refine Inv_modify_invalidate L _ ?_ hI h
  intro n; exact ⟨rfl, rfl⟩

theorem Inv_get_tform (L : MathLib K) {fuel : Nat} {s s' : State K} {e : Nat} {m : Matrix K}
    {g : tform_space_t} (hI : Inv L s) (h : entity_get_tform L fuel s e g = some (s', m)) :
    Inv L s' := by
  cases g with
  | TFORM_WORLD => exact (get_world_inv L fuel s s' e m hI h).1
  | TFORM_LOCAL =>
    simp only [entity_get_tform] at h
    rcases hn : s.node e with _ | n
    · simp [entity_get_tform_local, hn] at h
    · obtain ⟨s1, n1, h1, hI1, -⟩ := get_local_inv L hI hn
      rw [h] at h1
      simp only [Option.some.injEq, Prod.mk.injEq] at h1
      rw [h1.1]; exact hI1

theorem Inv_set_position (L : MathLib K) {fuel : Nat} {s s' : State K} {e : Nat}
    {v : Vector3 K} {g : tform_space_t} (hI : Inv L s)
    (h : entity_set_position L fuel s e v g = some s') : Inv L s' := by
  cases g with
  | TFORM_LOCAL => exact Inv_set_position_local L hI h
  | TFORM_WORLD =>
    simp only [entity_set_position, Option.bind_eq_bind, Option.bind_eq_some] at h
    obtain ⟨n, -, r, hr, h⟩ := h
    rcases hp : n.parent with _ | p
    · rw [hp] at hr
      simp only [Option.some.injEq] at hr
      subst hr
      exact Inv_set_position_local L hI h
    · rw [hp] at hr
      simp only [Option.bind_eq_some, Option.some.injEq] at hr
      obtain ⟨⟨s1, M⟩, hg, rfl⟩ := hr
      exact Inv_set_position_local L (Inv_get_tform L hI hg) h

theorem Inv_set_scale (L : MathLib K) {fuel : Nat} {s s' : State K} {e : Nat}
    {v : Vector3 K} {g : tform_space_t} (hI : Inv L s)
    (h : entity_set_scale fuel s e v g = some s') : Inv L s' := by
  cases g with
  | TFORM_LOCAL => exact Inv_set_scale_local L hI h
  | TFORM_WORLD =>
    simp only [entity_set_scale, Option.bind_eq_bind, Option.bind_eq_some] at h
    obtain ⟨n, -, r, -, h⟩ := h
    exact Inv_set_scale_local L hI h

theorem Inv_set_rotation (L : MathLib K) {fuel : Nat} {s s' : State K} {e : Nat}
    {q : Quaternion K} {g : tform_space_t} (hI : Inv L s)
    (h : entity_set_rotation L fuel s e q g = some s') : Inv L s' := by
  cases g with
  | TFORM_LOCAL => exact Inv_set_rotation_local L hI h
  | TFORM_WORLD =>
    simp only [entity_set_rotation, Option.bind_eq_bind, Option.bind_eq_some] at h
    obtain ⟨n, -, r, -, h⟩ := h
    exact Inv_set_rotation_local L hI h

theorem Inv_set_tform (L : MathLib K) {fuel : Nat} {s s' : State K} {e : Nat}
    {m : Matrix K} {g : tform_space_t} (hI : Inv L s)
    (h : entity_set_tform L fuel s e m g = some s') : Inv L s' := by
  cases g with
  | TFORM_LOCAL => exact Inv_set_tform_local L hI h
  | TFORM_WORLD =>
    simp only [entity_set_tform, Option.bind_eq_bind, Option.bind_eq_some] at h
    obtain ⟨n, -, r, hr, h⟩ := h
    rcases hp : n.parent with _ | p
    · rw [hp] at hr
      simp only [Option.some.injEq] at hr
      subst hr
      exact Inv_set_tform_local L hI h
    · rw [hp] at hr
      simp only [Option.bind_eq_some, Option.some.injEq] at hr
      obtain ⟨⟨s1, M⟩, hg, rfl⟩ := hr
      exact Inv_set_tform_local L (Inv_get_tform L hI hg) h

/-- Overwriting fields of `e` that are neither links, nor the dirty word, nor part of the local
or world transform preserves the invariant (`entity_set_name`, `entity_set_visible`,
`entity_set_enabled`). -/
theorem Inv_modify_attr (L : MathLib K) {s s' : State K} {e : Nat}
    (f : entity_t K → entity_t K)
    (hf : ∀ n, (f n).links = n.links ∧ (f n).dirty = n.dirty ∧ (f n).loc = n.loc ∧
      (f n).world = n.world)
    (hI : Inv L s) (h : s.modify e f = some s') : Inv L s' := by
  obtain ⟨n, hn, -⟩ := modify_eq_some.mp h
  obtain ⟨h1, h2, h3, h4⟩ := hf n
  have hw : (f n).wdirty ↔ n.wdirty := by simp only [entity_t.wdirty, h2]
  have hl : (f n).ldirty ↔ n.ldirty := by simp only [entity_t.ldirty, h2]
  refine Inv_upd L hI hn (Upd.upd_of_modify hn h) h1 (by rw [h3]) hw.mp
    (fun h => hw.mpr (hI.local_world e n hn (hl.mp h)))
    (fun h => by rw [h3]; exact hI.cache_local e n hn (fun h' => h (hl.mpr h')))
    (fun h => ?_)
  have hc : ¬ n.wdirty := fun h' => h (hw.mpr h')
  rw [h4]
  exact ⟨hI.cache_world e n hn hc, fun p m hp hm hmw =>
    hc (hI.closed e p n m hn hp hm (fun h => h) hmw)⟩

end inv

end EntitySystem

set_option linter.unusedSectionVars false

namespace EntitySystem

section create

variable {K : Type} [LinearOrderedField K]

theorem node_ge (s : State K) {j : Nat} (h : s.heap.length ≤ j) : s.node j = none := by
  unfold State.node
  rw [List.get?_eq_none.mpr h]; rfl

theorem links_payload_ext {a b : entity_t K} (h1 : a.links = b.links)
    (h2 : a.payload = b.payload) : a = b := by
  cases a; cases b
  simp only [entity_t.links, links_t.mk.injEq] at h1
  simp only [entity_t.payload, entity_t.mk.injEq] at h2
  obtain ⟨a1, a2, a3, a4, a5⟩ := h1
  obtain ⟨-, -, -, -, -, b1, b2, b3, b4, b5, b6⟩ := h2
  subst a1 a2 a3 a4 a5 b1 b2 b3 b4 b5 b6
  rfl

/-- The entity that `create_entity` writes before linking it. -/
theorem create_alloc (s : State K) :
    ∃ s1, (MemAlloc s).1.modify (MemAlloc s).2 (fun n =>
      { n with
        parent := none, children := none, succ := none, pred := none, last_child := none,
        visible := true, enabled := true,
        loc := { n.loc with pos := Vector3Zero, scale := Vector3One, rot := QuaternionIdentity },
        dirty := TFORM_DIRTY_LOCAL ||| TFORM_DIRTY_WORLD }) = some s1 ∧
      (MemAlloc s).2 = s.heap.length ∧
      s1.heap.length = s.heap.length + 1 ∧
      s1.entity_orphans = s.entity_orphans ∧ s1.entity_last_orphan = s.entity_last_orphan ∧
      (∀ j, j ≠ s.heap.length → s1.node j = s.node j) ∧
      s1.node s.heap.length = some
        { parent := none, children := none, succ := none, pred := none, last_child := none,
          visible := true, enabled := true, name := none,
          dirty := TFORM_DIRTY_LOCAL ||| TFORM_DIRTY_WORLD,
          loc := { rot := QuaternionIdentity, pos := Vector3Zero, scale := Vector3One,
                   mat := tform_zero.mat },
          world := tform_zero } := by
  have h0 : ∀ j, (MemAlloc s).1.node j =
      if j = s.heap.length then some ⟨none, none, none, none, none, false, false, none, 0,
        tform_zero, tform_zero⟩ else s.node j := by
    intro j
    simp only [MemAlloc, State.node]
    by_cases hj : j = s.heap.length
    · subst hj; simp
    · rw [if_neg hj]
      by_cases hlt : j < s.heap.length
      · simp [List.getElem?_append_left hlt]
      · have h1 : (s.heap ++ [some (⟨none, none, none, none, none, false, false, none, 0,
            tform_zero, tform_zero⟩ : entity_t K)])[j]? = none :=
          List.getElem?_eq_none (by simp; omega)
        have h2 : s.heap[j]? = none := List.getElem?_eq_none (by omega)
        simp [h1, h2]
  have hlen : (MemAlloc s).1.heap.length = s.heap.length + 1 := by simp [MemAlloc]
  have he : (MemAlloc s).1.node s.heap.length = some ⟨none, none, none, none, none, false,
      false, none, 0, tform_zero, tform_zero⟩ := by rw [h0]; simp
  have h2 : (MemAlloc s).2 = s.heap.length := rfl
  rw [h2, modify_of_node he]
  refine ⟨_, rfl, rfl, by rw [store_length, hlen], rfl, rfl, ?_, ?_⟩
  · intro j hj
    rw [node_store_if, h0]
    simp [hj]
  · rw [node_store_if, hlen]
    simp [tform_zero]

theorem WFk_tail_mem {k : Skel} {x : Option Nat} {kids : Option Nat → List Nat}
    (hw : WFk k x kids) (p : Option Nat) (hv : k.valid p) {q : Nat} (hq : k.tail p = some q) :
    q ∈ kids p ∧ some q ≠ x ∧ ∃ m, k.lk q = some m ∧ m.parent = p := by
  obtain ⟨hseg, htl⟩ := hw.1 p hv
  rw [htl] at hq
  rcases lastOr_mem hq with h | ⟨-, h⟩
  · exact ⟨h, (hw.2.2.2 p q h).1, DSeg_mem hseg h⟩
  · cases h

/-- The entity record that `create_entity` initialises. -/
theorem create_spec {s : State K} {kids : Option Nat → List Nat} (hwf : WFk s.skel none kids) :
    ∃ s', create_entity s = some (s', s.heap.length) ∧
      s'.skel = (s.skel.alloc s.heap.length).insert s.heap.length ∧
      WFk s'.skel none (Function.update kids none (kids none ++ [s.heap.length])) ∧
      (∀ j, j ≠ s.heap.length → (s'.node j).map entity_t.payload =
        (s.node j).map entity_t.payload) ∧
      (s'.node s.heap.length).map entity_t.payload = some
        { parent := none, children := none, succ := none, pred := none, last_child := none,
          visible := true, enabled := true, name := none,
          dirty := TFORM_DIRTY_LOCAL ||| TFORM_DIRTY_WORLD,
          loc := { rot := QuaternionIdentity, pos := Vector3Zero, scale := Vector3One,
                   mat := tform_zero.mat },
          world := tform_zero } ∧
      s'.heap.length = s.heap.length + 1 := by
  obtain ⟨s1, hm, he, hlen, ho, hlo, hfr, hn1⟩ := create_alloc s
  have hnone : s.node s.heap.length = none := node_ge s (le_refl _)
  have hsk1 : s1.skel = s.skel.alloc s.heap.length := by
    simp only [State.skel, Skel.alloc, ho, hlo, Skel.mk.injEq, and_true]
    funext j
    by_cases hj : j = s.heap.length
    · subst hj; rw [hn1]; simp [entity_t.links]
    · rw [hfr j hj]; simp [hj]
  have hw1 : WFk s1.skel (some s.heap.length) kids := by
    rw [hsk1]
    exact WFk_alloc hwf (by rw [skel_lk, hnone]; rfl)
  obtain ⟨s2, hins, hsk2, hpay, hlen2⟩ := insert_sim hn1 trivial (by simp)
    (fun q hq => by
      obtain ⟨-, h2, m, hm', -⟩ := WFk_tail_mem hw1 none trivial hq
      refine ⟨fun h => h2 (by rw [h]), by simp, ?_⟩
      obtain ⟨n', hn', -⟩ := skel_node rfl hm'
      exact ⟨n', hn'⟩)
  refine ⟨s2, ?_, by rw [hsk2, hsk1], ?_, ?_, ?_, by rw [hlen2, hlen]⟩
  · have hm' := hm
    simp only [he] at hm'
    simp only [create_entity, Option.bind_eq_bind, he, hm', Option.some_bind, hins]
  · have := WFk_insert hw1 (n := ⟨none, none, none, none, none⟩)
      (by rw [skel_lk, hn1]; rfl) trivial
    rw [hsk2]
    exact this
  · intro j hj
    rw [hpay j, hfr j hj]
  · rw [hpay, hn1]; rfl

theorem payload_fields {a b : entity_t K} (h : a.payload = b.payload) :
    a.dirty = b.dirty ∧ a.loc = b.loc ∧ a.world = b.world ∧ a.visible = b.visible ∧
      a.enabled = b.enabled ∧ a.name = b.name := by
  cases a; cases b
  simp only [entity_t.payload, entity_t.mk.injEq] at h
  obtain ⟨-, -, -, -, -, b1, b2, b3, b4, b5, b6⟩ := h
  exact ⟨b4, b5, b6, b1, b2, b3⟩

theorem payload_node {s s' : State K} {j : Nat}
    (hpay : (s'.node j).map entity_t.payload = (s.node j).map entity_t.payload)
    {n' : entity_t K} (hn' : s'.node j = some n') :
    ∃ n, s.node j = some n ∧ n'.payload = n.payload := by
  rw [hn'] at hpay
  rcases hn : s.node j with _ | n
  · rw [hn] at hpay; cases hpay
  · rw [hn] at hpay
    simp only [Option.map_some', Option.some.injEq] at hpay
    exact ⟨n, rfl, hpay⟩

theorem insert_lk_parent (k : Skel) (e j : Nat) :
    ((k.insert e).lk j).map (fun m => m.parent) = (k.lk j).map (fun m => m.parent) := by
  simp only [Skel.insert]
  cases k.lk j <;> rfl

theorem remove_lk_parent (k : Skel) (e : Nat) (n : links_t) (j : Nat) :
    ((k.remove e n).lk j).map (fun m => m.parent) = (k.lk j).map (fun m => m.parent) := by
  simp only [Skel.remove]
  cases k.lk j <;> rfl

theorem node_parent_of_lk {s : State K} {j : Nat} {n : entity_t K} (hn : s.node j = some n) :
    (s.skel.lk j).map (fun m => m.parent) = some n.parent := by
  rw [skel_lk, hn]; rfl

/-- `create_entity` preserves the invariant. -/
theorem Inv_create (L : MathLib K) {s s' : State K} {e : Nat} (hI : Inv L s)
    (h : create_entity s = some (s', e)) : Inv L s' := by
  obtain ⟨kids, hk⟩ := hI.wf
  obtain ⟨s2, hc, hsk, hwf, hpay, hpe, -⟩ := create_spec hk
  rw [hc] at h
  simp only [Option.some.injEq, Prod.mk.injEq] at h
  obtain ⟨rfl, rfl⟩ := h
  have hnone : s.node s.heap.length = none := node_ge s (le_refl _)
  have hpar : ∀ j n', j ≠ s.heap.length → s2.node j = some n' →
      ∃ n, s.node j = some n ∧ n'.parent = n.parent ∧ n'.payload = n.payload := by
    intro j n' hj hn'
    obtain ⟨n, hn, hp⟩ := payload_node (hpay j hj) hn'
    refine ⟨n, hn, ?_, hp⟩
    have h1 := node_parent_of_lk hn'
    rw [hsk, insert_lk_parent] at h1
    simp only [Skel.alloc, if_neg hj] at h1
    rw [node_parent_of_lk hn] at h1
    exact (Option.some.inj h1).symm
  have hnew : ∀ n', s2.node s.heap.length = some n' →
      n'.parent = none ∧ n'.dirty = TFORM_DIRTY_LOCAL ||| TFORM_DIRTY_WORLD := by
    intro n' hn'
    constructor
    · have h1 := node_parent_of_lk hn'
      rw [hsk, insert_lk_parent] at h1
      simp only [Skel.alloc, if_true, Option.map_some'] at h1
      exact (Option.some.inj h1).symm
    · rw [hn'] at hpe
      simp only [Option.map_some', Option.some.injEq] at hpe
      exact congrArg entity_t.dirty hpe
  have hdead : ∀ j n, s.node j = some n → n.parent ≠ some s.heap.length := by
    intro j n hn hp
    have hlk : s.skel.lk j = some n.links := by rw [skel_lk, hn]; rfl
    obtain ⟨-, hv⟩ := hk.2.1 j _ hlk (by simp)
    have hp' : n.links.parent = some s.heap.length := hp
    rw [hp'] at hv
    obtain ⟨m, hm⟩ := hv
    rw [skel_lk, hnone] at hm; cases hm
  refine Inv_relink L (e := s.heap.length) hI ⟨_, hwf⟩ ?_ ?_ ?_ ?_
  · obtain ⟨rank, hrank⟩ := hI.acyclic
    refine ⟨rank, fun i ni q hi hq => ?_⟩
    obtain ⟨n', hn', hl⟩ := skel_node rfl hi
    have hq' : n'.parent = some q := by rw [← hl] at hq; exact hq
    by_cases hie : i = s.heap.length
    · subst hie
      rw [(hnew n' hn').1] at hq'; cases hq'
    · obtain ⟨n, hn, hp, -⟩ := hpar i n' hie hn'
      exact hrank i n.links q (by rw [skel_lk, hn]; rfl) (hp.symm.trans hq')
  · intro c q nc mq hc' hp hq _ hw
    by_cases hce : c = s.heap.length
    · subst hce
      rw [(hnew nc hc').1] at hp; cases hp
    · obtain ⟨n, hn, hp', hpl⟩ := hpar c nc hce hc'
      have hqe : q ≠ s.heap.length := fun hqe => hdead c n hn (by rw [← hp', hp, hqe])
      obtain ⟨m, hm, -, hpl'⟩ := hpar q mq hqe hq
      have hwn : n.wdirty := hI.closed c q n m hn (hp'.symm.trans hp) hm (fun h => h)
        (by simp only [entity_t.wdirty, ← (payload_fields hpl').1]; exact hw)
      simp only [entity_t.wdirty, (payload_fields hpl).1]; exact hwn
  · intro n' hn'
    obtain ⟨-, hd⟩ := hnew n' hn'
    refine ⟨by simp only [entity_t.wdirty, hd]; exact both_dirty_world, fun hl => ?_⟩
    exact absurd (by simp only [entity_t.ldirty, hd]; exact both_dirty_local) hl
  · intro j n' hj hn'
    obtain ⟨n, hn, hp, hpl⟩ := hpar j n' hj hn'
    obtain ⟨h1, h2, h3, -⟩ := payload_fields hpl
    exact ⟨n, hn, hp, h2, h3, by simp only [entity_t.ldirty, h1],
      by simp only [entity_t.wdirty, h1]; exact id⟩

end create

end EntitySystem

set_option linter.unusedSectionVars false

namespace EntitySystem

section setparent

variable {K : Type} [LinearOrderedField K]

/-- Overwriting a world-dirty entity by one with the same links and both dirty bits set keeps the
invariant. -/
theorem Inv_modify_dirty (L : MathLib K) {s s' : State K} {e : Nat} {n : entity_t K}
    (f : entity_t K → entity_t K) (hI : Inv L s) (hn : s.node e = some n) (hw : n.wdirty)
    (hl : (f n).links = n.links) (hfw : (f n).wdirty) (hfl : (f n).ldirty)
    (h : s.modify e f = some s') : Inv L s' := by
  have hu : Upd s e (f n) s' := Upd.upd_of_modify hn h
  have hsk : s'.skel = s.skel := hu.upd_skel hn hl
  obtain ⟨-, -, -, hne, hrest⟩ := hu
  refine Inv_relink L (e := e) hI (by rw [hsk]; exact hI.wf) (by rw [hsk]; exact hI.acyclic)
    ?_ ?_ ?_
  · intro c q nc mq hc hp hq _ hwq
    by_cases hce : c = e
    · rw [hce, hne] at hc; cases hc; exact hfw
    · rw [hrest c hce] at hc
      by_cases hqe : q = e
      · rw [hqe] at hp
        exact hI.closed c e nc n hc hp hn (fun h => h) hw
      · rw [hrest q hqe] at hq
        exact hI.closed c q nc mq hc hp hq (fun h => h) hwq
  · intro n' hn'
    rw [hne] at hn'; cases hn'
    exact ⟨hfw, fun h => absurd hfl h⟩
  · intro j n' hj hn'
    rw [hrest j hj] at hn'
    exact ⟨n', hn', rfl, rfl, rfl, Iff.rfl, id⟩

/-- `copy_entity` preserves the invariant. -/
theorem Inv_copy (L : MathLib K) {s s' : State K} {e c : Nat} (hI : Inv L s)
    (h : copy_entity s e = some (s', c)) : Inv L s' := by
  obtain ⟨kids, hk⟩ := hI.wf
  obtain ⟨s1, hc, -, -, -, hpe, -⟩ := create_spec hk
  have hI1 : Inv L s1 := Inv_create L hI hc
  simp only [copy_entity, Option.bind_eq_bind, hc, Option.some_bind] at h
  rcases hn : s1.node e with _ | n
  · rw [hn] at h; simp at h
  rw [hn] at h
  simp only [Option.some_bind, Option.bind_eq_some, Option.some.injEq, Prod.mk.injEq] at h
  obtain ⟨s2, hm, rfl, -⟩ := h
  rcases hm1 : s1.node s.heap.length with _ | m
  · simp [State.modify, hm1] at hm
  rw [hm1] at hpe
  simp only [Option.map_some', Option.some.injEq] at hpe
  have hd : m.dirty = TFORM_DIRTY_LOCAL ||| TFORM_DIRTY_WORLD := congrArg entity_t.dirty hpe
  refine Inv_modify_dirty L _ hI1 hm1 ?_ rfl ?_ ?_ hm
  · simp only [entity_t.wdirty, hd]; exact both_dirty_world
  · exact both_dirty_world
  · exact both_dirty_local

/-- The assignment `e->parent = p` on the link structure. -/
theorem set_parent_node_sim {s : State K} {e : Nat} {n : entity_t K} (hn : s.node e = some n)
    (p : Option Nat) :
    ∃ s', s.modify e (fun n => { n with parent := p }) = some s' ∧
      s'.skel = s.skel.set_parent e p ∧
      (∀ j, (s'.node j).map entity_t.payload = (s.node j).map entity_t.payload) ∧
      s'.heap.length = s.heap.length ∧ s'.node e = some { n with parent := p } := by
  refine ⟨_, modify_of_node hn _, ?_, ?_, store_length _ _ _, ?_⟩
  · simp only [State.skel, Skel.set_parent, Skel.mk.injEq, store_orphans, store_last_orphan,
      and_true]
    funext j
    by_cases hj : j = e
    · subst hj; simp [node_store hn, hn, entity_t.links]
    · simp [node_store hn, hj]
  · intro j
    by_cases hj : j = e
    · subst hj; simp [node_store hn, hn, entity_t.payload]
    · simp [node_store hn, hj]
  · simp [node_store hn]

/-- The first two list steps of `entity_set_parent`: unlink `e` and assign its parent. -/
theorem set_parent_steps12 {s : State K} {kids : Option Nat → List Nat} {e : Nat}
    {n : entity_t K} (p : Option Nat) (hwf : WFk s.skel none kids) (hac : Acyclic s.skel)
    (hn : s.node e = some n) :
    ∃ (s1 s2 : State K) (n1 : entity_t K), entity_remove s (some e) = some s1 ∧
      s1.modify e (fun n => { n with parent := p }) = some s2 ∧
      s2.skel = (s.skel.remove e n.links).set_parent e p ∧
      WFk s2.skel (some e) (Function.update kids n.parent ((kids n.parent).erase e)) ∧
      (∀ j, (s2.node j).map entity_t.payload = (s.node j).map entity_t.payload) ∧
      s2.heap.length = s.heap.length ∧ s2.node e = some { n1 with parent := p } := by
  have hlk : s.skel.lk e = some n.links := by rw [skel_lk, hn]; rfl
  obtain ⟨h1, h2, h3, h4, h5, h6⟩ := WFk_remove_pre hwf hac hlk
  obtain ⟨s1, hr, hsk1, hpay1, hlen1⟩ := remove_sim hn h1 h2
    (fun a ha => by
      obtain ⟨x1, x2, m, hm⟩ := h3 a ha
      obtain ⟨m', hm', -⟩ := skel_node rfl hm
      exact ⟨x1, x2, m', hm'⟩) h4 h5 h6
  have hw1 := WFk_remove hwf hlk
  rw [← hsk1] at hw1
  obtain ⟨n1, hn1⟩ : ∃ n1, s1.node e = some n1 := by
    have h := hpay1 e
    rw [hn] at h
    rcases h' : s1.node e with _ | n1
    · rw [h'] at h; cases h
    · exact ⟨n1, rfl⟩
  obtain ⟨s2, hm, hsk2, hpay2, hlen2, hn2⟩ := set_parent_node_sim hn1 p
  have hw2 := WFk_set_parent hw1 p
  rw [← hsk2] at hw2
  refine ⟨s1, s2, n1, hr, hm, ?_, hw2, ?_, ?_, hn2⟩
  · rw [hsk2, hsk1]
  · intro j; rw [hpay2, hpay1]
  · rw [hlen2, hlen1]

/-- The three list steps of `entity_set_parent`: unlink, assign the parent, append. -/
theorem set_parent_steps {s : State K} {kids : Option Nat → List Nat} {e : Nat} {n : entity_t K}
    {p : Option Nat} (hwf : WFk s.skel none kids) (hac : Acyclic s.skel)
    (hn : s.node e = some n) (hv : s.skel.valid p) (hpe : p ≠ some e) :
    ∃ s1 s2 s3, entity_remove s (some e) = some s1 ∧
      s1.modify e (fun n => { n with parent := p }) = some s2 ∧
      entity_insert s2 (some e) = some s3 ∧
      s3.skel = ((s.skel.remove e n.links).set_parent e p).insert e ∧
      WFk s3.skel none
        (Function.update (Function.update kids n.parent ((kids n.parent).erase e)) p
          (Function.update kids n.parent ((kids n.parent).erase e) p ++ [e])) ∧
      (∀ j, (s3.node j).map entity_t.payload = (s.node j).map entity_t.payload) ∧
      s3.heap.length = s.heap.length := by
  obtain ⟨s1, s2, n1, hr, hm, hsk2, hw2, hpay2, hlen2, hn2⟩ := set_parent_steps12 p hwf hac hn
  have hv2 : s2.skel.valid p := by rw [hsk2, valid_set_parent, valid_remove]; exact hv
  obtain ⟨s3, hi, hsk3, hpay3, hlen3⟩ := insert_sim hn2 hv2 hpe (fun q hq => by
    obtain ⟨-, hq2, m, hm, hmp⟩ := WFk_tail_mem hw2 p hv2 hq
    have hqe : q ≠ e := fun h => hq2 (by rw [h])
    refine ⟨hqe, fun hqp => ?_, ?_⟩
    · have hpar : (s2.skel.lk q).map (fun m => m.parent) =
          (s.skel.lk q).map (fun m => m.parent) := by
        rw [hsk2]
        simp only [Skel.set_parent, if_neg hqe]
        rw [remove_lk_parent]
      rw [hm] at hpar
      rcases h0 : s.skel.lk q with _ | m0
      · rw [h0] at hpar; cases hpar
      · rw [h0] at hpar
        simp only [Option.map_some', Option.some.injEq] at hpar
        exact acyclic_parent_ne hac h0 (by rw [← hpar, hmp]; exact hqp.symm)
    · obtain ⟨m', hm', -⟩ := skel_node rfl hm
      exact ⟨m', hm'⟩)
  have hw3 := WFk_insert hw2 (n := ({ n1 with parent := p } : entity_t K).links)
    (by rw [skel_lk, hn2]; rfl) hv2
  rw [← hsk3] at hw3
  refine ⟨s1, s2, s3, hr, hm, hi, ?_, hw3, ?_, ?_⟩
  · rw [hsk3, hsk2]
  · intro j; rw [hpay3, hpay2]
  · rw [hlen3, hlen2]

theorem insert_parent_live {s s' : State K} {e q : Nat} {n : entity_t K}
    (hn : s.node e = some n) (hp : n.parent = some q)
    (h : entity_insert s (some e) = some s') : ∃ m, s.node q = some m := by
  rcases hq : s.node q with _ | m
  · exfalso
    have hqe : q ≠ e := by
      rintro rfl
      rw [hn] at hq; cases hq
    simp [entity_insert, State.modify, hn, node_store hn, hp, hq, hqe] at h
  · exact ⟨m, rfl⟩

/-- When `entity_set_parent` returns, the new parent was `NULL` or an allocated entity. -/
theorem set_parent_valid {s s' : State K} {kids : Option Nat → List Nat} {fuel e : Nat}
    {n : entity_t K} {p : Option Nat} (hwf : WFk s.skel none kids) (hac : Acyclic s.skel)
    (hn : s.node e = some n) (hne : n.parent ≠ p)
    (h : entity_set_parent fuel s e p = some s') : s.skel.valid p := by
  cases p with
  | none => trivial
  | some q =>
    obtain ⟨s1, s2, n1, hr, hm, -, -, hpay2, -, hn2⟩ := set_parent_steps12 (some q) hwf hac hn
    simp only [entity_set_parent, Option.bind_eq_bind, hn, Option.some_bind, if_neg hne, hr,
      hm] at h
    rcases hi : entity_insert s2 (some e) with _ | s3
    · rw [hi] at h; cases h
    · obtain ⟨m, hm⟩ := insert_parent_live hn2 rfl hi
      obtain ⟨m0, hm0, -⟩ := payload_node (hpay2 q) hm
      exact ⟨m0.links, by rw [skel_lk, hm0]; rfl⟩

/-- Outside the no-op case `entity_set_parent` is the three list steps, leading to a state `s3`,
followed by the invalidation of the world transform of `e`. -/
theorem set_parent_unfold {s : State K} {kids : Option Nat → List Nat} {e : Nat}
    {n : entity_t K} {p : Option Nat} (hwf : WFk s.skel none kids) (hac : Acyclic s.skel)
    (hn : s.node e = some n) (hne : n.parent ≠ p) (hv : s.skel.valid p) (hpe : p ≠ some e) :
    ∃ s3, s3.skel = ((s.skel.remove e n.links).set_parent e p).insert e ∧
      WFk s3.skel none
        (Function.update (Function.update kids n.parent ((kids n.parent).erase e)) p
          (Function.update kids n.parent ((kids n.parent).erase e) p ++ [e])) ∧
      (∀ j, (s3.node j).map entity_t.payload = (s.node j).map entity_t.payload) ∧
      s3.heap.length = s.heap.length ∧
      ∀ f, entity_set_parent f s e p = entity_invalidate_tform_world f s3 e := by
  obtain ⟨s1, s2, s3, hr, hm, hi, hsk, hw, hpay, hlen⟩ := set_parent_steps hwf hac hn hv hpe
  refine ⟨s3, hsk, hw, hpay, hlen, fun f => ?_⟩
  simp only [entity_set_parent, Option.bind_eq_bind, hn, Option.some_bind, if_neg hne, hr, hm,
    hi, entity_invalidate_tform]

end setparent

end EntitySystem

set_option linter.unusedSectionVars false

namespace EntitySystem

section reparent

variable {K : Type} [LinearOrderedField K]

theorem Descendant_live {s : State K} {a d : Nat} (h : Descendant s a d) :
    ∃ n, s.node d = some n := by
  cases h with
  | child h1 _ => exact ⟨_, h1⟩
  | step h1 _ _ => exact ⟨_, h1⟩

theorem Descendant_parent {s : State K} {a d m : Nat} {n : entity_t K}
    (hd : Descendant s a d) (hn : s.node d = some n) (hp : n.parent = some m) :
    m = a ∨ Descendant s a m := by
  cases hd with
  | child h1 h2 =>
    obtain rfl := Option.some.inj (hn.symm.trans h1)
    exact Or.inl (Option.some.inj (hp.symm.trans h2))
  | step h1 h2 h3 =>
    obtain rfl := Option.some.inj (hn.symm.trans h1)
    obtain rfl := Option.some.inj (hp.symm.trans h2)
    exact Or.inr h3

/-- World-dirtiness closed under children reaches every descendant. -/
theorem closed_descendant {s : State K} (hc : Closed s) {a : Nat} {m : entity_t K}
    (hm : s.node a = some m) (hw : m.wdirty) {d : Nat} (hd : Descendant s a d) :
    ∀ n, s.node d = some n → n.wdirty := by
  induction hd with
  | child h1 h2 =>
    intro n hn
    obtain rfl := Option.some.inj (hn.symm.trans h1)
    exact hc _ _ _ _ hn h2 hm (fun h => h) hw
  | step h1 h2 h3 ih =>
    intro n hn
    obtain rfl := Option.some.inj (hn.symm.trans h1)
    obtain ⟨mm, hmm⟩ := Descendant_live h3
    exact hc _ _ _ _ hn h2 hmm (fun h => h) (ih mm hmm)

theorem steps_parent (k : Skel) (e : Nat) (nl : links_t) (p : Option Nat) (j : Nat) :
    ((((k.remove e nl).set_parent e p).insert e).lk j).map (fun m => m.parent) =
      if j = e then (k.lk j).map (fun _ => p) else (k.lk j).map (fun m => m.parent) := by
  rw [insert_lk_parent]
  simp only [Skel.set_parent, Skel.remove]
  by_cases hj : j = e
  · simp only [hj, if_true]; cases k.lk e <;> rfl
  · simp only [hj, if_false]; cases k.lk j <;> rfl

theorem relinked_of_steps {s s3 : State K} {e : Nat} {nl : links_t} {p : Option Nat}
    (hsk : s3.skel = ((s.skel.remove e nl).set_parent e p).insert e)
    (hpay : ∀ j, (s3.node j).map entity_t.payload = (s.node j).map entity_t.payload) :
    Relinked s s3 e p := by
  intro j
  constructor
  · intro h
    have h1 := hpay j
    rw [h] at h1
    rcases h' : s3.node j with _ | n'
    · rfl
    · rw [h'] at h1; cases h1
  · intro n hn
    have h1 := hpay j
    rw [hn] at h1
    rcases h' : s3.node j with _ | n'
    · rw [h'] at h1; cases h1
    · rw [h'] at h1
      simp only [Option.map_some', Option.some.injEq] at h1
      refine ⟨n', rfl, h1, ?_⟩
      have h2 := node_parent_of_lk h'
      rw [hsk, steps_parent, skel_lk, hn] at h2
      by_cases hj : j = e
      · simp only [hj, if_true, Option.map_some', Option.some.injEq] at h2 ⊢
        exact h2.symm
      · simp only [hj, if_false, Option.map_some', Option.some.injEq] at h2 ⊢
        exact h2.symm

theorem Relinked.rl_get_inv {s s' : State K} {e : Nat} {p : Option Nat} (h : Relinked s s' e p)
    {j : Nat} {n' : entity_t K} (hn' : s'.node j = some n') :
    ∃ n, s.node j = some n ∧ n'.payload = n.payload ∧
      n'.parent = if j = e then p else n.parent := by
  rcases hj : s.node j with _ | n
  · rw [(h j).1 hj] at hn'; cases hn'
  · obtain ⟨n2, h2, h3, h4⟩ := (h j).2 n hj
    obtain rfl := Option.some.inj (hn'.symm.trans h2)
    exact ⟨n, rfl, h3, h4⟩

/-- Hanging `e` under `p` keeps the parent links acyclic when `p` is neither `e` nor one of its
descendants. -/
theorem acyclic_relinked {s s' : State K} {e : Nat} {p : Option Nat} (hac : Acyclic s.skel)
    (hr : Relinked s s' e p) (hp : ∀ q, p = some q → q ≠ e ∧ ¬ Descendant s e q) :
    Acyclic s'.skel := by
  classical
  obtain ⟨rank, hrank⟩ := hac
  have hrank' : ∀ i n q, s.node i = some n → n.parent = some q → rank q < rank i :=
    fun i n q hi hq => hrank i n.links q (by rw [skel_lk, hi]; rfl) hq
  obtain ⟨R, hR'⟩ : ∃ R : Nat, ∀ q, p = some q → R = rank q := by
    cases p with
    | none => exact ⟨0, fun q h => by cases h⟩
    | some q0 => exact ⟨rank q0, fun q h => by cases h; rfl⟩
  refine ⟨fun j => if j = e ∨ Descendant s e j then rank j + R + 1 else rank j, ?_⟩
  intro i ni q hi hq
  obtain ⟨n', hn', hl⟩ := skel_node rfl hi
  have hq' : n'.parent = some q := by rw [← hl] at hq; exact hq
  obtain ⟨n, hn, -, hpar⟩ := hr.rl_get_inv hn'
  by_cases hie : i = e
  · subst hie
    simp only [if_true] at hpar
    have hpq : p = some q := hpar.symm.trans hq'
    obtain ⟨hq1, hq2⟩ := hp q hpq
    have hR : R = rank q := hR' q hpq
    simp only [true_or, if_true, hq1, hq2, or_self, if_false, hR]
    omega
  · simp only [hie, if_false] at hpar
    have hnq : n.parent = some q := hpar.symm.trans hq'
    have hlt := hrank' i n q hn hnq
    by_cases hd : Descendant s e i
    · have hqd : q = e ∨ Descendant s e q := Descendant_parent hd hn hnq
      simp only [hie, false_or, hd, if_true, hqd]
      omega
    · have hqd : ¬ (q = e ∨ Descendant s e q) := by
        rintro (h | h)
        · exact hd (Descendant.child hn (h ▸ hnq))
        · exact hd (Descendant.step hn hnq h)
      simp only [hie, false_or, hd, if_false, hqd]
      exact hlt

theorem marked_relinked_node {s s3 s' : State K} {e : Nat} {p : Option Nat}
    (hr : Relinked s s3 e p) (hmk : Marked s3 s') {j : Nat} {n' : entity_t K}
    (hn' : s'.node j = some n') :
    ∃ n0, s.node j = some n0 ∧ n'.loc = n0.loc ∧ n'.world = n0.world ∧
      (n'.ldirty ↔ n0.ldirty) ∧ (n0.wdirty → n'.wdirty) ∧
      n'.parent = (if j = e then p else n0.parent) ∧
      (n'.dirty = n0.dirty ∨ n'.dirty = n0.dirty ||| TFORM_DIRTY_WORLD) := by
  obtain ⟨n3, hn3, hn1, hd⟩ := hmk.mk_get_inv hn'
  obtain ⟨n0, hn0, hpl, hpar⟩ := hr.rl_get_inv hn3
  obtain ⟨h1, h2, h3, -⟩ := payload_fields hpl
  refine ⟨n0, hn0, by rw [hn1]; exact h2, by rw [hn1]; exact h3, ?_, ?_, by rw [hn1]; exact hpar,
    by rw [← h1]; exact hd⟩
  · rcases hd with hd | hd
    · simp only [entity_t.ldirty, hd, h1]
    · simp only [entity_t.ldirty, hd, and_local_or_world, h1]
  · intro hw
    have hw3 : n3.wdirty := by simp only [entity_t.wdirty, h1]; exact hw
    exact hmk.wdirty_mono hn3 hn' hw3

/-- The invariant after the list steps of `entity_set_parent` followed by the invalidation of
the world transform of `e`. -/
theorem Inv_relinked_inval (L : MathLib K) {fuel : Nat} {s s3 s' : State K} {e : Nat}
    {p : Option Nat} (hI : Inv L s) (hr : Relinked s s3 e p) (hwf : WFx s3.skel none)
    (hac : Acyclic s3.skel) (h : entity_invalidate_tform_world fuel s3 e = some s') :
    Inv L s' := by
  classical
  have hmk := (inval_marked fuel).1 _ _ _ h
  have hsk := hmk.mk_skel
  obtain ⟨kids, hk⟩ := hwf
  have hc3 : ClosedOutside (fun q => p = some q ∧ ∀ m, s3.node q = some m → m.wdirty) s3 := by
    intro c q nc mq hc hp hq hXq hw
    obtain ⟨n0, hn0, hpl, hpar⟩ := hr.rl_get_inv hc
    obtain ⟨m0, hm0, hplm, -⟩ := hr.rl_get_inv hq
    by_cases hce : c = e
    · simp only [hce, if_true] at hpar
      exfalso
      refine hXq ⟨hpar.symm.trans hp, fun m hm => ?_⟩
      obtain rfl := Option.some.inj (hq.symm.trans hm)
      exact hw
    · simp only [hce, if_false] at hpar
      have hw0 : n0.wdirty := hI.closed c q n0 m0 hn0 (hpar.symm.trans hp) hm0 (fun h => h)
        (by simp only [entity_t.wdirty, ← (payload_fields hplm).1]; exact hw)
      simp only [entity_t.wdirty, (payload_fields hpl).1]; exact hw0
  have hc' := (inval_closed fuel).1 s3 s' e _ kids hk h (fun x hx n hn => hx.2 n hn) hc3
  obtain ⟨ne', hne', hwe'⟩ := inval_world_dirty h
  have hcl : Closed s' := by
    intro c q nc mq hc hp hq _ hw
    by_cases hXq : p = some q ∧ ∀ m, s3.node q = some m → m.wdirty
    · by_cases hce : c = e
      · rw [hce] at hc
        obtain rfl := Option.some.inj (hc.symm.trans hne')
        exact hwe'
      · obtain ⟨nc3, hnc3, hnc, -⟩ := hmk.mk_get_inv hc
        obtain ⟨mq3, hmq3, -, -⟩ := hmk.mk_get_inv hq
        obtain ⟨n0, hn0, hpl, hpar⟩ := hr.rl_get_inv hnc3
        obtain ⟨m0, hm0, hplm, -⟩ := hr.rl_get_inv hmq3
        simp only [hce, if_false] at hpar
        have hp3 : nc3.parent = some q := by rw [hnc] at hp; exact hp
        have hw0 : m0.wdirty := by
          have h3 := hXq.2 mq3 hmq3
          simp only [entity_t.wdirty, ← (payload_fields hplm).1]; exact h3
        have hwc0 : n0.wdirty :=
          hI.closed c q n0 m0 hn0 (hpar.symm.trans hp3) hm0 (fun h => h) hw0
        have hwc3 : nc3.wdirty := by
          simp only [entity_t.wdirty, (payload_fields hpl).1]; exact hwc0
        exact hmk.wdirty_mono hnc3 hc hwc3
    · exact hc' c q nc mq hc hp hq hXq hw
  refine Inv_relink L (e := e) hI ⟨kids, by rw [hsk]; exact hk⟩ (by rw [hsk]; exact hac) hcl
    ?_ ?_
  · intro n' hn'
    obtain rfl := Option.some.inj (hn'.symm.trans hne')
    refine ⟨hwe', fun hl => ?_⟩
    obtain ⟨n0, hn0, hloc, -, hld, -⟩ := marked_relinked_node hr hmk hn'
    rw [hloc]
    exact hI.cache_local e n0 hn0 (fun h => hl (hld.mpr h))
  · intro j n' hj hn'
    obtain ⟨n0, hn0, hloc, hwd, hld, hwm, hpar, -⟩ := marked_relinked_node hr hmk hn'
    simp only [hj, if_false] at hpar
    exact ⟨n0, hn0, hpar, hloc, hwd, hld, hwm⟩

/-- `entity_set_parent` preserves the invariant when the new parent is neither the entity nor
one of its descendants. -/
theorem Inv_set_parent (L : MathLib K) {fuel : Nat} {s s' : State K} {e : Nat} {p : Option Nat}
    (hI : Inv L s) (hp : ∀ q, p = some q → q ≠ e ∧ ¬ Descendant s e q)
    (h : entity_set_parent fuel s e p = some s') : Inv L s' := by
  rcases hn : s.node e with _ | n
  · simp [entity_set_parent, hn] at h
  by_cases hne : n.parent = p
  · simp only [entity_set_parent, Option.bind_eq_bind, hn, Option.some_bind, if_pos hne,
      Option.some.injEq] at h
    rw [← h]; exact hI
  obtain ⟨kids, hk⟩ := hI.wf
  have hv := set_parent_valid hk hI.acyclic hn hne h
  have hpe : p ≠ some e := fun hpe => (hp e hpe).1 rfl
  obtain ⟨s3, hsk, hw, hpay, -, hun⟩ := set_parent_unfold hk hI.acyclic hn hne hv hpe
  rw [hun] at h
  have hr := relinked_of_steps hsk hpay
  exact Inv_relinked_inval L hI hr ⟨_, hw⟩ (acyclic_relinked hI.acyclic hr hp) h

theorem init_node (i : Nat) : (State.init : State K).node i = none := by
  simp [State.node, State.init]

theorem Inv_init (L : MathLib K) : Inv L (State.init : State K) := by
  have hlk : ∀ i, (State.init : State K).skel.lk i = none := fun i => by
    rw [skel_lk, init_node]; rfl
  refine ⟨⟨fun _ => [], ?_, ?_, ?_, ?_⟩, ⟨fun _ => 0, ?_⟩, ?_, ?_, ?_, ?_⟩
  · intro p hp
    cases p with
    | none => exact ⟨rfl, rfl⟩
    | some q =>
      obtain ⟨n, hn⟩ := hp
      rw [hlk] at hn; cases hn
  · intro i n hn; rw [hlk] at hn; cases hn
  · intro p; exact List.nodup_nil
  · intro p i hi; cases hi
  · intro i n q hn; rw [hlk] at hn; cases hn
  · intro c q n m hn; rw [init_node] at hn; cases hn
  · intro i n hn; rw [init_node] at hn; cases hn
  · intro i n hn; rw [init_node] at hn; cases hn
  · intro i n hn; rw [init_node] at hn; cases hn

/-- Every reachable state satisfies the invariant. -/
theorem Reachable.inv (L : MathLib K) {s : State K} (h : Reachable L s) : Inv L s := by
  induction h with
  | init => exact Inv_init L
  | create _ h ih => exact Inv_create L ih h
  | copy _ h ih => exact Inv_copy L ih h
  | set_parent _ hp h ih => exact Inv_set_parent L ih hp h
  | set_name _ h ih =>
    simp only [entity_set_name] at h
    refine Inv_modify_attr L _ ?_ ih h
    intro n; exact ⟨rfl, rfl, rfl, rfl⟩
  | set_visible _ h ih =>
    simp only [entity_set_visible] at h
    refine Inv_modify_attr L _ ?_ ih h
    intro n; exact ⟨rfl, rfl, rfl, rfl⟩
  | set_enabled _ h ih =>
    simp only [entity_set_enabled] at h
    refine Inv_modify_attr L _ ?_ ih h
    intro n; exact ⟨rfl, rfl, rfl, rfl⟩
  | set_position _ h ih => exact Inv_set_position L ih h
  | set_scale _ h ih => exact Inv_set_scale L ih h
  | set_rotation _ h ih => exact Inv_set_rotation L ih h
  | set_tform _ h ih => exact Inv_set_tform L ih h
  | get_tform _ h ih => exact Inv_get_tform L ih h
  | invalidate _ h ih => exact Inv_invalidate L ih h

end reparent

end EntitySystem

set_option linter.unusedSectionVars false

namespace EntitySystem

section bridge

variable {K : Type} [LinearOrderedField K]

/-! ## Sibling lists read by following `succ` -/

theorem lk_succ {s : State K} {a : Nat} {n : links_t} (h : s.skel.lk a = some n) :
    (s.node a).bind (fun m => m.succ) = n.succ := by
  obtain ⟨m, hm, hl⟩ := skel_node rfl h
  rw [hm, ← hl]; rfl

theorem walk_DSeg {s : State K} {p : Option Nat} (l : List Nat) :
    ∀ (prev h : Option Nat) (fuel : Nat), DSeg s.skel p prev h l none → l.length ≤ fuel →
      walk_succ s fuel h = l := by
  induction l with
  | nil =>
    intro prev h fuel hd _
    have hh : h = none := hd
    subst hh
    cases fuel <;> rfl
  | cons a l ih =>
    intro prev h fuel hd hlen
    obtain ⟨hh, n, hn, -, -, hrest⟩ := hd
    subst hh
    cases fuel with
    | zero => simp at hlen
    | succ fuel =>
      simp only [walk_succ, lk_succ hn]
      rw [ih (some a) n.succ fuel hrest (by simpa using hlen)]

theorem nodup_length_le {l : List Nat} {N : Nat} (hn : l.Nodup) (hlt : ∀ a ∈ l, a < N) :
    l.length ≤ N := by
  have hsub : l ⊆ List.range N := fun a ha => List.mem_range.mpr (hlt a ha)
  have := (List.Nodup.subperm hn hsub).length_le
  simpa using this

theorem list_head_skel (s : State K) (p : Option Nat) : list_head s p = s.skel.head p := by
  cases p with
  | none => rfl
  | some q =>
    simp only [list_head, Skel.head, skel_lk]
    cases s.node q <;> rfl

theorem list_tail_skel (s : State K) (p : Option Nat) : list_tail s p = s.skel.tail p := by
  cases p with
  | none => rfl
  | some q =>
    simp only [list_tail, Skel.tail, skel_lk]
    cases s.node q <;> rfl

/-- In a state with list integrity the sibling list read from the head pointer of `p` by
following `succ` is the list `kids p`. -/
theorem sibling_list_eq {s : State K} {x : Option Nat} {kids : Option Nat → List Nat}
    (hw : WFk s.skel x kids) {p : Option Nat} (hv : s.skel.valid p) :
    sibling_list s p = kids p := by
  obtain ⟨hA, -, hC, -⟩ := hw
  obtain ⟨hseg, -⟩ := hA p hv
  rw [sibling_list, list_head_skel]
  refine walk_DSeg (kids p) none _ _ hseg (nodup_length_le (hC p) (fun a ha => ?_))
  obtain ⟨n, hn, -⟩ := DSeg_mem hseg ha
  obtain ⟨m, hm, -⟩ := skel_node rfl hn
  exact node_lt hm

/-! ## The reference world matrix -/

theorem world_ref_fuel {L : MathLib K} {s : State K} {e : Nat} {M : Matrix K}
    (h : WorldRef L s e M) : ∃ f0, ∀ f, f0 ≤ f → tform_world_ref L f s e = some M := by
  induction h with
  | root hn hp =>
    refine ⟨1, fun f hf => ?_⟩
    obtain ⟨f', rfl⟩ : ∃ f', f = f' + 1 := ⟨f - 1, by omega⟩
    simp [tform_world_ref, hn, hp]
  | child hn hp _ ih =>
    obtain ⟨f0, h0⟩ := ih
    refine ⟨f0 + 1, fun f hf => ?_⟩
    obtain ⟨f', rfl⟩ : ∃ f', f = f' + 1 := ⟨f - 1, by omega⟩
    simp [tform_world_ref, hn, hp, h0 f' (by omega)]

theorem world_ref_of_fuel {L : MathLib K} {s : State K} (f : Nat) :
    ∀ (e : Nat) (M : Matrix K), tform_world_ref L f s e = some M → WorldRef L s e M := by
  induction f with
  | zero => intro e M h; simp [tform_world_ref] at h
  | succ f ih =>
    intro e M h
    rcases hn : s.node e with _ | n
    · simp [tform_world_ref, hn] at h
    rcases hp : n.parent with _ | p
    · simp [tform_world_ref, hn, hp] at h
      rw [← h]; exact WorldRef.root hn hp
    · simp only [tform_world_ref, Option.bind_eq_bind, hn, Option.some_bind, hp] at h
      rcases hw : tform_world_ref L f s p with _ | W
      · rw [hw] at h; cases h
      · rw [hw] at h
        simp only [Option.some_bind, Option.some.injEq] at h
        rw [← h]; exact WorldRef.child hn hp (ih p W hw)

/-! ## Descendants -/

theorem descendant_rank {s : State K} {rank : Nat → Nat}
    (hrank : ∀ i n q, s.skel.lk i = some n → n.parent = some q → rank q < rank i)
    {a d : Nat} (h : Descendant s a d) : rank a < rank d := by
  induction h with
  | child hn hp => exact hrank _ _ _ (by rw [skel_lk, hn]; rfl) hp
  | step hn hp _ ih => exact lt_trans ih (hrank _ _ _ (by rw [skel_lk, hn]; rfl) hp)

/-- In an acyclic forest the parent of an entity is neither the entity nor one of its
descendants. -/
theorem parent_not_descendant {s : State K} (hac : Acyclic s.skel) {e p : Nat} {n : entity_t K}
    (hn : s.node e = some n) (hp : n.parent = some p) : p ≠ e ∧ ¬ Descendant s e p := by
  obtain ⟨rank, hrank⟩ := hac
  have h1 : rank p < rank e := hrank e n.links p (by rw [skel_lk, hn]; rfl) hp
  refine ⟨fun h => ?_, fun h => ?_⟩
  · rw [h] at h1; exact lt_irrefl _ h1
  · have h2 := descendant_rank hrank h
    omega

theorem not_descendant_self {s : State K} (hac : Acyclic s.skel) {e : Nat} :
    ¬ Descendant s e e := by
  obtain ⟨rank, hrank⟩ := hac
  intro h
  exact lt_irrefl _ (descendant_rank hrank h)

theorem Descendant_transfer {s s' : State K}
    (h : ∀ j n, s.node j = some n → ∃ n', s'.node j = some n' ∧ n'.parent = n.parent)
    {a d : Nat} (hd : Descendant s a d) : Descendant s' a d := by
  induction hd with
  | child hn hp =>
    obtain ⟨n', hn', hp'⟩ := h _ _ hn
    exact Descendant.child hn' (hp'.trans hp)
  | step hn hp _ ih =>
    obtain ⟨n', hn', hp'⟩ := h _ _ hn
    exact Descendant.step hn' (hp'.trans hp) ih

theorem Descendant_same_data {s s' : State K} (h : SameData s s') {a d : Nat} :
    Descendant s' a d ↔ Descendant s a d := by
  constructor
  · refine Descendant_transfer (fun j n' hn' => ?_)
    obtain ⟨n, hn, hd⟩ := h.sd_get_inv hn'
    exact ⟨n, hn, (same_data_parent hd).symm⟩
  · refine Descendant_transfer (fun j n hn => ?_)
    obtain ⟨n', hn', hd⟩ := (h.2.2.2 j).2 n hn
    exact ⟨n', hn', same_data_parent hd⟩

/-- With world-dirtiness closed under children, every ancestor of a world-clean entity is
world-clean. -/
theorem closed_ancestor_clean {s : State K} (hc : Closed s) {a e : Nat} {n m : entity_t K}
    (hd : Descendant s a e) (hn : s.node e = some n) (hw : ¬ n.wdirty)
    (hm : s.node a = some m) : ¬ m.wdirty :=
  fun hwm => hw (closed_descendant hc hm hwm hd n hn)

/-- An ancestor of an allocated entity in a state with list integrity is allocated. -/
theorem ancestor_live {s : State K} {x : Option Nat} {kids : Option Nat → List Nat}
    (hw : WFk s.skel x kids) {a e : Nat} (hd : Descendant s a e)
    (hx : ∀ d, Descendant s a d ∨ d = e → some d ≠ x) : ∃ m, s.node a = some m := by
  induction hd with
  | @child d n hn hp =>
    obtain ⟨-, hv⟩ := hw.2.1 d n.links (by rw [skel_lk, hn]; rfl)
      (hx d (Or.inl (Descendant.child hn hp)))
    have hv' : s.skel.valid (some a) := by
      have : n.links.parent = some a := hp
      rw [this] at hv; exact hv
    obtain ⟨l, hl⟩ := hv'
    obtain ⟨m, hm, -⟩ := skel_node rfl hl
    exact ⟨m, hm⟩
  | @step d m n hn hp h3 ih =>
    exact ih (fun d' hd' => by
      rcases hd' with hd' | hd'
      · exact hx d' (Or.inl hd')
      · subst hd'; exact hx d' (Or.inl h3))

end bridge

end EntitySystem

set_option linter.unusedSectionVars false

namespace EntitySystem

section getframe

variable {K : Type} [LinearOrderedField K]

/-! ## What the world getter leaves untouched -/

/-- `entity_get_tform(e, TFORM_WORLD)` changes no entity other than `e` and its ancestors. -/
theorem get_world_frame (L : MathLib K) (fuel : Nat) :
    ∀ (s s' : State K) (e : Nat) (M : Matrix K),
      entity_get_tform_world L fuel s e = some (s', M) →
      ∀ j, j ≠ e → ¬ Descendant s j e → s'.node j = s.node j := by
  induction fuel with
  | zero => intro s s' e M h; simp [entity_get_tform_world] at h
  | succ fuel ih =>
    intro s s' e M h j hje hjd
    rw [get_world_succ] at h
    obtain ⟨n, hn, h⟩ := h
    rcases h with ⟨-, rfl, -⟩ | ⟨-, s1, Ml, s2, n2, hl, hmatch, hn2, hs'⟩
    · rfl
    · obtain ⟨s1', h1, -, -, -, h5, -⟩ := get_local_spec L hn
      rw [hl] at h1
      simp only [Option.some.injEq, Prod.mk.injEq] at h1
      obtain ⟨rfl, -⟩ := h1
      have hsd1 := get_local_same_data L hl
      have h12 : s2.node j = s1.node j := by
        rcases hp : n.parent with _ | p
        · rw [hp] at hmatch; rw [hmatch.1]
        · rw [hp] at hmatch
          obtain ⟨Mp, hr, -⟩ := hmatch
          refine ih _ _ _ _ hr j ?_ ?_
          · intro hjp
            exact hjd (hjp ▸ Descendant.child hn hp)
          · intro hd
            exact hjd (Descendant.step hn hp ((Descendant_same_data hsd1).mp hd))
      have hU := Upd_store_store s2 hn2
        { n2 with world := { n2.world with mat := M } }
        { n2 with
          world := { n2.world with mat := M },
          dirty := n2.dirty &&& bit_not TFORM_DIRTY_WORLD }
      rw [← hs'] at hU
      rw [hU.2.2.2.2 j hje, h12, h5 j hje]

/-- After `entity_get_tform(e, TFORM_WORLD)` in a state satisfying the invariant, `e` and all
its ancestors have both dirty bits clear. -/
theorem get_world_clean (L : MathLib K) {s' : State K} {e : Nat} {n' : entity_t K}
    (hI : Inv L s') (hn' : s'.node e = some n') (hw : ¬ n'.wdirty) :
    ∀ a na, (a = e ∨ Descendant s' a e) → s'.node a = some na → ¬ na.wdirty ∧ ¬ na.ldirty := by
  intro a na ha hna
  have hwa : ¬ na.wdirty := by
    rcases ha with rfl | ha
    · rw [hn'] at hna; cases hna; exact hw
    · exact closed_ancestor_clean hI.closed ha hn' hw hna
  exact ⟨hwa, fun hl => hwa (hI.local_world a na hna hl)⟩

/-! ## Ancestor chains: world scale and world rotation -/

theorem chain_down_ne_nil (f : Nat) :
    ∀ (s : State K) (e : Nat) (l : List (entity_t K)), chain_down f s e = some l → l ≠ [] := by
  induction f with
  | zero => intro s e l h; simp [chain_down] at h
  | succ f ih =>
    intro s e l h
    rcases hn : s.node e with _ | n
    · simp [chain_down, hn] at h
    rcases hp : n.parent with _ | p
    · simp [chain_down, hn, hp] at h
      rw [← h]; simp
    · simp only [chain_down, Option.bind_eq_bind, hn, Option.some_bind, hp, Option.map_eq_some']
        at h
      obtain ⟨l', -, rfl⟩ := h
      simp

theorem scale_product_snoc {l : List (entity_t K)} (hl : l ≠ []) (n : entity_t K) :
    scale_product (l ++ [n]) = (scale_product l).map (fun v => Vector3Multiply v n.loc.scale) := by
  cases l with
  | nil => exact absurd rfl hl
  | cons m l => simp [scale_product, List.foldl_append]

theorem rotation_product_snoc {l : List (entity_t K)} (hl : l ≠ []) (n : entity_t K) :
    rotation_product (l ++ [n]) =
      (rotation_product l).map (fun q => QuaternionMultiply q n.loc.rot) := by
  cases l with
  | nil => exact absurd rfl hl
  | cons m l => simp [rotation_product, List.foldl_append]

/-- `entity_get_scale(e, TFORM_WORLD)` is the product of the local scales along the ancestor
chain. -/
theorem get_scale_chain (f : Nat) :
    ∀ (s : State K) (e : Nat),
      entity_get_scale_world f s e = (chain_down f s e).bind scale_product := by
  induction f with
  | zero => intro s e; rfl
  | succ f ih =>
    intro s e
    rcases hn : s.node e with _ | n
    · simp [entity_get_scale_world, chain_down, hn]
    rcases hp : n.parent with _ | p
    · simp [entity_get_scale_world, chain_down, hn, hp, scale_product]
    · simp only [entity_get_scale_world, chain_down, Option.bind_eq_bind, hn, Option.some_bind,
        hp, ih]
      rcases hc : chain_down f s p with _ | l
      · rfl
      · simp only [Option.some_bind, Option.map_some',
          scale_product_snoc (chain_down_ne_nil f s p l hc)]
        cases scale_product l <;> rfl

/-- `entity_get_rotation(e, TFORM_WORLD)` is the ordered product of the local rotations along
the ancestor chain, the root on the left. -/
theorem get_rotation_chain (f : Nat) :
    ∀ (s : State K) (e : Nat),
      entity_get_rotation_world f s e = (chain_down f s e).bind rotation_product := by
  induction f with
  | zero => intro s e; rfl
  | succ f ih =>
    intro s e
    rcases hn : s.node e with _ | n
    · simp [entity_get_rotation_world, chain_down, hn]
    rcases hp : n.parent with _ | p
    · simp [entity_get_rotation_world, chain_down, hn, hp, rotation_product]
    · simp only [entity_get_rotation_world, chain_down, Option.bind_eq_bind, hn,
        Option.some_bind, hp, ih]
      rcases hc : chain_down f s p with _ | l
      · rfl
      · simp only [Option.some_bind, Option.map_some',
          rotation_product_snoc (chain_down_ne_nil f s p l hc)]
        cases rotation_product l <;> rfl

theorem chain_down_total_aux {s : State K} {kids : Option Nat → List Nat}
    (hwf : WFk s.skel none kids) (rank : Nat → Nat)
    (hrank : ∀ i n q, s.skel.lk i = some n → n.parent = some q → rank q < rank i) :
    ∀ (r e : Nat), rank e = r → (∃ n, s.node e = some n) →
      ∃ f0 l, l ≠ [] ∧ ∀ f, f0 ≤ f → chain_down f s e = some l := by
  intro r
  induction r using Nat.strong_induction_on with
  | _ r ih =>
    intro e hr ⟨n, hn⟩
    have hlk : s.skel.lk e = some n.links := by rw [skel_lk, hn]; rfl
    rcases hp : n.parent with _ | p
    · refine ⟨1, [n], by simp, fun f hf => ?_⟩
      obtain ⟨f', rfl⟩ : ∃ f', f = f' + 1 := ⟨f - 1, by omega⟩
      simp [chain_down, hn, hp]
    · have hlt : rank p < rank e := hrank e n.links p hlk hp
      obtain ⟨-, hv⟩ := hwf.2.1 e n.links hlk (by simp)
      have hv' : s.skel.valid (some p) := by
        have : n.links.parent = some p := hp
        rw [this] at hv; exact hv
      obtain ⟨m, hm⟩ := hv'
      obtain ⟨mp, hmp, -⟩ := skel_node rfl hm
      obtain ⟨f0, l, -, h0⟩ := ih (rank p) (hr ▸ hlt) p rfl ⟨mp, hmp⟩
      refine ⟨f0 + 1, l ++ [n], by simp, fun f hf => ?_⟩
      obtain ⟨f', rfl⟩ : ∃ f', f = f' + 1 := ⟨f - 1, by omega⟩
      simp [chain_down, hn, hp, h0 f' (by omega)]

/-- In a state with list integrity and acyclic parent links the ancestor chain of an allocated
entity is found with enough fuel. -/
theorem chain_down_total {s : State K} {kids : Option Nat → List Nat}
    (hwf : WFk s.skel none kids) (hac : Acyclic s.skel) {e : Nat} {n : entity_t K}
    (hn : s.node e = some n) :
    ∃ f0 l, l ≠ [] ∧ ∀ f, f0 ≤ f → chain_down f s e = some l := by
  obtain ⟨rank, hrank⟩ := hac
  exact chain_down_total_aux hwf rank hrank (rank e) e rfl ⟨n, hn⟩

theorem get_scale_total {s : State K} {kids : Option Nat → List Nat}
    (hwf : WFk s.skel none kids) (hac : Acyclic s.skel) {e : Nat} {n : entity_t K}
    (hn : s.node e = some n) :
    ∃ f0 v, ∀ f, f0 ≤ f → entity_get_scale_world f s e = some v := by
  obtain ⟨f0, l, hl, h⟩ := chain_down_total hwf hac hn
  cases l with
  | nil => exact absurd rfl hl
  | cons m l =>
    exact ⟨f0, _, fun f hf => by rw [get_scale_chain, h f hf]; rfl⟩

theorem get_rotation_total {s : State K} {kids : Option Nat → List Nat}
    (hwf : WFk s.skel none kids) (hac : Acyclic s.skel) {e : Nat} {n : entity_t K}
    (hn : s.node e = some n) :
    ∃ f0 q, ∀ f, f0 ≤ f → entity_get_rotation_world f s e = some q := by
  obtain ⟨f0, l, hl, h⟩ := chain_down_total hwf hac hn
  cases l with
  | nil => exact absurd rfl hl
  | cons m l =>
    exact ⟨f0, _, fun f hf => by rw [get_rotation_chain, h f hf]; rfl⟩

end getframe

end EntitySystem

set_option linter.unusedSectionVars false

namespace EntitySystem

section setters

variable {K : Type} [LinearOrderedField K]

/-! ## The transform writes -/

theorem store_store (s : State K) (e : Nat) (a b : entity_t K) :
    (s.store e a).store e b = s.store e b := by
  simp only [State.store, List.set_set]

/-- A local-space write assigns the fields of `write_loc` and invalidates the local
transform. -/
theorem write_local_eq (L : MathLib K) (f : Nat) (s : State K) (e : Nat) (w : tform_write K) :
    entity_write L f s e .TFORM_LOCAL w =
      (s.modify e (fun n => { n with loc := write_loc L w n.loc })).bind
        (fun s1 => entity_invalidate_tform f s1 e .TFORM_LOCAL) := by
  cases w with
  | position v => rfl
  | scale v => rfl
  | rotation q => rfl
  | tform m =>
    simp only [entity_write, entity_set_tform, entity_set_tform_local, Option.bind_eq_bind]
    rw [← Option.bind_assoc, ← Option.bind_assoc, modify_modify, modify_modify]
    rfl

/-- Assigning fields other than the links and the dirty word and then invalidating the local
transform: the run returns with enough fuel, in a state `s'` that is the state `s2`, in which
`e` carries the new fields and the local-dirty bit, with the world-dirty bit set on some
entities, `e` among them. -/
theorem modify_invalidate_total (L : MathLib K) {s : State K} {e : Nat} {n : entity_t K}
    (g : entity_t K → entity_t K) (hg : ∀ n, (g n).links = n.links ∧ (g n).dirty = n.dirty)
    (hI : Inv L s) (hn : s.node e = some n) :
    ∃ f0 s2 s', (∀ f, f0 ≤ f →
        (s.modify e g).bind (fun s1 => entity_invalidate_tform f s1 e .TFORM_LOCAL) = some s') ∧
      Inv L s' ∧ Upd s e { g n with dirty := n.dirty ||| TFORM_DIRTY_LOCAL } s2 ∧
      Marked s2 s' ∧ s'.skel = s.skel ∧ ∃ n', s'.node e = some n' ∧ n'.wdirty := by
  have hm1 : s.modify e g = some (s.store e (g n)) := modify_of_node hn g
  have hn1 : (s.store e (g n)).node e = some (g n) := by simp [node_store hn]
  have hm2 : (s.store e (g n)).modify e
      (fun n => { n with dirty := n.dirty ||| TFORM_DIRTY_LOCAL }) =
      some (s.store e { g n with dirty := n.dirty ||| TFORM_DIRTY_LOCAL }) := by
    rw [modify_of_node hn1, store_store, (hg n).2]
  have hu : Upd s e { g n with dirty := n.dirty ||| TFORM_DIRTY_LOCAL }
      (s.store e { g n with dirty := n.dirty ||| TFORM_DIRTY_LOCAL }) :=
    ⟨rfl, rfl, store_length _ _ _, by simp [node_store hn], fun j hj => by
      simp [node_store hn, hj]⟩
  have hsk := hu.upd_skel hn (hg n).1
  obtain ⟨kids, hk⟩ := hI.wf
  have hk2 : WFk (s.store e { g n with dirty := n.dirty ||| TFORM_DIRTY_LOCAL }).skel none
      kids := by rw [hsk]; exact hk
  obtain ⟨f0, s', h⟩ := inval_world_total hk2 (by rw [hsk]; exact hI.acyclic) hu.2.2.2.1
  have hrun : ∀ f, f0 ≤ f →
      (s.modify e g).bind (fun s1 => entity_invalidate_tform f s1 e .TFORM_LOCAL) = some s' := by
    intro f hf
    simp only [hm1, Option.some_bind, entity_invalidate_tform, Option.bind_eq_bind, hm2]
    exact h f hf
  have hmk := (inval_marked f0).1 _ _ _ (h f0 (le_refl _))
  refine ⟨f0, _, s', hrun, Inv_modify_invalidate L g hg hI (hrun f0 (le_refl _)), hu, hmk,
    hmk.mk_skel.trans hsk, inval_world_dirty (h f0 (le_refl _))⟩

/-- The local-space writes: with enough fuel the write returns; the new state satisfies the
invariant, `e` carries the written fields with both dirty bits set, and every other entity is
unchanged up to its world-dirty bit, which may have been set. -/
theorem write_local_spec (L : MathLib K) {s : State K} {e : Nat} {n : entity_t K}
    (w : tform_write K) (hI : Inv L s) (hn : s.node e = some n) :
    ∃ f0 s', (∀ f, f0 ≤ f → entity_write L f s e .TFORM_LOCAL w = some s') ∧
      Inv L s' ∧ s'.skel = s.skel ∧
      (∃ d, s'.node e = some { n with loc := write_loc L w n.loc, dirty := d } ∧
        d &&& TFORM_DIRTY_LOCAL ≠ 0 ∧ d &&& TFORM_DIRTY_WORLD ≠ 0) ∧
      (∀ j m, j ≠ e → s.node j = some m → ∃ d, s'.node j = some { m with dirty := d } ∧
        (d = m.dirty ∨ d = m.dirty ||| TFORM_DIRTY_WORLD)) := by
  obtain ⟨f0, s2, s', hrun, hI', hu, hmk, hsk, n', hn', hw'⟩ :=
    modify_invalidate_total L (fun n => { n with loc := write_loc L w n.loc })
      (fun _ => ⟨rfl, rfl⟩) hI hn
  refine ⟨f0, s', fun f hf => by rw [write_local_eq]; exact hrun f hf, hI', hsk, ?_, ?_⟩
  · obtain ⟨d, hd, hd'⟩ := hmk.get hu.2.2.2.1
    refine ⟨d, hd, ?_, ?_⟩
    · rcases hd' with rfl | rfl
      · exact and_local_or_local _
      · rw [and_local_or_world]; exact and_local_or_local _
    · rw [hn'] at hd
      obtain rfl := Option.some.inj hd
      exact hw'
  · intro j m hj hm
    have hm2 : s2.node j = some m := by rw [hu.2.2.2.2 j hj]; exact hm
    exact hmk.get hm2

theorem write_world_root (L : MathLib K) (f : Nat) {s : State K} {e : Nat} {n : entity_t K}
    (hn : s.node e = some n) (hp : n.parent = none) (w : tform_write K) :
    entity_write L f s e .TFORM_WORLD w = entity_write L f s e .TFORM_LOCAL w := by
  cases w <;>
    simp [entity_write, entity_set_position, entity_set_scale, entity_set_rotation,
      entity_set_tform, hn, hp]

theorem parent_live {s : State K} {kids : Option Nat → List Nat} (hwf : WFk s.skel none kids)
    {e p : Nat} {n : entity_t K} (hn : s.node e = some n) (hp : n.parent = some p) :
    ∃ m, s.node p = some m := by
  obtain ⟨-, hv⟩ := hwf.2.1 e n.links (by rw [skel_lk, hn]; rfl) (by simp)
  have hv' : s.skel.valid (some p) := by
    have : n.links.parent = some p := hp
    rw [this] at hv; exact hv
  obtain ⟨m, hm⟩ := hv'
  obtain ⟨mp, hmp, -⟩ := skel_node rfl hm
  exact ⟨mp, hmp⟩

/-- A world-space write of the position or of the raw matrix on an entity with a parent: the
world matrix `M` of the parent is read, which leaves a refreshed state `s0`, and the converted
value is written in local space. -/
theorem write_world_matrix (L : MathLib K) {s : State K} {e p : Nat} {n : entity_t K}
    (hI : Inv L s) (hn : s.node e = some n) (hp : n.parent = some p)
    (w w' : Matrix K → tform_write K)
    (hw : ∀ f, entity_write L f s e .TFORM_WORLD (w MatrixIdentity) =
      (entity_get_tform L f s p .TFORM_WORLD).bind (fun r =>
        entity_write L f r.1 e .TFORM_LOCAL (w' r.2))) :
    ∃ f0 s0 M s', (∀ f, f0 ≤ f → entity_write L f s e .TFORM_WORLD (w MatrixIdentity) = some s' ∧
        entity_get_tform_world L f s p = some (s0, M) ∧
        entity_write L f s0 e .TFORM_LOCAL (w' M) = some s') ∧
      Inv L s0 ∧ Refreshed s s0 ∧ WorldRef L s p M ∧ Inv L s' := by
  obtain ⟨kids, hk⟩ := hI.wf
  obtain ⟨mp, hmp⟩ := parent_live hk hn hp
  obtain ⟨f1, s0, M, hget, hI0, hM, hR, -⟩ := get_world_total L hI hmp
  obtain ⟨n0, hn0, -⟩ := (hR.1.2.2.2 e).2 n hn
  obtain ⟨f2, s', hset, hI', -⟩ := write_local_spec L (w' M) hI0 hn0
  refine ⟨max f1 f2, s0, M, s', fun f hf => ?_, hI0, hR, hM, hI'⟩
  have h1 := hget f (le_trans (le_max_left _ _) hf)
  have h2 := hset f (le_trans (le_max_right _ _) hf)
  refine ⟨?_, h1, h2⟩
  rw [hw f]
  simp only [entity_get_tform, h1, Option.some_bind]
  exact h2

theorem set_position_world_spec (L : MathLib K) {s : State K} {e p : Nat} {n : entity_t K}
    (hI : Inv L s) (hn : s.node e = some n) (hp : n.parent = some p) (v : Vector3 K) :
    ∃ f0 s0 M s', (∀ f, f0 ≤ f → entity_set_position L f s e v .TFORM_WORLD = some s' ∧
        entity_get_tform_world L f s p = some (s0, M) ∧
        entity_write L f s0 e .TFORM_LOCAL
          (.position (Vector3Transform v (MatrixInvert M))) = some s') ∧
      Inv L s0 ∧ Refreshed s s0 ∧ WorldRef L s p M ∧ Inv L s' :=
  write_world_matrix L hI hn hp (fun _ => .position v)
    (fun M => .position (Vector3Transform v (MatrixInvert M))) (fun f => by
      simp only [entity_write, entity_set_position, Option.bind_eq_bind, hn, Option.some_bind,
        hp]
      cases entity_get_tform L f s p .TFORM_WORLD <;> rfl)

theorem set_tform_world_spec (L : MathLib K) {s : State K} {e p : Nat} {n : entity_t K}
    (hI : Inv L s) (hn : s.node e = some n) (hp : n.parent = some p) (m : Matrix K) :
    ∃ f0 s0 M s', (∀ f, f0 ≤ f → entity_set_tform L f s e m .TFORM_WORLD = some s' ∧
        entity_get_tform_world L f s p = some (s0, M) ∧
        entity_write L f s0 e .TFORM_LOCAL
          (.tform (MatrixMultiply m (MatrixInvert M))) = some s') ∧
      Inv L s0 ∧ Refreshed s s0 ∧ WorldRef L s p M ∧ Inv L s' :=
  write_world_matrix L hI hn hp (fun _ => .tform m)
    (fun M => .tform (MatrixMultiply m (MatrixInvert M))) (fun f => by
      simp only [entity_write, entity_set_tform, Option.bind_eq_bind, hn, Option.some_bind, hp]
      cases entity_get_tform L f s p .TFORM_WORLD <;> rfl)

theorem set_scale_world_spec (L : MathLib K) {s : State K} {e p : Nat} {n : entity_t K}
    (hI : Inv L s) (hn : s.node e = some n) (hp : n.parent = some p) (v : Vector3 K) :
    ∃ f0 ps s', (∀ f, f0 ≤ f → entity_set_scale f s e v .TFORM_WORLD = some s' ∧
        entity_get_scale f s p .TFORM_WORLD = some ps ∧
        entity_write L f s e .TFORM_LOCAL (.scale (Vector3Divide v ps)) = some s') ∧
      Inv L s' := by
  obtain ⟨kids, hk⟩ := hI.wf
  obtain ⟨mp, hmp⟩ := parent_live hk hn hp
  obtain ⟨f1, ps, hget⟩ := get_scale_total hk hI.acyclic hmp
  obtain ⟨f2, s', hset, hI', -⟩ := write_local_spec L (.scale (Vector3Divide v ps)) hI hn
  refine ⟨max f1 f2, ps, s', fun f hf => ?_, hI'⟩
  have h1 := hget f (le_trans (le_max_left _ _) hf)
  have h2 := hset f (le_trans (le_max_right _ _) hf)
  refine ⟨?_, h1, h2⟩
  simp only [entity_set_scale, Option.bind_eq_bind, hn, Option.some_bind, hp, entity_get_scale,
    h1]
  exact h2

theorem set_rotation_world_spec (L : MathLib K) {s : State K} {e p : Nat} {n : entity_t K}
    (hI : Inv L s) (hn : s.node e = some n) (hp : n.parent = some p) (q : Quaternion K) :
    ∃ f0 pr s', (∀ f, f0 ≤ f → entity_set_rotation L f s e q .TFORM_WORLD = some s' ∧
        entity_get_rotation f s p .TFORM_WORLD = some pr ∧
        entity_write L f s e .TFORM_LOCAL
          (.rotation (QuaternionMultiply (QuaternionInvert L pr) q)) = some s') ∧
      Inv L s' := by
  obtain ⟨kids, hk⟩ := hI.wf
  obtain ⟨mp, hmp⟩ := parent_live hk hn hp
  obtain ⟨f1, pr, hget⟩ := get_rotation_total hk hI.acyclic hmp
  obtain ⟨f2, s', hset, hI', -⟩ :=
    write_local_spec L (.rotation (QuaternionMultiply (QuaternionInvert L pr) q)) hI hn
  refine ⟨max f1 f2, pr, s', fun f hf => ?_, hI'⟩
  have h1 := hget f (le_trans (le_max_left _ _) hf)
  have h2 := hset f (le_trans (le_max_right _ _) hf)
  refine ⟨?_, h1, h2⟩
  simp only [entity_set_rotation, Option.bind_eq_bind, hn, Option.some_bind, hp,
    entity_get_rotation, h1]
  exact h2

theorem write_local_mono (L : MathLib K) {f f' : Nat} {s s' : State K} {e : Nat}
    {w : tform_write K} (h : entity_write L f s e .TFORM_LOCAL w = some s') (hle : f ≤ f') :
    entity_write L f' s e .TFORM_LOCAL w = some s' := by
  rw [write_local_eq] at h ⊢
  rcases hm : s.modify e (fun n => { n with loc := write_loc L w n.loc }) with _ | s1
  · rw [hm] at h; cases h
  rw [hm] at h
  simp only [Option.some_bind, entity_invalidate_tform, Option.bind_eq_bind] at h ⊢
  rcases hm2 : s1.modify e (fun n => { n with dirty := n.dirty ||| TFORM_DIRTY_LOCAL })
    with _ | s2
  · rw [hm2] at h; cases h
  rw [hm2] at h
  simp only [Option.some_bind] at h ⊢
  exact inval_world_fuel_mono h hle

/-- What a returning local-space write leaves behind. -/
theorem write_local_facts (L : MathLib K) {f : Nat} {s s' : State K} {e : Nat} {n : entity_t K}
    {w : tform_write K} (hI : Inv L s) (hn : s.node e = some n)
    (h : entity_write L f s e .TFORM_LOCAL w = some s') :
    Inv L s' ∧ s'.skel = s.skel ∧
      (∃ d, s'.node e = some { n with loc := write_loc L w n.loc, dirty := d } ∧
        d &&& TFORM_DIRTY_LOCAL ≠ 0 ∧ d &&& TFORM_DIRTY_WORLD ≠ 0) ∧
      (∀ j m, j ≠ e → s.node j = some m → ∃ d, s'.node j = some { m with dirty := d } ∧
        (d = m.dirty ∨ d = m.dirty ||| TFORM_DIRTY_WORLD)) := by
  obtain ⟨f0, s'', hrun, h1, h2, h3, h4⟩ := write_local_spec L w hI hn
  have e1 := write_local_mono L h (le_max_left f f0)
  have e2 := hrun (max f f0) (le_max_right f f0)
  rw [e1] at e2
  obtain rfl := Option.some.inj e2
  exact ⟨h1, h2, h3, h4⟩

/-- Every transform write, in either space, returns with enough fuel; the new state satisfies
the invariant, has the same links, and `e` has both dirty bits set. -/
theorem write_spec (L : MathLib K) {s : State K} {e : Nat} {n : entity_t K}
    (g : tform_space_t) (w : tform_write K) (hI : Inv L s) (hn : s.node e = some n) :
    ∃ f0 s', (∀ f, f0 ≤ f → entity_write L f s e g w = some s') ∧ Inv L s' ∧
      s'.skel = s.skel ∧ ∃ n', s'.node e = some n' ∧ n'.ldirty ∧ n'.wdirty := by
  have hloc : ∀ (s0 : State K) (n0 : entity_t K) (w' : tform_write K) (f0 : Nat)
      (s' : State K), Inv L s0 → s0.node e = some n0 → s0.skel = s.skel →
      (∀ f, f0 ≤ f → entity_write L f s e g w = some s' ∧
        entity_write L f s0 e .TFORM_LOCAL w' = some s') →
      ∃ f0 s', (∀ f, f0 ≤ f → entity_write L f s e g w = some s') ∧ Inv L s' ∧
        s'.skel = s.skel ∧ ∃ n', s'.node e = some n' ∧ n'.ldirty ∧ n'.wdirty := by
    intro s0 n0 w' f0 s' hI0 hn0 hsk0 h
    obtain ⟨h1, h2, ⟨d, h3, h4, h5⟩, -⟩ := write_local_facts L hI0 hn0 (h f0 (le_refl _)).2
    exact ⟨f0, s', fun f hf => (h f hf).1, h1, h2.trans hsk0, _, h3, h4, h5⟩
  cases g with
  | TFORM_LOCAL =>
    obtain ⟨f0, s', hrun, -⟩ := write_local_spec L w hI hn
    exact hloc s n w f0 s' hI hn rfl (fun f hf => ⟨hrun f hf, hrun f hf⟩)
  | TFORM_WORLD =>
    rcases hp : n.parent with _ | p
    · obtain ⟨f0, s', hrun, -⟩ := write_local_spec L w hI hn
      exact hloc s n w f0 s' hI hn rfl (fun f hf =>
        ⟨by rw [write_world_root L f hn hp]; exact hrun f hf, hrun f hf⟩)
    · cases w with
      | position v =>
        obtain ⟨f0, s0, M, s', hrun, hI0, hR, -, -⟩ := set_position_world_spec L hI hn hp v
        obtain ⟨n0, hn0, -⟩ := (hR.1.2.2.2 e).2 n hn
        exact hloc s0 n0 _ f0 s' hI0 hn0 hR.1.sd_skel (fun f hf =>
          ⟨(hrun f hf).1, (hrun f hf).2.2⟩)
      | tform m =>
        obtain ⟨f0, s0, M, s', hrun, hI0, hR, -, -⟩ := set_tform_world_spec L hI hn hp m
        obtain ⟨n0, hn0, -⟩ := (hR.1.2.2.2 e).2 n hn
        exact hloc s0 n0 _ f0 s' hI0 hn0 hR.1.sd_skel (fun f hf =>
          ⟨(hrun f hf).1, (hrun f hf).2.2⟩)
      | scale v =>
        obtain ⟨f0, ps, s', hrun, -⟩ := set_scale_world_spec L hI hn hp v
        exact hloc s n _ f0 s' hI hn rfl (fun f hf => ⟨(hrun f hf).1, (hrun f hf).2.2⟩)
      | rotation q =>
        obtain ⟨f0, pr, s', hrun, -⟩ := set_rotation_world_spec L hI hn hp q
        exact hloc s n _ f0 s' hI hn rfl (fun f hf => ⟨(hrun f hf).1, (hrun f hf).2.2⟩)

/-- Descendants are the same in two states with the same link structure. -/
theorem Descendant_skel {s s' : State K} (h : s'.skel = s.skel) {a d : Nat}
    (hd : Descendant s a d) : Descendant s' a d := by
  refine Descendant_transfer (fun j n hn => ?_) hd
  have h1 : s'.skel.lk j = some n.links := by rw [h, skel_lk, hn]; rfl
  obtain ⟨n', hn', hl⟩ := skel_node rfl h1
  exact ⟨n', hn', congrArg links_t.parent hl⟩

end setters

end EntitySystem

set_option linter.unusedSectionVars false

namespace EntitySystem

section scene

variable {K : Type} [LinearOrderedField K]

/-! ## Running the model on the scenes -/

theorem inval_world_of_dirty (f : Nat) {s : State K} {e : Nat} {n : entity_t K}
    (hn : s.node e = some n) (hd : n.dirty &&& TFORM_DIRTY_WORLD ≠ 0) :
    entity_invalidate_tform_world (f + 1) s e = some s := by
  rw [inval_world_succ, hn, Option.some_bind, if_pos hd]

theorem ent_wdirty (a b c d e : Option Nat) (p q : Vector3 K) :
    (ent a b c d e 3 p q).dirty &&& TFORM_DIRTY_WORLD ≠ 0 := by
  show 3 &&& 2 ≠ 0
  decide

theorem three_or_local : (3 : Nat) ||| TFORM_DIRTY_LOCAL = 3 := by
  show 3 ||| 1 = 3
  decide

theorem three_and_world : (3 : Nat) &&& TFORM_DIRTY_WORLD ≠ 0 := by
  show 3 &&& 2 ≠ 0
  decide

/-- Evaluation of `entity_set_parent` from the evaluation of its three list steps, when `e`
is world-dirty afterwards. -/
theorem set_parent_eval (f : Nat) {s s3 : State K} {e : Nat} {n m : entity_t K}
    {p : Option Nat} (hn : s.node e = some n) (hp : n.parent ≠ p)
    (h : (entity_remove s (some e)).bind (fun s =>
      (s.modify e (fun n => { n with parent := p })).bind (fun s =>
        entity_insert s (some e))) = some s3)
    (hn3 : s3.node e = some m) (hd : m.dirty &&& TFORM_DIRTY_WORLD ≠ 0) :
    entity_set_parent (f + 1) s e p = some s3 := by
  simp only [entity_set_parent, Option.bind_eq_bind, hn, Option.some_bind,
    entity_invalidate_tform, if_neg hp]
  rcases h1 : entity_remove s (some e) with _ | s1
  · rw [h1] at h; cases h
  rw [h1] at h
  simp only [Option.some_bind] at h ⊢
  rcases h2 : s1.modify e (fun n => { n with parent := p }) with _ | s2
  · rw [h2] at h; cases h
  rw [h2] at h
  simp only [Option.some_bind] at h ⊢
  rw [h, Option.some_bind]
  exact inval_world_of_dirty f hn3 hd

/-- Evaluation of a local-space write on an entity whose dirty word is already 3. -/
theorem write_local_eval (L : MathLib K) (f : Nat) {s : State K} {e : Nat} {n : entity_t K}
    (w : tform_write K) (hn : s.node e = some n) (hd : n.dirty = 3) :
    entity_write L (f + 1) s e .TFORM_LOCAL w =
      some (s.store e { n with loc := write_loc L w n.loc, dirty := 3 }) := by
  have hn1 : (s.store e { n with loc := write_loc L w n.loc }).node e =
      some { n with loc := write_loc L w n.loc } := by simp [node_store hn]
  rw [write_local_eq, modify_of_node hn, Option.some_bind]
  simp only [entity_invalidate_tform, Option.bind_eq_bind]
  rw [modify_of_node hn1, Option.some_bind, store_store]
  have hd' : n.dirty ||| TFORM_DIRTY_LOCAL = 3 := by rw [hd]; exact three_or_local
  simp only [hd']
  refine inval_world_of_dirty f (n := { n with loc := write_loc L w n.loc, dirty := 3 }) ?_
    three_and_world
  simp [node_store hn]

theorem scene1_reachable (L : MathLib K) : Reachable L (scene1 : State K) :=
  Reachable.create (e := 0) Reachable.init rfl

theorem scene2_reachable (L : MathLib K) : Reachable L (scene2 : State K) :=
  Reachable.create (e := 1) (scene1_reachable L) rfl

theorem scene3_reachable (L : MathLib K) : Reachable L (scene3 : State K) :=
  Reachable.create (e := 2) (scene2_reachable L) rfl

theorem scene4_step (f : Nat) :
    entity_set_parent (f + 1) (scene3 : State K) 1 (some 0) = some scene4 :=
  set_parent_eval f (n := ent none none (some 2) (some 0) none 3 Vector3Zero Vector3One)
    (m := ent (some 0) none none none none 3 Vector3Zero Vector3One) rfl (by simp [ent]) rfl
    rfl (ent_wdirty _ _ _ _ _ _ _)

theorem scene5_step (L : MathLib K) (f : Nat) :
    position_entity L (f + 1) (scene4 : State K) 1 0 0 (-5) .TFORM_LOCAL = some scene5 :=
  write_local_eval L f (n := ent (some 0) none none none none 3 Vector3Zero Vector3One)
    (.position ⟨0, 0, -5⟩) rfl rfl

theorem scene6_step (f : Nat) :
    entity_set_parent (f + 1) (scene5 : State K) 2 (some 1) = some scene6 :=
  set_parent_eval f (n := ent none none none (some 0) none 3 Vector3Zero Vector3One)
    (m := ent (some 1) none none none none 3 Vector3Zero Vector3One) rfl (by simp [ent]) rfl
    rfl (ent_wdirty _ _ _ _ _ _ _)

theorem scene7_step (L : MathLib K) (f : Nat) :
    scale_entity (f + 1) (scene6 : State K) 2 (1 / 2) (1 / 2) (1 / 2) .TFORM_LOCAL =
      some scene7 :=
  write_local_eval L f (n := ent (some 1) none none none none 3 Vector3Zero Vector3One)
    (.scale ⟨1 / 2, 1 / 2, 1 / 2⟩) rfl rfl

theorem scene8_step (L : MathLib K) (f : Nat) :
    position_entity L (f + 1) (scene7 : State K) 2 3 0 0 .TFORM_LOCAL = some scene8 :=
  write_local_eval L f
    (n := ent (some 1) none none none none 3 Vector3Zero ⟨1 / 2, 1 / 2, 1 / 2⟩)
    (.position ⟨3, 0, 0⟩) rfl rfl

theorem not_descendant_leaf {s : State K} {e : Nat}
    (h : ∀ d n, s.node d = some n → n.parent ≠ some e) (q : Nat) : ¬ Descendant s e q := by
  intro hd
  induction hd with
  | child hn hp => exact h _ _ hn hp
  | step _ _ _ ih => exact ih

theorem scene_nodes {a b c : entity_t K} {o l : Option Nat} {d : Nat} {n : entity_t K}
    (h : (⟨[some a, some b, some c], o, l⟩ : State K).node d = some n) :
    n = a ∨ n = b ∨ n = c := by
  match d, h with
  | 0, h => exact Or.inl (Option.some.inj h).symm
  | 1, h => exact Or.inr (Or.inl (Option.some.inj h).symm)
  | 2, h => exact Or.inr (Or.inr (Option.some.inj h).symm)
  | _ + 3, h => cases h

theorem scene4_reachable (L : MathLib K) : Reachable L (scene4 : State K) :=
  Reachable.set_parent (scene3_reachable L)
    (fun q hq => by
      cases hq
      refine ⟨by decide, not_descendant_leaf (fun d n hn hp => ?_) 0⟩
      rcases scene_nodes hn with rfl | rfl | rfl <;> cases hp)
    (scene4_step 0)

theorem scene5_reachable (L : MathLib K) : Reachable L (scene5 : State K) :=
  Reachable.set_position (scene4_reachable L) (scene5_step L 0)

theorem scene6_reachable (L : MathLib K) : Reachable L (scene6 : State K) :=
  Reachable.set_parent (scene5_reachable L)
    (fun q hq => by
      cases hq
      refine ⟨by decide, not_descendant_leaf (fun d n hn hp => ?_) 1⟩
      rcases scene_nodes hn with rfl | rfl | rfl <;> cases hp)
    (scene6_step 0)

theorem scene7_reachable (L : MathLib K) : Reachable L (scene7 : State K) :=
  Reachable.set_scale (scene6_reachable L) (scene7_step L 0)

theorem scene8_reachable (L : MathLib K) : Reachable L (scene8 : State K) :=
  Reachable.set_position (scene7_reachable L) (scene8_step L 0)

/-- With fuel, the scenario is the read of the world position of `child2` in `scene8`. -/
theorem scenario_eq (L : MathLib K) (f : Nat) :
    scenario L (f + 1) = entity_get_position L (f + 1) scene8 2 .TFORM_WORLD := by
  have c1 : create_entity (State.init : State K) = some (scene1, 0) := rfl
  have c2 : create_entity (scene1 : State K) = some (scene2, 1) := rfl
  have c3 : create_entity (scene2 : State K) = some (scene3, 2) := rfl
  simp only [scenario, Option.bind_eq_bind, c1, c2, c3, Option.some_bind, scene4_step,
    scene5_step, scene6_step, scene7_step L, scene8_step]

end scene

end EntitySystem

set_option linter.unusedSectionVars false

namespace EntitySystem

section matrix

variable {K : Type} [LinearOrderedField K]

/-! ## Matrix algebra of the composed transforms -/

theorem affine_mul {A B : Matrix K} (ha : A.affine) (hb : B.affine) :
    (MatrixMultiply A B).affine := by
  obtain ⟨a1, a2, a3, a4⟩ := ha
  obtain ⟨b1, b2, b3, b4⟩ := hb
  simp only [Matrix.affine, MatrixMultiply, a1, a2, a3, a4, b1, b2, b3, b4]
  refine ⟨by ring, by ring, by ring, by ring⟩

theorem compose_affine (L : MathLib K) (t : tform_t K) : (tform_compose L t).affine := by
  unfold tform_compose
  refine affine_mul (affine_mul ⟨rfl, rfl, rfl, rfl⟩ ⟨rfl, rfl, rfl, rfl⟩) ⟨rfl, rfl, rfl, rfl⟩

/-- The translation row of a composed local matrix is the local position. -/
theorem compose_row (L : MathLib K) (t : tform_t K) :
    (tform_compose L t).m12 = t.pos.x ∧ (tform_compose L t).m13 = t.pos.y ∧
      (tform_compose L t).m14 = t.pos.z ∧ (tform_compose L t).m15 = 1 := by
  simp only [tform_compose, MatrixMultiply, MatrixScale, MatrixRotate, MatrixTranslate]
  refine ⟨by ring, by ring, by ring, by ring⟩

theorem WorldRef_affine {L : MathLib K} {s : State K} {e : Nat} {M : Matrix K}
    (h : WorldRef L s e M) : M.affine := by
  induction h with
  | root _ _ => exact compose_affine L _
  | child _ _ _ ih => exact affine_mul (compose_affine L _) ih

/-- The translation row of `local * parent_world` is the local position transformed by the
parent's world matrix. -/
theorem world_position (L : MathLib K) (t : tform_t K) (M : Matrix K) :
    (⟨(MatrixMultiply (tform_compose L t) M).m12, (MatrixMultiply (tform_compose L t) M).m13,
      (MatrixMultiply (tform_compose L t) M).m14⟩ : Vector3 K) = Vector3Transform t.pos M := by
  obtain ⟨h1, h2, h3, h4⟩ := compose_row L t
  simp only [MatrixMultiply, Vector3Transform, h1, h2, h3, h4, Vector3.mk.injEq]
  refine ⟨by ring, by ring, by ring⟩

/-- Transforming by the inverse of an invertible affine matrix and then by the matrix gives the
point back. -/
theorem transform_invert {M : Matrix K} (ha : M.affine) (hd : MatrixDeterminant M ≠ 0)
    (v : Vector3 K) : Vector3Transform (Vector3Transform v (MatrixInvert M)) M = v := by
  obtain ⟨a1, a2, a3, a4⟩ := ha
  obtain ⟨i, hi⟩ : ∃ i, MatrixDeterminant M * i = 1 := ⟨1 / MatrixDeterminant M, by
    field_simp⟩
  have hinv : 1 / MatrixDeterminant M = i := by
    field_simp
    rw [mul_comm]; exact hi.symm
  have hinv' : 1 / (
      (M.m0 * M.m5 - M.m1 * M.m4) * (M.m10 * M.m15 - M.m11 * M.m14) -
      (M.m0 * M.m6 - M.m2 * M.m4) * (M.m9 * M.m15 - M.m11 * M.m13) +
      (M.m0 * M.m7 - M.m3 * M.m4) * (M.m9 * M.m14 - M.m10 * M.m13) +
      (M.m1 * M.m6 - M.m2 * M.m5) * (M.m8 * M.m15 - M.m11 * M.m12) -
      (M.m1 * M.m7 - M.m3 * M.m5) * (M.m8 * M.m14 - M.m10 * M.m12) +
      (M.m2 * M.m7 - M.m3 * M.m6) * (M.m8 * M.m13 - M.m9 * M.m12)) = i := hinv
  simp only [MatrixDeterminant, a1, a2, a3, a4] at hi
  cases v with
  | mk x y z =>
    simp only [Vector3Transform, MatrixInvert, hinv', Vector3.mk.injEq]
    simp only [a1, a2, a3, a4]
    refine ⟨?_, ?_, ?_⟩
    · linear_combination (x - M.m12) * hi
    · linear_combination (y - M.m13) * hi
    · linear_combination (z - M.m14) * hi

end matrix

end EntitySystem

set_option linter.unusedSectionVars false

namespace EntitySystem

section kit

variable {K : Type} [LinearOrderedField K]

/-- The composed matrix of a transform with identity rotation, for a math library that is exact
at `acosf 1`, `sqrtf 0`, `sinf 0` and `cosf 0`: the scale on the diagonal and the position in
the translation row. -/
theorem compose_ident (L : MathLib K) (h1 : L.acosf 1 = 0) (h2 : L.sqrtf 0 = 0)
    (h3 : L.sinf 0 = 0) (h4 : L.cosf 0 = 1) (pos scale : Vector3 K) (m : Matrix K) :
    tform_compose L ⟨QuaternionIdentity, pos, scale, m⟩ =
      { m0 := scale.x, m4 := 0, m8 := 0, m12 := pos.x,
        m1 := 0, m5 := scale.y, m9 := 0, m13 := pos.y,
        m2 := 0, m6 := 0, m10 := scale.z, m14 := pos.z,
        m3 := 0, m7 := 0, m11 := 0, m15 := 1 } := by
  have hax : QuaternionToAxisAngle L (QuaternionIdentity : Quaternion K) = (⟨1, 0, 0⟩, 0) := by
    have hc : ¬ ((0 : K) > 1 / 10000) := by norm_num
    simp [QuaternionToAxisAngle, QuaternionIdentity, h1, h2, hc]
  simp only [tform_compose, hax]
  simp [MatrixRotate, MatrixScale, MatrixTranslate, MatrixMultiply, h3, h4]

/-- The math library `libQ` is exact at the four arguments the scenes evaluate. -/
theorem libQ_exact :
    libQ.acosf 1 = 0 ∧ libQ.sqrtf 0 = 0 ∧ libQ.sinf 0 = 0 ∧ libQ.cosf 0 = 1 :=
  ⟨rfl, rfl, rfl, rfl⟩

/-- The world matrix of `child1` in the scene of `main` has determinant one. -/
theorem scene8_det (L : MathLib K) (h1 : L.acosf 1 = 0) (h2 : L.sqrtf 0 = 0)
    (h3 : L.sinf 0 = 0) (h4 : L.cosf 0 = 1) :
    MatrixDeterminant (MatrixMultiply
      (tform_compose L (ent (some 0) (some 2) none none (some 2) 3 ⟨0, 0, -5⟩
        (Vector3One : Vector3 K)).loc)
      (tform_compose L (ent none (some 1) none none (some 1) 3 (Vector3Zero : Vector3 K)
        (Vector3One : Vector3 K)).loc)) ≠ 0 := by
  simp only [ent, compose_ident L h1 h2 h3 h4]
  simp [MatrixDeterminant, MatrixMultiply, Vector3One, Vector3Zero]

end kit

end EntitySystem

namespace EntitySystem

section flagsok

variable {K : Type} [LinearOrderedField K]

/-! ## The dirty word along the whole API -/

theorem FlagsOK_modify (L : MathLib K) {s s' : State K} {e : Nat} {f : entity_t K → entity_t K}
    (hF : FlagsOK L s) (hf : ∀ n, s.node e = some n → n.flags_ok L → (f n).flags_ok L)
    (h : s.modify e f = some s') : FlagsOK L s' := by
  intro j n' hn'
  rw [node_modify h] at hn'
  by_cases hj : j = e
  · rw [if_pos hj] at hn'
    rcases hn : s.node e with _ | n
    · rw [hn] at hn'; cases hn'
    · rw [hn] at hn'
      simp only [Option.map_some', Option.some.injEq] at hn'
      rw [← hn']
      exact hf n hn (hF e n hn)
  · rw [if_neg hj] at hn'
    exact hF j n' hn'

theorem FlagsOK_links (L : MathLib K) {s s' : State K} {e : Nat} {f : entity_t K → entity_t K}
    (hF : FlagsOK L s) (h : s.modify e f = some s')
    (hf : ∀ n, (f n).dirty = n.dirty ∧ (f n).loc = n.loc) : FlagsOK L s' := by
  refine FlagsOK_modify L hF (fun n _ hn => ?_) h
  unfold entity_t.flags_ok entity_t.ldirty entity_t.wdirty at hn ⊢
  rw [(hf n).1, (hf n).2]
  exact hn

theorem FlagsOK_insert (L : MathLib K) {s s' : State K} (x : Option Nat) (hF : FlagsOK L s)
    (h : entity_insert s x = some s') : FlagsOK L s' := by
  cases x with
  | none =>
    simp only [entity_insert, Option.some.injEq] at h
    rw [← h]; exact hF
  | some e =>
    simp only [entity_insert, Option.bind_eq_bind] at h
    obtain ⟨s1, h1, h⟩ := Option.bind_eq_some.mp h
    have F1 := FlagsOK_links L hF h1 (fun _ => ⟨rfl, rfl⟩)
    obtain ⟨n1, hn1, h⟩ := Option.bind_eq_some.mp h
    rcases hp : n1.parent with _ | p
    · simp only [hp] at h
      obtain ⟨s2, h2, h⟩ := Option.bind_eq_some.mp h
      have F2 := FlagsOK_links L F1 h2 (fun _ => ⟨rfl, rfl⟩)
      obtain ⟨n2, hn2, h⟩ := Option.bind_eq_some.mp h
      obtain ⟨s3, h3, h⟩ := Option.bind_eq_some.mp h
      have F3 : FlagsOK L s3 := by
        rcases hq : n2.pred with _ | q
        · simp only [hq, Option.some.injEq] at h3
          rw [← h3]; exact F2
        · simp only [hq] at h3
          exact FlagsOK_links L F2 h3 (fun _ => ⟨rfl, rfl⟩)
      simp only [Option.some.injEq] at h
      rw [← h]; exact F3
    · simp only [hp] at h
      obtain ⟨pn, hpn, h⟩ := Option.bind_eq_some.mp h
      obtain ⟨s2, h2, h⟩ := Option.bind_eq_some.mp h
      have F2 := FlagsOK_links L F1 h2 (fun _ => ⟨rfl, rfl⟩)
      obtain ⟨n2, hn2, h⟩ := Option.bind_eq_some.mp h
      obtain ⟨s3, h3, h⟩ := Option.bind_eq_some.mp h
      have F3 : FlagsOK L s3 := by
        rcases hq : n2.pred with _ | q
        · simp only [hq] at h3
          exact FlagsOK_links L F2 h3 (fun _ => ⟨rfl, rfl⟩)
        · simp only [hq] at h3
          exact FlagsOK_links L F2 h3 (fun _ => ⟨rfl, rfl⟩)
      exact FlagsOK_links L F3 h (fun _ => ⟨rfl, rfl⟩)

theorem FlagsOK_set_orphans (L : MathLib K) {s : State K} (hF : FlagsOK L s) (v : Option Nat) :
    FlagsOK L (s.set_orphans v) := fun i n hn => hF i n hn

theorem FlagsOK_set_last_orphan (L : MathLib K) {s : State K} (hF : FlagsOK L s)
    (v : Option Nat) : FlagsOK L (s.set_last_orphan v) := fun i n hn => hF i n hn

theorem FlagsOK_ite (L : MathLib K) {c : Prop} [Decidable c] {a b : State K}
    (ha : FlagsOK L a) (hb : FlagsOK L b) : FlagsOK L (if c then a else b) := by
  split <;> assumption

theorem FlagsOK_if_links (L : MathLib K) {s s' : State K} {e : Nat}
    {f : entity_t K → entity_t K} {c : Prop} [Decidable c] (hF : FlagsOK L s)
    (h : (if c then s.modify e f else some s) = some s')
    (hf : ∀ n, (f n).dirty = n.dirty ∧ (f n).loc = n.loc) : FlagsOK L s' := by
  by_cases hc : c
  · rw [if_pos hc] at h
    exact FlagsOK_links L hF h hf
  · rw [if_neg hc, Option.some.injEq] at h
    rw [← h]; exact hF

theorem FlagsOK_remove (L : MathLib K) {s s' : State K} (x : Option Nat) (hF : FlagsOK L s)
    (h : entity_remove s x = some s') : FlagsOK L s' := by
  cases x with
  | none =>
    simp only [entity_remove, Option.some.injEq] at h
    rw [← h]; exact hF
  | some e =>
    simp only [entity_remove, Option.bind_eq_bind] at h
    obtain ⟨n, hn, h⟩ := Option.bind_eq_some.mp h
    obtain ⟨s1, h1, h⟩ := Option.bind_eq_some.mp h
    have F1 : FlagsOK L s1 := by
      rcases hp : n.parent with _ | p
      · simp only [hp] at h1
        obtain ⟨n2, hn2, h1⟩ := Option.bind_eq_some.mp h1
        simp only [Option.some.injEq] at h1
        have F0 : FlagsOK L (if s.entity_orphans = some e then s.set_orphans n.succ else s) :=
          FlagsOK_ite L (FlagsOK_set_orphans L hF _) hF
        rw [← h1]
        exact FlagsOK_ite L (FlagsOK_set_last_orphan L F0 _) F0
      · simp only [hp] at h1
        obtain ⟨pn, hpn, h1⟩ := Option.bind_eq_some.mp h1
        obtain ⟨s2, h2, h1⟩ := Option.bind_eq_some.mp h1
        have F2 := FlagsOK_if_links L hF h2 (fun _ => ⟨rfl, rfl⟩)
        obtain ⟨pn2, hpn2, h1⟩ := Option.bind_eq_some.mp h1
        obtain ⟨n2, hn2, h1⟩ := Option.bind_eq_some.mp h1
        exact FlagsOK_if_links L F2 h1 (fun _ => ⟨rfl, rfl⟩)
    obtain ⟨n1, hn1, h⟩ := Option.bind_eq_some.mp h
    obtain ⟨s2, h2, h⟩ := Option.bind_eq_some.mp h
    have F2 : FlagsOK L s2 := by
      rcases hq : n1.succ with _ | q
      · simp only [hq, Option.some.injEq] at h2
        rw [← h2]; exact F1
      · simp only [hq] at h2
        exact FlagsOK_links L F1 h2 (fun _ => ⟨rfl, rfl⟩)
    obtain ⟨n2, hn2, h⟩ := Option.bind_eq_some.mp h
    rcases hq : n2.pred with _ | q
    · simp only [hq, Option.some.injEq] at h
      rw [← h]; exact F2
    · simp only [hq] at h
      exact FlagsOK_links L F2 h (fun _ => ⟨rfl, rfl⟩)

theorem FlagsOK_MemFree (L : MathLib K) {s s' : State K} {i : Nat} (hF : FlagsOK L s)
    (h : MemFree s i = some s') : FlagsOK L s' := by
  unfold MemFree at h
  rcases hn : s.node i with _ | n
  · rw [hn] at h; cases h
  · rw [hn] at h
    simp only [Option.map_some', Option.some.injEq] at h
    intro j m hm
    rw [← h] at hm
    unfold State.node at hm
    by_cases hj : j = i
    · subst hj
      simp only [List.get?_eq_getElem?, List.getElem?_set, if_true] at hm
      by_cases hlt : j < s.heap.length <;> simp [hlt] at hm
    · have : (s.heap.set i none).get? j = s.heap.get? j := by
        simp only [List.get?_eq_getElem?]
        rw [List.getElem?_set_ne (Ne.symm hj)]
      simp only [this] at hm
      exact hF j m hm

theorem FlagsOK_free_loop (L : MathLib K) (fuel : Nat) :
    ∀ (s s' : State K) (e : Nat), FlagsOK L s → free_entity_loop fuel s e = some s' →
      FlagsOK L s' := by
  induction fuel with
  | zero => intro s s' e _ h; simp [free_entity_loop] at h
  | succ fuel ih =>
    intro s s' e hF h
    simp only [free_entity_loop, Option.bind_eq_bind] at h
    obtain ⟨n, hn, h⟩ := Option.bind_eq_some.mp h
    rcases hc : n.children with _ | c
    · simp only [hc, Option.some.injEq] at h
      rw [← h]; exact hF
    · simp only [hc] at h
      obtain ⟨s1, h1, h⟩ := Option.bind_eq_some.mp h
      obtain ⟨s2, h2, h⟩ := Option.bind_eq_some.mp h
      exact ih _ _ _ (FlagsOK_links L (FlagsOK_MemFree L hF h1) h2 (fun _ => ⟨rfl, rfl⟩)) h

theorem FlagsOK_free (L : MathLib K) {fuel : Nat} {s s' : State K} {e : Nat}
    (hF : FlagsOK L s) (h : free_entity fuel s e = some s') : FlagsOK L s' := by
  simp only [free_entity, Option.bind_eq_bind] at h
  obtain ⟨s1, h1, h⟩ := Option.bind_eq_some.mp h
  exact FlagsOK_remove L _ (FlagsOK_free_loop L fuel _ _ _ hF h1) h

theorem flags_ok_marked (L : MathLib K) {n n' : entity_t K} (h : n.flags_ok L)
    (he : n' = { n with dirty := n'.dirty })
    (hd : n'.dirty = n.dirty ∨ n'.dirty = n.dirty ||| TFORM_DIRTY_WORLD) : n'.flags_ok L := by
  have hloc : n'.loc = n.loc := by rw [he]
  unfold entity_t.flags_ok entity_t.ldirty entity_t.wdirty at h ⊢
  rcases hd with hd | hd
  · rw [hd, hloc]; exact h
  · rw [hd, hloc, and_local_or_world]
    exact ⟨fun _ => and_world_or_world _, h.2⟩

theorem FlagsOK_marked (L : MathLib K) {s s' : State K} (hm : Marked s s') (hF : FlagsOK L s) :
    FlagsOK L s' := by
  intro j n' hn'
  obtain ⟨n, hn, he, hd⟩ := hm.mk_get_inv hn'
  exact flags_ok_marked L (hF j n hn) he hd

/-- `entity_invalidate_tform(e, TFORM_LOCAL)` leaves a consistent state when every entity other
than `e` is consistent. -/
theorem FlagsOK_invalidate_local (L : MathLib K) {f : Nat} {s s' : State K} {e : Nat}
    (hF : ∀ j m, j ≠ e → s.node j = some m → m.flags_ok L)
    (h : entity_invalidate_tform f s e .TFORM_LOCAL = some s') : FlagsOK L s' := by
  simp only [entity_invalidate_tform, Option.bind_eq_bind] at h
  obtain ⟨s1, h1, h⟩ := Option.bind_eq_some.mp h
  have hmk := (inval_marked f).1 _ _ _ h
  obtain ⟨ne, hne, hwe⟩ := inval_world_dirty h
  intro j n' hn'
  obtain ⟨n1, hn1, he, hd⟩ := hmk.mk_get_inv hn'
  by_cases hj : j = e
  · subst hj
    rw [hne] at hn'
    obtain rfl := Option.some.inj hn'
    have hl1 : n1.ldirty := by
      rw [node_modify h1, if_pos rfl] at hn1
      rcases hn : s.node j with _ | n
      · rw [hn] at hn1; cases hn1
      · rw [hn] at hn1
        simp only [Option.map_some', Option.some.injEq] at hn1
        rw [← hn1]
        exact and_local_or_local _
    have hl : ne.ldirty := by
      unfold entity_t.ldirty at hl1 ⊢
      rcases hd with hd | hd
      · rw [hd]; exact hl1
      · rw [hd, and_local_or_world]; exact hl1
    exact ⟨fun _ => hwe, fun hc => absurd hl hc⟩
  · rw [node_modify h1, if_neg hj] at hn1
    exact flags_ok_marked L (hF j n1 hj hn1) he hd

theorem FlagsOK_invalidate (L : MathLib K) {f : Nat} {s s' : State K} {e : Nat}
    (g : tform_space_t) (hF : FlagsOK L s) (h : entity_invalidate_tform f s e g = some s') :
    FlagsOK L s' := by
  cases g with
  | TFORM_WORLD => exact FlagsOK_marked L ((inval_marked f).1 _ _ _ h) hF
  | TFORM_LOCAL => exact FlagsOK_invalidate_local L (fun j m _ hm => hF j m hm) h

theorem FlagsOK_write_local (L : MathLib K) {f : Nat} {s s' : State K} {e : Nat}
    (w : tform_write K) (hF : FlagsOK L s)
    (h : entity_write L f s e .TFORM_LOCAL w = some s') : FlagsOK L s' := by
  rw [write_local_eq] at h
  obtain ⟨s1, h1, h⟩ := Option.bind_eq_some.mp h
  refine FlagsOK_invalidate_local L (fun j m hj hm => ?_) h
  rw [node_modify h1, if_neg hj] at hm
  exact hF j m hm

theorem FlagsOK_get_local (L : MathLib K) {s s' : State K} {e : Nat} {M : Matrix K}
    (hF : FlagsOK L s) (h : entity_get_tform_local L s e = some (s', M)) :
    FlagsOK L s' ∧ (∃ n', s'.node e = some n' ∧ ¬ n'.ldirty) ∧
      ∀ j n n', s.node j = some n → s'.node j = some n' → n'.ldirty → n.ldirty := by
  rcases hn : s.node e with _ | n
  · simp [entity_get_tform_local, hn] at h
  obtain ⟨s1, h1, -, -, -, hfr, hne⟩ := get_local_spec L hn
  rw [h1] at h
  obtain ⟨rfl, -⟩ := Prod.mk.inj (Option.some.inj h)
  have hok : ∀ n', s1.node e = some n' → n'.flags_ok L ∧ ¬ n'.ldirty := by
    intro n' hn'
    rw [hne] at hn'
    obtain rfl := Option.some.inj hn'
    by_cases hd : n.dirty &&& TFORM_DIRTY_LOCAL ≠ 0
    · rw [if_pos hd]
      have hl := ldirty_clear_local n { n.loc with mat := tform_compose L n.loc }
      exact ⟨⟨fun hc => absurd hc hl, fun _ => (tform_compose_congr L rfl rfl rfl).symm⟩, hl⟩
    · rw [if_neg hd]
      exact ⟨hF e n hn, hd⟩
  refine ⟨fun j n' hn' => ?_, ?_, fun j m m' hm hm' hl => ?_⟩
  · by_cases hj : j = e
    · subst hj; exact (hok n' hn').1
    · rw [hfr j hj] at hn'; exact hF j n' hn'
  · rcases h' : s1.node e with _ | n'
    · rw [hne] at h'; cases h'
    · exact ⟨n', rfl, (hok n' h').2⟩
  · by_cases hj : j = e
    · subst hj; exact absurd hl (hok m' hm').2
    · rw [hfr j hj, hm] at hm'
      obtain rfl := Option.some.inj hm'
      exact hl

theorem FlagsOK_get_world (L : MathLib K) (fuel : Nat) :
    ∀ (s s' : State K) (e : Nat) (M : Matrix K), FlagsOK L s →
      entity_get_tform_world L fuel s e = some (s', M) →
      FlagsOK L s' ∧
        ∀ j n n', s.node j = some n → s'.node j = some n' → n'.ldirty → n.ldirty := by
  induction fuel with
  | zero => intro s s' e M _ h; simp [entity_get_tform_world] at h
  | succ fuel ih =>
    intro s s' e M hF h
    rw [get_world_succ] at h
    obtain ⟨n, hn, h⟩ := h
    rcases h with ⟨-, rfl, -⟩ | ⟨-, s1, Ml, s2, n2, hgl, hmatch, hn2, hs'⟩
    · exact ⟨hF, fun j m m' hm hm' hl => by
        rw [hm] at hm'; obtain rfl := Option.some.inj hm'; exact hl⟩
    · obtain ⟨F1, ⟨n1, hn1, hl1⟩, hmono1⟩ := FlagsOK_get_local L hF hgl
      have h12 : FlagsOK L s2 ∧
          ∀ j m m', s1.node j = some m → s2.node j = some m' → m'.ldirty → m.ldirty := by
        rcases hp : n.parent with _ | p
        · rw [hp] at hmatch
          rw [hmatch.1]
          exact ⟨F1, fun j m m' hm hm' hl => by
            rw [hm] at hm'; obtain rfl := Option.some.inj hm'; exact hl⟩
        · rw [hp] at hmatch
          obtain ⟨Mp, hr, -⟩ := hmatch
          exact ih _ _ _ _ F1 hr
      obtain ⟨F2, hmono2⟩ := h12
      have hl2 : ¬ n2.ldirty := fun hc => hl1 (hmono2 e n1 n2 hn1 hn2 hc)
      have hU := Upd_store_store s2 hn2
        { n2 with world := { n2.world with mat := M } }
        { n2 with
          world := { n2.world with mat := M },
          dirty := n2.dirty &&& bit_not TFORM_DIRTY_WORLD }
      rw [← hs'] at hU
      obtain ⟨-, -, -, hne, hfr⟩ := hU
      have hlc := ldirty_clear_world n2 { n2.world with mat := M }
      refine ⟨fun j m' hm' => ?_, fun j m m' hm hm' hl => ?_⟩
      · by_cases hj : j = e
        · subst hj
          rw [hne] at hm'
          obtain rfl := Option.some.inj hm'
          exact ⟨fun hc => absurd (hlc.mp hc) hl2, fun _ => (F2 j n2 hn2).2 hl2⟩
        · rw [hfr j hj] at hm'; exact F2 j m' hm'
      · by_cases hj : j = e
        · subst hj
          rw [hne] at hm'
          obtain rfl := Option.some.inj hm'
          exact absurd (hlc.mp hl) hl2
        · rw [hfr j hj] at hm'
          rcases h1j : s1.node j with _ | m1
          · have := (get_local_same_data L hgl).2.2.2 j
            rw [hm] at this
            obtain ⟨m1, hm1, -⟩ := this.2 m rfl
            rw [h1j] at hm1; cases hm1
          · exact hmono1 j m m1 hm h1j (hmono2 j m1 m' h1j hm' hl)

theorem FlagsOK_get_tform (L : MathLib K) {fuel : Nat} {s s' : State K} {e : Nat}
    {M : Matrix K} (g : tform_space_t) (hF : FlagsOK L s)
    (h : entity_get_tform L fuel s e g = some (s', M)) : FlagsOK L s' := by
  cases g with
  | TFORM_WORLD => exact (FlagsOK_get_world L fuel _ _ _ _ hF h).1
  | TFORM_LOCAL => exact (FlagsOK_get_local L hF h).1

theorem FlagsOK_write (L : MathLib K) {f : Nat} {s s' : State K} {e : Nat}
    (g : tform_space_t) (w : tform_write K) (hF : FlagsOK L s)
    (h : entity_write L f s e g w = some s') : FlagsOK L s' := by
  cases g with
  | TFORM_LOCAL => exact FlagsOK_write_local L w hF h
  | TFORM_WORLD =>
    cases w with
    | position v =>
      simp only [entity_write, entity_set_position, Option.bind_eq_bind] at h
      obtain ⟨n, hn, h⟩ := Option.bind_eq_some.mp h
      obtain ⟨r, hr, h⟩ := Option.bind_eq_some.mp h
      have F1 : FlagsOK L r.1 := by
        rcases hp : n.parent with _ | p
        · simp only [hp, Option.some.injEq] at hr
          rw [← hr]; exact hF
        · simp only [hp, Option.bind_eq_bind] at hr
          obtain ⟨a, ha, hr⟩ := Option.bind_eq_some.mp hr
          simp only [Option.some.injEq] at hr
          rw [← hr]
          exact FlagsOK_get_tform L .TFORM_WORLD hF (show _ = some (a.1, a.2) from ha)
      exact FlagsOK_write_local L (.position r.2) F1 h
    | tform v =>
      simp only [entity_write, entity_set_tform, Option.bind_eq_bind] at h
      obtain ⟨n, hn, h⟩ := Option.bind_eq_some.mp h
      obtain ⟨r, hr, h⟩ := Option.bind_eq_some.mp h
      have F1 : FlagsOK L r.1 := by
        rcases hp : n.parent with _ | p
        · simp only [hp, Option.some.injEq] at hr
          rw [← hr]; exact hF
        · simp only [hp, Option.bind_eq_bind] at hr
          obtain ⟨a, ha, hr⟩ := Option.bind_eq_some.mp hr
          simp only [Option.some.injEq] at hr
          rw [← hr]
          exact FlagsOK_get_tform L .TFORM_WORLD hF (show _ = some (a.1, a.2) from ha)
      exact FlagsOK_write_local L (.tform r.2) F1 h
    | scale v =>
      simp only [entity_write, entity_set_scale, Option.bind_eq_bind] at h
      obtain ⟨n, hn, h⟩ := Option.bind_eq_some.mp h
      obtain ⟨r, hr, h⟩ := Option.bind_eq_some.mp h
      exact FlagsOK_write_local L (.scale r) hF h
    | rotation v =>
      simp only [entity_write, entity_set_rotation, Option.bind_eq_bind] at h
      obtain ⟨n, hn, h⟩ := Option.bind_eq_some.mp h
      obtain ⟨r, hr, h⟩ := Option.bind_eq_some.mp h
      exact FlagsOK_write_local L (.rotation r) hF h

theorem flags_ok_both (L : MathLib K) {n : entity_t K}
    (h : n.dirty = TFORM_DIRTY_LOCAL ||| TFORM_DIRTY_WORLD) : n.flags_ok L := by
  unfold entity_t.flags_ok entity_t.ldirty entity_t.wdirty
  rw [h]
  exact ⟨fun _ => both_dirty_world, fun hc => absurd both_dirty_local hc⟩

theorem FlagsOK_create (L : MathLib K) {s s' : State K} {e : Nat} (hF : FlagsOK L s)
    (h : create_entity s = some (s', e)) : FlagsOK L s' := by
  obtain ⟨s1, hm, -, -, -, -, hfr, hn1⟩ := create_alloc s
  simp only [create_entity, Option.bind_eq_bind, hm, Option.some_bind] at h
  obtain ⟨s2, h2, h⟩ := Option.bind_eq_some.mp h
  obtain ⟨rfl, -⟩ := Prod.mk.inj (Option.some.inj h)
  refine FlagsOK_insert L _ (fun j n hn => ?_) h2
  by_cases hj : j = s.heap.length
  · subst hj
    rw [hn1] at hn
    obtain rfl := Option.some.inj hn
    exact flags_ok_both L rfl
  · rw [hfr j hj] at hn
    exact hF j n hn

theorem FlagsOK_copy (L : MathLib K) {s s' : State K} {e c : Nat} (hF : FlagsOK L s)
    (h : copy_entity s e = some (s', c)) : FlagsOK L s' := by
  simp only [copy_entity, Option.bind_eq_bind] at h
  obtain ⟨r, hr, h⟩ := Option.bind_eq_some.mp h
  obtain ⟨n, hn, h⟩ := Option.bind_eq_some.mp h
  obtain ⟨s2, h2, h⟩ := Option.bind_eq_some.mp h
  obtain ⟨rfl, -⟩ := Prod.mk.inj (Option.some.inj h)
  exact FlagsOK_modify L (FlagsOK_create L hF (show _ = some (r.1, r.2) from hr))
    (fun _ _ _ => flags_ok_both L rfl) h2

theorem FlagsOK_set_parent (L : MathLib K) {fuel : Nat} {s s' : State K} {e : Nat}
    {p : Option Nat} (hF : FlagsOK L s) (h : entity_set_parent fuel s e p = some s') :
    FlagsOK L s' := by
  simp only [entity_set_parent, Option.bind_eq_bind] at h
  obtain ⟨n, hn, h⟩ := Option.bind_eq_some.mp h
  by_cases hp : n.parent = p
  · rw [if_pos hp, Option.some.injEq] at h
    rw [← h]; exact hF
  · rw [if_neg hp] at h
    obtain ⟨s1, h1, h⟩ := Option.bind_eq_some.mp h
    obtain ⟨s2, h2, h⟩ := Option.bind_eq_some.mp h
    obtain ⟨s3, h3, h⟩ := Option.bind_eq_some.mp h
    exact FlagsOK_invalidate L .TFORM_WORLD (FlagsOK_insert L _
      (FlagsOK_links L (FlagsOK_remove L _ hF h1) h2 (fun _ => ⟨rfl, rfl⟩)) h3) h

theorem FlagsOK_init (L : MathLib K) : FlagsOK L (State.init : State K) := by
  intro i n hn
  rw [init_node] at hn
  cases hn

/-- Every state reachable through the API has consistent dirty words. -/
theorem ApiReachable.flags (L : MathLib K) {s : State K} (h : ApiReachable L s) :
    FlagsOK L s := by
  induction h with
  | init => exact FlagsOK_init L
  | create _ h ih => exact FlagsOK_create L ih h
  | copy _ h ih => exact FlagsOK_copy L ih h
  | free _ h ih => exact FlagsOK_free L ih h
  | set_parent _ h ih => exact FlagsOK_set_parent L ih h
  | set_name _ h ih => exact FlagsOK_links L ih h (fun _ => ⟨rfl, rfl⟩)
  | set_visible _ h ih => exact FlagsOK_links L ih h (fun _ => ⟨rfl, rfl⟩)
  | set_enabled _ h ih => exact FlagsOK_links L ih h (fun _ => ⟨rfl, rfl⟩)
  | set_position _ h ih => exact FlagsOK_write L _ (.position _) ih h
  | set_scale _ h ih => exact FlagsOK_write L _ (.scale _) ih h
  | set_rotation _ h ih => exact FlagsOK_write L _ (.rotation _) ih h
  | set_tform _ h ih => exact FlagsOK_write L _ (.tform _) ih h
  | get_tform _ h ih => exact FlagsOK_get_tform L _ ih h
  | @get_position s s' fuel e v g _ h ih =>
    cases g with
    | TFORM_WORLD =>
      simp only [entity_get_position, Option.bind_eq_bind] at h
      obtain ⟨r, hr, h⟩ := Option.bind_eq_some.mp h
      obtain ⟨rfl, -⟩ := Prod.mk.inj (Option.some.inj h)
      exact FlagsOK_get_tform L .TFORM_WORLD ih (show _ = some (r.1, r.2) from hr)
    | TFORM_LOCAL =>
      simp only [entity_get_position] at h
      rcases hn : s.node e with _ | n
      · rw [hn] at h; cases h
      · rw [hn] at h
        simp only [Option.map_some', Option.some.injEq, Prod.mk.injEq] at h
        rw [← h.1]; exact ih
  | invalidate _ h ih => exact FlagsOK_invalidate L _ ih h

/-- The states of `Reachable` are reachable through the API. -/
theorem Reachable.api (L : MathLib K) {s : State K} (h : Reachable L s) : ApiReachable L s := by
  induction h with
  | init => exact ApiReachable.init
  | create _ h ih => exact ApiReachable.create ih h
  | copy _ h ih => exact ApiReachable.copy ih h
  | set_parent _ _ h ih => exact ApiReachable.set_parent ih h
  | set_name _ h ih => exact ApiReachable.set_name ih h
  | set_visible _ h ih => exact ApiReachable.set_visible ih h
  | set_enabled _ h ih => exact ApiReachable.set_enabled ih h
  | set_position _ h ih => exact ApiReachable.set_position ih h
  | set_scale _ h ih => exact ApiReachable.set_scale ih h
  | set_rotation _ h ih => exact ApiReachable.set_rotation ih h
  | set_tform _ h ih => exact ApiReachable.set_tform ih h
  | get_tform _ h ih => exact ApiReachable.get_tform ih h
  | invalidate _ h ih => exact ApiReachable.invalidate ih h

end flagsok

end EntitySystem

set_option linter.unusedSectionVars false

namespace EntitySystem

section claims1

variable {K : Type} [LinearOrderedField K]

/-! ## Cache coherence and the world position -/

theorem scene8_node0 :
    (scene8 : State K).node 0 = some (ent none (some 1) none none (some 1) 3 Vector3Zero
      Vector3One) := rfl

theorem scene8_node1 :
    (scene8 : State K).node 1 = some (ent (some 0) (some 2) none none (some 2) 3 ⟨0, 0, -5⟩
      Vector3One) := rfl

theorem scene8_node2 :
    (scene8 : State K).node 2 = some (ent (some 1) none none none none 3 ⟨3, 0, 0⟩
      ⟨1 / 2, 1 / 2, 1 / 2⟩) := rfl

theorem WorldRef_live {L : MathLib K} {s : State K} {e : Nat} {M : Matrix K}
    (h : WorldRef L s e M) : ∃ n, s.node e = some n := by
  cases h with
  | root hn _ => exact ⟨_, hn⟩
  | child hn _ _ => exact ⟨_, hn⟩

/-- With enough fuel `entity_get_tform(e, TFORM_WORLD)` returns the reference matrix. -/
theorem get_world_ref (L : MathLib K) {s : State K} {e : Nat} {M : Matrix K} (hI : Inv L s)
    (hM : WorldRef L s e M) :
    ∃ f0 s', (∀ f, f0 ≤ f → entity_get_tform_world L f s e = some (s', M)) ∧ Inv L s' ∧
      Refreshed s s' ∧ ∃ n', s'.node e = some n' ∧ ¬ n'.wdirty := by
  obtain ⟨n, hn⟩ := WorldRef_live hM
  obtain ⟨f0, s', M', hrun, hI', hM', hR, n', hn', hw', -⟩ := get_world_total L hI hn
  obtain rfl := WorldRef_unique L hM hM'
  exact ⟨f0, s', hrun, hI', hR, n', hn', hw'⟩

/-- With enough fuel `entity_get_position(e, TFORM_WORLD)` returns the translation row of the
reference matrix. -/
theorem get_position_ref (L : MathLib K) {s : State K} {e : Nat} {M : Matrix K} (hI : Inv L s)
    (hM : WorldRef L s e M) :
    ∃ f0 s', (∀ f, f0 ≤ f →
        entity_get_position L f s e .TFORM_WORLD = some (s', ⟨M.m12, M.m13, M.m14⟩)) ∧
      Inv L s' ∧ Refreshed s s' := by
  obtain ⟨f0, s', hrun, hI', hR, -⟩ := get_world_ref L hI hM
  refine ⟨f0, s', fun f hf => ?_, hI', hR⟩
  simp only [entity_get_position, entity_get_tform, Option.bind_eq_bind, hrun f hf,
    Option.some_bind]

/-- C1 (cache coherence).  In every reachable state and for every allocated entity `e`,
`entity_get_tform(e, TFORM_LOCAL)` returns the matrix composed from the current local scale,
rotation and position of `e`, and with enough fuel `entity_get_tform(e, TFORM_WORLD)` returns
the uncached reference product `tform_world_ref` of the local matrices along the ancestor chain
of `e`: the local matrix for an entity without parent, and
`local(e) * (local(a) * local(r))` for a three-level chain `r -> a -> e`. -/
theorem cache_coherence (L : MathLib K) {s : State K} {e : Nat} {n : entity_t K}
    (hR : Reachable L s) (hn : s.node e = some n) :
    (∀ f, ∃ s1, entity_get_tform L f s e .TFORM_LOCAL = some (s1, tform_compose L n.loc)) ∧
    (∃ f0, ∀ f, f0 ≤ f → ∃ s2 M, entity_get_tform L f s e .TFORM_WORLD = some (s2, M) ∧
      tform_world_ref L f s e = some M) ∧
    (n.parent = none → ∃ f0, ∀ f, f0 ≤ f → ∃ s2,
      entity_get_tform L f s e .TFORM_WORLD = some (s2, tform_compose L n.loc)) ∧
    (∀ a r na nr, n.parent = some a → s.node a = some na → na.parent = some r →
      s.node r = some nr → nr.parent = none →
      ∃ f0, ∀ f, f0 ≤ f → ∃ s2, entity_get_tform L f s e .TFORM_WORLD =
        some (s2, MatrixMultiply (tform_compose L n.loc)
          (MatrixMultiply (tform_compose L na.loc) (tform_compose L nr.loc)))) := by
  have hI := hR.inv L
  refine ⟨fun f => ?_, ?_, fun hp => ?_, fun a r na nr hp hna hpa hnr hpr => ?_⟩
  · obtain ⟨s1, n1, h1, -⟩ := get_local_inv L hI hn
    exact ⟨s1, h1⟩
  · obtain ⟨f1, s2, M, hrun, -, hM, -⟩ := get_world_total L hI hn
    obtain ⟨f2, href⟩ := world_ref_fuel hM
    exact ⟨max f1 f2, fun f hf => ⟨s2, M, hrun f (le_trans (le_max_left _ _) hf),
      href f (le_trans (le_max_right _ _) hf)⟩⟩
  · obtain ⟨f0, s2, hrun, -⟩ := get_world_ref L hI (WorldRef.root hn hp)
    exact ⟨f0, fun f hf => ⟨s2, hrun f hf⟩⟩
  · obtain ⟨f0, s2, hrun, -⟩ := get_world_ref L hI
      (WorldRef.child hn hp (WorldRef.child hna hpa (WorldRef.root hnr hpr)))
    exact ⟨f0, fun f hf => ⟨s2, hrun f hf⟩⟩

/-- C1 instantiated at `child2` of the scene of `main`, a three-level chain. -/
theorem cache_coherence_witness :
    Reachable libQ (scene8 : State ℚ) ∧
    (scene8 : State ℚ).node 2 =
      some (ent (some 1) none none none none 3 ⟨3, 0, 0⟩ ⟨1 / 2, 1 / 2, 1 / 2⟩) ∧
    ∃ f0, ∀ f, f0 ≤ f → ∃ s2 M, entity_get_tform libQ f scene8 2 .TFORM_WORLD = some (s2, M) ∧
      tform_world_ref libQ f scene8 2 = some M :=
  ⟨scene8_reachable libQ, scene8_node2,
    (cache_coherence libQ (scene8_reachable libQ) scene8_node2).2.1⟩

/-- The reference matrix of an entity outside the subtree of `e` survives any change confined
to `e` that keeps the parent and the local transform of every other entity. -/
theorem WorldRef_off_subtree (L : MathLib K) {s s1 : State K} {e : Nat}
    (hfr : ∀ j m, j ≠ e → s.node j = some m →
      ∃ m', s1.node j = some m' ∧ m'.parent = m.parent ∧ m'.loc = m.loc)
    {p : Nat} {M : Matrix K} (hM : WorldRef L s p M) (hpe : p ≠ e)
    (hnd : ¬ Descendant s e p) : WorldRef L s1 p M := by
  refine WorldRef_transfer L (fun j => j ≠ e ∧ ¬ Descendant s e j) ?_ hM ⟨hpe, hnd⟩
  intro j m hj hm
  obtain ⟨m', hm', hp', hl'⟩ := hfr j m hj.1 hm
  refine ⟨m', hm', hp', by rw [hl'], fun q hq => ⟨fun hqe => ?_, fun hd => ?_⟩⟩
  · exact hj.2 (Descendant.child hm (hqe ▸ hq))
  · exact hj.2 (Descendant.step hm hq hd)

theorem write_frame_nodes {s s' : State K} {e : Nat}
    (h : ∀ j m, j ≠ e → s.node j = some m → ∃ d, s'.node j = some { m with dirty := d } ∧
      (d = m.dirty ∨ d = m.dirty ||| TFORM_DIRTY_WORLD)) :
    ∀ j m, j ≠ e → s.node j = some m →
      ∃ m', s'.node j = some m' ∧ m'.parent = m.parent ∧ m'.loc = m.loc := by
  intro j m hj hm
  obtain ⟨d, hd, -⟩ := h j m hj hm
  exact ⟨_, hd, rfl, rfl⟩

/-- C2 (world-position round trip).  In a reachable state, for an allocated entity `e` whose
parent, if it has one, has an invertible world matrix, and for every point `v`: with enough
fuel `entity_set_position(e, v, TFORM_WORLD)` returns and `entity_get_position(e, TFORM_WORLD)`
then returns `v`. -/
theorem world_position_round_trip (L : MathLib K) {s : State K} {e : Nat} {n : entity_t K}
    (hR : Reachable L s) (hn : s.node e = some n)
    (hM : ∀ p, n.parent = some p → ∃ M, WorldRef L s p M ∧ MatrixDeterminant M ≠ 0)
    (v : Vector3 K) :
    ∃ f0, ∀ f, f0 ≤ f → ∃ s1 s2, entity_set_position L f s e v .TFORM_WORLD = some s1 ∧
      entity_get_position L f s1 e .TFORM_WORLD = some (s2, v) := by
  have hI := hR.inv L
  rcases hp : n.parent with _ | p
  · obtain ⟨f1, s1, hrun, hI1, -, ⟨d, hn1, -⟩, -⟩ := write_local_spec L (.position v) hI hn
    have hW : WorldRef L s1 e _ := WorldRef.root hn1 hp
    obtain ⟨f2, s2, hget, -⟩ := get_position_ref L hI1 hW
    refine ⟨max f1 f2, fun f hf => ⟨s1, s2, ?_, ?_⟩⟩
    · have := hrun f (le_trans (le_max_left _ _) hf)
      rw [← write_world_root L f hn hp] at this
      exact this
    · rw [hget f (le_trans (le_max_right _ _) hf)]
      obtain ⟨h1, h2, h3, -⟩ := compose_row L
        ({ n with loc := write_loc L (.position v) n.loc, dirty := d } : entity_t K).loc
      rw [h1, h2, h3]
      rfl
  · obtain ⟨M', hM', hdet⟩ := hM p hp
    obtain ⟨f1, s0, M, s1, hrun, hI0, hR0, hWp, hI1⟩ := set_position_world_spec L hI hn hp v
    obtain rfl := WorldRef_unique L hM' hWp
    obtain ⟨n0, hn0, hsd⟩ := (hR0.1.2.2.2 e).2 n hn
    have hp0 : n0.parent = some p := (same_data_parent hsd).trans hp
    obtain ⟨-, -, ⟨d, hn1, -⟩, hfr⟩ := write_local_facts L hI0 hn0 (hrun f1 (le_refl _)).2.2
    obtain ⟨hpe, hpd⟩ := parent_not_descendant hI0.acyclic hn0 hp0
    have hWp1 : WorldRef L s1 p M' :=
      WorldRef_off_subtree L (write_frame_nodes hfr) (WorldRef_same_data L hR0.1 hWp) hpe hpd
    have hW : WorldRef L s1 e _ := WorldRef.child hn1 hp0 hWp1
    obtain ⟨f2, s2, hget, -⟩ := get_position_ref L hI1 hW
    refine ⟨max f1 f2, fun f hf => ⟨s1, s2, (hrun f (le_trans (le_max_left _ _) hf)).1, ?_⟩⟩
    rw [hget f (le_trans (le_max_right _ _) hf), world_position]
    exact congrArg (fun x => some (s2, x)) (transform_invert (WorldRef_affine hWp) hdet v)

/-- C2 instantiated at `child2` of the scene of `main` (its parent `child1` has a world matrix
of determinant one) and the point `(7, 8, 9)`. -/
theorem world_position_round_trip_witness :
    Reachable libQ (scene8 : State ℚ) ∧
    ∃ f0, ∀ f, f0 ≤ f → ∃ s1 s2,
      entity_set_position libQ f (scene8 : State ℚ) 2 ⟨7, 8, 9⟩ .TFORM_WORLD = some s1 ∧
      entity_get_position libQ f s1 2 .TFORM_WORLD = some (s2, ⟨7, 8, 9⟩) :=
  ⟨scene8_reachable libQ,
    world_position_round_trip libQ (scene8_reachable libQ) scene8_node2
      (fun p hp => by
        obtain rfl : 1 = p := Option.some.inj hp
        exact ⟨_, WorldRef.child scene8_node1 rfl (WorldRef.root scene8_node0 rfl),
          scene8_det libQ rfl rfl rfl rfl⟩)
      ⟨7, 8, 9⟩⟩

/-! ## Dirty flags -/

/-- C6 (downward-closed world-dirtiness).  In every reachable state, if an entity is
world-dirty then so is every descendant of it; equivalently every ancestor of a world-clean
entity is world-clean.  Reachability covers `create_entity`, `copy_entity`,
`entity_set_parent`, the setters, `entity_invalidate_tform` and `entity_get_tform`. -/
theorem world_dirty_closed (L : MathLib K) {s : State K} {a d : Nat} {na nd : entity_t K}
    (hR : Reachable L s) (hd : Descendant s a d) (hna : s.node a = some na)
    (hnd : s.node d = some nd) :
    (na.wdirty → nd.wdirty) ∧ (¬ nd.wdirty → ¬ na.wdirty) :=
  ⟨fun hw => closed_descendant (hR.inv L).closed hna hw hd nd hnd,
    fun hw => closed_ancestor_clean (hR.inv L).closed hd hnd hw hna⟩

/-- C6 instantiated at `center` and its grandchild `child2` in the scene of `main`. -/
theorem world_dirty_closed_witness :
    Reachable libQ (scene8 : State ℚ) ∧ Descendant (scene8 : State ℚ) 0 2 ∧
    (((ent none (some 1) none none (some 1) 3 Vector3Zero Vector3One : entity_t ℚ).wdirty →
      (ent (some 1) none none none none 3 ⟨3, 0, 0⟩ ⟨1 / 2, 1 / 2, 1 / 2⟩ : entity_t ℚ).wdirty) ∧
     (¬ (ent (some 1) none none none none 3 ⟨3, 0, 0⟩ ⟨1 / 2, 1 / 2, 1 / 2⟩ : entity_t ℚ).wdirty →
      ¬ (ent none (some 1) none none (some 1) 3 Vector3Zero Vector3One : entity_t ℚ).wdirty)) :=
  ⟨scene8_reachable libQ,
    Descendant.step scene8_node2 rfl (Descendant.child scene8_node1 rfl),
    world_dirty_closed libQ (scene8_reachable libQ)
      (Descendant.step scene8_node2 rfl (Descendant.child scene8_node1 rfl))
      scene8_node0 scene8_node2⟩

/-- C7 (dirty idempotence and short-circuit).  On an entity whose world-dirty bit is set,
`entity_invalidate_tform(e, TFORM_WORLD)` returns the state unchanged already with fuel 1, that
is without a recursive call on a child; and whenever a first invalidation returns a state `s'`,
a second one on `s'` returns `s'` itself, again with fuel 1.  In a reachable state the first
invalidation does return with enough fuel. -/
theorem invalidate_idempotent (L : MathLib K) {s : State K} {e : Nat} {n : entity_t K}
    (hn : s.node e = some n) :
    (n.wdirty → ∀ f, entity_invalidate_tform (f + 1) s e .TFORM_WORLD = some s) ∧
    (∀ f s', entity_invalidate_tform f s e .TFORM_WORLD = some s' →
      ∀ f', entity_invalidate_tform (f' + 1) s' e .TFORM_WORLD = some s') ∧
    (Reachable L s → ∃ f0 s', ∀ f, f0 ≤ f →
      entity_invalidate_tform f s e .TFORM_WORLD = some s' ∧
      entity_invalidate_tform 1 s' e .TFORM_WORLD = some s') := by
  refine ⟨fun hw f => inval_world_of_dirty f hn hw, fun f s' h f' => ?_, fun hR => ?_⟩
  · obtain ⟨n', hn', hw'⟩ := inval_world_dirty h
    exact inval_world_of_dirty f' hn' hw'
  · obtain ⟨kids, hk⟩ := (hR.inv L).wf
    obtain ⟨f0, s', h⟩ := inval_world_total hk (hR.inv L).acyclic hn
    obtain ⟨n', hn', hw'⟩ := inval_world_dirty (h f0 (le_refl _))
    exact ⟨f0, s', fun f hf => ⟨h f hf, inval_world_of_dirty 0 hn' hw'⟩⟩

/-- C7 instantiated at `child1` of the scene of `main`. -/
theorem invalidate_idempotent_witness :
    (scene8 : State ℚ).node 1 =
      some (ent (some 0) (some 2) none none (some 2) 3 ⟨0, 0, -5⟩ Vector3One) ∧
    ∀ f s', entity_invalidate_tform f (scene8 : State ℚ) 1 .TFORM_WORLD = some s' →
      ∀ f', entity_invalidate_tform (f' + 1) s' 1 .TFORM_WORLD = some s' :=
  ⟨scene8_node1, (invalidate_idempotent libQ (s := (scene8 : State ℚ)) scene8_node1).2.1⟩

/-! ## The scenario of `main` -/

/-- The reference world matrix of `child2` in the scene of `main`. -/
theorem scene8_world (L : MathLib K) :
    WorldRef L (scene8 : State K) 2
      (MatrixMultiply
        (tform_compose L (ent (some 1) none none none none 3 ⟨3, 0, 0⟩
          (⟨1 / 2, 1 / 2, 1 / 2⟩ : Vector3 K)).loc)
        (MatrixMultiply
          (tform_compose L (ent (some 0) (some 2) none none (some 2) 3 ⟨0, 0, -5⟩
            (Vector3One : Vector3 K)).loc)
          (tform_compose L (ent none (some 1) none none (some 1) 3 (Vector3Zero : Vector3 K)
            (Vector3One : Vector3 K)).loc))) :=
  WorldRef.child scene8_node2 rfl (WorldRef.child scene8_node1 rfl
    (WorldRef.root scene8_node0 rfl))

/-- The translation row of the reference world matrix of `child2` is `(3, 0, -5)`: the local
position `(3, 0, 0)` of `child2` enters unscaled. -/
theorem scene8_row (L : MathLib K) (h1 : L.acosf 1 = 0) (h2 : L.sqrtf 0 = 0)
    (h3 : L.sinf 0 = 0) (h4 : L.cosf 0 = 1) {M : Matrix K}
    (hM : WorldRef L (scene8 : State K) 2 M) :
    (⟨M.m12, M.m13, M.m14⟩ : Vector3 K) = ⟨3, 0, -5⟩ := by
  obtain rfl := WorldRef_unique L hM (scene8_world L)
  simp only [ent, compose_ident L h1 h2 h3 h4]
  simp [MatrixMultiply, Vector3One, Vector3Zero]

theorem set_parent_zero {s : State K} {e : Nat} {n : entity_t K} {p : Option Nat}
    (hn : s.node e = some n) (hp : n.parent ≠ p) : entity_set_parent 0 s e p = none := by
  simp only [entity_set_parent, Option.bind_eq_bind, hn, Option.some_bind, if_neg hp,
    entity_invalidate_tform, inval_world_zero]
  cases entity_remove s (some e) with
  | none => rfl
  | some s1 =>
    simp only [Option.some_bind]
    cases s1.modify e (fun n => { n with parent := p }) with
    | none => rfl
    | some s2 =>
      simp only [Option.some_bind]
      cases entity_insert s2 (some e) <;> rfl

theorem scenario_zero (L : MathLib K) : scenario L 0 = none := by
  have c1 : create_entity (State.init : State K) = some (scene1, 0) := rfl
  have c2 : create_entity (scene1 : State K) = some (scene2, 1) := rfl
  have c3 : create_entity (scene2 : State K) = some (scene3, 2) := rfl
  have h4 : entity_set_parent 0 (scene3 : State K) 1 (some 0) = none :=
    set_parent_zero (n := ent none none (some 2) (some 0) none 3 Vector3Zero Vector3One) rfl
      (by simp [ent])
  simp only [scenario, Option.bind_eq_bind, c1, c2, c3, Option.some_bind, h4, Option.none_bind]

/-- Whatever the scenario returns is `(3, 0, -5)`. -/
theorem scenario_value (L : MathLib K) (h1 : L.acosf 1 = 0) (h2 : L.sqrtf 0 = 0)
    (h3 : L.sinf 0 = 0) (h4 : L.cosf 0 = 1) {f : Nat} {s' : State K} {v : Vector3 K}
    (h : scenario L f = some (s', v)) : v = ⟨3, 0, -5⟩ := by
  cases f with
  | zero => rw [scenario_zero] at h; cases h
  | succ f =>
    rw [scenario_eq] at h
    simp only [entity_get_position, entity_get_tform, Option.bind_eq_bind,
      Option.bind_eq_some, Option.some.injEq, Prod.mk.injEq] at h
    obtain ⟨⟨s2, M⟩, hg, -, rfl⟩ := h
    exact scene8_row L h1 h2 h3 h4
      (get_world_inv L (f + 1) _ _ _ _ ((scene8_reachable L).inv L) hg).2.1

/-- C8, as the code behaves.  For a math library exact at `acosf 1`, `sqrtf 0`, `sinf 0` and
`cosf 0`: with enough fuel the scenario of `main` (fresh `center`, `child1`, `child2`;
`child1` under `center` at local position `(0, 0, -5)`; `child2` under `child1` with local
scale `0.5` and local position `(3, 0, 0)`) returns the world position `(3, 0, -5)` for
`child2`. -/
theorem scenario_position (L : MathLib K) (h1 : L.acosf 1 = 0) (h2 : L.sqrtf 0 = 0)
    (h3 : L.sinf 0 = 0) (h4 : L.cosf 0 = 1) :
    ∃ f0, ∀ f, f0 ≤ f → ∃ s', scenario L f = some (s', ⟨3, 0, -5⟩) := by
  obtain ⟨f0, s', hget, -⟩ := get_position_ref L ((scene8_reachable L).inv L) (scene8_world L)
  refine ⟨f0 + 1, fun f hf => ⟨s', ?_⟩⟩
  obtain ⟨f', rfl⟩ : ∃ f', f = f' + 1 := ⟨f - 1, by omega⟩
  rw [scenario_eq, hget (f' + 1) (by omega), scene8_row L h1 h2 h3 h4 (scene8_world L)]

/-- C8 instantiated at the math library `libQ` over the rationals. -/
theorem scenario_position_witness :
    (libQ.acosf 1 = 0 ∧ libQ.sqrtf 0 = 0 ∧ libQ.sinf 0 = 0 ∧ libQ.cosf 0 = 1) ∧
    ∃ f0, ∀ f, f0 ≤ f → ∃ s', scenario libQ f = some (s', (⟨3, 0, -5⟩ : Vector3 ℚ)) :=
  ⟨libQ_exact, scenario_position libQ rfl rfl rfl rfl⟩

/-- C8, counterexample to the value of the specification: over the rationals the scenario
returns `(3, 0, -5)`, and for no fuel does it return `(1.5, 0, -5)`. -/
theorem scenario_not_halved :
    (∃ f s', scenario libQ f = some (s', (⟨3, 0, -5⟩ : Vector3 ℚ))) ∧
    ¬ ∃ f s', scenario libQ f = some (s', (⟨3 / 2, 0, -5⟩ : Vector3 ℚ)) := by
  constructor
  · obtain ⟨f0, s', hget, -⟩ :=
      get_position_ref libQ ((scene8_reachable libQ).inv libQ) (scene8_world libQ)
    refine ⟨f0 + 1, s', ?_⟩
    rw [scenario_eq, hget (f0 + 1) (by omega),
      scene8_row libQ rfl rfl rfl rfl (scene8_world libQ)]
  · rintro ⟨f, s', h⟩
    have hv := scenario_value libQ rfl rfl rfl rfl h
    simp only [Vector3.mk.injEq] at hv
    norm_num at hv

/-! ## Destruction -/

theorem family_step (f : Nat) :
    entity_set_parent (f + 1) (scene4 : State K) 2 (some 0) = some family :=
  set_parent_eval f (n := ent none none none (some 0) none 3 Vector3Zero Vector3One)
    (m := ent (some 0) none none (some 1) none 3 Vector3Zero Vector3One) rfl (by simp [ent]) rfl
    rfl (ent_wdirty _ _ _ _ _ _ _)

theorem family_freed_step (f : Nat) :
    free_entity (f + 2) (family : State K) 0 = some family_freed := rfl

/-- The destruction scenario, run: `center` with the children `child1` and `child2`, then
`free_entity(center)`. -/
theorem free_scenario_eq (f : Nat) : free_scenario (f + 2) = some (family_freed : State K) := by
  have c1 : create_entity (State.init : State K) = some (scene1, 0) := rfl
  have c2 : create_entity (scene1 : State K) = some (scene2, 1) := rfl
  have c3 : create_entity (scene2 : State K) = some (scene3, 2) := rfl
  simp only [free_scenario, Option.bind_eq_bind, c1, c2, c3, Option.some_bind,
    scene4_step (f + 1), family_step (f + 1), family_freed_step]

/-- C3, failing run.  After `a = create_entity()`, `b = create_entity()`,
`c = create_entity()`, `entity_set_parent(b, a)`, `entity_set_parent(c, a)` and
`free_entity(a)`: the entity `c` is still allocated with parent `a`, but the child list of `a`
read from its head is empty while `a->last_child` is `c`; `c->pred` points to the released
`b`; and `a`, allocated and without parent, is not in the top-level list. -/
theorem free_breaks_lists (f : Nat) :
    free_scenario (f + 2) = some (family_freed : State K) ∧
    (∃ n, (family_freed : State K).node 2 = some n ∧ n.parent = some 0 ∧ n.pred = some 1) ∧
    (family_freed : State K).node 1 = none ∧
    sibling_list (family_freed : State K) (some 0) = [] ∧
    list_head (family_freed : State K) (some 0) = none ∧
    list_tail (family_freed : State K) (some 0) = some 2 ∧
    (∃ n, (family_freed : State K).node 0 = some n ∧ n.parent = none) ∧
    sibling_list (family_freed : State K) none = [] :=
  ⟨free_scenario_eq f, ⟨_, rfl, rfl, rfl⟩, rfl, rfl, rfl, rfl, ⟨_, rfl, rfl⟩, rfl⟩

/-- C5, failing run.  After `a = create_entity()`, `b = create_entity()`,
`c = create_entity()`, `entity_set_parent(b, a)`, `entity_set_parent(c, a)` and
`free_entity(a)`, only the first child `b` has been released: the second child `c` and `a`
itself are still allocated, and `c` still names `a` as its parent. -/
theorem free_keeps_subtree (f : Nat) :
    free_scenario (f + 2) = some (family_freed : State K) ∧
    (family_freed : State K).node 1 = none ∧
    (family_freed : State K).node 0 =
      some (ent none none none none (some 2) 3 Vector3Zero Vector3One) ∧
    (family_freed : State K).node 2 =
      some (ent (some 0) none none (some 1) none 3 Vector3Zero Vector3One) :=
  ⟨free_scenario_eq f, rfl, rfl, rfl⟩

/-! ## Reparenting -/

/-- The run of `entity_set_parent(e, p)` outside the no-op case, in a state satisfying the
invariant: with enough fuel it returns a state `s'` that satisfies the invariant, whose sibling
lists are those of `s` with `e` moved to the end of the list of `p`, in which `e` is world-dirty
and every entity keeps its payload up to the world-dirty bit. -/
theorem set_parent_spec (L : MathLib K) {s : State K} {kids : Option Nat → List Nat} {e : Nat}
    {n : entity_t K} {p : Option Nat} (hI : Inv L s) (hk : WFk s.skel none kids)
    (hn : s.node e = some n) (hne : n.parent ≠ p) (hv : s.skel.valid p)
    (hp : ∀ q, p = some q → q ≠ e ∧ ¬ Descendant s e q) :
    ∃ f0 s3 s', (∀ f, f0 ≤ f → entity_set_parent f s e p = some s') ∧ Inv L s' ∧
      Relinked s s3 e p ∧ Marked s3 s' ∧
      WFk s'.skel none
        (Function.update (Function.update kids n.parent ((kids n.parent).erase e)) p
          (Function.update kids n.parent ((kids n.parent).erase e) p ++ [e])) ∧
      (∀ r, s'.skel.valid r ↔ s.skel.valid r) ∧
      ∃ n', s'.node e = some n' ∧ n'.wdirty := by
  have hpe : p ≠ some e := fun hpe => (hp e hpe).1 rfl
  obtain ⟨s3, hsk, hw, hpay, -, hun⟩ := set_parent_unfold hk hI.acyclic hn hne hv hpe
  have hr := relinked_of_steps hsk hpay
  have hac3 := acyclic_relinked hI.acyclic hr hp
  obtain ⟨n3, hn3, -⟩ := (hr e).2 n hn
  obtain ⟨f0, s', hrun⟩ := inval_world_total hw hac3 hn3
  have hmk := (inval_marked f0).1 _ _ _ (hrun f0 (le_refl _))
  refine ⟨f0, s3, s', fun f hf => by rw [hun]; exact hrun f hf,
    Inv_relinked_inval L hI hr ⟨_, hw⟩ hac3 (hrun f0 (le_refl _)), hr, hmk,
    by rw [hmk.mk_skel]; exact hw, fun r => ?_, inval_world_dirty (hrun f0 (le_refl _))⟩
  rw [hmk.mk_skel, hsk, valid_insert, valid_set_parent, valid_remove]

/-- C4 (`entity_set_parent`).  In a reachable state, for an allocated entity `e` and a new
parent `p` that is `NULL` or an allocated entity other than `e` and its descendants: if `p` is
already the parent of `e` the call returns the state unchanged; otherwise, with enough fuel, it
returns a state in which the sibling list that held `e` is the old one with `e` erased, the
parent of `e` is `p`, the sibling list of `p` is the old one followed by `e`, every other
sibling list is unchanged, `e` and all its descendants are world-dirty, and every entity has
its local transform and its local-dirty bit unchanged. -/
theorem set_parent_correct (L : MathLib K) {s : State K} {e : Nat} {n : entity_t K}
    {p : Option Nat} (hR : Reachable L s) (hn : s.node e = some n)
    (hv : ∀ q, p = some q → ∃ m, s.node q = some m)
    (hp : ∀ q, p = some q → q ≠ e ∧ ¬ Descendant s e q) :
    (n.parent = p → ∀ f, entity_set_parent f s e p = some s) ∧
    (n.parent ≠ p → ∃ f0 s', (∀ f, f0 ≤ f → entity_set_parent f s e p = some s') ∧
      sibling_list s' n.parent = (sibling_list s n.parent).erase e ∧
      entity_get_parent s' e = some p ∧
      sibling_list s' p = sibling_list s p ++ [e] ∧
      (∀ r, r ≠ n.parent → r ≠ p → s.skel.valid r → sibling_list s' r = sibling_list s r) ∧
      (∀ d nd, (d = e ∨ Descendant s' e d) → s'.node d = some nd → nd.wdirty) ∧
      (∀ j nj, s.node j = some nj → ∃ nj', s'.node j = some nj' ∧ nj'.loc = nj.loc ∧
        (nj'.ldirty ↔ nj.ldirty))) := by
  have hI := hR.inv L
  refine ⟨fun hpp f => ?_, fun hne => ?_⟩
  · simp only [entity_set_parent, Option.bind_eq_bind, hn, Option.some_bind, if_pos hpp]
  obtain ⟨kids, hk⟩ := hI.wf
  have hvp : s.skel.valid p := by
    cases p with
    | none => trivial
    | some q =>
      obtain ⟨m, hm⟩ := hv q rfl
      exact ⟨m.links, by rw [skel_lk, hm]; rfl⟩
  have hvn : s.skel.valid n.parent := (hk.2.1 e n.links (by rw [skel_lk, hn]; rfl) (by simp)).2
  obtain ⟨f0, s3, s', hrun, hI', hr, hmk, hw', hval, n', hn', hwd'⟩ :=
    set_parent_spec L hI hk hn hne hvp hp
  refine ⟨f0, s', hrun, ?_, ?_, ?_, ?_, ?_, ?_⟩
  · rw [sibling_list_eq hw' ((hval _).mpr hvn), sibling_list_eq hk hvn,
      Function.update_noteq hne, Function.update_same]
  · obtain ⟨n0, hn0, -, -, -, -, hpar, -⟩ := marked_relinked_node hr hmk hn'
    simp only [if_true] at hpar
    simp only [entity_get_parent, hn', Option.map_some', hpar]
  · rw [sibling_list_eq hw' ((hval _).mpr hvp), sibling_list_eq hk hvp, Function.update_same,
      Function.update_noteq (Ne.symm hne)]
  · intro r hr1 hr2 hvr
    rw [sibling_list_eq hw' ((hval _).mpr hvr), sibling_list_eq hk hvr,
      Function.update_noteq hr2, Function.update_noteq hr1]
  · intro d nd hd hnd
    rcases hd with rfl | hd
    · rw [hn'] at hnd
      obtain rfl := Option.some.inj hnd
      exact hwd'
    · exact closed_descendant hI'.closed hn' hwd' hd nd hnd
  · intro j nj hnj
    obtain ⟨n3, hn3, -, -⟩ := (hr j).2 nj hnj
    obtain ⟨d, hd, -⟩ := hmk.get hn3
    obtain ⟨n0, hn0, hloc, -, hld, -⟩ := marked_relinked_node hr hmk hd
    rw [hnj] at hn0
    obtain rfl := Option.some.inj hn0
    exact ⟨_, hd, hloc, hld⟩

/-- C4 instantiated at the scene of `main`: `child2`, a child of `child1`, is put under
`center`. -/
theorem set_parent_correct_witness :
    Reachable libQ (scene8 : State ℚ) ∧
    ∃ f0 s', (∀ f, f0 ≤ f → entity_set_parent f (scene8 : State ℚ) 2 (some 0) = some s') ∧
      sibling_list s' (some 1) = (sibling_list (scene8 : State ℚ) (some 1)).erase 2 ∧
      entity_get_parent s' 2 = some (some 0) ∧
      sibling_list s' (some 0) = sibling_list (scene8 : State ℚ) (some 0) ++ [2] :=
  ⟨scene8_reachable libQ, by
    obtain ⟨f0, s', h1, h2, h3, h4, -⟩ :=
      (set_parent_correct libQ (p := some 0) (scene8_reachable libQ) scene8_node2
        (fun q hq => by cases hq; exact ⟨_, scene8_node0⟩)
        (fun q hq => by
          cases hq
          refine ⟨by decide, not_descendant_leaf (fun d n hn hp => ?_) 0⟩
          rcases scene_nodes hn with rfl | rfl | rfl <;> cases hp)).2 (by simp [ent])
    exact ⟨f0, s', h1, h2, h3, h4⟩⟩

/-! ## World scale and world rotation off the subtree of a changed entity -/

theorem get_scale_off_subtree {s s1 : State K} {e : Nat}
    (hfr : ∀ j m, j ≠ e → s.node j = some m →
      ∃ m', s1.node j = some m' ∧ m'.parent = m.parent ∧ m'.loc = m.loc) (f : Nat) :
    ∀ (p : Nat) (v : Vector3 K), p ≠ e → ¬ Descendant s e p →
      entity_get_scale_world f s p = some v → entity_get_scale_world f s1 p = some v := by
  induction f with
  | zero => intro p v _ _ h; simp [entity_get_scale_world] at h
  | succ f ih =>
    intro p v hpe hpd h
    rcases hn : s.node p with _ | n
    · simp [entity_get_scale_world, hn] at h
    obtain ⟨n', hn', hp', hl'⟩ := hfr p n hpe hn
    rcases hp : n.parent with _ | q
    · simp only [entity_get_scale_world, Option.bind_eq_bind, hn, Option.some_bind, hp] at h
      simp only [entity_get_scale_world, Option.bind_eq_bind, hn', Option.some_bind, hp'.trans hp,
        hl']
      exact h
    · simp only [entity_get_scale_world, Option.bind_eq_bind, hn, Option.some_bind, hp] at h
      simp only [entity_get_scale_world, Option.bind_eq_bind, hn', Option.some_bind,
        hp'.trans hp, hl']
      rcases hq : entity_get_scale_world f s q with _ | vq
      · rw [hq] at h; cases h
      · rw [hq] at h
        rw [ih q vq (fun hqe => hpd (Descendant.child hn (hqe ▸ hp)))
          (fun hd => hpd (Descendant.step hn hp hd)) hq]
        exact h

theorem get_rotation_off_subtree {s s1 : State K} {e : Nat}
    (hfr : ∀ j m, j ≠ e → s.node j = some m →
      ∃ m', s1.node j = some m' ∧ m'.parent = m.parent ∧ m'.loc = m.loc) (f : Nat) :
    ∀ (p : Nat) (v : Quaternion K), p ≠ e → ¬ Descendant s e p →
      entity_get_rotation_world f s p = some v → entity_get_rotation_world f s1 p = some v := by
  induction f with
  | zero => intro p v _ _ h; simp [entity_get_rotation_world] at h
  | succ f ih =>
    intro p v hpe hpd h
    rcases hn : s.node p with _ | n
    · simp [entity_get_rotation_world, hn] at h
    obtain ⟨n', hn', hp', hl'⟩ := hfr p n hpe hn
    rcases hp : n.parent with _ | q
    · simp only [entity_get_rotation_world, Option.bind_eq_bind, hn, Option.some_bind, hp] at h
      simp only [entity_get_rotation_world, Option.bind_eq_bind, hn', Option.some_bind,
        hp'.trans hp, hl']
      exact h
    · simp only [entity_get_rotation_world, Option.bind_eq_bind, hn, Option.some_bind, hp] at h
      simp only [entity_get_rotation_world, Option.bind_eq_bind, hn', Option.some_bind,
        hp'.trans hp, hl']
      rcases hq : entity_get_rotation_world f s q with _ | vq
      · rw [hq] at h; cases h
      · rw [hq] at h
        rw [ih q vq (fun hqe => hpd (Descendant.child hn (hqe ▸ hp)))
          (fun hd => hpd (Descendant.step hn hp hd)) hq]
        exact h

theorem normalize_unit (L : MathLib K) (q : Quaternion K) (hq : QuaternionLengthSqr q ≠ 0)
    (hs : L.sqrtf (QuaternionLengthSqr q) * L.sqrtf (QuaternionLengthSqr q) =
      QuaternionLengthSqr q) :
    QuaternionLengthSqr (QuaternionNormalize L q) = 1 := by
  have hl : L.sqrtf (QuaternionLengthSqr q) ≠ 0 := by
    intro h
    rw [h, mul_zero] at hs
    exact hq hs.symm
  have hl' : L.sqrtf (q.x * q.x + q.y * q.y + q.z * q.z + q.w * q.w) ≠ 0 := hl
  have hs' : L.sqrtf (q.x * q.x + q.y * q.y + q.z * q.z + q.w * q.w) *
      L.sqrtf (q.x * q.x + q.y * q.y + q.z * q.z + q.w * q.w) =
      q.x * q.x + q.y * q.y + q.z * q.z + q.w * q.w := hs
  simp only [QuaternionNormalize, QuaternionLengthSqr, if_neg hl']
  field_simp
  linear_combination hs'.symm

theorem normalize_zero (L : MathLib K) (q : Quaternion K)
    (h : L.sqrtf (QuaternionLengthSqr q) = 0) : QuaternionNormalize L q = q := by
  have h' : L.sqrtf (q.x * q.x + q.y * q.y + q.z * q.z + q.w * q.w) = 0 := h
  simp [QuaternionNormalize, h']

/-- Rotation writes as the code performs them.  In a reachable state, with enough fuel
`entity_set_rotation(e, q, g)` returns and stores as local rotation the normalization of a
quaternion `q'`, which is `q` in local space and on an entity without parent and
`inverse(parent_world_rot) * q` otherwise.  The stored rotation has squared norm 1 when `q'`
is not zero and `sqrtf` is exact at its squared norm, and is `q'` itself, unnormalized, when
the computed norm is zero.  `entity_set_tform` in local space stores the quaternion delivered
by `QuaternionFromMatrix` as it is, and `copy_entity` stores the rotation of its source. -/
theorem rotation_write_normalized (L : MathLib K) {s : State K} {e : Nat} {n : entity_t K}
    (hR : Reachable L s) (hn : s.node e = some n) (q : Quaternion K) (g : tform_space_t) :
    (∃ f0 s' q' n', (∀ f, f0 ≤ f → entity_set_rotation L f s e q g = some s') ∧
      (g = .TFORM_LOCAL ∨ n.parent = none → q' = q) ∧
      (∀ p, g = .TFORM_WORLD → n.parent = some p →
        ∃ pr, entity_get_rotation f0 s p .TFORM_WORLD = some pr ∧
          q' = QuaternionMultiply (QuaternionInvert L pr) q) ∧
      s'.node e = some n' ∧ n'.loc.rot = QuaternionNormalize L q' ∧
      (QuaternionLengthSqr q' ≠ 0 →
        L.sqrtf (QuaternionLengthSqr q') * L.sqrtf (QuaternionLengthSqr q') =
          QuaternionLengthSqr q' → QuaternionLengthSqr n'.loc.rot = 1) ∧
      (L.sqrtf (QuaternionLengthSqr q') = 0 → n'.loc.rot = q')) ∧
    (∀ m, ∃ f0 s' n', (∀ f, f0 ≤ f → entity_set_tform L f s e m .TFORM_LOCAL = some s') ∧
      s'.node e = some n' ∧ n'.loc.rot = L.QuaternionFromMatrix m) ∧
    (∃ s' nc, copy_entity s e = some (s', s.heap.length) ∧
      s'.node s.heap.length = some nc ∧ nc.loc.rot = n.loc.rot) := by
  have hI := hR.inv L
  have hloc : ∀ (q' : Quaternion K) (f0 : Nat) (s' : State K),
      (∀ f, f0 ≤ f → entity_set_rotation L f s e q g = some s' ∧
        entity_write L f s e .TFORM_LOCAL (.rotation q') = some s') →
      (g = .TFORM_LOCAL ∨ n.parent = none → q' = q) →
      (∀ p, g = .TFORM_WORLD → n.parent = some p →
        ∃ pr, entity_get_rotation f0 s p .TFORM_WORLD = some pr ∧
          q' = QuaternionMultiply (QuaternionInvert L pr) q) →
      ∃ f0 s' q' n', (∀ f, f0 ≤ f → entity_set_rotation L f s e q g = some s') ∧
      (g = .TFORM_LOCAL ∨ n.parent = none → q' = q) ∧
      (∀ p, g = .TFORM_WORLD → n.parent = some p →
        ∃ pr, entity_get_rotation f0 s p .TFORM_WORLD = some pr ∧
          q' = QuaternionMultiply (QuaternionInvert L pr) q) ∧
      s'.node e = some n' ∧ n'.loc.rot = QuaternionNormalize L q' ∧
      (QuaternionLengthSqr q' ≠ 0 →
        L.sqrtf (QuaternionLengthSqr q') * L.sqrtf (QuaternionLengthSqr q') =
          QuaternionLengthSqr q' → QuaternionLengthSqr n'.loc.rot = 1) ∧
      (L.sqrtf (QuaternionLengthSqr q') = 0 → n'.loc.rot = q') := by
    intro q' f0 s' h h1 h2
    obtain ⟨-, -, ⟨d, hd, -⟩, -⟩ := write_local_facts L hI hn (h f0 (le_refl _)).2
    exact ⟨f0, s', q', _, fun f hf => (h f hf).1, h1, h2, hd, rfl,
      fun hq hs => normalize_unit L q' hq hs, fun hz => normalize_zero L q' hz⟩
  refine ⟨?_, fun m => ?_, ?_⟩
  · cases g with
    | TFORM_LOCAL =>
      obtain ⟨f0, s', hrun, -⟩ := write_local_spec L (.rotation q) hI hn
      exact hloc q f0 s' (fun f hf => ⟨hrun f hf, hrun f hf⟩) (fun _ => rfl)
        (fun p hg => by cases hg)
    | TFORM_WORLD =>
      obtain hp | ⟨p, hp⟩ : n.parent = none ∨ ∃ p, n.parent = some p := by
        cases n.parent with
        | none => exact Or.inl rfl
        | some p => exact Or.inr ⟨p, rfl⟩
      · obtain ⟨f0, s', hrun, -⟩ := write_local_spec L (.rotation q) hI hn
        refine hloc q f0 s' (fun f hf => ⟨?_, hrun f hf⟩) (fun _ => rfl)
          (fun p _ hp' => by rw [hp] at hp'; cases hp')
        have := hrun f hf
        rw [← write_world_root L f hn hp] at this
        exact this
      · obtain ⟨f0, pr, s', hrun, -⟩ := set_rotation_world_spec L hI hn hp q
        refine hloc _ f0 s' (fun f hf => ⟨(hrun f hf).1, (hrun f hf).2.2⟩)
          (fun h => ?_) (fun p' _ hp' => ?_)
        · rcases h with h | h
          · cases h
          · rw [hp] at h; cases h
        · rw [hp] at hp'
          obtain rfl := Option.some.inj hp'
          exact ⟨pr, (hrun f0 (le_refl _)).2.1, rfl⟩
  · obtain ⟨f0, s', hrun, -, -, ⟨d, hd, -⟩, -⟩ := write_local_spec L (.tform m) hI hn
    exact ⟨f0, s', _, hrun, hd, rfl⟩
  · obtain ⟨kids, hk⟩ := hI.wf
    obtain ⟨s1, hc, -, -, hpay, hnew, -⟩ := create_spec hk
    have hel : e ≠ s.heap.length := fun h => by
      have := node_lt hn
      omega
    obtain ⟨n1, hn1⟩ : ∃ n1, s1.node e = some n1 := by
      have h := hpay e hel
      rw [hn] at h
      rcases h' : s1.node e with _ | n1
      · rw [h'] at h; cases h
      · exact ⟨n1, rfl⟩
    have hl1 : n1.loc = n.loc := by
      have h := hpay e hel
      rw [hn, hn1] at h
      simp only [Option.map_some', Option.some.injEq] at h
      exact (payload_fields h).2.1
    obtain ⟨m1, hm1⟩ : ∃ m1, s1.node s.heap.length = some m1 := by
      rcases h' : s1.node s.heap.length with _ | m1
      · rw [h'] at hnew; cases hnew
      · exact ⟨m1, rfl⟩
    have hcp : copy_entity s e = some (s1.store s.heap.length
        { m1 with
          name := n1.name, visible := n1.visible, enabled := n1.enabled,
          loc := { m1.loc with pos := n1.loc.pos, scale := n1.loc.scale, rot := n1.loc.rot },
          dirty := TFORM_DIRTY_LOCAL ||| TFORM_DIRTY_WORLD }, s.heap.length) := by
      simp only [copy_entity, Option.bind_eq_bind, hc, Option.some_bind, hn1,
        modify_of_node hm1]
    refine ⟨_, _, hcp, (node_store hm1 _ _).trans (if_pos rfl), ?_⟩
    show n1.loc.rot = n.loc.rot
    rw [hl1]

/-- The rotation write at `child2` of the scene of `main` with the identity quaternion. -/
theorem rotation_write_normalized_witness :
    Reachable libQ (scene8 : State ℚ) ∧
    ∃ f0 s' n', (∀ f, f0 ≤ f →
        entity_set_rotation libQ f (scene8 : State ℚ) 2 ⟨0, 0, 0, 1⟩ .TFORM_LOCAL = some s') ∧
      s'.node 2 = some n' ∧ QuaternionLengthSqr n'.loc.rot = 1 :=
  ⟨scene8_reachable libQ, by
    obtain ⟨f0, s', q', n', h1, h2, -, h4, -, h6, -⟩ :=
      (rotation_write_normalized libQ (scene8_reachable libQ) scene8_node2 ⟨0, 0, 0, 1⟩
        .TFORM_LOCAL).1
    have hq := h2 (Or.inl rfl)
    subst hq
    exact ⟨f0, s', n', h1, h4, h6 (by norm_num [QuaternionLengthSqr])
      (by norm_num [QuaternionLengthSqr, libQ])⟩⟩

/-- The zero quaternion is stored as it is: in the reachable state `scene1`,
`entity_set_rotation(center, (0, 0, 0, 0), TFORM_LOCAL)` stores the zero quaternion, whose
norm is 0. -/
theorem zero_rotation_stored :
    Reachable libQ (scene1 : State ℚ) ∧
    ∃ s' n', entity_set_rotation libQ 1 (scene1 : State ℚ) 0 ⟨0, 0, 0, 0⟩ .TFORM_LOCAL = some s' ∧
      s'.node 0 = some n' ∧ n'.loc.rot = ⟨0, 0, 0, 0⟩ ∧ QuaternionLengthSqr n'.loc.rot = 0 ∧
      QuaternionLength libQ n'.loc.rot = 0 := by
  refine ⟨scene1_reachable libQ, _,
    { (ent none none none none none 3 Vector3Zero Vector3One : entity_t ℚ) with
      loc := write_loc libQ (.rotation ⟨0, 0, 0, 0⟩)
        (ent none none none none none 3 Vector3Zero Vector3One : entity_t ℚ).loc
      dirty := 3 },
    write_local_eval libQ 0 (n := ent none none none none none 3 Vector3Zero Vector3One)
      (.rotation ⟨0, 0, 0, 0⟩) rfl rfl, ?_, ?_, ?_, ?_⟩
  · exact (node_store (s := (scene1 : State ℚ)) (i := 0)
      (m := ent none none none none none 3 Vector3Zero Vector3One) rfl _ _).trans (if_pos rfl)
  · simp [write_loc, QuaternionNormalize, libQ]
  · simp [write_loc, QuaternionNormalize, QuaternionLengthSqr, libQ]
  · simp [write_loc, QuaternionNormalize, QuaternionLength, QuaternionLengthSqr, libQ]

/-- C9, failing run.  In the state after `center = create_entity()`, for every math library,
every matrix `m` (for one, the scaling `MatrixScale(3, 1, 1)`) and either space,
`entity_set_tform(center, m, g)` returns and the local rotation of `center` afterwards is the
quaternion that `QuaternionFromMatrix(m)` delivers, as it is: it is not passed through
`QuaternionNormalize`, which `entity_set_rotation` applies, so it has norm 1 only when
`QuaternionFromMatrix` delivers a unit quaternion. -/
theorem set_tform_stores_raw (L : MathLib K) (m : Matrix K) (g : tform_space_t) (f : Nat) :
    Reachable L (scene1 : State K) ∧
    ∃ s' n', entity_set_tform L (f + 1) (scene1 : State K) 0 m g = some s' ∧
      s'.node 0 = some n' ∧ n'.loc.rot = L.QuaternionFromMatrix m ∧
      (QuaternionLengthSqr n'.loc.rot = 1 ↔
        QuaternionLengthSqr (L.QuaternionFromMatrix m) = 1) := by
  have hl : entity_write L (f + 1) (scene1 : State K) 0 .TFORM_LOCAL (.tform m) = _ :=
    write_local_eval L f (n := ent none none none none none 3 Vector3Zero Vector3One)
      (.tform m) rfl rfl
  have hw : entity_write L (f + 1) (scene1 : State K) 0 .TFORM_WORLD (.tform m) =
      entity_write L (f + 1) (scene1 : State K) 0 .TFORM_LOCAL (.tform m) :=
    write_world_root L (f + 1)
      (show (scene1 : State K).node 0 =
        some (ent none none none none none 3 Vector3Zero Vector3One) from rfl) rfl (.tform m)
  have hset : entity_set_tform L (f + 1) (scene1 : State K) 0 m g =
      some ((scene1 : State K).store 0
        { (ent none none none none none 3 Vector3Zero Vector3One : entity_t K) with
          loc := write_loc L (.tform m)
            (ent none none none none none 3 Vector3Zero Vector3One : entity_t K).loc
          dirty := 3 }) := by
    cases g with
    | TFORM_WORLD => exact hw.trans hl
    | TFORM_LOCAL => exact hl
  exact ⟨scene1_reachable L, _, _, hset,
    (node_store (s := (scene1 : State K)) (i := 0)
      (m := ent none none none none none 3 Vector3Zero Vector3One) rfl _ _).trans (if_pos rfl),
    rfl, Iff.rfl⟩

end claims1

end EntitySystem

set_option linter.unusedSectionVars false

namespace EntitySystem

section claims2

variable {K : Type} [LinearOrderedField K]

/-! ## Creation -/

theorem scene1_node0 :
    (scene1 : State K).node 0 = some (ent none none none none none 3 Vector3Zero Vector3One) :=
  rfl

theorem node_of_links_payload {s : State K} {j : Nat} {n' m : entity_t K}
    (hn' : s.node j = some n') (hl : n'.links = m.links) (hp : n'.payload = m.payload) :
    s.node j = some m := by
  rw [hn', links_payload_ext hl hp]

/-- C11 (`create_entity`).  In a reachable state `create_entity()` returns, at a fresh address,
an entity without parent, children or successor, whose predecessor is the former top-level
tail, with local position `(0,0,0)`, local scale `(1,1,1)`, identity local rotation, both dirty
bits set, visible and enabled; the top-level list becomes the old one followed by the new
entity, which is the new tail; and every entity that existed before is unchanged except that
the successor of the former top-level tail is the new entity. -/
theorem create_entity_correct (L : MathLib K) {s : State K} (hR : Reachable L s) :
    ∃ s' n', create_entity s = some (s', s.heap.length) ∧ s.node s.heap.length = none ∧
      s'.node s.heap.length = some n' ∧
      n'.parent = none ∧ n'.children = none ∧ n'.succ = none ∧ n'.last_child = none ∧
      n'.pred = list_tail s none ∧
      n'.loc.pos = Vector3Zero ∧ n'.loc.scale = Vector3One ∧ n'.loc.rot = QuaternionIdentity ∧
      n'.ldirty ∧ n'.wdirty ∧ n'.visible = true ∧ n'.enabled = true ∧
      sibling_list s' none = sibling_list s none ++ [s.heap.length] ∧
      list_tail s' none = some s.heap.length ∧
      (∀ j n, s.node j = some n → s'.node j =
        some { n with succ := if list_tail s none = some j then some s.heap.length else n.succ })
    := by
  obtain ⟨kids, hk⟩ := (hR.inv L).wf
  obtain ⟨s', hc, hsk, hw', hpay, hnew, -⟩ := create_spec hk
  have hnone : s.node s.heap.length = none := node_ge s (le_refl _)
  have hlkn : s.skel.lk s.heap.length = none := by rw [skel_lk, hnone]; rfl
  obtain ⟨n', hn'⟩ : ∃ n', s'.node s.heap.length = some n' := by
    rcases h' : s'.node s.heap.length with _ | m1
    · rw [h'] at hnew; cases hnew
    · exact ⟨m1, rfl⟩
  have hlk' : s'.skel.lk s.heap.length = some n'.links := by rw [skel_lk, hn']; rfl
  rw [hn'] at hnew
  simp only [Option.map_some', Option.some.injEq] at hnew
  have hd : n'.dirty = TFORM_DIRTY_LOCAL ||| TFORM_DIRTY_WORLD := congrArg entity_t.dirty hnew
  have hloc : n'.loc = ⟨QuaternionIdentity, Vector3Zero, Vector3One, tform_zero.mat⟩ :=
    congrArg entity_t.loc hnew
  have hlinks : n'.links = ⟨none, none, none, list_tail s none, none⟩ := by
    have h := hlk'
    rw [hsk] at h
    simp [Skel.insert, Skel.alloc, Skel.tail] at h
    rw [← h]
    rfl
  refine ⟨s', n', hc, hnone, hn', congrArg links_t.parent hlinks,
    congrArg links_t.children hlinks, congrArg links_t.succ hlinks,
    congrArg links_t.last_child hlinks, congrArg links_t.pred hlinks, ?_, ?_, ?_, ?_, ?_,
    congrArg entity_t.visible hnew, congrArg entity_t.enabled hnew, ?_, ?_, ?_⟩
  · show n'.loc.pos = _; rw [hloc]
  · show n'.loc.scale = _; rw [hloc]
  · show n'.loc.rot = _; rw [hloc]
  · simp only [entity_t.ldirty, hd]; exact both_dirty_local
  · simp only [entity_t.wdirty, hd]; exact both_dirty_world
  · rw [sibling_list_eq hw' (p := none) trivial, sibling_list_eq hk (p := none) trivial,
      Function.update_same]
  · rw [list_tail_skel, (hw'.1 none trivial).2, Function.update_same, lastOr_append]
  · intro j n hn
    have hj : j ≠ s.heap.length := fun h => by rw [h, hnone] at hn; cases hn
    obtain ⟨m, hm, hp⟩ : ∃ m, s'.node j = some m ∧ m.payload = n.payload := by
      have h := hpay j hj
      rw [hn] at h
      rcases h' : s'.node j with _ | m
      · rw [h'] at h; cases h
      · rw [h'] at h
        simp only [Option.map_some', Option.some.injEq] at h
        exact ⟨m, rfl, h⟩
    refine node_of_links_payload hm ?_ hp
    have h : s'.skel.lk j = some m.links := by rw [skel_lk, hm]; rfl
    rw [hsk] at h
    have hlj : s.skel.lk j = some n.links := by rw [skel_lk, hn]; rfl
    simp [Skel.insert, Skel.alloc, Skel.tail, hj, hlj] at h
    rw [← h]
    simp only [entity_t.links, list_tail, links_t.mk.injEq, true_and, and_true]
    rfl

/-- C11 instantiated at the state with the single entity `center`. -/
theorem create_entity_correct_witness :
    Reachable libQ (scene1 : State ℚ) ∧
    ∃ s' n', create_entity (scene1 : State ℚ) = some (s', 1) ∧ s'.node 1 = some n' ∧
      n'.pred = some 0 ∧ sibling_list s' none = [0, 1] :=
  ⟨scene1_reachable libQ, by
    obtain ⟨s', n', h1, -, h3, -, -, -, -, h8, -, -, -, -, -, -, -, h16, -⟩ :=
      create_entity_correct libQ (scene1_reachable libQ)
    exact ⟨s', n', h1, h3, h8, h16⟩⟩

/-! ## Local writes and reads -/

/-- A sequence of local-space writes on `e`: with enough fuel it returns, and the local
transform of `e` is the fold of `write_loc` over the sequence. -/
theorem writes_local_spec (L : MathLib K) {e : Nat} (ws : List (tform_write K)) :
    ∀ (s : State K) (n : entity_t K), Inv L s → s.node e = some n →
      ∃ f0 s' n', (∀ f, f0 ≤ f → entity_writes L f e .TFORM_LOCAL s ws = some s') ∧
        Inv L s' ∧ s'.node e = some n' ∧
        n'.loc = ws.foldl (fun t w => write_loc L w t) n.loc := by
  induction ws with
  | nil => intro s n hI hn; exact ⟨0, s, n, fun _ _ => rfl, hI, hn, rfl⟩
  | cons w ws ih =>
    intro s n hI hn
    obtain ⟨f1, s1, hrun, hI1, -, ⟨d, hd, -⟩, -⟩ := write_local_spec L w hI hn
    obtain ⟨f2, s', n', hrun2, hI', hn', hloc⟩ := ih s1 _ hI1 hd
    refine ⟨max f1 f2, s', n', fun f hf => ?_, hI', hn', hloc⟩
    simp only [entity_writes, hrun f (le_trans (le_max_left _ _) hf), Option.some_bind,
      hrun2 f (le_trans (le_max_right _ _) hf)]

theorem fold_pos (L : MathLib K) (p sc : Vector3 K) (q : Quaternion K)
    (ws : List (tform_write K)) :
    ∀ t : tform_t K, (∀ w ∈ ws, w = .position p ∨ w = .scale sc ∨ w = .rotation q) →
      (t.pos = p ∨ .position p ∈ ws) → (ws.foldl (fun t w => write_loc L w t) t).pos = p := by
  induction ws with
  | nil =>
    intro t _ h
    rcases h with h | h
    · exact h
    · cases h
  | cons w ws ih =>
    intro t hall h
    refine ih _ (fun w' hw' => hall w' (List.mem_cons_of_mem _ hw')) ?_
    rcases hall w (List.mem_cons_self _ _) with rfl | rfl | rfl
    · exact Or.inl rfl
    · rcases h with h | h
      · exact Or.inl h
      · rcases List.mem_cons.mp h with h | h
        · cases h
        · exact Or.inr h
    · rcases h with h | h
      · exact Or.inl h
      · rcases List.mem_cons.mp h with h | h
        · cases h
        · exact Or.inr h

theorem fold_scale (L : MathLib K) (p sc : Vector3 K) (q : Quaternion K)
    (ws : List (tform_write K)) :
    ∀ t : tform_t K, (∀ w ∈ ws, w = .position p ∨ w = .scale sc ∨ w = .rotation q) →
      (t.scale = sc ∨ .scale sc ∈ ws) →
      (ws.foldl (fun t w => write_loc L w t) t).scale = sc := by
  induction ws with
  | nil =>
    intro t _ h
    rcases h with h | h
    · exact h
    · cases h
  | cons w ws ih =>
    intro t hall h
    refine ih _ (fun w' hw' => hall w' (List.mem_cons_of_mem _ hw')) ?_
    rcases hall w (List.mem_cons_self _ _) with rfl | rfl | rfl
    · rcases h with h | h
      · exact Or.inl h
      · rcases List.mem_cons.mp h with h | h
        · cases h
        · exact Or.inr h
    · exact Or.inl rfl
    · rcases h with h | h
      · exact Or.inl h
      · rcases List.mem_cons.mp h with h | h
        · cases h
        · exact Or.inr h

theorem fold_rot (L : MathLib K) (p sc : Vector3 K) (q : Quaternion K)
    (ws : List (tform_write K)) :
    ∀ t : tform_t K, (∀ w ∈ ws, w = .position p ∨ w = .scale sc ∨ w = .rotation q) →
      (t.rot = QuaternionNormalize L q ∨ .rotation q ∈ ws) →
      (ws.foldl (fun t w => write_loc L w t) t).rot = QuaternionNormalize L q := by
  induction ws with
  | nil =>
    intro t _ h
    rcases h with h | h
    · exact h
    · cases h
  | cons w ws ih =>
    intro t hall h
    refine ih _ (fun w' hw' => hall w' (List.mem_cons_of_mem _ hw')) ?_
    rcases hall w (List.mem_cons_self _ _) with rfl | rfl | rfl
    · rcases h with h | h
      · exact Or.inl h
      · rcases List.mem_cons.mp h with h | h
        · cases h
        · exact Or.inr h
    · rcases h with h | h
      · exact Or.inl h
      · rcases List.mem_cons.mp h with h | h
        · cases h
        · exact Or.inr h
    · exact Or.inl rfl

theorem normalize_of_unit (L : MathLib K) (q : Quaternion K) (hq : QuaternionLengthSqr q = 1)
    (hs : L.sqrtf 1 = 1) : QuaternionNormalize L q = q := by
  have hq' : q.x * q.x + q.y * q.y + q.z * q.z + q.w * q.w = 1 := hq
  simp [QuaternionNormalize, hq', hs]

/-- C12 (local round trip).  In a reachable state, after the three local-space writes
`entity_set_position(e, p)`, `entity_set_scale(e, sc)` and `entity_set_rotation(e, q)`, in any
order `ws`, the local getters return exactly `p`, exactly `sc`, and the normalization of `q`,
which is `q` itself when `q` has unit norm (and `sqrtf 1 = 1`). -/
theorem local_round_trip (L : MathLib K) {s : State K} {e : Nat} {n : entity_t K}
    (hR : Reachable L s) (hn : s.node e = some n) (p sc : Vector3 K) (q : Quaternion K)
    (ws : List (tform_write K)) (hws : ws.Perm [.position p, .scale sc, .rotation q]) :
    ∃ f0 s', (∀ f, f0 ≤ f → entity_writes L f e .TFORM_LOCAL s ws = some s') ∧
      (∀ f, entity_get_position L f s' e .TFORM_LOCAL = some (s', p) ∧
        entity_get_scale f s' e .TFORM_LOCAL = some sc ∧
        entity_get_rotation f s' e .TFORM_LOCAL = some (QuaternionNormalize L q)) ∧
      (QuaternionLengthSqr q = 1 → L.sqrtf 1 = 1 → QuaternionNormalize L q = q) := by
  obtain ⟨f0, s', n', hrun, -, hn', hloc⟩ := writes_local_spec L ws s n (hR.inv L) hn
  have hall : ∀ w ∈ ws, w = .position p ∨ w = .scale sc ∨ w = .rotation q := by
    intro w hw
    have := hws.mem_iff.mp hw
    simpa using this
  have h1 := fold_pos L p sc q ws n.loc hall (Or.inr (hws.mem_iff.mpr (by simp)))
  have h2 := fold_scale L p sc q ws n.loc hall (Or.inr (hws.mem_iff.mpr (by simp)))
  have h3 := fold_rot L p sc q ws n.loc hall (Or.inr (hws.mem_iff.mpr (by simp)))
  rw [← hloc] at h1 h2 h3
  refine ⟨f0, s', hrun, fun f => ⟨?_, ?_, ?_⟩, fun hq hs => normalize_of_unit L q hq hs⟩
  · simp only [entity_get_position, hn', Option.map_some', h1]
  · simp only [entity_get_scale, hn', Option.map_some', h2]
  · simp only [entity_get_rotation, hn', Option.map_some', h3]

/-- C12 instantiated at `child2` of the scene of `main`, the writes in the order scale,
position, rotation. -/
theorem local_round_trip_witness :
    Reachable libQ (scene8 : State ℚ) ∧
    ∃ f0 s', (∀ f, f0 ≤ f → entity_writes libQ f 2 .TFORM_LOCAL (scene8 : State ℚ)
        [.scale ⟨4, 5, 6⟩, .position ⟨1, 2, 3⟩, .rotation ⟨0, 0, 0, 1⟩] = some s') ∧
      (∀ f, entity_get_position libQ f s' 2 .TFORM_LOCAL = some (s', ⟨1, 2, 3⟩) ∧
        entity_get_scale f s' 2 .TFORM_LOCAL = some ⟨4, 5, 6⟩ ∧
        entity_get_rotation f s' 2 .TFORM_LOCAL =
          some (QuaternionNormalize libQ ⟨0, 0, 0, 1⟩)) :=
  ⟨scene8_reachable libQ, by
    obtain ⟨f0, s', h1, h2, -⟩ := local_round_trip libQ (scene8_reachable libQ) scene8_node2
      ⟨1, 2, 3⟩ ⟨4, 5, 6⟩ ⟨0, 0, 0, 1⟩ _ (List.Perm.swap _ _ _)
    exact ⟨f0, s', h1, h2⟩⟩

/-! ## Dirty flags after writes and reads -/

/-- C13 (writes leave the transform dirty).  In a reachable state, each of
`entity_set_position`, `entity_set_scale`, `entity_set_rotation` and `entity_set_tform` (the
write `w`), in local or in world space (`g`), returns with enough fuel, and afterwards both the
local-dirty and the world-dirty bit of `e` are set and the world-dirty bit of every descendant
of `e` is set. -/
theorem writes_leave_dirty (L : MathLib K) {s : State K} {e : Nat} {n : entity_t K}
    (hR : Reachable L s) (hn : s.node e = some n) (g : tform_space_t) (w : tform_write K) :
    ∃ f0 s', (∀ f, f0 ≤ f → entity_write L f s e g w = some s') ∧
      (∃ n', s'.node e = some n' ∧ n'.ldirty ∧ n'.wdirty) ∧
      (∀ d nd, Descendant s e d → s'.node d = some nd → nd.wdirty) ∧
      (∀ d, Descendant s' e d ↔ Descendant s e d) := by
  obtain ⟨f0, s', hrun, hI', hsk, n', hn', hl', hw'⟩ := write_spec L g w (hR.inv L) hn
  refine ⟨f0, s', hrun, ⟨n', hn', hl', hw'⟩, fun d nd hd hnd => ?_, fun d => ?_⟩
  · exact closed_descendant hI'.closed hn' hw' (Descendant_skel hsk hd) nd hnd
  · exact ⟨Descendant_skel hsk.symm, Descendant_skel hsk⟩

/-- C13 instantiated at `child1` of the scene of `main` and a world-space position write. -/
theorem writes_leave_dirty_witness :
    Reachable libQ (scene8 : State ℚ) ∧
    ∃ f0 s', (∀ f, f0 ≤ f →
        entity_set_position libQ f (scene8 : State ℚ) 1 ⟨1, 2, 3⟩ .TFORM_WORLD = some s') ∧
      (∃ n', s'.node 1 = some n' ∧ n'.ldirty ∧ n'.wdirty) ∧
      (∀ d nd, Descendant (scene8 : State ℚ) 1 d → s'.node d = some nd → nd.wdirty) :=
  ⟨scene8_reachable libQ, by
    obtain ⟨f0, s', h1, h2, h3, -⟩ := writes_leave_dirty libQ (scene8_reachable libQ)
      scene8_node1 .TFORM_WORLD (.position ⟨1, 2, 3⟩)
    exact ⟨f0, s', h1, h2, h3⟩⟩

/-- C14 (reads leave the queried space clean).  In a reachable state:
`entity_get_tform(e, TFORM_LOCAL)` returns in a state where the local-dirty bit of `e` is clear,
its world-dirty bit is as before and every other entity is unchanged; with enough fuel
`entity_get_tform(e, TFORM_WORLD)` and `entity_get_position(e, TFORM_WORLD)` return in a state
where both dirty bits of `e` and of every ancestor of `e` are clear and every entity that is
neither `e` nor an ancestor of `e` is unchanged.  In both cases every entity keeps its links,
its local rotation, position and scale (`SameData`). -/
theorem reads_leave_clean (L : MathLib K) {s : State K} {e : Nat} {n : entity_t K}
    (hR : Reachable L s) (hn : s.node e = some n) :
    (∃ s1 n1, (∀ f, entity_get_tform L f s e .TFORM_LOCAL = some (s1, tform_compose L n.loc)) ∧
      s1.node e = some n1 ∧ ¬ n1.ldirty ∧ (n1.wdirty ↔ n.wdirty) ∧ SameData s s1 ∧
      ∀ j, j ≠ e → s1.node j = s.node j) ∧
    (∃ f0 s2 M, (∀ f, f0 ≤ f → entity_get_tform L f s e .TFORM_WORLD = some (s2, M) ∧
        entity_get_position L f s e .TFORM_WORLD = some (s2, ⟨M.m12, M.m13, M.m14⟩)) ∧
      (∀ a na, (a = e ∨ Descendant s a e) → s2.node a = some na →
        ¬ na.wdirty ∧ ¬ na.ldirty) ∧
      SameData s s2 ∧
      ∀ j, j ≠ e → ¬ Descendant s j e → s2.node j = s.node j) := by
  have hI := hR.inv L
  constructor
  · obtain ⟨s1, n1, h1, -, hR1, hU, -, hl1, hw1, -⟩ := get_local_inv L hI hn
    exact ⟨s1, n1, fun _ => h1, hU.2.2.2.1, hl1, hw1, hR1.1, hU.2.2.2.2⟩
  · obtain ⟨f0, s2, M, hrun, hI2, -, hR2, n2, hn2, hw2, -⟩ := get_world_total L hI hn
    refine ⟨f0, s2, M, fun f hf => ⟨hrun f hf, ?_⟩, fun a na ha hna => ?_, hR2.1,
      get_world_frame L f0 s s2 e M (hrun f0 (le_refl _))⟩
    · simp only [entity_get_position, entity_get_tform, Option.bind_eq_bind, hrun f hf,
        Option.some_bind]
    · refine get_world_clean L hI2 hn2 hw2 a na ?_ hna
      rcases ha with ha | ha
      · exact Or.inl ha
      · exact Or.inr ((Descendant_same_data hR2.1).mpr ha)

/-- C14 instantiated at `child2` of the scene of `main`. -/
theorem reads_leave_clean_witness :
    Reachable libQ (scene8 : State ℚ) ∧
    ∃ f0 s2 M, (∀ f, f0 ≤ f →
        entity_get_tform libQ f (scene8 : State ℚ) 2 .TFORM_WORLD = some (s2, M)) ∧
      (∀ a na, (a = 2 ∨ Descendant (scene8 : State ℚ) a 2) → s2.node a = some na →
        ¬ na.wdirty ∧ ¬ na.ldirty) :=
  ⟨scene8_reachable libQ, by
    obtain ⟨f0, s2, M, h1, h2, -⟩ :=
      (reads_leave_clean libQ (scene8_reachable libQ) scene8_node2).2
    exact ⟨f0, s2, M, fun f hf => (h1 f hf).1, h2⟩⟩

/-! ## World scale and world rotation -/

theorem scale_product_some {l : List (entity_t K)} (hl : l ≠ []) : ∃ v, scale_product l = some v := by
  cases l with
  | nil => exact absurd rfl hl
  | cons a l => exact ⟨_, rfl⟩

theorem rotation_product_some {l : List (entity_t K)} (hl : l ≠ []) :
    ∃ q, rotation_product l = some q := by
  cases l with
  | nil => exact absurd rfl hl
  | cons a l => exact ⟨_, rfl⟩

theorem Vector3Multiply_comm (a b : Vector3 K) : Vector3Multiply a b = Vector3Multiply b a := by
  simp only [Vector3Multiply, mul_comm]

/-- C15 (world scale).  In a state with intact sibling lists and acyclic parent links, with enough
fuel `entity_get_scale(e, TFORM_WORLD)` returns a value `v` that is the product of the local
scales along the ancestor chain of `e` (`chain_down`, root first, `e` last); for a node without
parent `v` is its local scale; for a node with parent `p`, `v` is the component-wise product of
the world scale of `p` and the local scale of `e` (in either order).  The getter takes the state
and returns only a value: it has no state to change. -/
theorem world_scale_product {s : State K} (hwf : WFx s.skel none) (hac : Acyclic s.skel)
    {e : Nat} {n : entity_t K} (hn : s.node e = some n) :
    ∃ f0 v l, (∀ f, f0 ≤ f → entity_get_scale f s e .TFORM_WORLD = some v ∧
        chain_down f s e = some l) ∧
      scale_product l = some v ∧
      (n.parent = none → v = n.loc.scale) ∧
      ∀ p, n.parent = some p → ∃ vp, (∀ f, f0 ≤ f →
          entity_get_scale f s p .TFORM_WORLD = some vp) ∧
        v = Vector3Multiply vp n.loc.scale ∧ v = Vector3Multiply n.loc.scale vp := by
  obtain ⟨kids, hwf⟩ := hwf
  obtain ⟨f0, l, hl, hch⟩ := chain_down_total hwf hac hn
  obtain ⟨v, hv⟩ := scale_product_some hl
  have hsc : ∀ f, f0 ≤ f → entity_get_scale_world f s e = some v := by
    intro f hf
    rw [get_scale_chain, hch f hf]
    exact hv
  obtain hp | ⟨p, hp⟩ : n.parent = none ∨ ∃ p, n.parent = some p := by
    cases n.parent with
    | none => exact Or.inl rfl
    | some p => exact Or.inr ⟨p, rfl⟩
  · refine ⟨f0, v, l, fun f hf => ⟨hsc f hf, hch f hf⟩, hv, fun _ => ?_, fun p hp' => ?_⟩
    · have h := hsc (f0 + 1) (Nat.le_succ _)
      simp only [entity_get_scale_world, Option.bind_eq_bind, hn, Option.some_bind, hp,
        Option.some.injEq] at h
      exact h.symm
    · rw [hp] at hp'
      exact absurd hp' (by simp)
  · obtain ⟨m, hm⟩ := parent_live hwf hn hp
    obtain ⟨f1, vp, hvp⟩ := get_scale_total hwf hac hm
    have h := hsc (max f0 f1 + 1) (le_trans (le_max_left _ _) (Nat.le_succ _))
    simp only [entity_get_scale_world, Option.bind_eq_bind, hn, Option.some_bind, hp,
      hvp _ (le_max_right f0 f1), Option.some.injEq] at h
    refine ⟨max f0 f1, v, l, fun f hf => ⟨hsc f (le_trans (le_max_left _ _) hf),
      hch f (le_trans (le_max_left _ _) hf)⟩, hv, fun hp' => ?_, fun q hq => ?_⟩
    · rw [hp] at hp'
      exact absurd hp' (by simp)
    · rw [hp] at hq
      cases hq
      exact ⟨vp, fun f hf => hvp f (le_trans (le_max_right _ _) hf), h.symm,
        h.symm.trans (Vector3Multiply_comm _ _)⟩

/-- C15 instantiated at `child2` of the scene of `main`. -/
theorem world_scale_product_witness :
    WFx (scene8 : State ℚ).skel none ∧ Acyclic (scene8 : State ℚ).skel ∧
    ∃ f0 v l, (∀ f, f0 ≤ f → entity_get_scale f (scene8 : State ℚ) 2 .TFORM_WORLD = some v ∧
        chain_down f (scene8 : State ℚ) 2 = some l) ∧ scale_product l = some v :=
  ⟨((scene8_reachable libQ).inv libQ).wf, ((scene8_reachable libQ).inv libQ).acyclic, by
    obtain ⟨f0, v, l, h1, h2, -⟩ := world_scale_product
      ((scene8_reachable libQ).inv libQ).wf ((scene8_reachable libQ).inv libQ).acyclic
      scene8_node2
    exact ⟨f0, v, l, h1, h2⟩⟩

/-- C16 (world rotation).  In a state with intact sibling lists and acyclic parent links, with
enough fuel `entity_get_rotation(e, TFORM_WORLD)` returns a value `q` that is the ordered
product of the local rotations along the ancestor chain of `e` (`chain_down`, the root on the
left, `e` on the right); for a node without parent `q` is its local rotation; for a node with
parent `p`, `q` is `QuaternionMultiply` of the world rotation of `p` (left) and the local rotation
of `e` (right). -/
theorem world_rotation_product {s : State K} (hwf : WFx s.skel none) (hac : Acyclic s.skel)
    {e : Nat} {n : entity_t K} (hn : s.node e = some n) :
    ∃ f0 q l, (∀ f, f0 ≤ f → entity_get_rotation f s e .TFORM_WORLD = some q ∧
        chain_down f s e = some l) ∧
      rotation_product l = some q ∧
      (n.parent = none → q = n.loc.rot) ∧
      ∀ p, n.parent = some p → ∃ pr, (∀ f, f0 ≤ f →
          entity_get_rotation f s p .TFORM_WORLD = some pr) ∧
        q = QuaternionMultiply pr n.loc.rot := by
  obtain ⟨kids, hwf⟩ := hwf
  obtain ⟨f0, l, hl, hch⟩ := chain_down_total hwf hac hn
  obtain ⟨v, hv⟩ := rotation_product_some hl
  have hsc : ∀ f, f0 ≤ f → entity_get_rotation_world f s e = some v := by
    intro f hf
    rw [get_rotation_chain, hch f hf]
    exact hv
  obtain hp | ⟨p, hp⟩ : n.parent = none ∨ ∃ p, n.parent = some p := by
    cases n.parent with
    | none => exact Or.inl rfl
    | some p => exact Or.inr ⟨p, rfl⟩
  · refine ⟨f0, v, l, fun f hf => ⟨hsc f hf, hch f hf⟩, hv, fun _ => ?_, fun p hp' => ?_⟩
    · have h := hsc (f0 + 1) (Nat.le_succ _)
      simp only [entity_get_rotation_world, Option.bind_eq_bind, hn, Option.some_bind, hp,
        Option.some.injEq] at h
      exact h.symm
    · rw [hp] at hp'
      exact absurd hp' (by simp)
  · obtain ⟨m, hm⟩ := parent_live hwf hn hp
    obtain ⟨f1, vp, hvp⟩ := get_rotation_total hwf hac hm
    have h := hsc (max f0 f1 + 1) (le_trans (le_max_left _ _) (Nat.le_succ _))
    simp only [entity_get_rotation_world, Option.bind_eq_bind, hn, Option.some_bind, hp,
      hvp _ (le_max_right f0 f1), Option.some.injEq] at h
    refine ⟨max f0 f1, v, l, fun f hf => ⟨hsc f (le_trans (le_max_left _ _) hf),
      hch f (le_trans (le_max_left _ _) hf)⟩, hv, fun hp' => ?_, fun q hq => ?_⟩
    · rw [hp] at hp'
      exact absurd hp' (by simp)
    · rw [hp] at hq
      cases hq
      exact ⟨vp, fun f hf => hvp f (le_trans (le_max_right _ _) hf), h.symm⟩

/-- C16 instantiated at `child2` of the scene of `main`. -/
theorem world_rotation_product_witness :
    WFx (scene8 : State ℚ).skel none ∧ Acyclic (scene8 : State ℚ).skel ∧
    ∃ f0 q l, (∀ f, f0 ≤ f → entity_get_rotation f (scene8 : State ℚ) 2 .TFORM_WORLD = some q ∧
        chain_down f (scene8 : State ℚ) 2 = some l) ∧ rotation_product l = some q :=
  ⟨((scene8_reachable libQ).inv libQ).wf, ((scene8_reachable libQ).inv libQ).acyclic, by
    obtain ⟨f0, q, l, h1, h2, -⟩ := world_rotation_product
      ((scene8_reachable libQ).inv libQ).wf ((scene8_reachable libQ).inv libQ).acyclic
      scene8_node2
    exact ⟨f0, q, l, h1, h2⟩⟩

/-! ## The sibling-list primitives -/

theorem loose_node1 :
    (loose : State K).node 1 = some (ent none none none none none 3 Vector3Zero Vector3One) :=
  rfl

theorem scene3_node1 :
    (scene3 : State K).node 1 =
      some (ent none none (some 2) (some 0) none 3 Vector3Zero Vector3One) := rfl

theorem loose_skel : (loose : State K).skel = (scene1 : State K).skel.alloc 1 := by
  simp only [State.skel, Skel.alloc, Skel.mk.injEq]
  refine ⟨?_, rfl, rfl⟩
  funext j
  match j with
  | 0 => rfl
  | 1 => rfl
  | _ + 2 => rfl

theorem loose_wf (L : MathLib K) : WFx (loose : State K).skel (some 1) := by
  obtain ⟨kids, hk⟩ := ((scene1_reachable L).inv L).wf
  rw [loose_skel]
  exact ⟨kids, WFk_alloc hk rfl⟩

theorem loose_acyclic : Acyclic (loose : State K).skel := by
  refine ⟨fun _ => 0, fun i n q hn hq => ?_⟩
  match i, hn with
  | 0, hn => cases hn; cases hq
  | 1, hn => cases hn; cases hq
  | _ + 2, hn => cases hn

/-- C17 (`entity_insert`).  In a state whose sibling lists are intact with `e` allocated but in
no list, whose parent links are acyclic and where the parent of `e` is `NULL` or allocated,
`entity_insert(e)` returns; afterwards the target list (owned by the parent of `e`, the
top-level list if there is none), read from its head along `succ`, is the old list followed by
`e`; `e.succ` is `NULL`, `e.pred` is the old tail pointer, which is the last element of the old
list (`NULL` if it was empty); the head pointer is the first element of the new list (so `e` if
the old list was empty), the tail pointer is `e`; the list of every other owner is unchanged,
and so are all fields of all entities other than the five link fields. -/
theorem entity_insert_appends {s : State K} {e : Nat} {n : entity_t K}
    (hwf : WFx s.skel (some e)) (hac : Acyclic s.skel) (hn : s.node e = some n)
    (hv : s.skel.valid n.parent) :
    ∃ s' n', entity_insert s (some e) = some s' ∧
      sibling_list s' n.parent = sibling_list s n.parent ++ [e] ∧
      s'.node e = some n' ∧ n'.parent = n.parent ∧ n'.succ = none ∧
      n'.pred = list_tail s n.parent ∧
      list_tail s n.parent = (sibling_list s n.parent).getLast? ∧
      list_head s' n.parent = (sibling_list s n.parent ++ [e]).head? ∧
      list_tail s' n.parent = some e ∧
      (∀ p, p ≠ n.parent → s.skel.valid p → sibling_list s' p = sibling_list s p) ∧
      ∀ j, (s'.node j).map entity_t.payload = (s.node j).map entity_t.payload := by
  obtain ⟨kids, hw⟩ := hwf
  have hlk : s.skel.lk e = some n.links := by rw [skel_lk, hn]; rfl
  have hpe : n.parent ≠ some e := acyclic_parent_ne hac hlk
  obtain ⟨s', hi, hsk, hpay, -⟩ := insert_sim hn hv hpe (fun q hq => by
    obtain ⟨-, hq2, m, hm, hmp⟩ := WFk_tail_mem hw n.parent hv hq
    refine ⟨fun h => hq2 (by rw [h]), fun hqp => ?_, ?_⟩
    · exact acyclic_parent_ne hac hm (by rw [hmp]; exact hqp.symm)
    · obtain ⟨m', hm', -⟩ := skel_node rfl hm
      exact ⟨m', hm'⟩)
  have hw' : WFk (s.skel.insert e) none
      (Function.update kids n.parent (kids n.parent ++ [e])) := WFk_insert hw hlk hv
  rw [← hsk] at hw'
  have hval : ∀ p, s.skel.valid p → s'.skel.valid p := by
    intro p hp
    rw [hsk, valid_insert]
    exact hp
  have hold : sibling_list s n.parent = kids n.parent := sibling_list_eq hw hv
  have hnew : sibling_list s' n.parent = kids n.parent ++ [e] := by
    rw [sibling_list_eq hw' (hval _ hv)]
    exact Function.update_same _ _ _
  obtain ⟨n', hn', hl'⟩ := skel_node hsk
    (show (s.skel.insert e).lk e = some
        { parent := n.parent,
          children := if some e = n.parent ∧ s.skel.tail n.parent = none then some e
            else n.children,
          succ := none, pred := s.skel.tail n.parent,
          last_child := if some e = n.parent then some e else n.last_child } by
      simp [Skel.insert, hlk, entity_t.links])
  have hseg := hw'.1 n.parent (hval _ hv)
  have hkp : Function.update kids n.parent (kids n.parent ++ [e]) n.parent =
      kids n.parent ++ [e] := Function.update_same _ _ _
  rw [hkp] at hseg
  refine ⟨s', n', hi, by rw [hnew, hold], hn', congrArg links_t.parent hl', ?_, ?_, ?_, ?_, ?_,
    fun p hp hvp => ?_, hpay⟩
  · exact congrArg links_t.succ hl'
  · rw [list_tail_skel]
    exact congrArg links_t.pred hl'
  · rw [list_tail_skel, (hw.1 n.parent hv).2, lastOr_eq_getLast?, hold]
  · rw [list_head_skel, hold]
    exact DSeg_head hseg.1
  · rw [list_tail_skel, hseg.2]
    exact lastOr_append _ _ _
  · rw [sibling_list_eq hw' (hval _ hvp), sibling_list_eq hw hvp]
    exact Function.update_noteq hp _ _

/-- C17 instantiated inside the second `create_entity()` of `main`: the new entity is appended
to the top-level list behind `center`. -/
theorem entity_insert_appends_witness :
    WFx (loose : State ℚ).skel (some 1) ∧ Acyclic (loose : State ℚ).skel ∧
    ∃ s', entity_insert (loose : State ℚ) (some 1) = some s' ∧
      sibling_list s' none = sibling_list (loose : State ℚ) none ++ [1] ∧
      list_tail s' none = some 1 :=
  ⟨loose_wf libQ, loose_acyclic, by
    obtain ⟨s', n', h1, h2, -, -, -, -, -, -, h3, -⟩ :=
      entity_insert_appends (loose_wf libQ) loose_acyclic loose_node1 trivial
    exact ⟨s', h1, h2, h3⟩⟩

/-- C18 (`entity_remove`).  In a state whose sibling lists are intact and whose parent links are
acyclic, `entity_remove(e)` returns; `e` was in the list owned by its parent (the top-level list
if it has none), that list had no repetition, and afterwards it is the old list with `e` erased;
its head pointer is the first and its tail pointer the last element of the new list (both
`NULL` when the new list is empty); the former successor of `e` has the former `e.pred` as
`pred`, the former predecessor of `e` has the former `e.succ` as `succ`; the list of every
other owner is unchanged, and so are all fields of all entities other than the five link
fields. -/
theorem entity_remove_erases {s : State K} {e : Nat} {n : entity_t K}
    (hwf : WFx s.skel none) (hac : Acyclic s.skel) (hn : s.node e = some n) :
    ∃ s', entity_remove s (some e) = some s' ∧
      e ∈ sibling_list s n.parent ∧ (sibling_list s n.parent).Nodup ∧
      sibling_list s' n.parent = (sibling_list s n.parent).erase e ∧
      list_head s' n.parent = ((sibling_list s n.parent).erase e).head? ∧
      list_tail s' n.parent = ((sibling_list s n.parent).erase e).getLast? ∧
      (∀ a, n.succ = some a → ∃ m, s'.node a = some m ∧ m.pred = n.pred) ∧
      (∀ a, n.pred = some a → ∃ m, s'.node a = some m ∧ m.succ = n.succ) ∧
      (∀ p, p ≠ n.parent → s.skel.valid p → sibling_list s' p = sibling_list s p) ∧
      ∀ j, (s'.node j).map entity_t.payload = (s.node j).map entity_t.payload := by
  obtain ⟨kids, hw⟩ := hwf
  have hlk : s.skel.lk e = some n.links := by rw [skel_lk, hn]; rfl
  obtain ⟨hv, hpe, hd, hqr, hhead, htail⟩ := WFk_remove_pre hw hac hlk
  replace hv : s.skel.valid n.parent := hv
  obtain ⟨s', hr, hsk, hpay, -⟩ := remove_sim hn hv hpe (fun a ha => by
    obtain ⟨h1, h2, m, hm⟩ := hd a ha
    obtain ⟨m', hm', -⟩ := skel_node rfl hm
    exact ⟨h1, h2, m', hm'⟩) hqr hhead htail
  have hw' : WFk (s.skel.remove e n.links) (some e)
      (Function.update kids n.parent ((kids n.parent).erase e)) := WFk_remove hw hlk
  rw [← hsk] at hw'
  have hval : ∀ p, s.skel.valid p → s'.skel.valid p := by
    intro p hp
    rw [hsk, valid_remove]
    exact hp
  have hold : sibling_list s n.parent = kids n.parent := sibling_list_eq hw hv
  have hseg := hw'.1 n.parent (hval _ hv)
  have hkp : Function.update kids n.parent ((kids n.parent).erase e) n.parent =
      (kids n.parent).erase e := Function.update_same _ _ _
  rw [hkp] at hseg
  have hnew : sibling_list s' n.parent = (kids n.parent).erase e := by
    rw [sibling_list_eq hw' (hval _ hv)]
    exact hkp
  refine ⟨s', hr, ?_, ?_, by rw [hnew, hold], ?_, ?_, fun a ha => ?_, fun a ha => ?_,
    fun p hp hvp => ?_, hpay⟩
  · rw [hold]
    exact (hw.2.1 e n.links hlk (by simp)).1
  · rw [hold]
    exact hw.2.2.1 _
  · rw [list_head_skel, hold]
    exact DSeg_head hseg.1
  · rw [list_tail_skel, hseg.2, lastOr_eq_getLast?, hold]
  · obtain ⟨-, -, m, hm⟩ := hd a (Or.inl ha)
    obtain ⟨m', hm', hl'⟩ := skel_node hsk
      (show (s.skel.remove e n.links).lk a = some
          { parent := m.parent,
            children := if some a = n.links.parent ∧ m.children = some e then n.links.succ
              else m.children,
            succ := if n.links.pred = some a then n.links.succ else m.succ,
            pred := if n.links.succ = some a then n.links.pred else m.pred,
            last_child := if some a = n.links.parent ∧ m.last_child = some e then n.links.pred
              else m.last_child } by
        simp only [Skel.remove, hm, Option.map_some'])
    refine ⟨m', hm', ?_⟩
    have h := congrArg links_t.pred hl'
    have hs : n.links.succ = some a := ha
    simp only [hs, if_true] at h
    exact h
  · obtain ⟨-, -, m, hm⟩ := hd a (Or.inr ha)
    obtain ⟨m', hm', hl'⟩ := skel_node hsk
      (show (s.skel.remove e n.links).lk a = some
          { parent := m.parent,
            children := if some a = n.links.parent ∧ m.children = some e then n.links.succ
              else m.children,
            succ := if n.links.pred = some a then n.links.succ else m.succ,
            pred := if n.links.succ = some a then n.links.pred else m.pred,
            last_child := if some a = n.links.parent ∧ m.last_child = some e then n.links.pred
              else m.last_child } by
        simp only [Skel.remove, hm, Option.map_some'])
    refine ⟨m', hm', ?_⟩
    have h := congrArg links_t.succ hl'
    have hs : n.links.pred = some a := ha
    simp only [hs, if_true] at h
    exact h
  · rw [sibling_list_eq hw' (hval _ hvp), sibling_list_eq hw hvp]
    exact Function.update_noteq hp _ _

/-- C18 instantiated at `child1` in the state of `main` with three top-level entities. -/
theorem entity_remove_erases_witness :
    WFx (scene3 : State ℚ).skel none ∧ Acyclic (scene3 : State ℚ).skel ∧
    ∃ s', entity_remove (scene3 : State ℚ) (some 1) = some s' ∧
      sibling_list s' none = (sibling_list (scene3 : State ℚ) none).erase 1 :=
  ⟨((scene3_reachable libQ).inv libQ).wf, ((scene3_reachable libQ).inv libQ).acyclic, by
    obtain ⟨s', h1, -, -, h2, -⟩ := entity_remove_erases
      ((scene3_reachable libQ).inv libQ).wf ((scene3_reachable libQ).inv libQ).acyclic
      scene3_node1
    exact ⟨s', h1, h2⟩⟩

/-! ## World-space writes without a parent, and termination -/

/-- C19 (world-space sets on a parentless entity).  For an allocated entity `e` without parent,
every value and every fuel, each of `entity_set_position`, `entity_set_scale`,
`entity_set_rotation` and `entity_set_tform` called with `TFORM_WORLD` gives exactly the result
of the same call with `TFORM_LOCAL`. -/
theorem world_set_of_root (L : MathLib K) (f : Nat) {s : State K} {e : Nat} {n : entity_t K}
    (hn : s.node e = some n) (hp : n.parent = none) (v : Vector3 K) (q : Quaternion K)
    (m : Matrix K) :
    entity_set_position L f s e v .TFORM_WORLD = entity_set_position L f s e v .TFORM_LOCAL ∧
    entity_set_scale f s e v .TFORM_WORLD = entity_set_scale f s e v .TFORM_LOCAL ∧
    entity_set_rotation L f s e q .TFORM_WORLD = entity_set_rotation L f s e q .TFORM_LOCAL ∧
    entity_set_tform L f s e m .TFORM_WORLD = entity_set_tform L f s e m .TFORM_LOCAL := by
  refine ⟨?_, ?_, ?_, ?_⟩ <;>
    simp [entity_set_position, entity_set_scale, entity_set_rotation, entity_set_tform, hn, hp]

/-- C19 instantiated at `center` right after its creation in `main`. -/
theorem world_set_of_root_witness :
    (scene1 : State ℚ).node 0 =
      some (ent none none none none none 3 Vector3Zero Vector3One) ∧
    entity_set_position libQ 2 (scene1 : State ℚ) 0 ⟨1, 2, 3⟩ .TFORM_WORLD =
      entity_set_position libQ 2 (scene1 : State ℚ) 0 ⟨1, 2, 3⟩ .TFORM_LOCAL :=
  ⟨scene1_node0, (world_set_of_root libQ 2 scene1_node0 rfl ⟨1, 2, 3⟩ QuaternionIdentity
    MatrixIdentity).1⟩

theorem skel_live {s s' : State K} (h : s'.skel = s.skel) {e : Nat} {n : entity_t K}
    (hn : s.node e = some n) : ∃ n', s'.node e = some n' := by
  obtain ⟨n', hn', -⟩ := skel_node h (show s.skel.lk e = some n.links by rw [skel_lk, hn]; rfl)
  exact ⟨n', hn'⟩

theorem inval_total {s : State K} (hwf : WFx s.skel none) (hac : Acyclic s.skel)
    {e : Nat} {n : entity_t K} (hn : s.node e = some n) (g : tform_space_t) :
    ∃ f0 s', (∀ f, f0 ≤ f → entity_invalidate_tform f s e g = some s') ∧ s'.skel = s.skel := by
  obtain ⟨kids, hk⟩ := hwf
  cases g with
  | TFORM_WORLD =>
    obtain ⟨f0, s', h⟩ := inval_world_total hk hac hn
    exact ⟨f0, s', h, ((inval_marked f0).1 _ _ _ (h f0 (le_refl _))).mk_skel⟩
  | TFORM_LOCAL =>
    have hm := modify_of_node hn (fun n => { n with dirty := n.dirty ||| TFORM_DIRTY_LOCAL })
    have hu := Upd.upd_of_modify hn hm
    have hsk := hu.upd_skel hn rfl
    obtain ⟨f0, s', h⟩ := inval_world_total
      (Eq.mpr (congrArg (fun k => WFk k none kids) hsk) hk)
      (by rw [hsk]; exact hac) hu.2.2.2.1
    refine ⟨f0, s', fun f hf => ?_,
      ((inval_marked f0).1 _ _ _ (h f0 (le_refl _))).mk_skel.trans hsk⟩
    simp only [entity_invalidate_tform, Option.bind_eq_bind, hm, Option.some_bind]
    exact h f hf

theorem write_local_total (L : MathLib K) {s : State K} (hwf : WFx s.skel none)
    (hac : Acyclic s.skel) {e : Nat} {n : entity_t K} (hn : s.node e = some n)
    (w : tform_write K) :
    ∃ f0 s', (∀ f, f0 ≤ f → entity_write L f s e .TFORM_LOCAL w = some s') ∧
      s'.skel = s.skel := by
  have hm := modify_of_node hn (fun n => { n with loc := write_loc L w n.loc })
  have hu := Upd.upd_of_modify hn hm
  have hsk := hu.upd_skel hn rfl
  obtain ⟨f0, s', h, hsk'⟩ := inval_total (by rw [hsk]; exact hwf) (by rw [hsk]; exact hac)
    hu.2.2.2.1 .TFORM_LOCAL
  refine ⟨f0, s', fun f hf => ?_, hsk'.trans hsk⟩
  rw [write_local_eq, hm]
  exact h f hf

theorem get_tform_total (L : MathLib K) {s : State K} (hwf : WFx s.skel none)
    (hac : Acyclic s.skel) {e : Nat} {n : entity_t K} (hn : s.node e = some n)
    (g : tform_space_t) :
    ∃ f0 s' M, (∀ f, f0 ≤ f → entity_get_tform L f s e g = some (s', M)) ∧
      s'.skel = s.skel := by
  cases g with
  | TFORM_WORLD =>
    obtain ⟨kids, hk⟩ := hwf
    obtain ⟨rank, hrank⟩ := hac
    obtain ⟨f0, s', M, hf⟩ := get_world_total_aux L hk rank hrank (rank e) e rfl
      ⟨n.links, by rw [skel_lk, hn]; rfl⟩ s rfl
    exact ⟨f0, s', M, hf, (get_world_same_data L f0 s s' e M (hf f0 (le_refl _))).sd_skel⟩
  | TFORM_LOCAL =>
    obtain ⟨s', h, -⟩ := get_local_spec L hn
    exact ⟨0, s', _, fun _ _ => h, (get_local_same_data L h).sd_skel⟩

theorem get_position_total (L : MathLib K) {s : State K} (hwf : WFx s.skel none)
    (hac : Acyclic s.skel) {e : Nat} {n : entity_t K} (hn : s.node e = some n)
    (g : tform_space_t) :
    ∃ f0 s' v, (∀ f, f0 ≤ f → entity_get_position L f s e g = some (s', v)) ∧
      s'.skel = s.skel := by
  cases g with
  | TFORM_WORLD =>
    obtain ⟨f0, s', M, h, hsk⟩ := get_tform_total L hwf hac hn .TFORM_WORLD
    refine ⟨f0, s', ⟨M.m12, M.m13, M.m14⟩, fun f hf => ?_, hsk⟩
    simp only [entity_get_position, Option.bind_eq_bind, h f hf, Option.some_bind]
  | TFORM_LOCAL =>
    exact ⟨0, s, n.loc.pos, fun f _ => by simp only [entity_get_position, hn, Option.map_some'],
      rfl⟩

theorem get_scale_space_total {s : State K} (hwf : WFx s.skel none)
    (hac : Acyclic s.skel) {e : Nat} {n : entity_t K} (hn : s.node e = some n)
    (g : tform_space_t) :
    ∃ f0 v, ∀ f, f0 ≤ f → entity_get_scale f s e g = some v := by
  cases g with
  | TFORM_WORLD =>
    obtain ⟨kids, hk⟩ := hwf
    exact get_scale_total hk hac hn
  | TFORM_LOCAL =>
    exact ⟨0, n.loc.scale, fun f _ => by simp only [entity_get_scale, hn, Option.map_some']⟩

theorem get_rotation_space_total {s : State K} (hwf : WFx s.skel none)
    (hac : Acyclic s.skel) {e : Nat} {n : entity_t K} (hn : s.node e = some n)
    (g : tform_space_t) :
    ∃ f0 q, ∀ f, f0 ≤ f → entity_get_rotation f s e g = some q := by
  cases g with
  | TFORM_WORLD =>
    obtain ⟨kids, hk⟩ := hwf
    exact get_rotation_total hk hac hn
  | TFORM_LOCAL =>
    exact ⟨0, n.loc.rot, fun f _ => by simp only [entity_get_rotation, hn, Option.map_some']⟩

theorem write_total (L : MathLib K) {s : State K} (hwf : WFx s.skel none)
    (hac : Acyclic s.skel) {e : Nat} {n : entity_t K} (hn : s.node e = some n)
    (g : tform_space_t) (w : tform_write K) :
    ∃ f0 s', (∀ f, f0 ≤ f → entity_write L f s e g w = some s') ∧ s'.skel = s.skel := by
  cases g with
  | TFORM_LOCAL => exact write_local_total L hwf hac hn w
  | TFORM_WORLD =>
    obtain hp | ⟨p, hp⟩ : n.parent = none ∨ ∃ p, n.parent = some p := by
      cases n.parent with
      | none => exact Or.inl rfl
      | some p => exact Or.inr ⟨p, rfl⟩
    · obtain ⟨f0, s', h, hsk⟩ := write_local_total L hwf hac hn w
      exact ⟨f0, s', fun f hf => by rw [write_world_root L f hn hp]; exact h f hf, hsk⟩
    · obtain ⟨kids, hk⟩ := hwf
      obtain ⟨m, hm⟩ := parent_live hk hn hp
      have hwf : WFx s.skel none := ⟨kids, hk⟩
      obtain ⟨f1, s0, M, hget, hsk0⟩ := get_tform_total L hwf hac hm .TFORM_WORLD
      obtain ⟨n0, hn0⟩ := skel_live hsk0 hn
      obtain ⟨f2, ps, hps⟩ := get_scale_total hk hac hm
      obtain ⟨f3, pr, hpr⟩ := get_rotation_total hk hac hm
      cases w with
      | position v =>
        obtain ⟨f0, s', h, hsk⟩ := write_local_total L (by rw [hsk0]; exact hwf)
          (by rw [hsk0]; exact hac) hn0 (.position (Vector3Transform v (MatrixInvert M)))
        refine ⟨max f0 f1, s', fun f hf => ?_, hsk.trans hsk0⟩
        have := h f (le_trans (le_max_left _ _) hf)
        simp only [entity_write, entity_set_position] at this
        simp only [entity_write, entity_set_position, Option.bind_eq_bind, hn, Option.some_bind,
          hp, hget f (le_trans (le_max_right _ _) hf), this]
      | tform v =>
        obtain ⟨f0, s', h, hsk⟩ := write_local_total L (by rw [hsk0]; exact hwf)
          (by rw [hsk0]; exact hac) hn0 (.tform (MatrixMultiply v (MatrixInvert M)))
        refine ⟨max f0 f1, s', fun f hf => ?_, hsk.trans hsk0⟩
        have := h f (le_trans (le_max_left _ _) hf)
        simp only [entity_write, entity_set_tform] at this
        simp only [entity_write, entity_set_tform, Option.bind_eq_bind, hn, Option.some_bind,
          hp, hget f (le_trans (le_max_right _ _) hf), this]
      | scale v =>
        obtain ⟨f0, s', h, hsk⟩ := write_local_total L hwf hac hn
          (.scale (Vector3Divide v ps))
        refine ⟨max f0 f2, s', fun f hf => ?_, hsk⟩
        have := h f (le_trans (le_max_left _ _) hf)
        simp only [entity_write, entity_set_scale] at this
        simp only [entity_write, entity_set_scale, entity_get_scale, Option.bind_eq_bind, hn,
          Option.some_bind, hp, hps f (le_trans (le_max_right _ _) hf), this]
      | rotation v =>
        obtain ⟨f0, s', h, hsk⟩ := write_local_total L hwf hac hn
          (.rotation (QuaternionMultiply (QuaternionInvert L pr) v))
        refine ⟨max f0 f3, s', fun f hf => ?_, hsk⟩
        have := h f (le_trans (le_max_left _ _) hf)
        simp only [entity_write, entity_set_rotation] at this
        simp only [entity_write, entity_set_rotation, entity_get_rotation, Option.bind_eq_bind,
          hn, Option.some_bind, hp, hpr f (le_trans (le_max_right _ _) hf), this]

theorem set_parent_total {s : State K} (hwf : WFx s.skel none) (hac : Acyclic s.skel)
    {e : Nat} {n : entity_t K} (hn : s.node e = some n) (p : Option Nat)
    (hv : s.skel.valid p) (hp : ∀ q, p = some q → q ≠ e ∧ ¬ Descendant s e q) :
    ∃ f0 s', ∀ f, f0 ≤ f → entity_set_parent f s e p = some s' := by
  by_cases hne : n.parent = p
  · exact ⟨0, s, fun f _ => by
      simp only [entity_set_parent, Option.bind_eq_bind, hn, Option.some_bind, hne, if_true]⟩
  · obtain ⟨kids, hk⟩ := hwf
    have hpe : p ≠ some e := fun h => (hp e h).1 rfl
    obtain ⟨s3, hsk3, hw3, hpay, -, hun⟩ := set_parent_unfold hk hac hn hne hv hpe
    have hr := relinked_of_steps hsk3 hpay
    have hac3 := acyclic_relinked hac hr hp
    obtain ⟨n3, hn3, -⟩ := (hr e).2 n hn
    obtain ⟨f0, s', h⟩ := inval_world_total hw3 hac3 hn3
    exact ⟨f0, s', fun f hf => by rw [hun]; exact h f hf⟩

/-- C20 (termination).  In a state with intact sibling lists and acyclic parent links, for an
allocated entity `e` every transform operation returns once the recursion fuel is large
enough: the getters `entity_get_tform`, `entity_get_position`, `entity_get_scale` and
`entity_get_rotation` in both spaces (the world-space ones recurse on the parent),
`entity_invalidate_tform` in both spaces (the world-space one recurses on the children), the
four setters in both spaces, the helpers `translate_entity`, `position_entity`, `scale_entity`,
`rotate_entity`, `turn_entity` and `point_entity` (towards an allocated target), and
`entity_set_parent` to a parent that is `NULL` or an allocated entity other than `e` and its
descendants. -/
theorem operations_terminate (L : MathLib K) {s : State K} (hwf : WFx s.skel none)
    (hac : Acyclic s.skel) {e : Nat} {n : entity_t K} (hn : s.node e = some n) :
    (∀ g, ∃ f0 r, ∀ f, f0 ≤ f → entity_get_tform L f s e g = some r) ∧
    (∀ g, ∃ f0 r, ∀ f, f0 ≤ f → entity_get_position L f s e g = some r) ∧
    (∀ g, ∃ f0 v, ∀ f, f0 ≤ f → entity_get_scale f s e g = some v) ∧
    (∀ g, ∃ f0 q, ∀ f, f0 ≤ f → entity_get_rotation f s e g = some q) ∧
    (∀ g, ∃ f0 s', ∀ f, f0 ≤ f → entity_invalidate_tform f s e g = some s') ∧
    (∀ g w, ∃ f0 s', ∀ f, f0 ≤ f → entity_write L f s e g w = some s') ∧
    (∀ g x y z, ∃ f0 s', ∀ f, f0 ≤ f → translate_entity L f s e x y z g = some s') ∧
    (∀ g x y z, ∃ f0 s', ∀ f, f0 ≤ f → position_entity L f s e x y z g = some s') ∧
    (∀ g x y z, ∃ f0 s', ∀ f, f0 ≤ f → scale_entity f s e x y z g = some s') ∧
    (∀ g p y r, ∃ f0 s', ∀ f, f0 ≤ f → rotate_entity L f s e p y r g = some s') ∧
    (∀ g p y r, ∃ f0 s', ∀ f, f0 ≤ f → turn_entity L f s e p y r g = some s') ∧
    (∀ t nt roll, s.node t = some nt →
      ∃ f0 s', ∀ f, f0 ≤ f → point_entity L f s e t roll = some s') ∧
    (∀ p, s.skel.valid p → (∀ q, p = some q → q ≠ e ∧ ¬ Descendant s e q) →
      ∃ f0 s', ∀ f, f0 ≤ f → entity_set_parent f s e p = some s') := by
  refine ⟨fun g => ?_, fun g => ?_, fun g => get_scale_space_total hwf hac hn g,
    fun g => get_rotation_space_total hwf hac hn g, fun g => ?_, fun g w => ?_,
    fun g x y z => ?_, fun g x y z => ?_, fun g x y z => ?_, fun g p y r => ?_,
    fun g p y r => ?_, fun t nt roll ht => ?_, fun p hv hp => set_parent_total hwf hac hn p hv hp⟩
  · obtain ⟨f0, s', M, h, -⟩ := get_tform_total L hwf hac hn g
    exact ⟨f0, _, h⟩
  · obtain ⟨f0, s', v, h, -⟩ := get_position_total L hwf hac hn g
    exact ⟨f0, _, h⟩
  · obtain ⟨f0, s', h, -⟩ := inval_total hwf hac hn g
    exact ⟨f0, s', h⟩
  · obtain ⟨f0, s', h, -⟩ := write_total L hwf hac hn g w
    exact ⟨f0, s', h⟩
  · obtain ⟨f1, s1, v, h1, hsk1⟩ := get_position_total L hwf hac hn g
    obtain ⟨n1, hn1⟩ := skel_live hsk1 hn
    obtain ⟨f2, s', h2, -⟩ := write_total L (by rw [hsk1]; exact hwf) (by rw [hsk1]; exact hac)
      hn1 g (.position (Vector3Add v ⟨x, y, z⟩))
    refine ⟨max f1 f2, s', fun f hf => ?_⟩
    simp only [translate_entity, Option.bind_eq_bind, h1 f (le_trans (le_max_left _ _) hf),
      Option.some_bind]
    exact h2 f (le_trans (le_max_right _ _) hf)
  · obtain ⟨f0, s', h, -⟩ := write_total L hwf hac hn g (.position ⟨x, y, z⟩)
    exact ⟨f0, s', h⟩
  · obtain ⟨f0, s', h, -⟩ := write_total L hwf hac hn g (.scale ⟨x, y, z⟩)
    exact ⟨f0, s', h⟩
  · obtain ⟨f0, s', h, -⟩ := write_total L hwf hac hn g
      (.rotation (L.QuaternionFromEuler (p * L.DEG2RAD) (y * L.DEG2RAD) (r * L.DEG2RAD)))
    exact ⟨f0, s', h⟩
  · obtain ⟨f1, q, h1⟩ := get_rotation_space_total hwf hac hn g
    cases g with
    | TFORM_WORLD =>
      obtain ⟨f2, s', h2, -⟩ := write_total L hwf hac hn .TFORM_WORLD (.rotation
        (QuaternionMultiply
          (L.QuaternionFromEuler (p * L.DEG2RAD) (y * L.DEG2RAD) (r * L.DEG2RAD)) q))
      refine ⟨max f1 f2, s', fun f hf => ?_⟩
      simp only [turn_entity, Option.bind_eq_bind, h1 f (le_trans (le_max_left _ _) hf),
        Option.some_bind]
      exact h2 f (le_trans (le_max_right _ _) hf)
    | TFORM_LOCAL =>
      obtain ⟨f2, s', h2, -⟩ := write_total L hwf hac hn .TFORM_LOCAL (.rotation
        (QuaternionMultiply q
          (L.QuaternionFromEuler (p * L.DEG2RAD) (y * L.DEG2RAD) (r * L.DEG2RAD))))
      refine ⟨max f1 f2, s', fun f hf => ?_⟩
      simp only [turn_entity, Option.bind_eq_bind, h1 f (le_trans (le_max_left _ _) hf),
        Option.some_bind]
      exact h2 f (le_trans (le_max_right _ _) hf)
  · obtain ⟨f1, s1, a, h1, hsk1⟩ := get_position_total L hwf hac ht .TFORM_WORLD
    obtain ⟨n1, hn1⟩ := skel_live hsk1 hn
    have hwf1 : WFx s1.skel none := by rw [hsk1]; exact hwf
    have hac1 : Acyclic s1.skel := by rw [hsk1]; exact hac
    obtain ⟨f2, s2, b, h2, hsk2⟩ := get_position_total L hwf1 hac1 hn1 .TFORM_WORLD
    obtain ⟨n2, hn2⟩ := skel_live hsk2 hn1
    obtain ⟨f3, s', h3, -⟩ := write_total L (by rw [hsk2]; exact hwf1)
      (by rw [hsk2]; exact hac1) hn2 .TFORM_WORLD (.rotation
        (L.QuaternionFromEuler
          (-L.atan2f (Vector3Subtract a b).y
            (L.sqrtf ((Vector3Subtract a b).x * (Vector3Subtract a b).x +
              (Vector3Subtract a b).y * (Vector3Subtract a b).y)))
          (-L.atan2f (Vector3Subtract a b).x (Vector3Subtract a b).z) (roll * L.DEG2RAD)))
    refine ⟨max f1 (max f2 f3), s', fun f hf => ?_⟩
    have hf1 : f1 ≤ f := le_trans (le_max_left _ _) hf
    have hf2 : f2 ≤ f := le_trans (le_trans (le_max_left _ _) (le_max_right _ _)) hf
    have hf3 : f3 ≤ f := le_trans (le_trans (le_max_right _ _) (le_max_right _ _)) hf
    simp only [point_entity, Option.bind_eq_bind, h1 f hf1, Option.some_bind, h2 f hf2]
    exact h3 f hf3

/-- C20 instantiated at `child1` of the scene of `main`: the world-space getters and the
world-space invalidation return. -/
theorem operations_terminate_witness :
    WFx (scene8 : State ℚ).skel none ∧ Acyclic (scene8 : State ℚ).skel ∧
    (∃ f0 r, ∀ f, f0 ≤ f →
      entity_get_tform libQ f (scene8 : State ℚ) 1 .TFORM_WORLD = some r) ∧
    (∃ f0 s', ∀ f, f0 ≤ f →
      entity_invalidate_tform f (scene8 : State ℚ) 1 .TFORM_WORLD = some s') :=
  ⟨((scene8_reachable libQ).inv libQ).wf, ((scene8_reachable libQ).inv libQ).acyclic,
    (operations_terminate libQ ((scene8_reachable libQ).inv libQ).wf
      ((scene8_reachable libQ).inv libQ).acyclic scene8_node1).1 .TFORM_WORLD,
    (operations_terminate libQ ((scene8_reachable libQ).inv libQ).wf
      ((scene8_reachable libQ).inv libQ).acyclic scene8_node1).2.2.2.2.1 .TFORM_WORLD⟩

end claims2

end EntitySystem

namespace EntitySystem

section claims3

variable {K : Type} [LinearOrderedField K]

/-! ## World-space rotation and scale writes -/

theorem lengthSqr_mul (a b : Quaternion K) :
    QuaternionLengthSqr (QuaternionMultiply a b) =
      QuaternionLengthSqr a * QuaternionLengthSqr b := by
  simp only [QuaternionLengthSqr, QuaternionMultiply]
  ring

theorem invert_of_unit (L : MathLib K) (a : Quaternion K) (ha : QuaternionLengthSqr a = 1)
    (hs : L.sqrtf 1 = 1) : QuaternionInvert L a = ⟨-a.x, -a.y, -a.z, a.w⟩ := by
  simp [QuaternionInvert, QuaternionLength, ha, hs]

theorem mul_conj_cancel (a q : Quaternion K) (ha : QuaternionLengthSqr a = 1) :
    QuaternionMultiply a (QuaternionMultiply ⟨-a.x, -a.y, -a.z, a.w⟩ q) = q := by
  have h : a.x * a.x + a.y * a.y + a.z * a.z + a.w * a.w = 1 := ha
  cases q with
  | mk qx qy qz qw =>
    simp only [QuaternionMultiply, Quaternion.mk.injEq]
    refine ⟨?_, ?_, ?_, ?_⟩
    · linear_combination qx * h
    · linear_combination qy * h
    · linear_combination qz * h
    · linear_combination qw * h

/-- The world rotation of an entity whose own and whose ancestors' local rotations have unit
norm has unit norm. -/
theorem world_rotation_unit {s : State K} (f : Nat) :
    ∀ (p : Nat) (pr : Quaternion K),
      (∀ a na, (a = p ∨ Descendant s a p) → s.node a = some na →
        QuaternionLengthSqr na.loc.rot = 1) →
      entity_get_rotation_world f s p = some pr → QuaternionLengthSqr pr = 1 := by
  induction f with
  | zero => intro p pr _ h; simp [entity_get_rotation_world] at h
  | succ f ih =>
    intro p pr hu h
    rcases hn : s.node p with _ | n
    · simp [entity_get_rotation_world, hn] at h
    rcases hp : n.parent with _ | q
    · simp only [entity_get_rotation_world, Option.bind_eq_bind, hn, Option.some_bind, hp,
        Option.some.injEq] at h
      rw [← h]
      exact hu p n (Or.inl rfl) hn
    · simp only [entity_get_rotation_world, Option.bind_eq_bind, hn, Option.some_bind, hp] at h
      rcases hq : entity_get_rotation_world f s q with _ | qr
      · rw [hq] at h; simp at h
      · rw [hq] at h
        simp only [Option.some_bind, Option.some.injEq] at h
        rw [← h, lengthSqr_mul, hu p n (Or.inl rfl) hn, mul_one]
        refine ih q qr (fun a na ha hna => hu a na (Or.inr ?_) hna) hq
        rcases ha with rfl | ha
        · exact Descendant.child hn hp
        · exact Descendant.step hn hp ha

theorem Vector3_divide_cancel (v ps : Vector3 K) (h : ps.x ≠ 0 ∧ ps.y ≠ 0 ∧ ps.z ≠ 0) :
    Vector3Multiply ps (Vector3Divide v ps) = v := by
  obtain ⟨hx, hy, hz⟩ := h
  cases v with
  | mk vx vy vz =>
    simp only [Vector3Multiply, Vector3Divide, Vector3.mk.injEq]
    exact ⟨mul_div_cancel₀ _ hx, mul_div_cancel₀ _ hy, mul_div_cancel₀ _ hz⟩

/-- C21 (world-rotation set and round trip).  In a reachable state, for an entity `e` with
parent `p` and every quaternion `q`: with enough fuel `entity_get_rotation(p, TFORM_WORLD)`
returns a rotation `pr`, `entity_set_rotation(e, q, TFORM_WORLD)` returns, and the local
rotation of `e` afterwards is the normalization of `inverse(pr) * q`.  If moreover `sqrtf 1 = 1`,
`q` has unit norm and the local rotation of every ancestor of `e` has unit norm, then
`entity_get_rotation(e, TFORM_WORLD)` afterwards returns `q`. -/
theorem world_rotation_round_trip (L : MathLib K) {s : State K} {e p : Nat} {n : entity_t K}
    (hR : Reachable L s) (hn : s.node e = some n) (hp : n.parent = some p)
    (q : Quaternion K) :
    ∃ f0 pr s' n', (∀ f, f0 ≤ f → entity_get_rotation f s p .TFORM_WORLD = some pr ∧
        entity_set_rotation L f s e q .TFORM_WORLD = some s') ∧
      s'.node e = some n' ∧
      n'.loc.rot = QuaternionNormalize L (QuaternionMultiply (QuaternionInvert L pr) q) ∧
      (L.sqrtf 1 = 1 → QuaternionLengthSqr q = 1 →
        (∀ a na, Descendant s a e → s.node a = some na →
          QuaternionLengthSqr na.loc.rot = 1) →
        ∀ f, f0 ≤ f → entity_get_rotation f s' e .TFORM_WORLD = some q) := by
  have hI := hR.inv L
  obtain ⟨f0, pr, s', hrun, -⟩ := set_rotation_world_spec L hI hn hp q
  obtain ⟨-, -, ⟨d, hn', -, -⟩, hfr⟩ := write_local_facts L hI hn (hrun f0 (le_refl _)).2.2
  have hpd := parent_not_descendant hI.acyclic hn hp
  refine ⟨f0 + 1, pr, s', _, fun f hf => ⟨(hrun f (by omega)).2.1, (hrun f (by omega)).1⟩,
    hn', rfl, fun hs hq hu f hf => ?_⟩
  obtain ⟨g, rfl⟩ : ∃ g, f = g + 1 := ⟨f - 1, by omega⟩
  have hg : f0 ≤ g := by omega
  have hpr : entity_get_rotation_world g s p = some pr := (hrun g hg).2.1
  have hpr' := get_rotation_off_subtree (write_frame_nodes hfr) g p pr hpd.1 hpd.2 hpr
  have hunit : QuaternionLengthSqr pr = 1 :=
    world_rotation_unit g p pr (fun a na ha hna => hu a na (by
      rcases ha with rfl | ha
      · exact Descendant.child hn hp
      · exact Descendant.step hn hp ha) hna) hpr
  have hloc : QuaternionNormalize L (QuaternionMultiply (QuaternionInvert L pr) q) =
      QuaternionMultiply ⟨-pr.x, -pr.y, -pr.z, pr.w⟩ q := by
    rw [invert_of_unit L pr hunit hs]
    refine normalize_of_unit L _ ?_ hs
    rw [lengthSqr_mul, hq, mul_one]
    have h : pr.x * pr.x + pr.y * pr.y + pr.z * pr.z + pr.w * pr.w = 1 := hunit
    simp only [QuaternionLengthSqr]
    linear_combination h
  simp only [entity_get_rotation, entity_get_rotation_world, Option.bind_eq_bind, hn',
    Option.some_bind, hp, hpr', write_loc, hloc, Option.some.injEq]
  exact mul_conj_cancel pr q hunit

/-- C21 instantiated at `child2` of the scene of `main`, whose ancestors `child1` and `center`
carry the identity rotation. -/
theorem world_rotation_round_trip_witness :
    Reachable libQ (scene8 : State ℚ) ∧
    ∃ f0 s', (∀ f, f0 ≤ f →
        entity_set_rotation libQ f (scene8 : State ℚ) 2 ⟨0, 1, 0, 0⟩ .TFORM_WORLD = some s') ∧
      ∀ f, f0 ≤ f → entity_get_rotation f s' 2 .TFORM_WORLD = some ⟨0, 1, 0, 0⟩ :=
  ⟨scene8_reachable libQ, by
    obtain ⟨f0, pr, s', n', h1, -, -, h2⟩ :=
      world_rotation_round_trip libQ (scene8_reachable libQ) scene8_node2 rfl ⟨0, 1, 0, 0⟩
    refine ⟨f0, s', fun f hf => (h1 f hf).2, h2 rfl (by norm_num [QuaternionLengthSqr]) ?_⟩
    intro a na _ hna
    rcases scene_nodes hna with rfl | rfl | rfl <;>
      norm_num [QuaternionLengthSqr, ent, QuaternionIdentity]⟩

/-- C22 (world-scale set and round trip).  In a reachable state, for an entity `e` with parent
`p` and every vector `v`: with enough fuel `entity_get_scale(p, TFORM_WORLD)` returns a scale
`ps`, `entity_set_scale(e, v, TFORM_WORLD)` returns, and the local scale of `e` afterwards is
the component-wise quotient of `v` by `ps`.  If no component of `ps` is zero, then
`entity_get_scale(e, TFORM_WORLD)` afterwards returns `v`. -/
theorem world_scale_round_trip (L : MathLib K) {s : State K} {e p : Nat} {n : entity_t K}
    (hR : Reachable L s) (hn : s.node e = some n) (hp : n.parent = some p) (v : Vector3 K) :
    ∃ f0 ps s' n', (∀ f, f0 ≤ f → entity_get_scale f s p .TFORM_WORLD = some ps ∧
        entity_set_scale f s e v .TFORM_WORLD = some s') ∧
      s'.node e = some n' ∧ n'.loc.scale = Vector3Divide v ps ∧
      (ps.x ≠ 0 ∧ ps.y ≠ 0 ∧ ps.z ≠ 0 →
        ∀ f, f0 ≤ f → entity_get_scale f s' e .TFORM_WORLD = some v) := by
  have hI := hR.inv L
  obtain ⟨f0, ps, s', hrun, -⟩ := set_scale_world_spec L hI hn hp v
  obtain ⟨-, -, ⟨d, hn', -, -⟩, hfr⟩ := write_local_facts L hI hn (hrun f0 (le_refl _)).2.2
  have hpd := parent_not_descendant hI.acyclic hn hp
  refine ⟨f0 + 1, ps, s', _, fun f hf => ⟨(hrun f (by omega)).2.1, (hrun f (by omega)).1⟩,
    hn', rfl, fun hnz f hf => ?_⟩
  obtain ⟨g, rfl⟩ : ∃ g, f = g + 1 := ⟨f - 1, by omega⟩
  have hg : f0 ≤ g := by omega
  have hps : entity_get_scale_world g s p = some ps := (hrun g hg).2.1
  have hps' := get_scale_off_subtree (write_frame_nodes hfr) g p ps hpd.1 hpd.2 hps
  simp only [entity_get_scale, entity_get_scale_world, Option.bind_eq_bind, hn',
    Option.some_bind, hp, hps', write_loc, Option.some.injEq]
  exact Vector3_divide_cancel v ps hnz

/-- C22 instantiated at `child2` of the scene of `main`. -/
theorem world_scale_round_trip_witness :
    Reachable libQ (scene8 : State ℚ) ∧
    ∃ f0 ps s', (∀ f, f0 ≤ f →
        entity_get_scale f (scene8 : State ℚ) 1 .TFORM_WORLD = some ps ∧
        entity_set_scale f (scene8 : State ℚ) 2 ⟨2, 3, 4⟩ .TFORM_WORLD = some s') ∧
      (ps.x ≠ 0 ∧ ps.y ≠ 0 ∧ ps.z ≠ 0 →
        ∀ f, f0 ≤ f → entity_get_scale f s' 2 .TFORM_WORLD = some ⟨2, 3, 4⟩) :=
  ⟨scene8_reachable libQ, by
    obtain ⟨f0, ps, s', n', h1, -, -, h2⟩ :=
      world_scale_round_trip libQ (scene8_reachable libQ) scene8_node2 rfl ⟨2, 3, 4⟩
    exact ⟨f0, ps, s', h1, h2⟩⟩

/-! ## `point_entity` -/

/-- What `point_entity` computes.  In a reachable state, for allocated entities `e` and `t`
with uncached world matrices `Me` and `Mt`, let `v` be the translation row of `Mt` minus the
translation row of `Me`.  With enough fuel `point_entity(e, t, roll)` returns, and it is the
world-space call `entity_set_rotation(e, q, TFORM_WORLD)`, made in a state `s2` that differs
from the initial one only in dirty bits and cached matrices, with
`q = QuaternionFromEuler(-atan2f(v.y, sqrtf(v.x*v.x + v.y*v.y)), -atan2f(v.x, v.z),
roll * DEG2RAD)`. -/
theorem point_entity_formula (L : MathLib K) {s : State K} {e t : Nat} {Me Mt : Matrix K}
    (hR : Reachable L s) (hMe : WorldRef L s e Me) (hMt : WorldRef L s t Mt) (roll : K) :
    ∃ f0 s2 s', SameData s s2 ∧ ∀ f, f0 ≤ f →
      point_entity L f s e t roll = some s' ∧
      entity_set_rotation L f s2 e
        (L.QuaternionFromEuler
          (-L.atan2f (Mt.m13 - Me.m13)
            (L.sqrtf ((Mt.m12 - Me.m12) * (Mt.m12 - Me.m12) +
              (Mt.m13 - Me.m13) * (Mt.m13 - Me.m13))))
          (-L.atan2f (Mt.m12 - Me.m12) (Mt.m14 - Me.m14)) (roll * L.DEG2RAD))
        .TFORM_WORLD = some s' := by
  have hI := hR.inv L
  obtain ⟨f1, s1, h1, hI1, hR1⟩ := get_position_ref L hI hMt
  have hMe1 := WorldRef_same_data L hR1.1 hMe
  obtain ⟨f2, s2, h2, hI2, hR2⟩ := get_position_ref L hI1 hMe1
  obtain ⟨n2, hn2⟩ := WorldRef_live (WorldRef_same_data L hR2.1 hMe1)
  obtain ⟨f3, s', h3, -⟩ := write_spec L .TFORM_WORLD (.rotation
    (L.QuaternionFromEuler
      (-L.atan2f (Mt.m13 - Me.m13)
        (L.sqrtf ((Mt.m12 - Me.m12) * (Mt.m12 - Me.m12) +
          (Mt.m13 - Me.m13) * (Mt.m13 - Me.m13))))
      (-L.atan2f (Mt.m12 - Me.m12) (Mt.m14 - Me.m14)) (roll * L.DEG2RAD))) hI2 hn2
  refine ⟨max f1 (max f2 f3), s2, s', hR1.1.sd_trans hR2.1, fun f hf => ?_⟩
  have hf1 : f1 ≤ f := le_trans (le_max_left _ _) hf
  have hf2 : f2 ≤ f := le_trans (le_trans (le_max_left _ _) (le_max_right _ _)) hf
  have hf3 : f3 ≤ f := le_trans (le_trans (le_max_right _ _) (le_max_right _ _)) hf
  have h3' := h3 f hf3
  simp only [entity_write] at h3'
  refine ⟨?_, h3'⟩
  simp only [point_entity, Option.bind_eq_bind, h1 f hf1, Option.some_bind, h2 f hf2,
    Vector3Subtract]
  exact h3'

theorem above_step (L : MathLib K) (f : Nat) :
    position_entity L (f + 1) (scene2 : State K) 1 0 1 0 .TFORM_LOCAL = some above :=
  write_local_eval L f (n := ent none none none (some 0) none 3 Vector3Zero Vector3One)
    (.position ⟨0, 1, 0⟩) rfl rfl

theorem above_reachable (L : MathLib K) : Reachable L (above : State K) :=
  Reachable.set_position (scene2_reachable L) (above_step L 0)

theorem above_node0 :
    (above : State K).node 0 =
      some (ent none none (some 1) none none 3 Vector3Zero Vector3One) := rfl

theorem above_node1 :
    (above : State K).node 1 =
      some (ent none none none (some 0) none 3 ⟨0, 1, 0⟩ Vector3One) := rfl

/-- C23 at a target straight above: in the state `above` (two top-level entities, `center` at
the origin and `child1` at `(0, 1, 0)`), for every math library and every roll, with enough
fuel `point_entity(center, child1, roll)` returns and is the world-space call
`entity_set_rotation(center, QuaternionFromEuler(-atan2f(1, sqrtf(1)), -atan2f(0, 0),
roll * DEG2RAD), TFORM_WORLD)`.  With `v = (0, 1, 0)` the second argument of the pitch `atan2f`
is `sqrtf(v.x*v.x + v.y*v.y) = sqrtf(1)`, where the horizontal length of `v` is
`sqrtf(v.x*v.x + v.z*v.z) = sqrtf(0)`. -/
theorem point_entity_pitch (L : MathLib K) (roll : K) :
    ∃ f0 s2 s', SameData (above : State K) s2 ∧ ∀ f, f0 ≤ f →
      point_entity L f (above : State K) 0 1 roll = some s' ∧
      entity_set_rotation L f s2 0
        (L.QuaternionFromEuler (-L.atan2f 1 (L.sqrtf 1)) (-L.atan2f 0 0) (roll * L.DEG2RAD))
        .TFORM_WORLD = some s' := by
  obtain ⟨f0, s2, s', hsd, h⟩ := point_entity_formula L (above_reachable L)
    (WorldRef.root above_node0 rfl) (WorldRef.root above_node1 rfl) roll
  have c12 : ∀ t : tform_t K, (tform_compose L t).m12 = t.pos.x := fun t => (compose_row L t).1
  have c13 : ∀ t : tform_t K, (tform_compose L t).m13 = t.pos.y :=
    fun t => (compose_row L t).2.1
  have c14 : ∀ t : tform_t K, (tform_compose L t).m14 = t.pos.z :=
    fun t => (compose_row L t).2.2.1
  simp only [c12, c13, c14, ent, Vector3Zero, sub_zero, mul_zero, zero_add, mul_one] at h
  exact ⟨f0, s2, s', hsd, h⟩

/-! ## The dirty bits -/

/-- C24 (local-dirty implies world-dirty).  In every state reachable through the API of
`entity.c` (`ApiReachable`: creation, copy, `free_entity`, reparenting with any arguments, the
attribute setters, the transform setters and getters in both spaces and invalidation, of which
the helpers are sequences), an allocated entity whose local-dirty bit is set has its world-dirty
bit set, so the combination local-dirty and world-clean does not occur, and an entity whose
world-dirty bit is clear has its local-dirty bit clear and caches the matrix composed from its
current local rotation, scale and position. -/
theorem local_dirty_world_dirty (L : MathLib K) {s : State K} {e : Nat} {n : entity_t K}
    (hR : ApiReachable L s) (hn : s.node e = some n) :
    (n.ldirty → n.wdirty) ∧ ¬ (n.ldirty ∧ ¬ n.wdirty) ∧
    (¬ n.wdirty → ¬ n.ldirty ∧ n.loc.mat = tform_compose L n.loc) := by
  have h := hR.flags L e n hn
  exact ⟨h.1, fun hc => hc.2 (h.1 hc.1), fun hw => ⟨fun hl => hw (h.1 hl),
    h.2 (fun hl => hw (h.1 hl))⟩⟩

theorem family_freed_api (L : MathLib K) : ApiReachable L (family_freed : State K) :=
  ApiReachable.free
    (ApiReachable.set_parent ((scene4_reachable L).api L) (family_step 0))
    (family_freed_step 0)

/-- C24 instantiated at `child2` after `free_entity(center)` in the state where `center` has
the two children `child1` and `child2`. -/
theorem local_dirty_world_dirty_witness :
    ApiReachable libQ (family_freed : State ℚ) ∧
    ∀ n, (family_freed : State ℚ).node 2 = some n → (n.ldirty → n.wdirty) :=
  ⟨family_freed_api libQ, fun _ hn =>
    (local_dirty_world_dirty libQ (family_freed_api libQ) hn).1⟩

end claims3

end EntitySystem

namespace Quadtree

section claims4

variable {K : Type} [LinearOrderedField K]

/-! ## Quadtree traversal -/

/-- C25 (quadtree traversal safety).  For every build depth `D`, every render depth `R` with
`R <= D + 1`, every camera and frustum and every bounding box, `render_quadtree` called with
depth `R` on the tree built by `create_quadtree(xmin, ymin, xmax, ymax, D)` returns its list of
drawing calls: no recursive call is made on a `NULL` child. -/
theorem render_quadtree_safe (F : Frustum K) (cam : camera_t K) (D : Nat) (R : Int)
    (h : R ≤ D + 1) (xmin ymin xmax ymax : K) :
    ∃ out, render_quadtree F cam (create_quadtree xmin ymin xmax ymax D) R = some out := by
  induction D generalizing R xmin ymin xmax ymax with
  | zero =>
    have hR : ¬ R > 1 := by
      simp only [Nat.cast_zero, zero_add] at h
      omega
    simp only [create_quadtree, render_quadtree, hR, if_false]
    split
    · exact ⟨_, rfl⟩
    · exact ⟨_, rfl⟩
  | succ D ih =>
    have hR : R - 1 ≤ (D : Int) + 1 := by
      simp only [Nat.cast_add, Nat.cast_one] at h
      omega
    simp only [create_quadtree, render_quadtree]
    split
    · split
      · obtain ⟨a, ha⟩ := ih (R - 1) hR xmin ymin ((xmin + xmax) * (1 / 2))
          ((ymin + ymax) * (1 / 2))
        obtain ⟨b, hb⟩ := ih (R - 1) hR xmin ((ymin + ymax) * (1 / 2))
          ((xmin + xmax) * (1 / 2)) ymax
        obtain ⟨c, hc⟩ := ih (R - 1) hR ((xmin + xmax) * (1 / 2)) ((ymin + ymax) * (1 / 2))
          xmax ymax
        obtain ⟨d, hd⟩ := ih (R - 1) hR ((xmin + xmax) * (1 / 2)) ymin xmax
          ((ymin + ymax) * (1 / 2))
        simp only [Option.bind_eq_bind, ha, hb, hc, hd, Option.some_bind]
        exact ⟨_, rfl⟩
      · exact ⟨_, rfl⟩
    · exact ⟨_, rfl⟩

/-- C25 instantiated at the call of the demo: the tree of `main` is built with depth 6 over
`[0, 512] x [0, 512]` and rendered with depth 6. -/
theorem render_quadtree_safe_witness :
    (6 : Int) ≤ (6 : Nat) + 1 ∧
    ∃ out, render_quadtree (⟨⟨300, 0⟩, ⟨0, 300⟩⟩ : Frustum ℚ) ⟨⟨256, 256⟩, 60⟩
      (create_quadtree 0 0 512 512 6) 6 = some out :=
  ⟨by decide, render_quadtree_safe _ _ 6 6 (by decide) 0 0 512 512⟩

end claims4

end Quadtree
